import Mathlib

/-!
# ccronexpr: a shallow embedding of `ccronexpr.c`

Conventions of the embedding.

* `time_t` and the `int` fields of `struct tm` are Lean `Int`, without bounds: the calendar
  collaborator (`timegm`, `gmtime_r`) is the proleptic Gregorian calendar in UTC on all integers,
  so `gmtime_r` never fails and `timegm` returns `-1` only for 1969-12-31 23:59:59.
* The `int` counter of the stride loop of `set_number_hits` wraps at 32 bits (`wrap32`).
* A `uint8_t` array is a `List Nat` of bytes; bit `idx` lives in byte `idx / 8`, position `idx % 8`.
* A C string is a `List Char`, one `Char` per byte, without the terminating NUL.
* `malloc` is taken to succeed.
* An in/out pointer parameter becomes an argument and a component of the result.
* Pointer arguments are taken non-null, so the `NULL` guards of the C code have no branch here.
* The recursion of `do_next` / `do_prev` is driven by a fuel counter: `none` means that the
  recursion was still running when the fuel ran out; a result reached with some fuel is reached
  with any larger fuel (`cron_next_fuel_mono`, `cron_prev_fuel_mono`).
-/

namespace Ccronexpr

/-! ## Constants -/

def CRON_MAX_SECONDS : Int := 60
def CRON_MAX_MINUTES : Int := 60
def CRON_MAX_HOURS : Int := 24
def CRON_MAX_DAYS_OF_MONTH : Int := 32
def CRON_MAX_MONTHS : Int := 12
def CRON_MAX_YEARS_DIFF : Int := 4

def CRON_CF_SECOND : Int := 0
def CRON_CF_MINUTE : Int := 1
def CRON_CF_HOUR_OF_DAY : Int := 2
def CRON_CF_DAY_OF_WEEK : Int := 3
def CRON_CF_DAY_OF_MONTH : Int := 4
def CRON_CF_MONTH : Int := 5
def CRON_CF_YEAR : Int := 6

def CRON_CF_ARR_LEN : Nat := 7

/-- Modelled from the spec: the header `ccronexpr.h` is not among the sources; the spec names
the sentinel as "a single sentinel (e.g., −1)", which is `((time_t) -1)`. -/
def CRON_INVALID_INSTANT : Int := -1

/-! ## Calendar collaborator (`struct tm`, `timegm`, `gmtime_r`) -/

/-- The fields of `struct tm` that the program reads or writes. -/
structure tm where
  tm_sec : Int
  tm_min : Int
  tm_hour : Int
  tm_mday : Int
  tm_mon : Int
  tm_year : Int
  tm_wday : Int
  deriving DecidableEq

/-- Day number (days since 1970-01-01) of the first day of the month with linear index
`n = 12 * year + month0`, proleptic Gregorian calendar. Any integer `n` is allowed, which is how
`timegm` normalises an out-of-range `tm_mon`. -/
def monthStart (n : Int) : Int :=
  let k := n - 2
  let y := k / 12
  let mp := k % 12
  365 * y + y / 4 - y / 100 + y / 400 + (153 * mp + 2) / 5 - 719468

/-- Linear month index `12 * year + month0` of the month that contains day number `z0`. -/
def monthIndex (z0 : Int) : Int :=
  let z := z0 + 719468
  let n400 := z / 146097
  let r1 := z % 146097
  let n100 := min (r1 / 36524) 3
  let r2 := r1 - n100 * 36524
  let n4 := r2 / 1461
  let r3 := r2 % 1461
  let n1 := min (r3 / 365) 3
  let doy := r3 - n1 * 365
  let mp := (5 * doy + 2) / 153
  12 * (400 * n400 + 100 * n100 + 4 * n4 + n1) + mp + 2

/-- The instant `timegm` computes from a (possibly denormalised) `struct tm`. -/
def timegm_value (c : tm) : Int :=
  (monthStart (12 * (c.tm_year + 1900) + c.tm_mon) + (c.tm_mday - 1)) * 86400
    + c.tm_hour * 3600 + c.tm_min * 60 + c.tm_sec

/-- Model of `gmtime_r`: the broken-down UTC time of an instant. -/
def gmtime (t : Int) : tm :=
  let days := t / 86400
  let rem := t % 86400
  let n := monthIndex days
  { tm_sec := rem % 60
    tm_min := rem / 60 % 60
    tm_hour := rem / 3600
    tm_mday := days - monthStart n + 1
    tm_mon := n % 12
    tm_year := n / 12 - 1900
    tm_wday := (days + 4) % 7 }

/-- Model of `cron_mktime` (`timegm`): returns the instant and the normalised calendar, which C
writes back through the pointer. -/
def cron_mktime (c : tm) : Int × tm :=
  let t := timegm_value c
  (t, gmtime t)

/-- Model of `cron_time` (`gmtime_r`). -/
def cron_time (date : Int) : tm := gmtime date

/-! ## Field sets -/

/-- Modelled from the spec: `cron_expr` is declared in the header `ccronexpr.h`, which is not among
the sources; it holds one byte array per field ("six Field Sets"), of 8, 8, 3, 1, 4 and 2 bytes. -/
structure cron_expr where
  seconds : List Nat
  minutes : List Nat
  hours : List Nat
  days_of_week : List Nat
  days_of_month : List Nat
  months : List Nat
  deriving DecidableEq

/-- The casts `(uint8_t) (idx / 8)` and `(uint8_t) (idx % 8)`, with the truncating division of C.
For the indices `0 ≤ idx` the program uses, they are the byte and the position of bit `idx`. -/
def bit_byte (idx : Int) : Nat := (Int.tdiv idx 8 % 256).toNat

def bit_pos (idx : Int) : Nat := (Int.tmod idx 8 % 256).toNat

def cron_set_bit (rbyte : List Nat) (idx : Int) : List Nat :=
  let j := bit_byte idx
  let k := bit_pos idx
  rbyte.set j ((rbyte.getD j 0 ||| (1 <<< k)) % 256)

def cron_del_bit (rbyte : List Nat) (idx : Int) : List Nat :=
  let j := bit_byte idx
  let k := bit_pos idx
  rbyte.set j (rbyte.getD j 0 &&& (255 - (1 <<< k) % 256))

def cron_get_bit (rbyte : List Nat) (idx : Int) : Nat :=
  let j := bit_byte idx
  let k := bit_pos idx
  if rbyte.getD j 0 &&& (1 <<< k) ≠ 0 then 1 else 0

/-- The `for (i = from_index; i < max; i++)` loop of `next_set_bit`. -/
def next_set_bit_loop (bits : List Nat) : Nat → Int → Option Int
  | 0, _ => none
  | n + 1, i => if cron_get_bit bits i ≠ 0 then some i else next_set_bit_loop bits n (i + 1)

/-- Returns the value and the `notfound` flag after the call. -/
def next_set_bit (bits : List Nat) (max from_index : Int) (notfound : Int) : Int × Int :=
  match next_set_bit_loop bits (max - from_index).toNat from_index with
  | some i => (i, notfound)
  | none => (0, 1)

/-- The `for (i = from_index; i >= to_index; i--)` loop of `prev_set_bit`. -/
def prev_set_bit_loop (bits : List Nat) : Nat → Int → Option Int
  | 0, _ => none
  | n + 1, i => if cron_get_bit bits i ≠ 0 then some i else prev_set_bit_loop bits n (i - 1)

def prev_set_bit (bits : List Nat) (from_index to_index : Int) (notfound : Int) : Int × Int :=
  match prev_set_bit_loop bits (from_index - to_index + 1).toNat from_index with
  | some i => (i, notfound)
  | none => (0, 1)

/-! ## Reset lists and calendar field updates -/

/-- The second loop of `push_to_fields_arr`: store `fi` in the first free (`-1`) slot. -/
def push_first_free (fi : Int) : List Int → List Int
  | [] => []
  | a :: rest => if a = -1 then fi :: rest else a :: push_first_free fi rest

def push_to_fields_arr (arr : List Int) (fi : Int) : List Int :=
  if fi = -1 then arr
  else if arr.any (fun a => a == fi) then arr
  else push_first_free fi arr

/-- The value `cron_mktime` leaves in the calendar, with the error code of the caller. -/
def mktime_status (c : tm) : Int × tm :=
  let r := cron_mktime c
  if r.1 = CRON_INVALID_INSTANT then (1, r.2) else (0, r.2)

def add_to_field (calendar : tm) (field val : Int) : Int × tm :=
  if field = -1 then (1, calendar)
  else if field = CRON_CF_SECOND then mktime_status { calendar with tm_sec := calendar.tm_sec + val }
  else if field = CRON_CF_MINUTE then mktime_status { calendar with tm_min := calendar.tm_min + val }
  else if field = CRON_CF_HOUR_OF_DAY then
    mktime_status { calendar with tm_hour := calendar.tm_hour + val }
  else if field = CRON_CF_DAY_OF_WEEK ∨ field = CRON_CF_DAY_OF_MONTH then
    mktime_status { calendar with tm_mday := calendar.tm_mday + val }
  else if field = CRON_CF_MONTH then mktime_status { calendar with tm_mon := calendar.tm_mon + val }
  else if field = CRON_CF_YEAR then mktime_status { calendar with tm_year := calendar.tm_year + val }
  else (1, calendar)

def reset_min (calendar : tm) (field : Int) : Int × tm :=
  if field = -1 then (1, calendar)
  else if field = CRON_CF_SECOND then mktime_status { calendar with tm_sec := 0 }
  else if field = CRON_CF_MINUTE then mktime_status { calendar with tm_min := 0 }
  else if field = CRON_CF_HOUR_OF_DAY then mktime_status { calendar with tm_hour := 0 }
  else if field = CRON_CF_DAY_OF_WEEK then mktime_status { calendar with tm_wday := 0 }
  else if field = CRON_CF_DAY_OF_MONTH then mktime_status { calendar with tm_mday := 1 }
  else if field = CRON_CF_MONTH then mktime_status { calendar with tm_mon := 0 }
  else if field = CRON_CF_YEAR then mktime_status { calendar with tm_year := 0 }
  else (1, calendar)

def reset_all_min (calendar : tm) : List Int → Int × tm
  | [] => (0, calendar)
  | f :: rest =>
    if f ≠ -1 then
      let r := reset_min calendar f
      if r.1 ≠ 0 then r else reset_all_min r.2 rest
    else reset_all_min calendar rest

def set_field (calendar : tm) (field val : Int) : Int × tm :=
  if field = -1 then (1, calendar)
  else if field = CRON_CF_SECOND then mktime_status { calendar with tm_sec := val }
  else if field = CRON_CF_MINUTE then mktime_status { calendar with tm_min := val }
  else if field = CRON_CF_HOUR_OF_DAY then mktime_status { calendar with tm_hour := val }
  else if field = CRON_CF_DAY_OF_WEEK then mktime_status { calendar with tm_wday := val }
  else if field = CRON_CF_DAY_OF_MONTH then mktime_status { calendar with tm_mday := val }
  else if field = CRON_CF_MONTH then mktime_status { calendar with tm_mon := val }
  else if field = CRON_CF_YEAR then mktime_status { calendar with tm_year := val }
  else (1, calendar)

/-! ## Forward search -/

/-- The part of `find_next` after the roll-over: set the field when the value moved. -/
def find_next_set (calendar : tm) (field : Int) (lower_orders : List Int) (value next_value : Int)
    (notfound : Int) (res_out : Int) : Int × tm × Int :=
  if notfound ≠ 0 ∨ next_value ≠ value then
    let r := set_field calendar field next_value
    if r.1 ≠ 0 then (0, r.2, 1)
    else
      let r2 := reset_all_min r.2 lower_orders
      if r2.1 ≠ 0 then (0, r2.2, 1) else (next_value, r2.2, res_out)
  else (next_value, calendar, res_out)

/-- Returns the value found, the calendar and `*res_out` after the call. -/
def find_next (bits : List Nat) (max value : Int) (calendar : tm) (field nextField : Int)
    (lower_orders : List Int) (res_out : Int) : Int × tm × Int :=
  let nb := next_set_bit bits max value 0
  if nb.2 ≠ 0 then
    let r := add_to_field calendar nextField 1
    if r.1 ≠ 0 then (0, r.2, 1)
    else
      let r2 := reset_min r.2 field
      if r2.1 ≠ 0 then (0, r2.2, 1)
      else
        let nb2 := next_set_bit bits max 0 0
        find_next_set r2.2 field lower_orders value nb2.1 nb2.2 res_out
  else find_next_set calendar field lower_orders value nb.1 nb.2 res_out

/-- The `while` loop of `find_next_day`; the first argument is the number of iterations that
`count++ < max` still allows. Returns the day of month, the calendar and `*res_out`. -/
def find_next_day_loop (days_of_month days_of_week : List Nat) (resets : List Int) (res_out : Int) :
    Nat → tm → Int → Int → Int × tm × Int
  | 0, calendar, day_of_month, _ => (day_of_month, calendar, res_out)
  | n + 1, calendar, day_of_month, day_of_week =>
    if cron_get_bit days_of_month day_of_month = 0
        ∨ cron_get_bit days_of_week day_of_week = 0 then
      let r := add_to_field calendar CRON_CF_DAY_OF_MONTH 1
      if r.1 ≠ 0 then (0, r.2, 1)
      else
        find_next_day_loop days_of_month days_of_week resets res_out n
          (reset_all_min r.2 resets).2 r.2.tm_mday r.2.tm_wday
    else (day_of_month, calendar, res_out)

def find_next_day (calendar : tm) (days_of_month : List Nat) (day_of_month : Int)
    (days_of_week : List Nat) (day_of_week : Int) (resets : List Int) (res_out : Int) :
    Int × tm × Int :=
  find_next_day_loop days_of_month days_of_week resets res_out 366 calendar day_of_month day_of_week

/-- The recursive call `res = do_next(expr, calendar, dot); if (0 != res) goto return_result;`
followed by the rest `k` of the function. `none` is a recursion that ran out of fuel. -/
def after_restart (r : Option (Int × tm)) (k : tm → Option (Int × tm)) : Option (Int × tm) :=
  match r with
  | none => none
  | some x => if x.1 ≠ 0 then some x else k x.2

/-- The month block of `do_next` (lines 492-506). -/
def do_next_month (restart : tm → Option (Int × tm)) (expr : cron_expr) (calendar : tm) (dot : Int)
    (resets : List Int) : Option (Int × tm) :=
  let month := calendar.tm_mon
  let r := find_next expr.months CRON_MAX_MONTHS month calendar CRON_CF_MONTH CRON_CF_YEAR resets 0
  if r.2.2 ≠ 0 then some (r.2.2, r.2.1)
  else if month ≠ r.1 then
    if r.2.1.tm_year - dot > 4 then some (-1, r.2.1)
    else restart r.2.1
  else some (0, r.2.1)

/-- The day block of `do_next` (lines 481-490), followed by the month block. -/
def do_next_day (restart : tm → Option (Int × tm)) (expr : cron_expr) (calendar : tm) (dot : Int)
    (resets : List Int) : Option (Int × tm) :=
  let day_of_week := calendar.tm_wday
  let day_of_month := calendar.tm_mday
  let r := find_next_day calendar expr.days_of_month day_of_month expr.days_of_week day_of_week
    resets 0
  if r.2.2 ≠ 0 then some (r.2.2, r.2.1)
  else if day_of_month = r.1 then
    do_next_month restart expr r.2.1 dot (push_to_fields_arr resets CRON_CF_DAY_OF_MONTH)
  else after_restart (restart r.2.1) (fun c => do_next_month restart expr c dot resets)

/-- The hour block of `do_next` (lines 471-479), followed by the later blocks. -/
def do_next_hour (restart : tm → Option (Int × tm)) (expr : cron_expr) (calendar : tm) (dot : Int)
    (resets : List Int) : Option (Int × tm) :=
  let hour := calendar.tm_hour
  let r := find_next expr.hours CRON_MAX_HOURS hour calendar CRON_CF_HOUR_OF_DAY
    CRON_CF_DAY_OF_WEEK resets 0
  if r.2.2 ≠ 0 then some (r.2.2, r.2.1)
  else if hour = r.1 then
    do_next_day restart expr r.2.1 dot (push_to_fields_arr resets CRON_CF_HOUR_OF_DAY)
  else after_restart (restart r.2.1) (fun c => do_next_day restart expr c dot resets)

/-- The minute block of `do_next` (lines 461-469), followed by the later blocks. -/
def do_next_minute (restart : tm → Option (Int × tm)) (expr : cron_expr) (calendar : tm) (dot : Int)
    (resets : List Int) : Option (Int × tm) :=
  let minute := calendar.tm_min
  let r := find_next expr.minutes CRON_MAX_MINUTES minute calendar CRON_CF_MINUTE
    CRON_CF_HOUR_OF_DAY resets 0
  if r.2.2 ≠ 0 then some (r.2.2, r.2.1)
  else if minute = r.1 then
    do_next_hour restart expr r.2.1 dot (push_to_fields_arr resets CRON_CF_MINUTE)
  else after_restart (restart r.2.1) (fun c => do_next_hour restart expr c dot resets)

/-- The body of `do_next`: the second block (lines 449-459) followed by the later blocks;
`restart` is the recursive call on the same expression and `dot`. -/
def do_next_body (restart : tm → Option (Int × tm)) (expr : cron_expr) (calendar : tm) (dot : Int) :
    Option (Int × tm) :=
  let resets : List Int := List.replicate CRON_CF_ARR_LEN (-1)
  let empty_list : List Int := List.replicate CRON_CF_ARR_LEN (-1)
  let second := calendar.tm_sec
  let r := find_next expr.seconds CRON_MAX_SECONDS second calendar CRON_CF_SECOND CRON_CF_MINUTE
    empty_list 0
  if r.2.2 ≠ 0 then some (r.2.2, r.2.1)
  else if second = r.1 then
    do_next_minute restart expr r.2.1 dot (push_to_fields_arr resets CRON_CF_SECOND)
  else do_next_minute restart expr r.2.1 dot resets

/-- Returns `res` and the calendar; `none` when the fuel does not cover the recursion depth. -/
def do_next : Nat → cron_expr → tm → Int → Option (Int × tm)
  | 0, _, _, _ => none
  | fuel + 1, expr, calendar, dot =>
    do_next_body (fun c => do_next fuel expr c dot) expr calendar dot

/-- The second half of `cron_next`, from `calculated = cron_mktime(calendar)` on. -/
def cron_next_finish (fuel : Nat) (expr : cron_expr) (original : Int) (calendar : tm) :
    Option Int :=
  let calculated := cron_mktime calendar
  if calculated.1 = CRON_INVALID_INSTANT then some CRON_INVALID_INSTANT
  else if calculated.1 = original then
    let a := add_to_field calculated.2 CRON_CF_SECOND 1
    if a.1 ≠ 0 then some CRON_INVALID_INSTANT
    else
      match do_next fuel expr a.2 a.2.tm_year with
      | none => none
      | some r => if r.1 ≠ 0 then some CRON_INVALID_INSTANT else some (cron_mktime r.2).1
  else some (cron_mktime calculated.2).1

/-- Returns the instant, `CRON_INVALID_INSTANT` included; `none` when the fuel does not cover the
recursion depth of `do_next`. -/
def cron_next (fuel : Nat) (expr : cron_expr) (date : Int) : Option Int :=
  let calendar := cron_time date
  let original := cron_mktime calendar
  if original.1 = CRON_INVALID_INSTANT then some CRON_INVALID_INSTANT
  else
    match do_next fuel expr original.2 original.2.tm_year with
    | none => none
    | some r => if r.1 ≠ 0 then some CRON_INVALID_INSTANT else cron_next_finish fuel expr original.1 r.2

/-! ## Backward search -/

/-- Model of `last_day_of_month`: day 0 of the following month, through `mktime` and `gmtime`
(UTC). -/
def last_day_of_month (month year : Int) : Int :=
  let cal : tm :=
    { tm_sec := 0, tm_min := 0, tm_hour := 0, tm_mday := 0, tm_mon := month + 1, tm_year := year,
      tm_wday := 0 }
  (gmtime (timegm_value cal)).tm_mday

def reset_max (calendar : tm) (field : Int) : Int × tm :=
  if field = -1 then (1, calendar)
  else if field = CRON_CF_SECOND then mktime_status { calendar with tm_sec := 59 }
  else if field = CRON_CF_MINUTE then mktime_status { calendar with tm_min := 59 }
  else if field = CRON_CF_HOUR_OF_DAY then mktime_status { calendar with tm_hour := 23 }
  else if field = CRON_CF_DAY_OF_WEEK then mktime_status { calendar with tm_wday := 6 }
  else if field = CRON_CF_DAY_OF_MONTH then
    mktime_status
      { calendar with tm_mday := last_day_of_month calendar.tm_mon calendar.tm_year }
  else if field = CRON_CF_MONTH then mktime_status { calendar with tm_mon := 11 }
  else if field = CRON_CF_YEAR then mktime_status calendar
  else (1, calendar)

def reset_all_max (calendar : tm) : List Int → Int × tm
  | [] => (0, calendar)
  | f :: rest =>
    if f ≠ -1 then
      let r := reset_max calendar f
      if r.1 ≠ 0 then r else reset_all_max r.2 rest
    else reset_all_max calendar rest

/-- The part of `find_prev` after the roll-under: set the field when the value moved. -/
def find_prev_set (calendar : tm) (field : Int) (lower_orders : List Int) (value next_value : Int)
    (notfound : Int) (res_out : Int) : Int × tm × Int :=
  if notfound ≠ 0 ∨ next_value ≠ value then
    let r := set_field calendar field next_value
    if r.1 ≠ 0 then (0, r.2, 1)
    else
      let r2 := reset_all_max r.2 lower_orders
      if r2.1 ≠ 0 then (0, r2.2, 1) else (next_value, r2.2, res_out)
  else (next_value, calendar, res_out)

/-- Returns the value found, the calendar and `*res_out` after the call. -/
def find_prev (bits : List Nat) (max value : Int) (calendar : tm) (field nextField : Int)
    (lower_orders : List Int) (res_out : Int) : Int × tm × Int :=
  let nb := prev_set_bit bits value 0 0
  if nb.2 ≠ 0 then
    let r := add_to_field calendar nextField (-1)
    if r.1 ≠ 0 then (0, r.2, 1)
    else
      let r2 := reset_max r.2 field
      if r2.1 ≠ 0 then (0, r2.2, 1)
      else
        let nb2 := prev_set_bit bits (max - 1) value 0
        find_prev_set r2.2 field lower_orders value nb2.1 nb2.2 res_out
  else find_prev_set calendar field lower_orders value nb.1 nb.2 res_out

/-- The `while` loop of `find_prev_day`; the first argument is the number of iterations that
`count++ < max` still allows. -/
def find_prev_day_loop (days_of_month days_of_week : List Nat) (resets : List Int) (res_out : Int) :
    Nat → tm → Int → Int → Int × tm × Int
  | 0, calendar, day_of_month, _ => (day_of_month, calendar, res_out)
  | n + 1, calendar, day_of_month, day_of_week =>
    if cron_get_bit days_of_month day_of_month = 0
        ∨ cron_get_bit days_of_week day_of_week = 0 then
      let r := add_to_field calendar CRON_CF_DAY_OF_MONTH (-1)
      if r.1 ≠ 0 then (0, r.2, 1)
      else
        find_prev_day_loop days_of_month days_of_week resets res_out n
          (reset_all_max r.2 resets).2 r.2.tm_mday r.2.tm_wday
    else (day_of_month, calendar, res_out)

def find_prev_day (calendar : tm) (days_of_month : List Nat) (day_of_month : Int)
    (days_of_week : List Nat) (day_of_week : Int) (resets : List Int) (res_out : Int) :
    Int × tm × Int :=
  find_prev_day_loop days_of_month days_of_week resets res_out 366 calendar day_of_month day_of_week

/-- The month block of `do_prev` (lines 1174-1188). -/
def do_prev_month (restart : tm → Option (Int × tm)) (expr : cron_expr) (calendar : tm) (dot : Int)
    (resets : List Int) : Option (Int × tm) :=
  let month := calendar.tm_mon
  let r := find_prev expr.months CRON_MAX_MONTHS month calendar CRON_CF_MONTH CRON_CF_YEAR resets 0
  if r.2.2 ≠ 0 then some (r.2.2, r.2.1)
  else if month ≠ r.1 then
    if dot - r.2.1.tm_year > CRON_MAX_YEARS_DIFF then some (-1, r.2.1)
    else restart r.2.1
  else some (0, r.2.1)

/-- The day block of `do_prev` (lines 1163-1172), followed by the month block. -/
def do_prev_day (restart : tm → Option (Int × tm)) (expr : cron_expr) (calendar : tm) (dot : Int)
    (resets : List Int) : Option (Int × tm) :=
  let day_of_week := calendar.tm_wday
  let day_of_month := calendar.tm_mday
  let r := find_prev_day calendar expr.days_of_month day_of_month expr.days_of_week day_of_week
    resets 0
  if r.2.2 ≠ 0 then some (r.2.2, r.2.1)
  else if day_of_month = r.1 then
    do_prev_month restart expr r.2.1 dot (push_to_fields_arr resets CRON_CF_DAY_OF_MONTH)
  else after_restart (restart r.2.1) (fun c => do_prev_month restart expr c dot resets)

/-- The hour block of `do_prev` (lines 1153-1161), followed by the later blocks. -/
def do_prev_hour (restart : tm → Option (Int × tm)) (expr : cron_expr) (calendar : tm) (dot : Int)
    (resets : List Int) : Option (Int × tm) :=
  let hour := calendar.tm_hour
  let r := find_prev expr.hours CRON_MAX_HOURS hour calendar CRON_CF_HOUR_OF_DAY
    CRON_CF_DAY_OF_WEEK resets 0
  if r.2.2 ≠ 0 then some (r.2.2, r.2.1)
  else if hour = r.1 then
    do_prev_day restart expr r.2.1 dot (push_to_fields_arr resets CRON_CF_HOUR_OF_DAY)
  else after_restart (restart r.2.1) (fun c => do_prev_day restart expr c dot resets)

/-- The minute block of `do_prev` (lines 1143-1151), followed by the later blocks. -/
def do_prev_minute (restart : tm → Option (Int × tm)) (expr : cron_expr) (calendar : tm) (dot : Int)
    (resets : List Int) : Option (Int × tm) :=
  let minute := calendar.tm_min
  let r := find_prev expr.minutes CRON_MAX_MINUTES minute calendar CRON_CF_MINUTE
    CRON_CF_HOUR_OF_DAY resets 0
  if r.2.2 ≠ 0 then some (r.2.2, r.2.1)
  else if minute = r.1 then
    do_prev_hour restart expr r.2.1 dot (push_to_fields_arr resets CRON_CF_MINUTE)
  else after_restart (restart r.2.1) (fun c => do_prev_hour restart expr c dot resets)

/-- The body of `do_prev`: the second block (lines 1131-1141) followed by the later blocks;
`restart` is the recursive call on the same expression and `dot`. -/
def do_prev_body (restart : tm → Option (Int × tm)) (expr : cron_expr) (calendar : tm) (dot : Int) :
    Option (Int × tm) :=
  let resets : List Int := List.replicate CRON_CF_ARR_LEN (-1)
  let empty_list : List Int := List.replicate CRON_CF_ARR_LEN (-1)
  let second := calendar.tm_sec
  let r := find_prev expr.seconds CRON_MAX_SECONDS second calendar CRON_CF_SECOND CRON_CF_MINUTE
    empty_list 0
  if r.2.2 ≠ 0 then some (r.2.2, r.2.1)
  else if second = r.1 then
    do_prev_minute restart expr r.2.1 dot (push_to_fields_arr resets CRON_CF_SECOND)
  else do_prev_minute restart expr r.2.1 dot resets

/-- Returns `res` and the calendar; `none` when the fuel does not cover the recursion depth. -/
def do_prev : Nat → cron_expr → tm → Int → Option (Int × tm)
  | 0, _, _, _ => none
  | fuel + 1, expr, calendar, dot =>
    do_prev_body (fun c => do_prev fuel expr c dot) expr calendar dot

/-- The second half of `cron_prev`, from `calculated = cron_mktime(calendar)` on. -/
def cron_prev_finish (fuel : Nat) (expr : cron_expr) (original : Int) (calendar : tm) :
    Option Int :=
  let calculated := cron_mktime calendar
  if calculated.1 = CRON_INVALID_INSTANT then some CRON_INVALID_INSTANT
  else if calculated.1 = original then
    let a := add_to_field calculated.2 CRON_CF_SECOND (-1)
    if a.1 ≠ 0 then some CRON_INVALID_INSTANT
    else
      match do_prev fuel expr a.2 a.2.tm_year with
      | none => none
      | some r => if r.1 ≠ 0 then some CRON_INVALID_INSTANT else some (cron_mktime r.2).1
  else some (cron_mktime calculated.2).1

/-- Returns the instant, `CRON_INVALID_INSTANT` included; `none` when the fuel does not cover the
recursion depth of `do_prev`. -/
def cron_prev (fuel : Nat) (expr : cron_expr) (date : Int) : Option Int :=
  let calendar := cron_time date
  let original := cron_mktime calendar
  if original.1 = CRON_INVALID_INSTANT then some CRON_INVALID_INSTANT
  else
    match do_prev fuel expr original.2 original.2.tm_year with
    | none => none
    | some r => if r.1 ≠ 0 then some CRON_INVALID_INSTANT else cron_prev_finish fuel expr original.1 r.2

/-! ## Strings -/

def CRON_MAX_STR_LEN_TO_SPLIT : Nat := 256
def CRON_SIZE_STRING_MAX_LEN : Nat := 20
def INT_MAX : Int := 2147483647

def DAYS_ARR : List (List Char) :=
  ["SUN".toList, "MON".toList, "TUE".toList, "WED".toList, "THU".toList, "FRI".toList,
    "SAT".toList]

def MONTHS_ARR : List (List Char) :=
  ["FOO".toList, "JAN".toList, "FEB".toList, "MAR".toList, "APR".toList, "MAY".toList,
    "JUN".toList, "JUL".toList, "AUG".toList, "SEP".toList, "OCT".toList, "NOV".toList,
    "DEC".toList]

/-- Model of `isspace` in the "C" locale: space, `\t`, `\n`, `\v`, `\f`, `\r`. -/
def isspace (c : Char) : Bool :=
  c.toNat = 32 || (9 ≤ c.toNat && c.toNat ≤ 13)

/-- Model of `toupper` in the "C" locale, applied to every character. -/
def to_upper (str : List Char) : List Char := str.map Char.toUpper

/-- The `do ... while (value /= 10)` loop of `to_string`; the digits come out least significant
first and are prepended, which is the reversal `strreverse` performs. -/
def to_string_loop : Nat → Nat → List Char → List Char
  | 0, _, acc => acc
  | n + 1, value, acc =>
    let acc2 := Char.ofNat (48 + value % 10) :: acc
    if value / 10 ≠ 0 then to_string_loop n (value / 10) acc2 else acc2

def to_string (value : Nat) : List Char := to_string_loop CRON_SIZE_STRING_MAX_LEN value []

/-- Replaces the occurrences of `rep`, left to right; the first argument bounds the number of
steps by the length of `orig`. `rep` is never empty in the program. -/
def str_replace_loop (rep rep_with : List Char) : Nat → List Char → List Char
  | 0, orig => orig
  | _ + 1, [] => []
  | n + 1, c :: cs =>
    if rep.isPrefixOf (c :: cs) then
      rep_with ++ str_replace_loop rep rep_with n ((c :: cs).drop rep.length)
    else c :: str_replace_loop rep rep_with n cs

def str_replace (orig rep rep_with : List Char) : List Char :=
  str_replace_loop rep rep_with orig.length orig

/-- Model of `strtol (str, &endptr, 10)`: the value and the rest of the string at `endptr`. The
value is not clamped to `long`; `parse_uint` rejects every value beyond `INT_MAX`. -/
def strtol (str : List Char) : Int × List Char :=
  let s1 := str.dropWhile isspace
  let s2 := if s1.head? = some '-' ∨ s1.head? = some '+' then s1.tail else s1
  let digits := s2.takeWhile Char.isDigit
  if digits = [] then (0, str)
  else
    let v : Int := digits.foldl (fun a c => 10 * a + ((c.toNat : Int) - 48)) 0
    (if s1.head? = some '-' then -v else v, s2.dropWhile Char.isDigit)

/-- Returns the value and `*errcode`. -/
def parse_uint (str : List Char) : Int × Int :=
  let r := strtol str
  if r.2 ≠ [] ∨ r.1 < 0 ∨ r.1 > INT_MAX then (0, 1) else (r.1, 0)

/-- The counting loop of `split_str` (lines 610-624). -/
def split_count (del : Char) : List Char → Nat → Nat → Nat
  | [], accum, len => if accum > 0 then len + 1 else len
  | c :: cs, accum, len =>
    if del = c then
      if accum > 0 then split_count del cs 0 (len + 1) else split_count del cs accum len
    else if !isspace c then split_count del cs (accum + 1) len
    else split_count del cs accum len

/-- The copying loop of `split_str` (lines 634-655): `buf` is the buffer (its first `bi` bytes) and
`res` the pieces stored so far; `none` is the exit through `return_error`. -/
def split_fill (del : Char) (len : Nat) : List Char → List Char → List (List Char) →
    Option (List (List Char))
  | [], buf, res =>
    if buf.length > 0 then
      if res.length ≥ len then none else some (res ++ [buf])
    else some res
  | c :: cs, buf, res =>
    if del = c then
      if buf.length > 0 then
        if res.length ≥ len then none else split_fill del len cs [] (res ++ [buf])
      else split_fill del len cs buf res
    else if !isspace c then split_fill del len cs (buf ++ [c]) res
    else split_fill del len cs buf res

/-- Returns the pieces (`none` for `NULL`) and `*len_out` after the call. -/
def split_str (str : List Char) (del : Char) (len_out : Nat) : Option (List (List Char)) × Nat :=
  if str.length ≥ CRON_MAX_STR_LEN_TO_SPLIT then (none, 0)
  else
    let len := split_count del str 0 0
    if len = 0 then (none, len_out)
    else
      match split_fill del len str [] [] with
      | none => (none, 0)
      | some res => (some res, len)

def replace_ordinals_loop : List (List Char) → Nat → List Char → List Char
  | [], _, cur => cur
  | a :: rest, i, cur => replace_ordinals_loop rest (i + 1) (str_replace cur a (to_string i))

def replace_ordinals (value : List Char) (arr : List (List Char)) : List Char :=
  replace_ordinals_loop arr 0 value

def has_char (str : List Char) (ch : Char) : Bool := str.any (fun c => c == ch)

/-! ## Expression parser -/

/-- Returns `res[0]`, `res[1]` and `*error` after the call (`none` is `NULL`). -/
def get_range (field : List Char) (min max : Int) : Int × Int × Option String :=
  let r : Int × Int × Option String :=
    if field = ['*'] then (min, max - 1, none)
    else if !has_char field '-' then
      let v := parse_uint field
      if v.2 ≠ 0 then (0, 0, some "Unsigned integer parse error 1") else (v.1, v.1, none)
    else
      let sp := split_str field '-' 0
      if sp.2 ≠ 2 then (0, 0, some "Specified range requires two fields")
      else
        let parts := sp.1.getD []
        let a := parse_uint (parts.getD 0 [])
        if a.2 ≠ 0 then (a.1, 0, some "Unsigned integer parse error 2")
        else
          let b := parse_uint (parts.getD 1 [])
          if b.2 ≠ 0 then (a.1, b.1, some "Unsigned integer parse error 3") else (a.1, b.1, none)
  if r.2.2 ≠ none then r
  else if r.1 ≥ max ∨ r.2.1 ≥ max then (r.1, r.2.1, some "Specified range exceeds maximum")
  else if r.1 < min ∨ r.2.1 < min then (r.1, r.2.1, some "Specified range is less than minimum")
  else if r.1 > r.2.1 then (r.1, r.2.1, some "Specified range start exceeds range end")
  else (r.1, r.2.1, none)

/-- The result of a C `int` addition, read as 32-bit two's complement. -/
def wrap32 (x : Int) : Int := (x + 2147483648) % 4294967296 - 2147483648

/-- The loop `for (i1 = range[0]; i1 <= range[1]; i1++) cron_set_bit(target, i1);`. -/
def set_range_bits (hi : Int) : Nat → Int → List Nat → List Nat
  | 0, _, target => target
  | n + 1, i1, target =>
    if i1 ≤ hi then set_range_bits hi n (i1 + 1) (cron_set_bit target i1) else target

/-- The loop `for (i1 = range[0]; i1 <= range[1]; i1 += delta) cron_set_bit(target, i1);`. -/
def set_step_bits (hi delta : Int) : Nat → Int → List Nat → List Nat
  | 0, _, target => target
  | n + 1, i1, target =>
    if i1 ≤ hi then set_step_bits hi delta n (wrap32 (i1 + delta)) (cron_set_bit target i1)
    else target

/-- One comma-separated item of `set_number_hits` (the body of the loop, lines 782-826). -/
def set_number_hits_item (item : List Char) (target : List Nat) (min max : Int) :
    List Nat × Option String :=
  if !has_char item '/' then
    let range := get_range item min max
    if range.2.2 ≠ none then (target, range.2.2)
    else (set_range_bits range.2.1 (range.2.1 - range.1 + 1).toNat range.1 target, none)
  else
    let sp := split_str item '/' 0
    if sp.2 ≠ 2 then (target, some "Incrementer must have two fields")
    else
      let split := sp.1.getD []
      let range := get_range (split.getD 0 []) min max
      if range.2.2 ≠ none then (target, range.2.2)
      else
        let hi := if !has_char (split.getD 0 []) '-' then max - 1 else range.2.1
        let delta := parse_uint (split.getD 1 [])
        if delta.2 ≠ 0 then (target, some "Unsigned integer parse error 4")
        else if delta.1 = 0 then (target, some "Incrementer may not be zero")
        else (set_step_bits hi delta.1 128 range.1 target, none)

/-- The loop of `set_number_hits` over the comma-separated items. -/
def set_number_hits_loop (min max : Int) : List (List Char) → List Nat → Option String →
    List Nat × Option String
  | [], target, error => (target, error)
  | item :: rest, target, _ =>
    let r := set_number_hits_item item target min max
    if r.2 ≠ none then r else set_number_hits_loop min max rest r.1 r.2

/-- Returns the target and `*error` after the call. -/
def set_number_hits (value : List Char) (target : List Nat) (min max : Int)
    (error : Option String) : List Nat × Option String :=
  match (split_str value ',' 0).1 with
  | none => (target, some "Comma split error")
  | some fields => set_number_hits_loop min max fields target error

/-- The rotation loop of `set_months`, `for (i = 1; i <= max; i++)`. -/
def rotate_months : Nat → Int → List Nat → List Nat
  | 0, _, targ => targ
  | n + 1, i, targ =>
    if cron_get_bit targ i ≠ 0 then
      rotate_months n (i + 1) (cron_del_bit (cron_set_bit targ (i - 1)) i)
    else rotate_months n (i + 1) targ

def set_months (value : List Char) (targ : List Nat) (error : Option String) :
    List Nat × Option String :=
  let replaced := replace_ordinals (to_upper value) MONTHS_ARR
  let r := set_number_hits replaced targ 1 (12 + 1) error
  (rotate_months 12 1 r.1, r.2)

def set_days_of_week (field : List Char) (targ : List Nat) (error : Option String) :
    List Nat × Option String :=
  let field1 := if field = ['?'] then ['*'] else field
  let replaced := replace_ordinals (to_upper field1) DAYS_ARR
  let r := set_number_hits replaced targ 0 (7 + 1) error
  if cron_get_bit r.1 7 ≠ 0 then (cron_del_bit (cron_set_bit r.1 0) 7, r.2) else r

def set_days_of_month (field : List Char) (targ : List Nat) (error : Option String) :
    List Nat × Option String :=
  let field1 := if field = ['?'] then ['*'] else field
  set_number_hits field1 targ 1 CRON_MAX_DAYS_OF_MONTH error

/-- Modelled from the spec: the result of `memset(target, 0, sizeof(*target))`, for the byte
arrays of `cron_expr` in the header (8, 8, 3, 1, 4 and 2 bytes). -/
def cron_expr_zero : cron_expr :=
  { seconds := List.replicate 8 0, minutes := List.replicate 8 0, hours := List.replicate 3 0,
    days_of_week := List.replicate 1 0, days_of_month := List.replicate 4 0,
    months := List.replicate 2 0 }

/-- The field-by-field part of `cron_parse_expr` (lines 911-923). -/
def cron_parse_fields (fields : List (List Char)) : cron_expr × Option String :=
  let t0 := cron_expr_zero
  let r0 := set_number_hits (fields.getD 0 []) t0.seconds 0 60 none
  let t1 := { t0 with seconds := r0.1 }
  if r0.2 ≠ none then (t1, r0.2)
  else
    let r1 := set_number_hits (fields.getD 1 []) t1.minutes 0 60 r0.2
    let t2 := { t1 with minutes := r1.1 }
    if r1.2 ≠ none then (t2, r1.2)
    else
      let r2 := set_number_hits (fields.getD 2 []) t2.hours 0 24 r1.2
      let t3 := { t2 with hours := r2.1 }
      if r2.2 ≠ none then (t3, r2.2)
      else
        let r3 := set_days_of_month (fields.getD 3 []) t3.days_of_month r2.2
        let t4 := { t3 with days_of_month := r3.1 }
        if r3.2 ≠ none then (t4, r3.2)
        else
          let r4 := set_months (fields.getD 4 []) t4.months r3.2
          let t5 := { t4 with months := r4.1 }
          if r4.2 ≠ none then (t5, r4.2)
          else
            let r5 := set_days_of_week (fields.getD 5 []) t5.days_of_week r4.2
            ({ t5 with days_of_week := r5.1 }, r5.2)

/-- Returns the target and `*error` after the call (`none` is `NULL`, a successful parse). -/
def cron_parse_expr (expression : List Char) (target : cron_expr) : cron_expr × Option String :=
  let sp := split_str expression ' ' 0
  if sp.2 ≠ 6 then
    (target, some "Invalid number of fields, expression must consist of 6 fields")
  else cron_parse_fields (sp.1.getD [])

/-! ## Vocabulary of the claims -/

/-- The calendar time satisfies all six field sets of the expression: second, minute, hour,
day of month, month (0-based) and weekday are members of the corresponding sets. -/
def calendar_matches (e : cron_expr) (c : tm) : Bool :=
  cron_get_bit e.seconds c.tm_sec ≠ 0 && cron_get_bit e.minutes c.tm_min ≠ 0
    && cron_get_bit e.hours c.tm_hour ≠ 0 && cron_get_bit e.days_of_month c.tm_mday ≠ 0
    && cron_get_bit e.months c.tm_mon ≠ 0 && cron_get_bit e.days_of_week c.tm_wday ≠ 0

/-- The broken-down calendar time of the instant satisfies all six field sets. -/
def instant_matches (e : cron_expr) (t : Int) : Bool := calendar_matches e (cron_time t)

/-- The words of a text, `cur` being the word under construction: maximal runs of characters
that are not whitespace. -/
def whitespace_fields_from : List Char → List Char → List (List Char)
  | cur, [] => if cur = [] then [] else [cur]
  | cur, c :: cs =>
    if isspace c then
      if cur = [] then whitespace_fields_from [] cs else cur :: whitespace_fields_from [] cs
    else whitespace_fields_from (cur ++ [c]) cs

/-- The fields a text "splits on whitespace" into, as the specification words it. -/
def whitespace_fields (text : List Char) : List (List Char) := whitespace_fields_from [] text

/-- The pieces of a text between the occurrences of the delimiter. -/
def pieces_between (del : Char) : List Char → List (List Char)
  | [] => [[]]
  | c :: cs =>
    if c = del then [] :: pieces_between del cs
    else
      match pieces_between del cs with
      | [] => [[c]]
      | p :: ps => (c :: p) :: ps

/-- The fields of a text separated by the delimiter alone: the pieces between delimiters, with
their whitespace characters dropped, that are not empty. -/
def delimited_fields (del : Char) (text : List Char) : List (List Char) :=
  ((pieces_between del text).map (fun p => p.filter (fun c => !isspace c))).filter
    (fun p => p ≠ [])

/-- The error code and the calendar that a `cron_mktime` call leaves for the instant it
computes. -/
def instant_status (t : Int) : Int × tm :=
  (if t = CRON_INVALID_INSTANT then 1 else 0, gmtime t)

/-- The instant with the day of month and time of day of `t`, moved to the month of index `n`
(which `timegm` normalises when that month is shorter). -/
def month_shift (t n : Int) : Int :=
  (monthStart n + (t / 86400 - monthStart (monthIndex (t / 86400)))) * 86400 + t % 86400

/-- The field sets of `0 0 12 * * MON-FRI`. -/
def weekday_noon : cron_expr :=
  { seconds := [1, 0, 0, 0, 0, 0, 0, 0], minutes := [1, 0, 0, 0, 0, 0, 0, 0],
    hours := [0, 16, 0], days_of_week := [62], days_of_month := [254, 255, 255, 255],
    months := [255, 15] }

/-- Every entry of a reset list is free (`-1`) or one of the fields second, minute, hour and day
of month whose code is below `k`. -/
def ResetsBelow (k : Int) (lo : List Int) : Prop :=
  ∀ f ∈ lo, f = -1 ∨ (0 ≤ f ∧ f < k ∧ f ≠ 3)

/-- The instant `b` starts a unit of every field whose code is below `k`: a minute, an hour, a
day, a month. -/
def AlignedAt (k : Int) (b : Int) : Prop :=
  (0 < k → 60 ∣ b) ∧ (1 < k → 3600 ∣ b) ∧ (2 < k → 86400 ∣ b)
    ∧ (4 < k → ∃ n, b = monthStart n * 86400)

/-- The calendar is the calendar of an instant not before `t`. -/
def NotBefore (t : Int) (c : tm) : Prop := ∃ u, c = gmtime u ∧ t ≤ u

/-- The calendar is the calendar of an instant not after `t`. -/
def NotAfter (t : Int) (c : tm) : Prop := ∃ u, c = gmtime u ∧ u ≤ t

/-- The recursive call never moves the calendar back. -/
def ForwardRestart (restart : tm → Option (Int × tm)) : Prop :=
  ∀ t r, restart (gmtime t) = some r → NotBefore t r.2

/-- No month is allowed. -/
def MonthsEmpty (bits : List Nat) : Prop :=
  ∀ j : Int, 0 ≤ j → j ≤ 11 → cron_get_bit bits j = 0

/-- The month of the calendar is allowed, unless no month is. -/
def Settled (e : cron_expr) (c : tm) : Prop :=
  cron_get_bit e.months c.tm_mon ≠ 0 ∨ MonthsEmpty e.months

/-- A recursive call that succeeds leaves a calendar that is not after the one it started from
and whose month is allowed. -/
def BackwardRestart (e : cron_expr) (restart : tm → Option (Int × tm)) : Prop :=
  ∀ t r, restart (gmtime t) = some r → r.1 = 0 →
    ∃ u, r.2 = gmtime u ∧ u ≤ t ∧ Settled e (gmtime u)

/-- The piece has a character that is not whitespace. -/
def nonblank (p : List Char) : Bool := p.filter (fun c => !isspace c) ≠ []

/-- Whatever the first recursive call returns, the second one returns too. -/
def RestartLe (r1 r2 : tm → Option (Int × tm)) : Prop :=
  ∀ c x, r1 c = some x → r2 c = some x

/-- The character of the decimal digit `d`. -/
def digit_char (d : Nat) : Char := Char.ofNat (48 + d)

/-- The digits of `v`, most significant first, put before `acc`. -/
def decimal_loop : Nat → Nat → List Char → List Char
  | 0, _, acc => acc
  | fuel + 1, v, acc =>
    if v < 10 then digit_char v :: acc
    else decimal_loop fuel (v / 10) (digit_char (v % 10) :: acc)

/-- The decimal numeral of a natural number: its digits, without sign or leading zeros. -/
def decimal (v : Nat) : List Char := decimal_loop (v + 1) v []

/-- Every character of the text is a decimal digit. -/
def all_digits (ds : List Char) : Prop := ∀ c ∈ ds, ∃ d, d < 10 ∧ c = digit_char d

/-- The text without its whitespace characters. -/
def strip_space (p : List Char) : List Char := p.filter (fun c => !isspace c)

/-- The field set of the expression for field `k`, in the order of the expression text: seconds,
minutes, hours, day of month, month, day of week. -/
def field_set (e : cron_expr) : Nat → List Nat
  | 0 => e.seconds
  | 1 => e.minutes
  | 2 => e.hours
  | 3 => e.days_of_month
  | 4 => e.months
  | _ => e.days_of_week

/-- The smallest value that can be written in field `k`. -/
def field_min : Nat → Int
  | 3 => 1
  | 4 => 1
  | _ => 0

/-- The largest value that can be written in field `k`. -/
def field_last : Nat → Int
  | 0 => 59
  | 1 => 59
  | 2 => 23
  | 3 => 31
  | 4 => 12
  | _ => 7

/-- The number of bits of the field set of field `k` (8, 8, 3, 4, 2 and 1 bytes). -/
def field_capacity : Nat → Int
  | 0 => 64
  | 1 => 64
  | 2 => 24
  | 3 => 32
  | 4 => 16
  | _ => 8

/-- The index at which the written value `v` of field `k` is stored: months are stored from 0,
and Sunday, written 0 or 7, is stored as 0. -/
def stored_index (k : Nat) (v : Int) : Int :=
  if k = 4 then v - 1 else if k = 5 then v % 7 else v

/-- The text of field `k` of the expression: the `k`-th piece between spaces, without its
whitespace, that is not empty. -/
def field_text (expression : List Char) (k : Nat) : List Char :=
  (delimited_fields ' ' expression).getD k []

/-- The parser of field `k`, as `cron_parse_expr` calls it (lines 912-922). -/
def parse_field (k : Nat) (text : List Char) (targ : List Nat) (error : Option String) :
    List Nat × Option String :=
  match k with
  | 0 => set_number_hits text targ 0 60 error
  | 1 => set_number_hits text targ 0 60 error
  | 2 => set_number_hits text targ 0 24 error
  | 3 => set_days_of_month text targ error
  | 4 => set_months text targ error
  | _ => set_days_of_week text targ error

/-- The text that the parser of field `k` hands to `set_number_hits`: a bare `?` has become `*`
(day of month, day of week) and the names have become numbers (month, day of week). -/
def field_value (k : Nat) (text : List Char) : List Char :=
  match k with
  | 3 => if text = ['?'] then ['*'] else text
  | 4 => replace_ordinals (to_upper text) MONTHS_ARR
  | 5 => replace_ordinals (to_upper (if text = ['?'] then ['*'] else text)) DAYS_ARR
  | _ => text

/-- What the parser of field `k` does to the set that `set_number_hits` has filled: the rotation
of the months, the folding of Sunday. -/
def field_store (k : Nat) (s : List Nat) : List Nat :=
  match k with
  | 4 => rotate_months 12 1 s
  | 5 => if cron_get_bit s 7 ≠ 0 then cron_del_bit (cron_set_bit s 0) 7 else s
  | _ => s

/-- The set holds exactly the stored indices of the written values `W`. -/
def selects (s : List Nat) (k : Nat) (W : Int → Prop) : Prop :=
  ∀ j : Int, 0 ≤ j → j < field_capacity k →
    (cron_get_bit s j ≠ 0 ↔ ∃ w, W w ∧ stored_index k w = j)

/-- The text of the range `a-b`. -/
def range_item (a b : Nat) : List Char := decimal a ++ '-' :: decimal b

/-- The text of a stepped item: a start (a value, a range or `*`), a slash and the stride. -/
def step_item (start : List Char) (n : Nat) : List Char := start ++ '/' :: decimal n

/-- The values `lo`, `lo + n`, `lo + 2 * n`, ... up to `hi`. -/
def stepped (lo hi : Int) (n : Nat) (w : Int) : Prop := ∃ i : Nat, w = lo + i * n ∧ w ≤ hi

/-- The counter `lo`, `lo + n`, ... of the stride loop stays a C `int` until it has passed `hi`. -/
def no_overflow (lo hi : Int) (n : Nat) : Prop :=
  ∀ i : Nat, lo + i * n ≤ hi → lo + (i + 1) * n ≤ INT_MAX

/-- The parser of field `k` accepts the text and stores exactly the written values `W`: on its
own, and in every expression that parses successfully with this text as its field `k`. -/
def field_reads (k : Nat) (text : List Char) (W : Int → Prop) : Prop :=
  (∃ s, parse_field k text (field_set cron_expr_zero k) none = (s, none) ∧ selects s k W)
    ∧ ∀ (expression : List Char) (target e : cron_expr),
      cron_parse_expr expression target = (e, none) → field_text expression k = text →
        selects (field_set e k) k W

/-- Bit `j` of the stored set of field `k` comes from bit `i` of the set that `set_number_hits`
has filled. -/
def stored_from (k : Nat) (j i : Int) : Prop :=
  if k = 4 then (j = 0 ∧ (i = 0 ∨ i = 1)) ∨ (1 ≤ j ∧ j ≤ 11 ∧ i = j + 1) ∨ (13 ≤ j ∧ i = j)
  else if k = 5 then (i = j ∧ j ≠ 7) ∨ (j = 0 ∧ i = 7)
  else i = j

/-- A piece of a month field: a character that is not a letter, or a month number `n` written
as the text `w`. -/
inductive month_piece where
  | plain (c : Char)
  | name (n : Nat) (w : List Char)

/-- The name of month `n` in `MONTHS_ARR`. -/
def month_token (n : Nat) : List Char := MONTHS_ARR.getD n []

/-- A plain piece is not a letter; a month piece is written as the name of a month from 1 to 12,
in any letter case. -/
def piece_valid : month_piece → Bool
  | month_piece.plain c => !c.isAlpha
  | month_piece.name n w => decide (1 ≤ n) && decide (n ≤ 12) && decide (to_upper w = month_token n)

def piece_text : month_piece → List Char
  | month_piece.plain c => [c]
  | month_piece.name _ w => w

def piece_number : month_piece → List Char
  | month_piece.plain c => [c]
  | month_piece.name n _ => decimal n

/-- The month field as written, with month names. -/
def named_text : List month_piece → List Char
  | [] => []
  | p :: ps => piece_text p ++ named_text ps

/-- The month field with every month name replaced by its number. -/
def numbered_text : List month_piece → List Char
  | [] => []
  | p :: ps => piece_number p ++ numbered_text ps

/-- The piece after the names of the months below `i` have been replaced. -/
def piece_render (i : Nat) : month_piece → List Char
  | month_piece.plain c => [c]
  | month_piece.name n _ => if n < i then decimal n else month_token n

/-- The upper-case month field after the names of the months below `i` have been replaced. -/
def render (i : Nat) : List month_piece → List Char
  | [] => []
  | p :: ps => piece_render i p ++ render i ps

/-- The indices that the loop `for (i1 = range[0]; i1 <= range[1]; i1 += delta)` of
`set_number_hits` passes to `cron_set_bit`, in the order of the calls. -/
def step_indices (hi delta : Int) : Nat → Int → List Int
  | 0, _ => []
  | n + 1, i1 => if i1 ≤ hi then i1 :: step_indices hi delta n (wrap32 (i1 + delta)) else []

/-- Every character of the run is whitespace (the run may be empty). -/
def blank (s : List Char) : Bool := s.all isspace

/-- A field as it is written: not empty and without whitespace. -/
def written_field (f : List Char) : Bool := !f.isEmpty && f.all (fun c => !isspace c)

/-- The text made of a leading run and then every field followed by its run. -/
def spaced_text : List Char → List (List Char × List Char) → List Char
  | lead, [] => lead
  | lead, (f, s) :: rest => lead ++ f ++ spaced_text s rest

/-- Every field is written without whitespace and is followed by a run of whitespace; the run
between two fields holds a space. -/
def well_spaced : List (List Char × List Char) → Bool
  | [] => true
  | (f, s) :: rest =>
    written_field f && blank s && (rest.isEmpty || s.contains ' ') && well_spaced rest

/-- Following the words of the specification, the loop that shifts "every bit from index i to
i-1 into a fresh, initially empty target": the bits are read in the written set, which is left
as it is, and set in `fresh`. -/
def shift_into_fresh : Nat → Int → List Nat → List Nat → List Nat
  | 0, _, _, fresh => fresh
  | n + 1, i, written, fresh =>
    shift_into_fresh n (i + 1) written
      (if cron_get_bit written i ≠ 0 then cron_set_bit fresh (i - 1) else fresh)

/-- Following the words of the specification: the month set obtained by shifting the bits 1 to
12 of the written set by one into a fresh, initially empty target of the same size. -/
def months_shifted_fresh (written : List Nat) : List Nat :=
  shift_into_fresh 12 1 written (List.replicate written.length 0)

/-- The field sets of `0 0 0 29 2 *`. -/
def leap_day : cron_expr :=
  { seconds := [1, 0, 0, 0, 0, 0, 0, 0], minutes := [1, 0, 0, 0, 0, 0, 0, 0],
    hours := [1, 0, 0], days_of_week := [127], days_of_month := [0, 0, 0, 32],
    months := [2, 0] }

/-- The instant is 00:00:00 of a 29 February (UTC calendar). -/
def leap_midnight (u : Int) : Prop :=
  (cron_time u).tm_sec = 0 ∧ (cron_time u).tm_min = 0 ∧ (cron_time u).tm_hour = 0
    ∧ (cron_time u).tm_mday = 29 ∧ (cron_time u).tm_mon = 1

/-- The midnight on which the month step of `0 0 0 29 2 *` leaves the calendar when it sets
February on the 29th of the January with index `j0`: the start of the month that holds the 29th
day of that February, which is February in a leap year and March otherwise. -/
def february_start (j0 : Int) : Int :=
  monthStart (monthIndex (monthStart (j0 + 1) + 28)) * 86400

/-- The index of the January in which the month step looks for February: the month of the
calendar when it is a January, the January of the next year otherwise. -/
def january_index (n : Int) : Int := if n % 12 = 0 then n else n - n % 12 + 12

/-- With a recursive call that brings the calendar of some instant after `t` and not after `L`
to the calendar of `L`, the rest `f` of the search ends on the calendar of `L`. -/
def Restarts (L t : Int) (f : (tm → Option (Int × tm)) → Option (Int × tm)) : Prop :=
  ∃ t', t < t' ∧ t' ≤ L
    ∧ ∀ restart : tm → Option (Int × tm), restart (gmtime t') = some (0, gmtime L) →
      f restart = some (0, gmtime L)

/-- The field sets of `0 0 0 13 * FRI`. -/
def friday_13 : cron_expr :=
  { seconds := [1, 0, 0, 0, 0, 0, 0, 0], minutes := [1, 0, 0, 0, 0, 0, 0, 0],
    hours := [1, 0, 0], days_of_week := [32], days_of_month := [0, 32, 0, 0],
    months := [255, 15] }

/-- The field sets of `0 0 0 31 2 *`. -/
def feb_31 : cron_expr :=
  { seconds := [1, 0, 0, 0, 0, 0, 0, 0], minutes := [1, 0, 0, 0, 0, 0, 0, 0],
    hours := [1, 0, 0], days_of_week := [127], days_of_month := [0, 0, 0, 128],
    months := [2, 0] }

/-! ## The calendar collaborator: month starts and month indices -/

theorem month_position_bounds (doy : Int) (h0 : 0 ≤ doy) (h1 : doy ≤ 365) :
    0 ≤ (5 * doy + 2) / 153 ∧ (5 * doy + 2) / 153 ≤ 11
      ∧ (153 * ((5 * doy + 2) / 153) + 2) / 5 ≤ doy
      ∧ doy < (153 * ((5 * doy + 2) / 153 + 1) + 2) / 5 := by
  omega

theorem monthStart_eq (Y mp : Int) (h0 : 0 ≤ mp) (h1 : mp ≤ 11) :
    monthStart (12 * Y + mp + 2)
      = 365 * Y + Y / 4 - Y / 100 + Y / 400 + (153 * mp + 2) / 5 - 719468 := by
  unfold monthStart
  have e1 : (12 * Y + mp + 2 - 2) / 12 = Y := by omega
  have e2 : (12 * Y + mp + 2 - 2) % 12 = mp := by omega
  simp only [e1, e2]

/-- The month found by `monthIndex` contains the day. -/
theorem monthIndex_spec (z : Int) :
    monthStart (monthIndex z) ≤ z ∧ z < monthStart (monthIndex z + 1) := by
  unfold monthIndex
  simp only []
  generalize hn400 : (z + 719468) / 146097 = n400
  generalize hr1 : (z + 719468) % 146097 = r1
  generalize hn100 : min (r1 / 36524) 3 = n100
  generalize hr2 : r1 - n100 * 36524 = r2
  generalize hn4 : r2 / 1461 = n4
  generalize hr3 : r2 % 1461 = r3
  generalize hn1 : min (r3 / 365) 3 = n1
  generalize hdoy : r3 - n1 * 365 = doy
  have b1 : 0 ≤ r1 ∧ r1 < 146097 := by omega
  have b100 : 0 ≤ n100 ∧ n100 ≤ 3 := by omega
  have b2 : 0 ≤ r2 ∧ r2 ≤ 36524 ∧ (n100 < 3 → r2 < 36524) := by omega
  have b4 : 0 ≤ n4 ∧ n4 ≤ 24 := by omega
  have b3 : 0 ≤ r3 ∧ r3 < 1461 ∧ (n100 < 3 → n4 = 24 → r3 < 1460) := by omega
  have bn1 : 0 ≤ n1 ∧ n1 ≤ 3 := by omega
  have bd : 0 ≤ doy ∧ doy ≤ 365 ∧ (n1 < 3 → doy < 365) ∧ (n100 < 3 → n4 = 24 → doy < 365) := by
    omega
  have hz : z + 719468 = 146097 * n400 + 36524 * n100 + 1461 * n4 + 365 * n1 + doy := by omega
  obtain ⟨m0, m1, m2, m3⟩ := month_position_bounds doy bd.1 bd.2.1
  generalize hmp : (5 * doy + 2) / 153 = mp at *
  generalize hY : 400 * n400 + 100 * n100 + 4 * n4 + n1 = Y
  have q4 : Y / 4 = 100 * n400 + 25 * n100 + n4 := by omega
  have q100 : Y / 100 = 4 * n400 + n100 := by omega
  have q400 : Y / 400 = n400 := by omega
  constructor
  · rw [monthStart_eq Y mp m0 m1]
    omega
  · by_cases hlt : mp < 11
    · have e : 12 * Y + mp + 2 + 1 = 12 * Y + (mp + 1) + 2 := by ring
      rw [e, monthStart_eq Y (mp + 1) (by omega) (by omega)]
      omega
    · have hmp11 : mp = 11 := by omega
      have e : 12 * Y + mp + 2 + 1 = 12 * (Y + 1) + 0 + 2 := by omega
      rw [e, monthStart_eq (Y + 1) 0 (by omega) (by omega)]
      have m3b : doy < 367 := by omega
      by_cases c1 : n1 < 3
      · have q4b : (Y + 1) / 4 = 100 * n400 + 25 * n100 + n4 := by omega
        have q100b : (Y + 1) / 100 = 4 * n400 + n100 := by omega
        have q400b : (Y + 1) / 400 = n400 := by omega
        omega
      · have hn3 : n1 = 3 := by omega
        have q4b : (Y + 1) / 4 = 100 * n400 + 25 * n100 + n4 + 1 := by omega
        by_cases c2 : n4 < 24
        · have q100b : (Y + 1) / 100 = 4 * n400 + n100 := by omega
          have q400b : (Y + 1) / 400 = n400 := by omega
          omega
        · have hn24 : n4 = 24 := by omega
          have q100b : (Y + 1) / 100 = 4 * n400 + n100 + 1 := by omega
          by_cases c3 : n100 < 3
          · have q400b : (Y + 1) / 400 = n400 := by omega
            omega
          · have q400b : (Y + 1) / 400 = n400 + 1 := by omega
            omega

/-- A month has between 28 and 31 days. -/
theorem monthStart_step (n : Int) :
    28 ≤ monthStart (n + 1) - monthStart n ∧ monthStart (n + 1) - monthStart n ≤ 31 := by
  obtain ⟨Y, mp, h0, h1, rfl⟩ : ∃ Y mp : Int, 0 ≤ mp ∧ mp ≤ 11 ∧ n = 12 * Y + mp + 2 :=
    ⟨(n - 2) / 12, (n - 2) % 12, by omega, by omega, by omega⟩
  by_cases hlt : mp < 11
  · have e : 12 * Y + mp + 2 + 1 = 12 * Y + (mp + 1) + 2 := by ring
    rw [e, monthStart_eq Y (mp + 1) (by omega) (by omega), monthStart_eq Y mp h0 h1]
    omega
  · have hmp11 : mp = 11 := by omega
    subst hmp11
    have e : 12 * Y + 11 + 2 + 1 = 12 * (Y + 1) + 0 + 2 := by omega
    rw [e, monthStart_eq (Y + 1) 0 (by omega) (by omega), monthStart_eq Y 11 (by omega) (by omega)]
    omega

theorem monthStart_lt_succ (n : Int) : monthStart n < monthStart (n + 1) := by
  have := monthStart_step n
  omega

theorem monthStart_add_nat (n : Int) (k : Nat) : monthStart n + 28 * k ≤ monthStart (n + k) := by
  induction k with
  | zero => simp
  | succ k ih =>
    have := monthStart_step (n + k)
    have e : n + ((k + 1 : Nat) : Int) = n + k + 1 := by push_cast; ring
    rw [e]
    push_cast
    omega

theorem monthStart_mono {n m : Int} (h : n ≤ m) : monthStart n ≤ monthStart m := by
  obtain ⟨k, rfl⟩ : ∃ k : Nat, m = n + k := ⟨(m - n).toNat, by omega⟩
  have := monthStart_add_nat n k
  omega

theorem monthStart_lt {n m : Int} (h : n < m) : monthStart n < monthStart m := by
  have h1 := monthStart_lt_succ n
  have h2 : monthStart (n + 1) ≤ monthStart m := monthStart_mono (by omega)
  omega

theorem monthIndex_unique {z n : Int} (h1 : monthStart n ≤ z) (h2 : z < monthStart (n + 1)) :
    monthIndex z = n := by
  obtain ⟨a, b⟩ := monthIndex_spec z
  by_contra hne
  rcases lt_or_gt_of_ne hne with h | h
  · have := monthStart_mono (show monthIndex z + 1 ≤ n by omega)
    omega
  · have := monthStart_mono (show n + 1 ≤ monthIndex z by omega)
    omega

theorem monthIndex_ge {z n : Int} (h : monthStart n ≤ z) : n ≤ monthIndex z := by
  obtain ⟨_, b⟩ := monthIndex_spec z
  by_contra hlt
  have := monthStart_mono (show monthIndex z + 1 ≤ n by omega)
  omega

theorem monthIndex_lt {z n : Int} (h : z < monthStart n) : monthIndex z < n := by
  obtain ⟨a, _⟩ := monthIndex_spec z
  by_contra hge
  have := monthStart_mono (show n ≤ monthIndex z by omega)
  omega

theorem monthIndex_mono {z w : Int} (h : z ≤ w) : monthIndex z ≤ monthIndex w := by
  obtain ⟨a, _⟩ := monthIndex_spec z
  exact monthIndex_ge (by omega)

/-! ## The calendar collaborator: `timegm` and `gmtime` -/

/-- Round trip: `timegm` is a left inverse of `gmtime`. -/
theorem timegm_gmtime (t : Int) : timegm_value (gmtime t) = t := by
  unfold timegm_value gmtime
  simp only []
  have e : 12 * (monthIndex (t / 86400) / 12 - 1900 + 1900) + monthIndex (t / 86400) % 12
      = monthIndex (t / 86400) := by omega
  rw [e]
  generalize monthStart (monthIndex (t / 86400)) = s
  omega

/-- The calendar of some known instants, fields in the order of `tm` (second, minute, hour, day of
month, month from 0, year from 1900, day of week from Sunday): the epoch (a Thursday), the second
before it, the leap days of 2000 and 2020, and the first day after February 2100 (not a leap
year). -/
theorem gmtime_examples :
    gmtime 0 = tm.mk 0 0 0 1 0 70 4
      ∧ gmtime (-1) = tm.mk 59 59 23 31 11 69 3
      ∧ gmtime 951782400 = tm.mk 0 0 0 29 1 100 2
      ∧ gmtime 1583020799 = tm.mk 59 59 23 29 1 120 6
      ∧ gmtime 4107542400 = tm.mk 0 0 0 1 2 200 1 := by
  decide

/-- The function `timegm` normalises a calendar that is out of range: 31 February 2021 is
3 March 2021, a Wednesday. -/
theorem timegm_example :
    gmtime (timegm_value (tm.mk 0 0 0 31 1 121 0)) = tm.mk 0 0 0 3 2 121 3 := by
  decide

theorem gmtime_month_index (t : Int) :
    12 * ((gmtime t).tm_year + 1900) + (gmtime t).tm_mon = monthIndex (t / 86400) := by
  simp only [gmtime]
  omega

/-! ## Calendar field updates on a normalised calendar -/

theorem mktime_status_eq (c : tm) : mktime_status c = instant_status (timegm_value c) := by
  unfold mktime_status instant_status cron_mktime
  simp only []
  split <;> rfl

theorem gmtime_sec (t : Int) : (gmtime t).tm_sec = t % 60 := by
  simp only [gmtime]; omega

theorem gmtime_min (t : Int) : (gmtime t).tm_min = t % 3600 / 60 := by
  simp only [gmtime]; omega

theorem gmtime_hour (t : Int) : (gmtime t).tm_hour = t % 86400 / 3600 := by
  simp only [gmtime]

theorem gmtime_wday (t : Int) : (gmtime t).tm_wday = (t / 86400 + 4) % 7 := by
  simp only [gmtime]

theorem gmtime_mday (t : Int) :
    (gmtime t).tm_mday = t / 86400 - monthStart (monthIndex (t / 86400)) + 1 := by
  simp only [gmtime]

theorem gmtime_mon (t : Int) : (gmtime t).tm_mon = monthIndex (t / 86400) % 12 := by
  simp only [gmtime]

theorem gmtime_year (t : Int) : (gmtime t).tm_year = monthIndex (t / 86400) / 12 - 1900 := by
  simp only [gmtime]

theorem gmtime_injective {t u : Int} (h : gmtime t = gmtime u) : t = u := by
  have := congrArg timegm_value h
  simpa only [timegm_gmtime] using this

theorem timegm_set_sec (c : tm) (s : Int) :
    timegm_value { c with tm_sec := s } = timegm_value c + (s - c.tm_sec) := by
  simp only [timegm_value]; ring

theorem timegm_set_min (c : tm) (s : Int) :
    timegm_value { c with tm_min := s } = timegm_value c + (s - c.tm_min) * 60 := by
  simp only [timegm_value]; ring

theorem timegm_set_hour (c : tm) (s : Int) :
    timegm_value { c with tm_hour := s } = timegm_value c + (s - c.tm_hour) * 3600 := by
  simp only [timegm_value]; ring

theorem timegm_set_mday (c : tm) (s : Int) :
    timegm_value { c with tm_mday := s } = timegm_value c + (s - c.tm_mday) * 86400 := by
  simp only [timegm_value]; ring

theorem timegm_set_wday (c : tm) (s : Int) :
    timegm_value { c with tm_wday := s } = timegm_value c := by
  simp only [timegm_value]

theorem timegm_set_mon (t m : Int) :
    timegm_value { gmtime t with tm_mon := m }
      = month_shift t (monthIndex (t / 86400) - monthIndex (t / 86400) % 12 + m) := by
  simp only [timegm_value, gmtime, month_shift]
  have e : 12 * (monthIndex (t / 86400) / 12 - 1900 + 1900) + m
      = monthIndex (t / 86400) - monthIndex (t / 86400) % 12 + m := by omega
  rw [e]
  generalize monthStart (monthIndex (t / 86400) - monthIndex (t / 86400) % 12 + m) = a
  generalize monthStart (monthIndex (t / 86400)) = b
  omega

theorem timegm_set_year (t y : Int) :
    timegm_value { gmtime t with tm_year := y }
      = month_shift t (12 * (y + 1900) + monthIndex (t / 86400) % 12) := by
  simp only [timegm_value, gmtime, month_shift]
  generalize monthStart (12 * (y + 1900) + monthIndex (t / 86400) % 12) = a
  generalize monthStart (monthIndex (t / 86400)) = b
  omega

theorem add_to_field_second (t v : Int) :
    add_to_field (gmtime t) CRON_CF_SECOND v = instant_status (t + v) := by
  simp [add_to_field, CRON_CF_SECOND, mktime_status_eq, timegm_set_sec, timegm_gmtime]

theorem add_to_field_minute (t v : Int) :
    add_to_field (gmtime t) CRON_CF_MINUTE v = instant_status (t + v * 60) := by
  simp [add_to_field, CRON_CF_SECOND, CRON_CF_MINUTE, mktime_status_eq, timegm_set_min,
    timegm_gmtime]

theorem add_to_field_hour (t v : Int) :
    add_to_field (gmtime t) CRON_CF_HOUR_OF_DAY v = instant_status (t + v * 3600) := by
  simp [add_to_field, CRON_CF_SECOND, CRON_CF_MINUTE, CRON_CF_HOUR_OF_DAY, mktime_status_eq,
    timegm_set_hour, timegm_gmtime]

theorem add_to_field_day_of_week (t v : Int) :
    add_to_field (gmtime t) CRON_CF_DAY_OF_WEEK v = instant_status (t + v * 86400) := by
  simp [add_to_field, CRON_CF_SECOND, CRON_CF_MINUTE, CRON_CF_HOUR_OF_DAY, CRON_CF_DAY_OF_WEEK,
    mktime_status_eq, timegm_set_mday, timegm_gmtime]

theorem add_to_field_day_of_month (t v : Int) :
    add_to_field (gmtime t) CRON_CF_DAY_OF_MONTH v = instant_status (t + v * 86400) := by
  simp [add_to_field, CRON_CF_SECOND, CRON_CF_MINUTE, CRON_CF_HOUR_OF_DAY, CRON_CF_DAY_OF_WEEK,
    CRON_CF_DAY_OF_MONTH, mktime_status_eq, timegm_set_mday, timegm_gmtime]

theorem add_to_field_year (t v : Int) :
    add_to_field (gmtime t) CRON_CF_YEAR v
      = instant_status (month_shift t (monthIndex (t / 86400) + 12 * v)) := by
  have e : 12 * (monthIndex (t / 86400) / 12 - 1900 + v + 1900) + monthIndex (t / 86400) % 12
      = monthIndex (t / 86400) + 12 * v := by omega
  simp [add_to_field, CRON_CF_SECOND, CRON_CF_MINUTE, CRON_CF_HOUR_OF_DAY, CRON_CF_DAY_OF_WEEK,
    CRON_CF_DAY_OF_MONTH, CRON_CF_MONTH, CRON_CF_YEAR, mktime_status_eq, timegm_set_year,
    gmtime_year, e]

theorem reset_min_second (t : Int) :
    reset_min (gmtime t) CRON_CF_SECOND = instant_status (t - t % 60) := by
  have e : t + -(t % 60) = t - t % 60 := by ring
  simp [reset_min, CRON_CF_SECOND, mktime_status_eq, timegm_set_sec, timegm_gmtime, gmtime_sec, e]

theorem reset_min_minute (t : Int) :
    reset_min (gmtime t) CRON_CF_MINUTE = instant_status (t - t % 3600 / 60 * 60) := by
  have e : t + -(t % 3600 / 60 * 60) = t - t % 3600 / 60 * 60 := by ring
  simp [reset_min, CRON_CF_SECOND, CRON_CF_MINUTE, mktime_status_eq, timegm_set_min,
    timegm_gmtime, gmtime_min, e]

theorem reset_min_hour (t : Int) :
    reset_min (gmtime t) CRON_CF_HOUR_OF_DAY = instant_status (t - t % 86400 / 3600 * 3600) := by
  have e : t + -(t % 86400 / 3600 * 3600) = t - t % 86400 / 3600 * 3600 := by ring
  simp [reset_min, CRON_CF_SECOND, CRON_CF_MINUTE, CRON_CF_HOUR_OF_DAY, mktime_status_eq,
    timegm_set_hour, timegm_gmtime, gmtime_hour, e]

theorem reset_min_day_of_month (t : Int) :
    reset_min (gmtime t) CRON_CF_DAY_OF_MONTH
      = instant_status (monthStart (monthIndex (t / 86400)) * 86400 + t % 86400) := by
  simp only [reset_min, CRON_CF_SECOND, CRON_CF_MINUTE, CRON_CF_HOUR_OF_DAY, CRON_CF_DAY_OF_WEEK,
    CRON_CF_DAY_OF_MONTH, mktime_status_eq, timegm_set_mday, timegm_gmtime, gmtime_mday]
  simp only [show ¬ ((4 : Int) = -1) by decide, show ¬ ((4 : Int) = 0) by decide,
    show ¬ ((4 : Int) = 1) by decide, show ¬ ((4 : Int) = 2) by decide,
    show ¬ ((4 : Int) = 3) by decide, if_false, if_true]
  congr 1
  generalize monthStart (monthIndex (t / 86400)) = b
  omega

theorem reset_min_month (t : Int) :
    reset_min (gmtime t) CRON_CF_MONTH
      = instant_status (month_shift t (monthIndex (t / 86400) - monthIndex (t / 86400) % 12)) := by
  simp [reset_min, CRON_CF_SECOND, CRON_CF_MINUTE, CRON_CF_HOUR_OF_DAY, CRON_CF_DAY_OF_WEEK,
    CRON_CF_DAY_OF_MONTH, CRON_CF_MONTH, mktime_status_eq, timegm_set_mon]

theorem set_field_second (t v : Int) :
    set_field (gmtime t) CRON_CF_SECOND v = instant_status (t - t % 60 + v) := by
  have e : t + (v - t % 60) = t - t % 60 + v := by ring
  simp [set_field, CRON_CF_SECOND, mktime_status_eq, timegm_set_sec, timegm_gmtime, gmtime_sec, e]

theorem set_field_minute (t v : Int) :
    set_field (gmtime t) CRON_CF_MINUTE v = instant_status (t - t % 3600 / 60 * 60 + v * 60) := by
  have e : t + (v - t % 3600 / 60) * 60 = t - t % 3600 / 60 * 60 + v * 60 := by ring
  simp [set_field, CRON_CF_SECOND, CRON_CF_MINUTE, mktime_status_eq, timegm_set_min,
    timegm_gmtime, gmtime_min, e]

theorem set_field_hour (t v : Int) :
    set_field (gmtime t) CRON_CF_HOUR_OF_DAY v
      = instant_status (t - t % 86400 / 3600 * 3600 + v * 3600) := by
  have e : t + (v - t % 86400 / 3600) * 3600 = t - t % 86400 / 3600 * 3600 + v * 3600 := by ring
  simp [set_field, CRON_CF_SECOND, CRON_CF_MINUTE, CRON_CF_HOUR_OF_DAY, mktime_status_eq,
    timegm_set_hour, timegm_gmtime, gmtime_hour, e]

theorem set_field_month (t v : Int) :
    set_field (gmtime t) CRON_CF_MONTH v
      = instant_status
          (month_shift t (monthIndex (t / 86400) - monthIndex (t / 86400) % 12 + v)) := by
  simp [set_field, CRON_CF_SECOND, CRON_CF_MINUTE, CRON_CF_HOUR_OF_DAY, CRON_CF_DAY_OF_WEEK,
    CRON_CF_DAY_OF_MONTH, CRON_CF_MONTH, mktime_status_eq, timegm_set_mon]

theorem instant_status_ok {x : Int} (h : x ≠ -1) : instant_status x = (0, gmtime x) := by
  simp [instant_status, CRON_INVALID_INSTANT, h]

theorem gmtime_mday_bounds (t : Int) : 1 ≤ (gmtime t).tm_mday ∧ (gmtime t).tm_mday ≤ 31 := by
  rw [gmtime_mday]
  have h1 := monthIndex_spec (t / 86400)
  have h2 := monthStart_step (monthIndex (t / 86400))
  omega

theorem gmtime_mon_bounds (t : Int) : 0 ≤ (gmtime t).tm_mon ∧ (gmtime t).tm_mon ≤ 11 := by
  rw [gmtime_mon]; omega

/-- Two days later the day of month is another one. -/
theorem gmtime_mday_add_two_days (t : Int) :
    (gmtime (t + 172800)).tm_mday ≠ (gmtime t).tm_mday := by
  rw [gmtime_mday, gmtime_mday]
  have e : (t + 172800) / 86400 = t / 86400 + 2 := by omega
  rw [e]
  generalize t / 86400 = z
  have h1 := monthIndex_spec z
  have h2 := monthIndex_spec (z + 2)
  have h3 := monthStart_step (monthIndex z)
  by_cases hn : monthIndex (z + 2) = monthIndex z
  · rw [hn]; omega
  · have hlt : monthIndex z < monthIndex (z + 2) := by
      have := monthIndex_mono (show z ≤ z + 2 by omega)
      omega
    have := monthStart_mono (show monthIndex z + 1 ≤ monthIndex (z + 2) by omega)
    omega

/-! ## `find_next` by the outcome of the bit search -/

theorem find_next_keep (bits : List Nat) (max value : Int) (c : tm) (field nextField : Int)
    (lo : List Int) (res : Int) (h : next_set_bit bits max value 0 = (value, 0)) :
    find_next bits max value c field nextField lo res = (value, c, res) := by
  simp [find_next, find_next_set, h]

theorem find_next_move (bits : List Nat) (max value nv : Int) (c : tm) (field nextField : Int)
    (lo : List Int) (res : Int) (h : next_set_bit bits max value 0 = (nv, 0)) (hne : nv ≠ value) :
    find_next bits max value c field nextField lo res
      = if (set_field c field nv).1 ≠ 0 then (0, (set_field c field nv).2, 1)
        else if (reset_all_min (set_field c field nv).2 lo).1 ≠ 0 then
          (0, (reset_all_min (set_field c field nv).2 lo).2, 1)
        else (nv, (reset_all_min (set_field c field nv).2 lo).2, res) := by
  simp [find_next, find_next_set, h, hne]

/-! ## The expression `0 0 12 * * MON-FRI` -/

theorem weekday_noon_month (restart : tm → Option (Int × tm)) (t dot : Int) (resets : List Int) :
    do_next_month restart weekday_noon (gmtime t) dot resets = some (0, gmtime t) := by
  have hb := gmtime_mon_bounds t
  have hk : next_set_bit weekday_noon.months CRON_MAX_MONTHS (gmtime t).tm_mon 0
      = ((gmtime t).tm_mon, 0) := by
    generalize (gmtime t).tm_mon = m at hb
    obtain ⟨h0, h1⟩ := hb
    interval_cases m <;> decide
  simp [do_next_month, find_next_keep _ _ _ _ _ _ _ _ hk]

theorem weekday_noon_day (restart : tm → Option (Int × tm)) (t dot : Int) (resets : List Int)
    (hw : 1 ≤ (t / 86400 + 4) % 7 ∧ (t / 86400 + 4) % 7 ≤ 5) :
    do_next_day restart weekday_noon (gmtime t) dot resets = some (0, gmtime t) := by
  have hb := gmtime_mday_bounds t
  have hd : cron_get_bit weekday_noon.days_of_month (gmtime t).tm_mday = 1 := by
    generalize (gmtime t).tm_mday = m at hb
    obtain ⟨h0, h1⟩ := hb
    interval_cases m <;> decide
  have hwd : cron_get_bit weekday_noon.days_of_week (gmtime t).tm_wday = 1 := by
    rw [gmtime_wday]
    generalize (t / 86400 + 4) % 7 = w at hw
    obtain ⟨h0, h1⟩ := hw
    interval_cases w <;> decide
  simp [do_next_day, find_next_day, find_next_day_loop, hd, hwd, weekday_noon_month]

theorem find_next_roll (bits : List Nat) (max value x : Int) (c : tm) (field nextField : Int)
    (lo : List Int) (res : Int) (h : next_set_bit bits max value 0 = (x, 1)) :
    find_next bits max value c field nextField lo res
      = if (add_to_field c nextField 1).1 ≠ 0 then (0, (add_to_field c nextField 1).2, 1)
        else if (reset_min (add_to_field c nextField 1).2 field).1 ≠ 0 then
          (0, (reset_min (add_to_field c nextField 1).2 field).2, 1)
        else
          find_next_set (reset_min (add_to_field c nextField 1).2 field).2 field lo value
            (next_set_bit bits max 0 0).1 (next_set_bit bits max 0 0).2 res := by
  simp [find_next, h]

theorem resets_none : List.replicate CRON_CF_ARR_LEN (-1 : Int) = [-1, -1, -1, -1, -1, -1, -1] := by
  rfl

theorem resets_s :
    push_to_fields_arr [-1, -1, -1, -1, -1, -1, -1] CRON_CF_SECOND = [0, -1, -1, -1, -1, -1, -1] := by
  decide

theorem resets_sm :
    push_to_fields_arr [0, -1, -1, -1, -1, -1, -1] CRON_CF_MINUTE = [0, 1, -1, -1, -1, -1, -1] := by
  decide

theorem resets_smh :
    push_to_fields_arr [0, 1, -1, -1, -1, -1, -1] CRON_CF_HOUR_OF_DAY
      = [0, 1, 2, -1, -1, -1, -1] := by
  decide

theorem reset_all_min_none (c : tm) : reset_all_min c [-1, -1, -1, -1, -1, -1, -1] = (0, c) := by
  simp [reset_all_min]

theorem reset_all_min_sm (t : Int) (h : t % 3600 = 0) :
    reset_all_min (gmtime t) [0, 1, -1, -1, -1, -1, -1] = (0, gmtime t) := by
  have e1 : t - t % 60 = t := by omega
  have e2 : t - t % 3600 / 60 * 60 = t := by omega
  have e3 : instant_status t = (0, gmtime t) := instant_status_ok (by omega)
  have r1 : reset_min (gmtime t) 0 = (0, gmtime t) := by
    have := reset_min_second t
    rw [e1, e3] at this
    exact this
  have r2 : reset_min (gmtime t) 1 = (0, gmtime t) := by
    have := reset_min_minute t
    rw [e2, e3] at this
    exact this
  simp [reset_all_min, r1, r2]

theorem reset_all_min_smh (t : Int) (h : t % 60 = 0) :
    reset_all_min (gmtime t) [0, 1, 2, -1, -1, -1, -1] = (0, gmtime (t - t % 86400)) := by
  have e1 : t - t % 60 = t := by omega
  have e3 : instant_status t = (0, gmtime t) := instant_status_ok (by omega)
  have r1 : reset_min (gmtime t) 0 = (0, gmtime t) := by
    have := reset_min_second t
    rw [e1, e3] at this
    exact this
  have r2 : reset_min (gmtime t) 1 = (0, gmtime (t - t % 3600)) := by
    have := reset_min_minute t
    rw [show t - t % 3600 / 60 * 60 = t - t % 3600 by omega,
      instant_status_ok (show t - t % 3600 ≠ -1 by omega)] at this
    exact this
  have r3 : reset_min (gmtime (t - t % 3600)) 2 = (0, gmtime (t - t % 86400)) := by
    have := reset_min_hour (t - t % 3600)
    rw [show t - t % 3600 - (t - t % 3600) % 86400 / 3600 * 3600 = t - t % 86400 by omega,
      instant_status_ok (show t - t % 86400 ≠ -1 by omega)] at this
    exact this
  simp [reset_all_min, r1, r2, r3]

theorem weekday_noon_hour (restart : tm → Option (Int × tm)) (t dot : Int) (resets : List Int)
    (hh : t % 86400 / 3600 = 12) (hw : 1 ≤ (t / 86400 + 4) % 7 ∧ (t / 86400 + 4) % 7 ≤ 5) :
    do_next_hour restart weekday_noon (gmtime t) dot resets = some (0, gmtime t) := by
  have hk : next_set_bit weekday_noon.hours CRON_MAX_HOURS 12 0 = (12, 0) := by decide
  simp [do_next_hour, gmtime_hour, hh, find_next_keep _ _ _ _ _ _ _ _ hk, weekday_noon_day, hw]

theorem weekday_noon_minute (restart : tm → Option (Int × tm)) (t dot : Int) (resets : List Int)
    (hm : t % 3600 / 60 = 0) (hh : t % 86400 / 3600 = 12)
    (hw : 1 ≤ (t / 86400 + 4) % 7 ∧ (t / 86400 + 4) % 7 ≤ 5) :
    do_next_minute restart weekday_noon (gmtime t) dot resets = some (0, gmtime t) := by
  have hk : next_set_bit weekday_noon.minutes CRON_MAX_MINUTES 0 0 = (0, 0) := by decide
  simp [do_next_minute, gmtime_min, hm, find_next_keep _ _ _ _ _ _ _ _ hk, weekday_noon_hour, hh,
    hw]

/-- A calendar that satisfies the expression is left as it is. -/
theorem weekday_noon_match (restart : tm → Option (Int × tm)) (t dot : Int)
    (hs : t % 60 = 0) (hm : t % 3600 / 60 = 0) (hh : t % 86400 / 3600 = 12)
    (hw : 1 ≤ (t / 86400 + 4) % 7 ∧ (t / 86400 + 4) % 7 ≤ 5) :
    do_next_body restart weekday_noon (gmtime t) dot = some (0, gmtime t) := by
  have hk : next_set_bit weekday_noon.seconds CRON_MAX_SECONDS 0 0 = (0, 0) := by decide
  simp [do_next_body, gmtime_sec, hs, find_next_keep _ _ _ _ _ _ _ _ hk, weekday_noon_minute, hm,
    hh, hw]

theorem gmtime_mday_two_days_later (t u : Int) (h : u / 86400 = t / 86400 + 2) :
    (gmtime u).tm_mday ≠ (gmtime t).tm_mday := by
  have := gmtime_mday_add_two_days t
  rw [gmtime_mday, gmtime_mday] at this ⊢
  rw [h]
  rwa [show (t + 172800) / 86400 = t / 86400 + 2 by omega] at this

theorem find_next_day_loop_succ (days_of_month days_of_week : List Nat) (resets : List Int)
    (res_out : Int) (n : Nat) (calendar : tm) (day_of_month day_of_week : Int) :
    find_next_day_loop days_of_month days_of_week resets res_out (n + 1) calendar day_of_month
        day_of_week
      = if cron_get_bit days_of_month day_of_month = 0
            ∨ cron_get_bit days_of_week day_of_week = 0 then
          if (add_to_field calendar CRON_CF_DAY_OF_MONTH 1).1 ≠ 0 then
            (0, (add_to_field calendar CRON_CF_DAY_OF_MONTH 1).2, 1)
          else
            find_next_day_loop days_of_month days_of_week resets res_out n
              (reset_all_min (add_to_field calendar CRON_CF_DAY_OF_MONTH 1).2 resets).2
              (add_to_field calendar CRON_CF_DAY_OF_MONTH 1).2.tm_mday
              (add_to_field calendar CRON_CF_DAY_OF_MONTH 1).2.tm_wday
        else (day_of_month, calendar, res_out) := by
  rfl

/-- From an earlier hour of the day the hour is set to 12 and the search restarts. -/
theorem weekday_noon_hour_up (restart : tm → Option (Int × tm)) (t dot : Int)
    (h0 : t % 3600 = 0) (hh : t % 86400 / 3600 ≤ 11) :
    do_next_body restart weekday_noon (gmtime t) dot
      = after_restart (restart (gmtime (t - t % 86400 + 43200)))
          (fun c => do_next_day restart weekday_noon c dot [0, 1, -1, -1, -1, -1, -1]) := by
  have hs : t % 60 = 0 := by omega
  have hm : t % 3600 / 60 = 0 := by omega
  have ks : next_set_bit weekday_noon.seconds CRON_MAX_SECONDS 0 0 = (0, 0) := by decide
  have km : next_set_bit weekday_noon.minutes CRON_MAX_MINUTES 0 0 = (0, 0) := by decide
  have hb : 0 ≤ t % 86400 / 3600 := by omega
  have kh : next_set_bit weekday_noon.hours CRON_MAX_HOURS (t % 86400 / 3600) 0 = (12, 0) := by
    generalize t % 86400 / 3600 = h at hh hb
    interval_cases h <;> decide
  have hne : (12 : Int) ≠ t % 86400 / 3600 := by omega
  have e1 : t - t % 86400 / 3600 * 3600 + 12 * 3600 = t - t % 86400 + 43200 := by omega
  have st : set_field (gmtime t) CRON_CF_HOUR_OF_DAY 12 = (0, gmtime (t - t % 86400 + 43200)) := by
    rw [set_field_hour, e1, instant_status_ok (by omega)]
  have rs : reset_all_min (gmtime (t - t % 86400 + 43200)) [0, 1, -1, -1, -1, -1, -1]
      = (0, gmtime (t - t % 86400 + 43200)) := reset_all_min_sm _ (by omega)
  simp only [do_next_body, gmtime_sec, hs, find_next_keep _ _ _ _ _ _ _ _ ks, resets_none,
    resets_s, do_next_minute, gmtime_min, hm, find_next_keep _ _ _ _ _ _ _ _ km, resets_sm,
    do_next_hour, gmtime_hour, find_next_move _ _ _ _ _ _ _ _ _ kh hne, st, rs]
  simp [Ne.symm hne]

/-- On a Saturday at noon the day search stops on Monday 00:00:00 and the search restarts. -/
theorem weekday_noon_saturday (restart : tm → Option (Int × tm)) (t dot : Int)
    (h0 : t % 86400 = 43200) (hw : (t / 86400 + 4) % 7 = 6) :
    do_next_body restart weekday_noon (gmtime t) dot
      = after_restart (restart (gmtime (t + 129600)))
          (fun c => do_next_month restart weekday_noon c dot [0, 1, 2, -1, -1, -1, -1]) := by
  have hs : t % 60 = 0 := by omega
  have hm : t % 3600 / 60 = 0 := by omega
  have hh : t % 86400 / 3600 = 12 := by omega
  have ks : next_set_bit weekday_noon.seconds CRON_MAX_SECONDS 0 0 = (0, 0) := by decide
  have km : next_set_bit weekday_noon.minutes CRON_MAX_MINUTES 0 0 = (0, 0) := by decide
  have kh : next_set_bit weekday_noon.hours CRON_MAX_HOURS 12 0 = (12, 0) := by decide
  have dom : ∀ u : Int, cron_get_bit weekday_noon.days_of_month (gmtime u).tm_mday = 1 := by
    intro u
    have hb := gmtime_mday_bounds u
    generalize (gmtime u).tm_mday = m at hb
    obtain ⟨h0, h1⟩ := hb
    interval_cases m <;> decide
  have w0 : (gmtime t).tm_wday = 6 := by rw [gmtime_wday, hw]
  have w1 : (gmtime (t + 86400)).tm_wday = 0 := by rw [gmtime_wday]; omega
  have w2 : (gmtime (t + 129600)).tm_wday = 1 := by rw [gmtime_wday]; omega
  have a1 : add_to_field (gmtime t) CRON_CF_DAY_OF_MONTH 1 = (0, gmtime (t + 86400)) := by
    rw [add_to_field_day_of_month, show t + 1 * 86400 = t + 86400 by ring,
      instant_status_ok (by omega)]
  have r1 : reset_all_min (gmtime (t + 86400)) [0, 1, 2, -1, -1, -1, -1]
      = (0, gmtime (t + 43200)) := by
    rw [reset_all_min_smh _ (by omega), show t + 86400 - (t + 86400) % 86400 = t + 43200 by omega]
  have a2 : add_to_field (gmtime (t + 43200)) CRON_CF_DAY_OF_MONTH 1
      = (0, gmtime (t + 129600)) := by
    rw [add_to_field_day_of_month, show t + 43200 + 1 * 86400 = t + 129600 by ring,
      instant_status_ok (by omega)]
  have r2 : reset_all_min (gmtime (t + 129600)) [0, 1, 2, -1, -1, -1, -1]
      = (0, gmtime (t + 129600)) := by
    rw [reset_all_min_smh _ (by omega),
      show t + 129600 - (t + 129600) % 86400 = t + 129600 by omega]
  have hne : (gmtime t).tm_mday ≠ (gmtime (t + 129600)).tm_mday :=
    Ne.symm (gmtime_mday_two_days_later t (t + 129600) (by omega))
  have loop : find_next_day (gmtime t) weekday_noon.days_of_month (gmtime t).tm_mday
      weekday_noon.days_of_week (gmtime t).tm_wday [0, 1, 2, -1, -1, -1, -1] 0
      = ((gmtime (t + 129600)).tm_mday, gmtime (t + 129600), 0) := by
    unfold find_next_day
    have d6 : cron_get_bit weekday_noon.days_of_week 6 = 0 := by decide
    have d0 : cron_get_bit weekday_noon.days_of_week 0 = 0 := by decide
    have d1 : cron_get_bit weekday_noon.days_of_week 1 = 1 := by decide
    rw [show (366 : Nat) = 363 + 1 + 1 + 1 from rfl, find_next_day_loop_succ, w0, d6, dom, a1]
    simp only [r1, w1]
    rw [find_next_day_loop_succ, d0, dom, a2]
    simp only [r2, w2]
    rw [find_next_day_loop_succ, d1, dom]
    simp
  simp only [do_next_body, gmtime_sec, hs, find_next_keep _ _ _ _ _ _ _ _ ks, resets_none,
    resets_s, do_next_minute, gmtime_min, hm, find_next_keep _ _ _ _ _ _ _ _ km, resets_sm,
    do_next_hour, gmtime_hour, hh, find_next_keep _ _ _ _ _ _ _ _ kh, resets_smh, do_next_day,
    loop]
  simp [hne]

/-- One second past a matching instant the second and the minute roll over, and the search
restarts in the next hour. -/
theorem weekday_noon_second_past (restart : tm → Option (Int × tm)) (t dot : Int)
    (h0 : t % 3600 = 1) :
    do_next_body restart weekday_noon (gmtime t) dot
      = after_restart (restart (gmtime (t + 3599)))
          (fun c => do_next_hour restart weekday_noon c dot [-1, -1, -1, -1, -1, -1, -1]) := by
  have hs : t % 60 = 1 := by omega
  have ks : next_set_bit weekday_noon.seconds CRON_MAX_SECONDS 1 0 = (0, 1) := by decide
  have ks0 : next_set_bit weekday_noon.seconds CRON_MAX_SECONDS 0 0 = (0, 0) := by decide
  have km : next_set_bit weekday_noon.minutes CRON_MAX_MINUTES 1 0 = (0, 1) := by decide
  have km0 : next_set_bit weekday_noon.minutes CRON_MAX_MINUTES 0 0 = (0, 0) := by decide
  have a1 : add_to_field (gmtime t) CRON_CF_MINUTE 1 = (0, gmtime (t + 60)) := by
    rw [add_to_field_minute, show t + 1 * 60 = t + 60 by ring, instant_status_ok (by omega)]
  have r1 : reset_min (gmtime (t + 60)) CRON_CF_SECOND = (0, gmtime (t + 59)) := by
    rw [reset_min_second, show t + 60 - (t + 60) % 60 = t + 59 by omega,
      instant_status_ok (by omega)]
  have s1 : set_field (gmtime (t + 59)) CRON_CF_SECOND 0 = (0, gmtime (t + 59)) := by
    rw [set_field_second, show t + 59 - (t + 59) % 60 + 0 = t + 59 by omega,
      instant_status_ok (by omega)]
  have hm : (t + 59) % 3600 / 60 = 1 := by omega
  have a2 : add_to_field (gmtime (t + 59)) CRON_CF_HOUR_OF_DAY 1 = (0, gmtime (t + 3659)) := by
    rw [add_to_field_hour, show t + 59 + 1 * 3600 = t + 3659 by ring,
      instant_status_ok (by omega)]
  have r2 : reset_min (gmtime (t + 3659)) CRON_CF_MINUTE = (0, gmtime (t + 3599)) := by
    rw [reset_min_minute, show t + 3659 - (t + 3659) % 3600 / 60 * 60 = t + 3599 by omega,
      instant_status_ok (by omega)]
  have s2 : set_field (gmtime (t + 3599)) CRON_CF_MINUTE 0 = (0, gmtime (t + 3599)) := by
    rw [set_field_minute,
      show t + 3599 - (t + 3599) % 3600 / 60 * 60 + 0 * 60 = t + 3599 by omega,
      instant_status_ok (by omega)]
  simp [do_next_body, gmtime_sec, hs, find_next_roll _ _ _ _ _ _ _ _ _ ks, a1, r1, ks0,
    find_next_set, s1, resets_none, reset_all_min_none, do_next_minute, gmtime_min, hm,
    find_next_roll _ _ _ _ _ _ _ _ _ km, a2, r2, km0, s2]

/-- After the last allowed hour the day rolls over, the hour is set to 12 and the search
restarts. -/
theorem weekday_noon_hour_past (restart : tm → Option (Int × tm)) (t dot : Int)
    (h0 : t % 86400 = 46800) :
    do_next_body restart weekday_noon (gmtime t) dot
      = after_restart (restart (gmtime (t + 82800)))
          (fun c => do_next_day restart weekday_noon c dot [0, 1, -1, -1, -1, -1, -1]) := by
  have hs : t % 60 = 0 := by omega
  have hm : t % 3600 / 60 = 0 := by omega
  have hh : t % 86400 / 3600 = 13 := by omega
  have ks : next_set_bit weekday_noon.seconds CRON_MAX_SECONDS 0 0 = (0, 0) := by decide
  have km : next_set_bit weekday_noon.minutes CRON_MAX_MINUTES 0 0 = (0, 0) := by decide
  have kh : next_set_bit weekday_noon.hours CRON_MAX_HOURS 13 0 = (0, 1) := by decide
  have kh0 : next_set_bit weekday_noon.hours CRON_MAX_HOURS 0 0 = (12, 0) := by decide
  have a1 : add_to_field (gmtime t) CRON_CF_DAY_OF_WEEK 1 = (0, gmtime (t + 86400)) := by
    rw [add_to_field_day_of_week, show t + 1 * 86400 = t + 86400 by ring,
      instant_status_ok (by omega)]
  have r1 : reset_min (gmtime (t + 86400)) CRON_CF_HOUR_OF_DAY = (0, gmtime (t + 39600)) := by
    rw [reset_min_hour,
      show t + 86400 - (t + 86400) % 86400 / 3600 * 3600 = t + 39600 by omega,
      instant_status_ok (by omega)]
  have s1 : set_field (gmtime (t + 39600)) CRON_CF_HOUR_OF_DAY 12 = (0, gmtime (t + 82800)) := by
    rw [set_field_hour,
      show t + 39600 - (t + 39600) % 86400 / 3600 * 3600 + 12 * 3600 = t + 82800 by omega,
      instant_status_ok (by omega)]
  have rs : reset_all_min (gmtime (t + 82800)) [0, 1, -1, -1, -1, -1, -1]
      = (0, gmtime (t + 82800)) := reset_all_min_sm _ (by omega)
  simp only [do_next_body, gmtime_sec, hs, find_next_keep _ _ _ _ _ _ _ _ ks, resets_none,
    resets_s, do_next_minute, gmtime_min, hm, find_next_keep _ _ _ _ _ _ _ _ km, resets_sm,
    do_next_hour, gmtime_hour, hh, find_next_roll _ _ _ _ _ _ _ _ _ kh, a1, r1, kh0,
    find_next_set, s1, rs]
  simp

theorem after_restart_ok (c : tm) (k : tm → Option (Int × tm)) :
    after_restart (some (0, c)) k = k c := by
  simp [after_restart]

theorem cron_mktime_gmtime (t : Int) : cron_mktime (gmtime t) = (t, gmtime t) := by
  simp [cron_mktime, timegm_gmtime]

/-- The search from a Saturday 09:00:00 ends on the Monday that follows, at 12:00:00. -/
theorem weekday_noon_saturday_morning (n : Nat) (t dot : Int) (h0 : t % 86400 = 32400)
    (hw : (t / 86400 + 4) % 7 = 6) :
    do_next (n + 4) weekday_noon (gmtime t) dot = some (0, gmtime (t + 183600)) := by
  have f4 : do_next (n + 1) weekday_noon (gmtime (t + 183600)) dot
      = some (0, gmtime (t + 183600)) :=
    weekday_noon_match _ _ _ (by omega) (by omega) (by omega) (by omega)
  have f3 : do_next (n + 2) weekday_noon (gmtime (t + 140400)) dot
      = some (0, gmtime (t + 183600)) := by
    show do_next_body _ _ _ _ = _
    rw [weekday_noon_hour_up _ _ _ (by omega) (by omega),
      show t + 140400 - (t + 140400) % 86400 + 43200 = t + 183600 by omega, f4,
      after_restart_ok]
    exact weekday_noon_day _ _ _ _ (by omega)
  have f2 : do_next (n + 3) weekday_noon (gmtime (t + 10800)) dot
      = some (0, gmtime (t + 183600)) := by
    show do_next_body _ _ _ _ = _
    rw [weekday_noon_saturday _ _ _ (by omega) (by omega),
      show t + 10800 + 129600 = t + 140400 by ring, f3, after_restart_ok]
    exact weekday_noon_month _ _ _ _
  show do_next_body _ _ _ _ = _
  rw [weekday_noon_hour_up _ _ _ (by omega) (by omega),
    show t - t % 86400 + 43200 = t + 10800 by omega, f2, after_restart_ok]
  exact weekday_noon_day _ _ _ _ (by omega)

/-- The search from one second past a Monday 12:00:00 ends on Tuesday at 12:00:00. -/
theorem weekday_noon_monday_noon (n : Nat) (t dot : Int) (h0 : t % 86400 = 43200)
    (hw : (t / 86400 + 4) % 7 = 1) :
    do_next (n + 3) weekday_noon (gmtime (t + 1)) dot = some (0, gmtime (t + 86400)) := by
  have f3 : do_next (n + 1) weekday_noon (gmtime (t + 86400)) dot
      = some (0, gmtime (t + 86400)) :=
    weekday_noon_match _ _ _ (by omega) (by omega) (by omega) (by omega)
  have f2 : do_next (n + 2) weekday_noon (gmtime (t + 3600)) dot
      = some (0, gmtime (t + 86400)) := by
    show do_next_body _ _ _ _ = _
    rw [weekday_noon_hour_past _ _ _ (by omega),
      show t + 3600 + 82800 = t + 86400 by ring, f3, after_restart_ok]
    exact weekday_noon_day _ _ _ _ (by omega)
  show do_next_body _ _ _ _ = _
  rw [weekday_noon_second_past _ _ _ (by omega),
    show t + 1 + 3599 = t + 3600 by ring, f2, after_restart_ok]
  exact weekday_noon_hour _ _ _ _ (by omega) (by omega)

theorem cron_parse_expr_six (expression : List Char) (target : cron_expr)
    (h : (split_str expression ' ' 0).2 = 6) :
    cron_parse_expr expression target
      = cron_parse_fields ((split_str expression ' ' 0).1.getD []) := by
  simp [cron_parse_expr, h]

theorem parse_weekday_noon (target : cron_expr) :
    cron_parse_expr "0 0 12 * * MON-FRI".toList target = (weekday_noon, none) := by
  rw [cron_parse_expr_six _ _ (by decide!)]
  decide!

/-- C7: for `0 0 12 * * MON-FRI`, from every instant that is a Saturday 09:00:00 `cron_next`
returns the following Monday 12:00:00 (2 days and 3 hours later), and from every instant that is
a Monday 12:00:00 it returns Tuesday 12:00:00 (86400 seconds later), not the instant itself.
The recursion of `do_next` is at most 4 deep. -/
theorem cron_next_weekday_noon (target : cron_expr) (t : Int) (fuel : Nat) (hf : 4 ≤ fuel) :
    ((cron_time t).tm_wday = 6 ∧ (cron_time t).tm_hour = 9 ∧ (cron_time t).tm_min = 0
        ∧ (cron_time t).tm_sec = 0 →
      cron_next fuel (cron_parse_expr "0 0 12 * * MON-FRI".toList target).1 t
        = some (t + 2 * 86400 + 3 * 3600))
    ∧ ((cron_time t).tm_wday = 1 ∧ (cron_time t).tm_hour = 12 ∧ (cron_time t).tm_min = 0
        ∧ (cron_time t).tm_sec = 0 →
      cron_next fuel (cron_parse_expr "0 0 12 * * MON-FRI".toList target).1 t
          = some (t + 86400)
        ∧ t + 86400 ≠ t) := by
  obtain ⟨n, rfl⟩ : ∃ n : Nat, fuel = n + 4 := ⟨fuel - 4, by omega⟩
  rw [parse_weekday_noon]
  simp only [cron_time, gmtime_wday, gmtime_hour, gmtime_min, gmtime_sec]
  constructor
  · rintro ⟨hw, hh, hm, hs⟩
    have h0 : t % 86400 = 32400 := by omega
    have hd := weekday_noon_saturday_morning n t (gmtime t).tm_year h0 hw
    have e1 : t ≠ -1 := by omega
    have e2 : t + 183600 ≠ -1 := by omega
    have e3 : t + 183600 ≠ t := by omega
    simp [cron_next, cron_time, cron_mktime_gmtime, CRON_INVALID_INSTANT, e1, hd,
      cron_next_finish, e2, e3]
    ring
  · rintro ⟨hw, hh, hm, hs⟩
    have h0 : t % 86400 = 43200 := by omega
    have hd : do_next (n + 4) weekday_noon (gmtime t) (gmtime t).tm_year = some (0, gmtime t) :=
      weekday_noon_match _ _ _ (by omega) (by omega) (by omega) (by omega)
    have hd2 := weekday_noon_monday_noon (n + 1) t (gmtime (t + 1)).tm_year h0 hw
    have e1 : t ≠ -1 := by omega
    have e2 : t + 86400 ≠ -1 := by omega
    have e4 : t + 1 ≠ -1 := by omega
    have a1 : add_to_field (gmtime t) CRON_CF_SECOND 1 = (0, gmtime (t + 1)) := by
      rw [add_to_field_second, instant_status_ok e4]
    refine ⟨?_, by omega⟩
    simp [cron_next, cron_time, cron_mktime_gmtime, CRON_INVALID_INSTANT, e1, hd,
      cron_next_finish, a1, hd2]

theorem cron_next_weekday_noon_witness :
    cron_next 4 (cron_parse_expr "0 0 12 * * MON-FRI".toList cron_expr_zero).1 1578128400
        = some (1578128400 + 2 * 86400 + 3 * 3600)
      ∧ cron_next 4 (cron_parse_expr "0 0 12 * * MON-FRI".toList cron_expr_zero).1 1578312000
        = some (1578312000 + 86400) :=
  ⟨(cron_next_weekday_noon cron_expr_zero 1578128400 4 (by decide)).1 (by decide),
    ((cron_next_weekday_noon cron_expr_zero 1578312000 4 (by decide)).2 (by decide)).1⟩

/-! ## Bit search -/

theorem next_set_bit_loop_some (bits : List Nat) (n : Nat) (i v : Int)
    (h : next_set_bit_loop bits n i = some v) :
    i ≤ v ∧ v < i + n ∧ cron_get_bit bits v ≠ 0 := by
  induction n generalizing i with
  | zero => simp [next_set_bit_loop] at h
  | succ n ih =>
    simp only [next_set_bit_loop] at h
    split at h
    · rename_i hb
      simp only [Option.some.injEq] at h
      subst h
      refine ⟨le_refl _, ?_, hb⟩
      push_cast; omega
    · obtain ⟨a, b, c⟩ := ih _ h
      refine ⟨by omega, ?_, c⟩
      push_cast; omega

theorem next_set_bit_loop_none (bits : List Nat) (n : Nat) (i : Int)
    (h : next_set_bit_loop bits n i = none) (j : Int) (h1 : i ≤ j) (h2 : j < i + n) :
    cron_get_bit bits j = 0 := by
  induction n generalizing i with
  | zero => simp at h2; omega
  | succ n ih =>
    simp only [next_set_bit_loop] at h
    split at h
    · simp at h
    · rename_i hb
      by_cases hij : j = i
      · subst hij; simpa using hb
      · exact ih _ h (by omega) (by push_cast at h2; omega)

theorem next_set_bit_cases (bits : List Nat) (max from_index : Int) :
    (∃ v, next_set_bit bits max from_index 0 = (v, 0) ∧ from_index ≤ v ∧ v < max
        ∧ cron_get_bit bits v ≠ 0)
      ∨ (next_set_bit bits max from_index 0 = (0, 1)
        ∧ ∀ j, from_index ≤ j → j < max → cron_get_bit bits j = 0) := by
  unfold next_set_bit
  cases h : next_set_bit_loop bits (max - from_index).toNat from_index with
  | some v =>
    left
    obtain ⟨a, b, c⟩ := next_set_bit_loop_some _ _ _ _ h
    exact ⟨v, rfl, a, by omega, c⟩
  | none =>
    right
    refine ⟨rfl, fun j h1 h2 => next_set_bit_loop_none _ _ _ h j h1 (by omega)⟩

theorem prev_set_bit_loop_some (bits : List Nat) (n : Nat) (i v : Int)
    (h : prev_set_bit_loop bits n i = some v) :
    v ≤ i ∧ i - n < v ∧ cron_get_bit bits v ≠ 0 := by
  induction n generalizing i with
  | zero => simp [prev_set_bit_loop] at h
  | succ n ih =>
    simp only [prev_set_bit_loop] at h
    split at h
    · rename_i hb
      simp only [Option.some.injEq] at h
      subst h
      refine ⟨le_refl _, ?_, hb⟩
      push_cast; omega
    · obtain ⟨a, b, c⟩ := ih _ h
      refine ⟨by omega, ?_, c⟩
      push_cast; omega

theorem prev_set_bit_loop_none (bits : List Nat) (n : Nat) (i : Int)
    (h : prev_set_bit_loop bits n i = none) (j : Int) (h1 : j ≤ i) (h2 : i - n < j) :
    cron_get_bit bits j = 0 := by
  induction n generalizing i with
  | zero => simp at h2; omega
  | succ n ih =>
    simp only [prev_set_bit_loop] at h
    split at h
    · simp at h
    · rename_i hb
      by_cases hij : j = i
      · subst hij; simpa using hb
      · exact ih _ h (by omega) (by push_cast at h2; omega)

theorem prev_set_bit_cases (bits : List Nat) (from_index to_index : Int) :
    (∃ v, prev_set_bit bits from_index to_index 0 = (v, 0) ∧ to_index ≤ v ∧ v ≤ from_index
        ∧ cron_get_bit bits v ≠ 0)
      ∨ (prev_set_bit bits from_index to_index 0 = (0, 1)
        ∧ ∀ j, to_index ≤ j → j ≤ from_index → cron_get_bit bits j = 0) := by
  unfold prev_set_bit
  cases h : prev_set_bit_loop bits (from_index - to_index + 1).toNat from_index with
  | some v =>
    left
    obtain ⟨a, b, c⟩ := prev_set_bit_loop_some _ _ _ _ h
    exact ⟨v, rfl, by omega, a, c⟩
  | none =>
    right
    refine ⟨rfl, fun j h1 h2 => prev_set_bit_loop_none _ _ _ h j h2 (by omega)⟩

/-! ## Calendars reached by `find_next` and `find_prev` -/

theorem instant_status_snd (x : Int) : (instant_status x).2 = gmtime x := rfl

theorem find_next_set_calendar (P : tm → Prop) (c : tm) (field : Int) (lo : List Int)
    (value nv nf res : Int) (h0 : P c)
    (h1 : nf ≠ 0 ∨ nv ≠ value →
      P (set_field c field nv).2 ∧ P (reset_all_min (set_field c field nv).2 lo).2) :
    P (find_next_set c field lo value nv nf res).2.1 := by
  unfold find_next_set
  split
  · rename_i h
    simp only []
    split
    · exact (h1 h).1
    · split
      · exact (h1 h).2
      · exact (h1 h).2
  · exact h0

/-- Every calendar `find_next` can return satisfies `P`, when `P` holds for the calendar it
starts from and for the calendars of its intermediate steps. -/
theorem find_next_calendar (P : tm → Prop) (bits : List Nat) (max value : Int) (c : tm)
    (field nextField : Int) (lo : List Int) (res : Int) (hmax : 0 < max)
    (hkeep : P c)
    (hset : ∀ nv, value < nv → nv < max →
      P (set_field c field nv).2 ∧ P (reset_all_min (set_field c field nv).2 lo).2)
    (hadd : P (add_to_field c nextField 1).2)
    (hreset : P (reset_min (add_to_field c nextField 1).2 field).2)
    (hroll : ∀ nv, 0 ≤ nv → nv < max →
      P (set_field (reset_min (add_to_field c nextField 1).2 field).2 field nv).2
        ∧ P (reset_all_min
              (set_field (reset_min (add_to_field c nextField 1).2 field).2 field nv).2 lo).2) :
    P (find_next bits max value c field nextField lo res).2.1 := by
  rcases next_set_bit_cases bits max value with ⟨v, hv, a, b, _⟩ | ⟨hv, _⟩
  · unfold find_next
    simp only [hv, ne_eq, not_true_eq_false, if_false]
    refine find_next_set_calendar P _ _ _ _ _ _ _ hkeep (fun h => ?_)
    exact hset v (by omega) b
  · rw [find_next_roll _ _ _ _ _ _ _ _ _ hv]
    split
    · exact hadd
    · split
      · exact hreset
      · rcases next_set_bit_cases bits max 0 with ⟨v, hv2, a, b, _⟩ | ⟨hv2, _⟩
        · rw [hv2]
          exact find_next_set_calendar P _ _ _ _ _ _ _ hreset (fun _ => hroll v a b)
        · rw [hv2]
          exact find_next_set_calendar P _ _ _ _ _ _ _ hreset (fun _ => hroll 0 (le_refl _) hmax)

theorem find_prev_set_calendar (P : tm → Prop) (c : tm) (field : Int) (lo : List Int)
    (value nv nf res : Int) (h0 : P c)
    (h1 : nf ≠ 0 ∨ nv ≠ value →
      P (set_field c field nv).2 ∧ P (reset_all_max (set_field c field nv).2 lo).2) :
    P (find_prev_set c field lo value nv nf res).2.1 := by
  unfold find_prev_set
  split
  · rename_i h
    simp only []
    split
    · exact (h1 h).1
    · split
      · exact (h1 h).2
      · exact (h1 h).2
  · exact h0

/-- Every calendar `find_prev` can return satisfies `P`, when `P` holds for the calendar it
starts from and for the calendars of its intermediate steps. -/
theorem find_prev_calendar (P : tm → Prop) (bits : List Nat) (max value : Int) (c : tm)
    (field nextField : Int) (lo : List Int) (res : Int) (hval : 0 ≤ value) (hmax : value < max)
    (hkeep : P c)
    (hset : ∀ nv, 0 ≤ nv → nv < value →
      P (set_field c field nv).2 ∧ P (reset_all_max (set_field c field nv).2 lo).2)
    (hadd : P (add_to_field c nextField (-1)).2)
    (hreset : P (reset_max (add_to_field c nextField (-1)).2 field).2)
    (hroll : ∀ nv, 0 ≤ nv → nv < max →
      P (set_field (reset_max (add_to_field c nextField (-1)).2 field).2 field nv).2
        ∧ P (reset_all_max
              (set_field (reset_max (add_to_field c nextField (-1)).2 field).2 field nv).2 lo).2) :
    P (find_prev bits max value c field nextField lo res).2.1 := by
  rcases prev_set_bit_cases bits value 0 with ⟨v, hv, a, b, _⟩ | ⟨hv, _⟩
  · unfold find_prev
    simp only [hv, ne_eq, not_true_eq_false, if_false]
    refine find_prev_set_calendar P _ _ _ _ _ _ _ hkeep (fun h => ?_)
    exact hset v a (by omega)
  · unfold find_prev
    simp only [hv, ne_eq, one_ne_zero, not_false_eq_true, if_true]
    split
    · exact hadd
    · split
      · exact hreset
      · rcases prev_set_bit_cases bits (max - 1) value with ⟨v, hv2, a, b, _⟩ | ⟨hv2, _⟩
        · rw [hv2]
          exact find_prev_set_calendar P _ _ _ _ _ _ _ hreset
            (fun _ => hroll v (by omega) (by omega))
        · rw [hv2]
          exact find_prev_set_calendar P _ _ _ _ _ _ _ hreset
            (fun _ => hroll 0 (le_refl _) (by omega))

/-! ## Resets keep the calendar inside the unit it is in -/

theorem reset_min_bounds (k b t f : Int) (hk : k ≤ 5) (hf : 0 ≤ f ∧ f < k ∧ f ≠ 3)
    (hal : AlignedAt k b) (hb : b ≤ t) :
    ∃ u, (reset_min (gmtime t) f).2 = gmtime u ∧ b ≤ u ∧ u ≤ t := by
  obtain ⟨f0, f1, f3⟩ := hf
  obtain ⟨a0, a1, a2, a4⟩ := hal
  have hcases : f = 0 ∨ f = 1 ∨ f = 2 ∨ f = 4 := by omega
  rcases hcases with rfl | rfl | rfl | rfl
  · have := a0 (by omega)
    exact ⟨_, by rw [show (0 : Int) = CRON_CF_SECOND from rfl, reset_min_second,
      instant_status_snd], by omega, by omega⟩
  · have := a1 (by omega)
    exact ⟨_, by rw [show (1 : Int) = CRON_CF_MINUTE from rfl, reset_min_minute,
      instant_status_snd], by omega, by omega⟩
  · have := a2 (by omega)
    exact ⟨_, by rw [show (2 : Int) = CRON_CF_HOUR_OF_DAY from rfl, reset_min_hour,
      instant_status_snd], by omega, by omega⟩
  · obtain ⟨n, rfl⟩ := a4 (by omega)
    refine ⟨_, by rw [show (4 : Int) = CRON_CF_DAY_OF_MONTH from rfl, reset_min_day_of_month,
      instant_status_snd], ?_, ?_⟩
    · have h1 : n ≤ monthIndex (t / 86400) := monthIndex_ge (by omega)
      have h2 := monthStart_mono h1
      omega
    · have := (monthIndex_spec (t / 86400)).1
      omega

theorem reset_all_min_bounds (k b : Int) (lo : List Int) (hk : k ≤ 5) (hlo : ResetsBelow k lo)
    (hal : AlignedAt k b) (t : Int) (hb : b ≤ t) :
    ∃ u, (reset_all_min (gmtime t) lo).2 = gmtime u ∧ b ≤ u ∧ u ≤ t := by
  induction lo generalizing t with
  | nil => exact ⟨t, rfl, hb, le_refl _⟩
  | cons f rest ih =>
    have hrest : ResetsBelow k rest := fun g hg => hlo g (List.mem_cons_of_mem _ hg)
    unfold reset_all_min
    split
    · rename_i hf
      have hf2 := (hlo f (List.mem_cons_self _ _)).resolve_left hf
      obtain ⟨u, hu, h1, h2⟩ := reset_min_bounds k b t f hk hf2 hal hb
      simp only []
      split
      · exact ⟨u, hu, h1, h2⟩
      · rw [hu]
        obtain ⟨w, hw, h3, h4⟩ := ih hrest u h1
        exact ⟨w, hw, h3, by omega⟩
    · exact ih hrest t hb

/-! ## The forward search never moves the calendar back -/

theorem resetsBelow_mono {k k2 : Int} {lo : List Int} (h : ResetsBelow k lo) (hk : k ≤ k2) :
    ResetsBelow k2 lo := by
  intro f hf
  rcases h f hf with h1 | ⟨a, b, c⟩
  · exact Or.inl h1
  · exact Or.inr ⟨a, by omega, c⟩

theorem reset_all_min_notBefore (k : Int) (lo : List Int) (hk : k ≤ 5) (hlo : ResetsBelow k lo)
    (t b u : Int) (hal : AlignedAt k b) (hb : b ≤ u) (htb : t ≤ b) :
    NotBefore t (reset_all_min (gmtime u) lo).2 := by
  obtain ⟨w, hw, h1, _⟩ := reset_all_min_bounds k b lo hk hlo hal u hb
  exact ⟨w, hw, by omega⟩

theorem find_next_second_notBefore (bits : List Nat) (lo : List Int) (res t : Int)
    (hlo : ResetsBelow 0 lo) :
    NotBefore t
      (find_next bits CRON_MAX_SECONDS (gmtime t).tm_sec (gmtime t) CRON_CF_SECOND
        CRON_CF_MINUTE lo res).2.1 := by
  have hal : ∀ b, AlignedAt 0 b := fun b =>
    ⟨fun h => absurd h (by decide), fun h => absurd h (by decide), fun h => absurd h (by decide),
      fun h => absurd h (by decide)⟩
  apply find_next_calendar (NotBefore t) _ _ _ _ _ _ _ _ (by decide)
  · exact ⟨t, rfl, le_refl _⟩
  · intro nv h1 _
    rw [gmtime_sec] at h1
    simp only [set_field_second, instant_status_snd]
    exact ⟨⟨_, rfl, by omega⟩,
      reset_all_min_notBefore 0 lo (by decide) hlo t _ _ (hal _) (le_refl _) (by omega)⟩
  · simp only [add_to_field_minute, instant_status_snd]
    exact ⟨_, rfl, by omega⟩
  · simp only [add_to_field_minute, instant_status_snd, reset_min_second]
    exact ⟨_, rfl, by omega⟩
  · intro nv h1 _
    simp only [add_to_field_minute, instant_status_snd, reset_min_second, set_field_second]
    exact ⟨⟨_, rfl, by omega⟩,
      reset_all_min_notBefore 0 lo (by decide) hlo t _ _ (hal _) (le_refl _) (by omega)⟩

theorem find_next_minute_notBefore (bits : List Nat) (lo : List Int) (res t : Int)
    (hlo : ResetsBelow 1 lo) :
    NotBefore t
      (find_next bits CRON_MAX_MINUTES (gmtime t).tm_min (gmtime t) CRON_CF_MINUTE
        CRON_CF_HOUR_OF_DAY lo res).2.1 := by
  have hal : ∀ b, 60 ∣ b → AlignedAt 1 b := fun b hb =>
    ⟨fun _ => hb, fun h => absurd h (by decide), fun h => absurd h (by decide),
      fun h => absurd h (by decide)⟩
  apply find_next_calendar (NotBefore t) _ _ _ _ _ _ _ _ (by decide)
  · exact ⟨t, rfl, le_refl _⟩
  · intro nv h1 _
    rw [gmtime_min] at h1
    simp only [set_field_minute, instant_status_snd]
    exact ⟨⟨_, rfl, by omega⟩,
      reset_all_min_notBefore 1 lo (by decide) hlo t
        (t - t % 3600 / 60 * 60 + nv * 60 - (t - t % 3600 / 60 * 60 + nv * 60) % 60) _
        (hal _ (by omega)) (by omega) (by omega)⟩
  · simp only [add_to_field_hour, instant_status_snd]
    exact ⟨_, rfl, by omega⟩
  · simp only [add_to_field_hour, instant_status_snd, reset_min_minute]
    exact ⟨_, rfl, by omega⟩
  · intro nv h1 _
    simp only [add_to_field_hour, instant_status_snd, reset_min_minute, set_field_minute]
    refine ⟨⟨_, rfl, by omega⟩, ?_⟩
    generalize hx : t + 1 * 3600 - (t + 1 * 3600) % 3600 / 60 * 60
      - (t + 1 * 3600 - (t + 1 * 3600) % 3600 / 60 * 60) % 3600 / 60 * 60 + nv * 60 = x
    exact reset_all_min_notBefore 1 lo (by decide) hlo t (x - x % 60) _ (hal _ (by omega))
      (by omega) (by omega)

theorem find_next_hour_notBefore (bits : List Nat) (lo : List Int) (res t : Int)
    (hlo : ResetsBelow 2 lo) :
    NotBefore t
      (find_next bits CRON_MAX_HOURS (gmtime t).tm_hour (gmtime t) CRON_CF_HOUR_OF_DAY
        CRON_CF_DAY_OF_WEEK lo res).2.1 := by
  have hal : ∀ b, 3600 ∣ b → AlignedAt 2 b := fun b hb =>
    ⟨fun _ => by omega, fun _ => hb, fun h => absurd h (by decide),
      fun h => absurd h (by decide)⟩
  apply find_next_calendar (NotBefore t) _ _ _ _ _ _ _ _ (by decide)
  · exact ⟨t, rfl, le_refl _⟩
  · intro nv h1 _
    rw [gmtime_hour] at h1
    simp only [set_field_hour, instant_status_snd]
    refine ⟨⟨_, rfl, by omega⟩, ?_⟩
    generalize hx : t - t % 86400 / 3600 * 3600 + nv * 3600 = x
    exact reset_all_min_notBefore 2 lo (by decide) hlo t (x - x % 3600) _ (hal _ (by omega))
      (by omega) (by omega)
  · simp only [add_to_field_day_of_week, instant_status_snd]
    exact ⟨_, rfl, by omega⟩
  · simp only [add_to_field_day_of_week, instant_status_snd, reset_min_hour]
    exact ⟨_, rfl, by omega⟩
  · intro nv h1 _
    simp only [add_to_field_day_of_week, instant_status_snd, reset_min_hour, set_field_hour]
    refine ⟨⟨_, rfl, by omega⟩, ?_⟩
    generalize hx : t + 1 * 86400 - (t + 1 * 86400) % 86400 / 3600 * 3600
      - (t + 1 * 86400 - (t + 1 * 86400) % 86400 / 3600 * 3600) % 86400 / 3600 * 3600
      + nv * 3600 = x
    exact reset_all_min_notBefore 2 lo (by decide) hlo t (x - x % 3600) _ (hal _ (by omega))
      (by omega) (by omega)

theorem notBefore_trans {t u : Int} {c : tm} (h : t ≤ u) (hc : NotBefore u c) : NotBefore t c := by
  obtain ⟨w, hw, h2⟩ := hc
  exact ⟨w, hw, by omega⟩

theorem month_shift_ge (t m : Int) : monthStart m * 86400 ≤ month_shift t m := by
  unfold month_shift
  have := (monthIndex_spec (t / 86400)).1
  generalize monthStart (monthIndex (t / 86400)) = a at this
  generalize monthStart m = b
  omega

theorem month_shift_lt (t m : Int) : month_shift t m < (monthStart m + 31) * 86400 := by
  unfold month_shift
  have h1 := (monthIndex_spec (t / 86400)).2
  have h2 := monthStart_step (monthIndex (t / 86400))
  generalize monthStart (monthIndex (t / 86400)) = a at h1 h2
  generalize monthStart (monthIndex (t / 86400) + 1) = a1 at h1 h2
  generalize monthStart m = b
  omega

theorem monthIndex_of_ge {u m : Int} (h : monthStart m * 86400 ≤ u) :
    m ≤ monthIndex (u / 86400) :=
  monthIndex_ge (by omega)

theorem lt_month_start {t m : Int} (h : monthIndex (t / 86400) < m) :
    t < monthStart m * 86400 := by
  have h1 := (monthIndex_spec (t / 86400)).2
  have h2 := monthStart_mono (show monthIndex (t / 86400) + 1 ≤ m by omega)
  omega

theorem month_start_le {t m : Int} (h : m ≤ monthIndex (t / 86400)) :
    monthStart m * 86400 ≤ t := by
  have h1 := (monthIndex_spec (t / 86400)).1
  have h2 := monthStart_mono h
  omega

theorem alignedAt_month (k m : Int) : AlignedAt k (monthStart m * 86400) :=
  ⟨fun _ => by omega, fun _ => by omega, fun _ => by omega, fun _ => ⟨m, rfl⟩⟩

theorem alignedAt_day (k b : Int) (hk : k ≤ 4) (hb : 86400 ∣ b) : AlignedAt k b :=
  ⟨fun _ => by omega, fun _ => by omega, fun _ => hb, fun h => by omega⟩

theorem find_next_day_loop_notBefore (dom dow : List Nat) (lo : List Int) (res : Int) (n : Nat)
    (hlo : ResetsBelow 3 lo) (t d w : Int) :
    NotBefore t (find_next_day_loop dom dow lo res n (gmtime t) d w).2.1 := by
  induction n generalizing t d w with
  | zero => exact ⟨t, rfl, le_refl _⟩
  | succ n ih =>
    rw [find_next_day_loop_succ]
    split
    · simp only [add_to_field_day_of_month, instant_status_snd]
      split
      · exact ⟨_, rfl, by omega⟩
      · obtain ⟨u, hu, h1, _⟩ := reset_all_min_bounds 3
          (t + 1 * 86400 - (t + 1 * 86400) % 86400) lo (by decide) hlo
          (alignedAt_day 3 _ (by decide) (by omega)) (t + 1 * 86400) (by omega)
        rw [hu]
        exact notBefore_trans (by omega) (ih u _ _)
    · exact ⟨t, rfl, le_refl _⟩

theorem find_next_month_notBefore (bits : List Nat) (lo : List Int) (res t : Int)
    (hlo : ResetsBelow 5 lo) :
    NotBefore t
      (find_next bits CRON_MAX_MONTHS (gmtime t).tm_mon (gmtime t) CRON_CF_MONTH CRON_CF_YEAR
        lo res).2.1 := by
  have key : ∀ u m, monthIndex (t / 86400) < m → monthStart m * 86400 ≤ u →
      NotBefore t (gmtime u) ∧ NotBefore t (reset_all_min (gmtime u) lo).2 := by
    intro u m hm hu
    have := lt_month_start hm
    exact ⟨⟨u, rfl, by omega⟩,
      reset_all_min_notBefore 5 lo (by decide) hlo t _ u (alignedAt_month 5 m) hu (by omega)⟩
  apply find_next_calendar (NotBefore t) _ _ _ _ _ _ _ _ (by decide)
  · exact ⟨t, rfl, le_refl _⟩
  · intro nv h1 _
    rw [gmtime_mon] at h1
    simp only [set_field_month, instant_status_snd]
    exact key _ _ (by omega) (month_shift_ge _ _)
  · simp only [add_to_field_year, instant_status_snd]
    exact (key _ _ (by omega) (month_shift_ge _ _)).1
  · simp only [add_to_field_year, instant_status_snd, reset_min_month]
    have h1 := monthIndex_of_ge (month_shift_ge t (monthIndex (t / 86400) + 12 * 1))
    exact (key _ _ (by omega) (month_shift_ge _ _)).1
  · intro nv h1 _
    simp only [add_to_field_year, instant_status_snd, reset_min_month, set_field_month]
    have h2 := monthIndex_of_ge (month_shift_ge t (monthIndex (t / 86400) + 12 * 1))
    generalize month_shift t (monthIndex (t / 86400) + 12 * 1) = t1 at h2 ⊢
    have h3 := monthIndex_of_ge
      (month_shift_ge t1 (monthIndex (t1 / 86400) - monthIndex (t1 / 86400) % 12))
    generalize month_shift t1 (monthIndex (t1 / 86400) - monthIndex (t1 / 86400) % 12) = t2
      at h3 ⊢
    exact key _ _ (by omega) (month_shift_ge _ _)

theorem after_restart_some (x : Option (Int × tm)) (k : tm → Option (Int × tm)) (r : Int × tm)
    (h : after_restart x k = some r) :
    ∃ y, x = some y ∧ ((y.1 ≠ 0 ∧ r = y) ∨ (y.1 = 0 ∧ k y.2 = some r)) := by
  unfold after_restart at h
  cases x with
  | none => simp at h
  | some y =>
    refine ⟨y, rfl, ?_⟩
    simp only [] at h
    split at h
    · rename_i hy
      left
      exact ⟨hy, by simpa using h.symm⟩
    · rename_i hy
      right
      exact ⟨by simpa using hy, h⟩

theorem mem_push_first_free (fi g : Int) (l : List Int) (h : g ∈ push_first_free fi l) :
    g = fi ∨ g ∈ l := by
  induction l with
  | nil => simp [push_first_free] at h
  | cons a rest ih =>
    unfold push_first_free at h
    split at h
    · rcases List.mem_cons.mp h with h1 | h1
      · exact Or.inl h1
      · exact Or.inr (List.mem_cons_of_mem _ h1)
    · rcases List.mem_cons.mp h with h1 | h1
      · exact Or.inr (h1 ▸ List.mem_cons_self _ _)
      · rcases ih h1 with h2 | h2
        · exact Or.inl h2
        · exact Or.inr (List.mem_cons_of_mem _ h2)

theorem resetsBelow_push {k fi : Int} {lo : List Int} (h : ResetsBelow k lo)
    (hfi : 0 ≤ fi ∧ fi < k ∧ fi ≠ 3) : ResetsBelow k (push_to_fields_arr lo fi) := by
  unfold push_to_fields_arr
  split
  · exact h
  · split
    · exact h
    · intro g hg
      rcases mem_push_first_free fi g lo hg with h1 | h1
      · exact Or.inr (h1 ▸ hfi)
      · exact h g h1

theorem resetsBelow_none (k : Int) : ResetsBelow k (List.replicate CRON_CF_ARR_LEN (-1)) := by
  intro f hf
  exact Or.inl (List.eq_of_mem_replicate hf)

theorem do_next_month_notBefore (restart : tm → Option (Int × tm)) (e : cron_expr)
    (t dot : Int) (lo : List Int) (hr : ForwardRestart restart) (hlo : ResetsBelow 5 lo)
    (r : Int × tm) (h : do_next_month restart e (gmtime t) dot lo = some r) :
    NotBefore t r.2 := by
  have hP := find_next_month_notBefore e.months lo 0 t hlo
  unfold do_next_month at h
  simp only [] at h
  generalize find_next e.months CRON_MAX_MONTHS (gmtime t).tm_mon (gmtime t) CRON_CF_MONTH
    CRON_CF_YEAR lo 0 = rr at h hP
  obtain ⟨u, hu, htu⟩ := hP
  split at h
  · simp only [Option.some.injEq] at h
    subst h
    exact ⟨u, hu, htu⟩
  · split at h
    · split at h
      · simp only [Option.some.injEq] at h
        subst h
        exact ⟨u, hu, htu⟩
      · rw [hu] at h
        exact notBefore_trans htu (hr u r h)
    · simp only [Option.some.injEq] at h
      subst h
      exact ⟨u, hu, htu⟩

theorem do_next_day_notBefore (restart : tm → Option (Int × tm)) (e : cron_expr)
    (t dot : Int) (lo : List Int) (hr : ForwardRestart restart) (hlo : ResetsBelow 3 lo)
    (r : Int × tm) (h : do_next_day restart e (gmtime t) dot lo = some r) :
    NotBefore t r.2 := by
  have hP := find_next_day_loop_notBefore e.days_of_month e.days_of_week lo 0 366 hlo t
    (gmtime t).tm_mday (gmtime t).tm_wday
  have hlo5 : ResetsBelow 5 lo := resetsBelow_mono hlo (by decide)
  unfold do_next_day find_next_day at h
  simp only [] at h
  generalize find_next_day_loop e.days_of_month e.days_of_week lo 0 366 (gmtime t)
    (gmtime t).tm_mday (gmtime t).tm_wday = rr at h hP
  obtain ⟨u, hu, htu⟩ := hP
  split at h
  · simp only [Option.some.injEq] at h
    subst h
    exact ⟨u, hu, htu⟩
  · split at h
    · rw [hu] at h
      exact notBefore_trans htu
        (do_next_month_notBefore restart e u dot _ hr
          (resetsBelow_push hlo5 (by decide)) r h)
    · rw [hu] at h
      obtain ⟨y, hy, hcase⟩ := after_restart_some _ _ _ h
      obtain ⟨w, hw, huw⟩ := hr u y hy
      rcases hcase with ⟨_, rfl⟩ | ⟨_, hk⟩
      · exact ⟨w, hw, by omega⟩
      · rw [hw] at hk
        exact notBefore_trans (by omega) (do_next_month_notBefore restart e w dot _ hr hlo5 r hk)

theorem do_next_hour_notBefore (restart : tm → Option (Int × tm)) (e : cron_expr)
    (t dot : Int) (lo : List Int) (hr : ForwardRestart restart) (hlo : ResetsBelow 2 lo)
    (r : Int × tm) (h : do_next_hour restart e (gmtime t) dot lo = some r) :
    NotBefore t r.2 := by
  have hP := find_next_hour_notBefore e.hours lo 0 t hlo
  have hlo3 : ResetsBelow 3 lo := resetsBelow_mono hlo (by decide)
  unfold do_next_hour at h
  simp only [] at h
  generalize find_next e.hours CRON_MAX_HOURS (gmtime t).tm_hour (gmtime t) CRON_CF_HOUR_OF_DAY
    CRON_CF_DAY_OF_WEEK lo 0 = rr at h hP
  obtain ⟨u, hu, htu⟩ := hP
  split at h
  · simp only [Option.some.injEq] at h
    subst h
    exact ⟨u, hu, htu⟩
  · split at h
    · rw [hu] at h
      exact notBefore_trans htu
        (do_next_day_notBefore restart e u dot _ hr (resetsBelow_push hlo3 (by decide)) r h)
    · rw [hu] at h
      obtain ⟨y, hy, hcase⟩ := after_restart_some _ _ _ h
      obtain ⟨w, hw, huw⟩ := hr u y hy
      rcases hcase with ⟨_, rfl⟩ | ⟨_, hk⟩
      · exact ⟨w, hw, by omega⟩
      · rw [hw] at hk
        exact notBefore_trans (by omega) (do_next_day_notBefore restart e w dot _ hr hlo3 r hk)

theorem do_next_minute_notBefore (restart : tm → Option (Int × tm)) (e : cron_expr)
    (t dot : Int) (lo : List Int) (hr : ForwardRestart restart) (hlo : ResetsBelow 1 lo)
    (r : Int × tm) (h : do_next_minute restart e (gmtime t) dot lo = some r) :
    NotBefore t r.2 := by
  have hP := find_next_minute_notBefore e.minutes lo 0 t hlo
  have hlo2 : ResetsBelow 2 lo := resetsBelow_mono hlo (by decide)
  unfold do_next_minute at h
  simp only [] at h
  generalize find_next e.minutes CRON_MAX_MINUTES (gmtime t).tm_min (gmtime t) CRON_CF_MINUTE
    CRON_CF_HOUR_OF_DAY lo 0 = rr at h hP
  obtain ⟨u, hu, htu⟩ := hP
  split at h
  · simp only [Option.some.injEq] at h
    subst h
    exact ⟨u, hu, htu⟩
  · split at h
    · rw [hu] at h
      exact notBefore_trans htu
        (do_next_hour_notBefore restart e u dot _ hr (resetsBelow_push hlo2 (by decide)) r h)
    · rw [hu] at h
      obtain ⟨y, hy, hcase⟩ := after_restart_some _ _ _ h
      obtain ⟨w, hw, huw⟩ := hr u y hy
      rcases hcase with ⟨_, rfl⟩ | ⟨_, hk⟩
      · exact ⟨w, hw, by omega⟩
      · rw [hw] at hk
        exact notBefore_trans (by omega) (do_next_hour_notBefore restart e w dot _ hr hlo2 r hk)

theorem do_next_body_notBefore (restart : tm → Option (Int × tm)) (e : cron_expr)
    (t dot : Int) (hr : ForwardRestart restart)
    (r : Int × tm) (h : do_next_body restart e (gmtime t) dot = some r) :
    NotBefore t r.2 := by
  have hP := find_next_second_notBefore e.seconds (List.replicate CRON_CF_ARR_LEN (-1)) 0 t
    (resetsBelow_none 0)
  unfold do_next_body at h
  simp only [] at h
  generalize find_next e.seconds CRON_MAX_SECONDS (gmtime t).tm_sec (gmtime t) CRON_CF_SECOND
    CRON_CF_MINUTE (List.replicate CRON_CF_ARR_LEN (-1)) 0 = rr at h hP
  obtain ⟨u, hu, htu⟩ := hP
  split at h
  · simp only [Option.some.injEq] at h
    subst h
    exact ⟨u, hu, htu⟩
  · split at h
    · rw [hu] at h
      exact notBefore_trans htu
        (do_next_minute_notBefore restart e u dot _ hr
          (resetsBelow_push (resetsBelow_none 1) (by decide)) r h)
    · rw [hu] at h
      exact notBefore_trans htu
        (do_next_minute_notBefore restart e u dot _ hr (resetsBelow_none 1) r h)

/-- Whatever the fuel, `do_next` leaves a calendar that is not before the one it started from. -/
theorem do_next_notBefore (fuel : Nat) (e : cron_expr) (dot : Int) :
    ForwardRestart (fun c => do_next fuel e c dot) := by
  induction fuel with
  | zero => intro t r h; simp [do_next] at h
  | succ n ih =>
    intro t r h
    exact do_next_body_notBefore _ e t dot ih r h

/-- An instant `cron_next` returns, other than the sentinel, is strictly after the start. -/
theorem cron_next_gt (fuel : Nat) (e : cron_expr) (t r : Int)
    (h : cron_next fuel e t = some r) (hr : r ≠ CRON_INVALID_INSTANT) : t < r := by
  unfold cron_next at h
  simp only [cron_time, cron_mktime_gmtime] at h
  split at h
  · simp only [Option.some.injEq] at h
    exact absurd h.symm hr
  · cases hd : do_next fuel e (gmtime t) (gmtime t).tm_year with
    | none => rw [hd] at h; simp at h
    | some x =>
      rw [hd] at h
      simp only [] at h
      obtain ⟨u, hu, htu⟩ := do_next_notBefore fuel e _ t x hd
      split at h
      · simp only [Option.some.injEq] at h
        exact absurd h.symm hr
      · unfold cron_next_finish at h
        rw [hu] at h
        simp only [cron_mktime_gmtime] at h
        split at h
        · simp only [Option.some.injEq] at h
          exact absurd h.symm hr
        · split at h
          · rw [add_to_field_second] at h
            simp only [instant_status_snd] at h
            split at h
            · simp only [Option.some.injEq] at h
              exact absurd h.symm hr
            · cases hd2 : do_next fuel e (gmtime (u + 1)) (gmtime (u + 1)).tm_year with
              | none => rw [hd2] at h; simp at h
              | some y =>
                rw [hd2] at h
                simp only [] at h
                obtain ⟨w, hw, huw⟩ := do_next_notBefore fuel e _ (u + 1) y hd2
                split at h
                · simp only [Option.some.injEq] at h
                  exact absurd h.symm hr
                · rw [hw] at h
                  simp only [cron_mktime_gmtime, Option.some.injEq] at h
                  omega
          · rename_i hne
            simp only [Option.some.injEq] at h
            omega

/-! ## Backward resets -/

theorem last_day_of_month_gmtime (t : Int) :
    last_day_of_month (gmtime t).tm_mon (gmtime t).tm_year
      = monthStart (monthIndex (t / 86400) + 1) - monthStart (monthIndex (t / 86400)) := by
  have hstep := monthStart_step (monthIndex (t / 86400))
  have e : 12 * ((gmtime t).tm_year + 1900) + ((gmtime t).tm_mon + 1)
      = monthIndex (t / 86400) + 1 := by
    have := gmtime_month_index t
    omega
  unfold last_day_of_month
  simp only [timegm_value, e]
  rw [gmtime_mday]
  generalize hn : monthIndex (t / 86400) = n at hstep ⊢
  have hd : ((monthStart (n + 1) + (0 - 1)) * 86400 + 0 * 3600 + 0 * 60 + 0) / 86400
      = monthStart (n + 1) - 1 := by omega
  rw [hd, monthIndex_unique (n := n) (by omega) (by omega)]
  omega

theorem reset_max_second (t : Int) :
    reset_max (gmtime t) CRON_CF_SECOND = instant_status (t - t % 60 + 59) := by
  have e : t + (59 - t % 60) = t - t % 60 + 59 := by ring
  simp [reset_max, CRON_CF_SECOND, mktime_status_eq, timegm_set_sec, timegm_gmtime, gmtime_sec, e]

theorem reset_max_minute (t : Int) :
    reset_max (gmtime t) CRON_CF_MINUTE = instant_status (t - t % 3600 / 60 * 60 + 3540) := by
  have e : t + (59 - t % 3600 / 60) * 60 = t - t % 3600 / 60 * 60 + 3540 := by ring
  simp [reset_max, CRON_CF_SECOND, CRON_CF_MINUTE, mktime_status_eq, timegm_set_min,
    timegm_gmtime, gmtime_min, e]

theorem reset_max_hour (t : Int) :
    reset_max (gmtime t) CRON_CF_HOUR_OF_DAY
      = instant_status (t - t % 86400 / 3600 * 3600 + 82800) := by
  have e : t + (23 - t % 86400 / 3600) * 3600 = t - t % 86400 / 3600 * 3600 + 82800 := by ring
  simp [reset_max, CRON_CF_SECOND, CRON_CF_MINUTE, CRON_CF_HOUR_OF_DAY, mktime_status_eq,
    timegm_set_hour, timegm_gmtime, gmtime_hour, e]

theorem reset_max_day_of_month (t : Int) :
    reset_max (gmtime t) CRON_CF_DAY_OF_MONTH
      = instant_status ((monthStart (monthIndex (t / 86400) + 1) - 1) * 86400 + t % 86400) := by
  simp only [reset_max, CRON_CF_SECOND, CRON_CF_MINUTE, CRON_CF_HOUR_OF_DAY, CRON_CF_DAY_OF_WEEK,
    CRON_CF_DAY_OF_MONTH, mktime_status_eq, timegm_set_mday, timegm_gmtime, gmtime_mday,
    last_day_of_month_gmtime]
  simp only [show ¬ ((4 : Int) = -1) by decide, show ¬ ((4 : Int) = 0) by decide,
    show ¬ ((4 : Int) = 1) by decide, show ¬ ((4 : Int) = 2) by decide,
    show ¬ ((4 : Int) = 3) by decide, if_false, if_true]
  congr 1
  generalize monthStart (monthIndex (t / 86400)) = b
  generalize monthStart (monthIndex (t / 86400) + 1) = b1
  omega

theorem reset_max_month (t : Int) :
    reset_max (gmtime t) CRON_CF_MONTH
      = instant_status
          (month_shift t (monthIndex (t / 86400) - monthIndex (t / 86400) % 12 + 11)) := by
  simp [reset_max, CRON_CF_SECOND, CRON_CF_MINUTE, CRON_CF_HOUR_OF_DAY, CRON_CF_DAY_OF_WEEK,
    CRON_CF_DAY_OF_MONTH, CRON_CF_MONTH, mktime_status_eq, timegm_set_mon]

theorem reset_max_bounds (k b t f : Int) (hk : k ≤ 5) (hf : 0 ≤ f ∧ f < k ∧ f ≠ 3)
    (hal : AlignedAt k b) (hb : t < b) :
    ∃ u, (reset_max (gmtime t) f).2 = gmtime u ∧ t ≤ u ∧ u < b := by
  obtain ⟨f0, f1, f3⟩ := hf
  obtain ⟨a0, a1, a2, a4⟩ := hal
  have hcases : f = 0 ∨ f = 1 ∨ f = 2 ∨ f = 4 := by omega
  rcases hcases with rfl | rfl | rfl | rfl
  · have := a0 (by omega)
    exact ⟨_, by rw [show (0 : Int) = CRON_CF_SECOND from rfl, reset_max_second,
      instant_status_snd], by omega, by omega⟩
  · have := a1 (by omega)
    exact ⟨_, by rw [show (1 : Int) = CRON_CF_MINUTE from rfl, reset_max_minute,
      instant_status_snd], by omega, by omega⟩
  · have := a2 (by omega)
    exact ⟨_, by rw [show (2 : Int) = CRON_CF_HOUR_OF_DAY from rfl, reset_max_hour,
      instant_status_snd], by omega, by omega⟩
  · obtain ⟨n, rfl⟩ := a4 (by omega)
    refine ⟨_, by rw [show (4 : Int) = CRON_CF_DAY_OF_MONTH from rfl, reset_max_day_of_month,
      instant_status_snd], ?_, ?_⟩
    · have := (monthIndex_spec (t / 86400)).2
      omega
    · have h1 : monthIndex (t / 86400) < n := monthIndex_lt (by omega)
      have h2 := monthStart_mono (show monthIndex (t / 86400) + 1 ≤ n by omega)
      omega

theorem reset_all_max_bounds (k b : Int) (lo : List Int) (hk : k ≤ 5) (hlo : ResetsBelow k lo)
    (hal : AlignedAt k b) (t : Int) (hb : t < b) :
    ∃ u, (reset_all_max (gmtime t) lo).2 = gmtime u ∧ t ≤ u ∧ u < b := by
  induction lo generalizing t with
  | nil => exact ⟨t, rfl, le_refl _, hb⟩
  | cons f rest ih =>
    have hrest : ResetsBelow k rest := fun g hg => hlo g (List.mem_cons_of_mem _ hg)
    unfold reset_all_max
    split
    · rename_i hf
      have hf2 := (hlo f (List.mem_cons_self _ _)).resolve_left hf
      obtain ⟨u, hu, h1, h2⟩ := reset_max_bounds k b t f hk hf2 hal hb
      simp only []
      split
      · exact ⟨u, hu, h1, h2⟩
      · rw [hu]
        obtain ⟨w, hw, h3, h4⟩ := ih hrest u h2
        exact ⟨w, hw, by omega, h4⟩
    · exact ih hrest t hb

theorem reset_all_max_notAfter (k : Int) (lo : List Int) (hk : k ≤ 5) (hlo : ResetsBelow k lo)
    (t b u : Int) (hal : AlignedAt k b) (hb : u < b) (htb : b ≤ t + 1) :
    NotAfter t (reset_all_max (gmtime u) lo).2 := by
  obtain ⟨w, hw, _, h1⟩ := reset_all_max_bounds k b lo hk hlo hal u hb
  exact ⟨w, hw, by omega⟩

/-! ## The backward search below the month never moves the calendar forward -/

theorem notAfter_trans {t u : Int} {c : tm} (h : u ≤ t) (hc : NotAfter u c) : NotAfter t c := by
  obtain ⟨w, hw, h2⟩ := hc
  exact ⟨w, hw, by omega⟩

theorem find_prev_second_notAfter (bits : List Nat) (lo : List Int) (res t : Int)
    (hlo : ResetsBelow 0 lo) :
    NotAfter t
      (find_prev bits CRON_MAX_SECONDS (gmtime t).tm_sec (gmtime t) CRON_CF_SECOND
        CRON_CF_MINUTE lo res).2.1 := by
  have hal : ∀ b, AlignedAt 0 b := fun b =>
    ⟨fun h => absurd h (by decide), fun h => absurd h (by decide), fun h => absurd h (by decide),
      fun h => absurd h (by decide)⟩
  apply find_prev_calendar (NotAfter t) _ _ _ _ _ _ _ _
    (by rw [gmtime_sec]; omega) (by rw [gmtime_sec]; simp only [CRON_MAX_SECONDS]; omega)
  · exact ⟨t, rfl, le_refl _⟩
  · intro nv _ h1
    rw [gmtime_sec] at h1
    simp only [set_field_second, instant_status_snd]
    exact ⟨⟨_, rfl, by omega⟩,
      reset_all_max_notAfter 0 lo (by decide) hlo t (t - t % 60 + nv + 1) _ (hal _) (by omega)
        (by omega)⟩
  · simp only [add_to_field_minute, instant_status_snd]
    exact ⟨_, rfl, by omega⟩
  · simp only [add_to_field_minute, instant_status_snd, reset_max_second]
    exact ⟨_, rfl, by omega⟩
  · intro nv _ h1
    simp only [CRON_MAX_SECONDS] at h1
    simp only [add_to_field_minute, instant_status_snd, reset_max_second, set_field_second]
    refine ⟨⟨_, rfl, by omega⟩, ?_⟩
    generalize hx : t + -1 * 60 - (t + -1 * 60) % 60 + 59
      - (t + -1 * 60 - (t + -1 * 60) % 60 + 59) % 60 + nv = x
    exact reset_all_max_notAfter 0 lo (by decide) hlo t (x + 1) _ (hal _) (by omega) (by omega)

theorem find_prev_minute_notAfter (bits : List Nat) (lo : List Int) (res t : Int)
    (hlo : ResetsBelow 1 lo) :
    NotAfter t
      (find_prev bits CRON_MAX_MINUTES (gmtime t).tm_min (gmtime t) CRON_CF_MINUTE
        CRON_CF_HOUR_OF_DAY lo res).2.1 := by
  have hal : ∀ b, 60 ∣ b → AlignedAt 1 b := fun b hb =>
    ⟨fun _ => hb, fun h => absurd h (by decide), fun h => absurd h (by decide),
      fun h => absurd h (by decide)⟩
  apply find_prev_calendar (NotAfter t) _ _ _ _ _ _ _ _
    (by rw [gmtime_min]; omega) (by rw [gmtime_min]; simp only [CRON_MAX_MINUTES]; omega)
  · exact ⟨t, rfl, le_refl _⟩
  · intro nv _ h1
    rw [gmtime_min] at h1
    simp only [set_field_minute, instant_status_snd]
    refine ⟨⟨_, rfl, by omega⟩, ?_⟩
    generalize hx : t - t % 3600 / 60 * 60 + nv * 60 = x
    exact reset_all_max_notAfter 1 lo (by decide) hlo t (x - x % 60 + 60) _ (hal _ (by omega))
      (by omega) (by omega)
  · simp only [add_to_field_hour, instant_status_snd]
    exact ⟨_, rfl, by omega⟩
  · simp only [add_to_field_hour, instant_status_snd, reset_max_minute]
    exact ⟨_, rfl, by omega⟩
  · intro nv _ h1
    simp only [CRON_MAX_MINUTES] at h1
    simp only [add_to_field_hour, instant_status_snd, reset_max_minute, set_field_minute]
    refine ⟨⟨_, rfl, by omega⟩, ?_⟩
    generalize hx : t + -1 * 3600 - (t + -1 * 3600) % 3600 / 60 * 60 + 3540
      - (t + -1 * 3600 - (t + -1 * 3600) % 3600 / 60 * 60 + 3540) % 3600 / 60 * 60 + nv * 60 = x
    exact reset_all_max_notAfter 1 lo (by decide) hlo t (x - x % 60 + 60) _ (hal _ (by omega))
      (by omega) (by omega)

theorem find_prev_hour_notAfter (bits : List Nat) (lo : List Int) (res t : Int)
    (hlo : ResetsBelow 2 lo) :
    NotAfter t
      (find_prev bits CRON_MAX_HOURS (gmtime t).tm_hour (gmtime t) CRON_CF_HOUR_OF_DAY
        CRON_CF_DAY_OF_WEEK lo res).2.1 := by
  have hal : ∀ b, 3600 ∣ b → AlignedAt 2 b := fun b hb =>
    ⟨fun _ => by omega, fun _ => hb, fun h => absurd h (by decide),
      fun h => absurd h (by decide)⟩
  apply find_prev_calendar (NotAfter t) _ _ _ _ _ _ _ _
    (by rw [gmtime_hour]; omega) (by rw [gmtime_hour]; simp only [CRON_MAX_HOURS]; omega)
  · exact ⟨t, rfl, le_refl _⟩
  · intro nv _ h1
    rw [gmtime_hour] at h1
    simp only [set_field_hour, instant_status_snd]
    refine ⟨⟨_, rfl, by omega⟩, ?_⟩
    generalize hx : t - t % 86400 / 3600 * 3600 + nv * 3600 = x
    exact reset_all_max_notAfter 2 lo (by decide) hlo t (x - x % 3600 + 3600) _
      (hal _ (by omega)) (by omega) (by omega)
  · simp only [add_to_field_day_of_week, instant_status_snd]
    exact ⟨_, rfl, by omega⟩
  · simp only [add_to_field_day_of_week, instant_status_snd, reset_max_hour]
    exact ⟨_, rfl, by omega⟩
  · intro nv _ h1
    simp only [CRON_MAX_HOURS] at h1
    simp only [add_to_field_day_of_week, instant_status_snd, reset_max_hour, set_field_hour]
    refine ⟨⟨_, rfl, by omega⟩, ?_⟩
    generalize hx : t + -1 * 86400 - (t + -1 * 86400) % 86400 / 3600 * 3600 + 82800
      - (t + -1 * 86400 - (t + -1 * 86400) % 86400 / 3600 * 3600 + 82800) % 86400 / 3600 * 3600
      + nv * 3600 = x
    exact reset_all_max_notAfter 2 lo (by decide) hlo t (x - x % 3600 + 3600) _
      (hal _ (by omega)) (by omega) (by omega)

theorem find_prev_day_loop_succ (days_of_month days_of_week : List Nat) (resets : List Int)
    (res_out : Int) (n : Nat) (calendar : tm) (day_of_month day_of_week : Int) :
    find_prev_day_loop days_of_month days_of_week resets res_out (n + 1) calendar day_of_month
        day_of_week
      = if cron_get_bit days_of_month day_of_month = 0
            ∨ cron_get_bit days_of_week day_of_week = 0 then
          if (add_to_field calendar CRON_CF_DAY_OF_MONTH (-1)).1 ≠ 0 then
            (0, (add_to_field calendar CRON_CF_DAY_OF_MONTH (-1)).2, 1)
          else
            find_prev_day_loop days_of_month days_of_week resets res_out n
              (reset_all_max (add_to_field calendar CRON_CF_DAY_OF_MONTH (-1)).2 resets).2
              (add_to_field calendar CRON_CF_DAY_OF_MONTH (-1)).2.tm_mday
              (add_to_field calendar CRON_CF_DAY_OF_MONTH (-1)).2.tm_wday
        else (day_of_month, calendar, res_out) := by
  rfl

theorem find_prev_day_loop_notAfter (dom dow : List Nat) (lo : List Int) (res : Int) (n : Nat)
    (hlo : ResetsBelow 3 lo) (t d w : Int) :
    NotAfter t (find_prev_day_loop dom dow lo res n (gmtime t) d w).2.1 := by
  induction n generalizing t d w with
  | zero => exact ⟨t, rfl, le_refl _⟩
  | succ n ih =>
    rw [find_prev_day_loop_succ]
    split
    · simp only [add_to_field_day_of_month, instant_status_snd]
      split
      · exact ⟨_, rfl, by omega⟩
      · obtain ⟨u, hu, _, h1⟩ := reset_all_max_bounds 3
          (t + -1 * 86400 - (t + -1 * 86400) % 86400 + 86400) lo (by decide) hlo
          (alignedAt_day 3 _ (by decide) (by omega)) (t + -1 * 86400) (by omega)
        rw [hu]
        exact notAfter_trans (by omega) (ih u _ _)
    · exact ⟨t, rfl, le_refl _⟩

/-! ## The month step of the backward search -/

theorem prev_set_bit_loop_above (bits : List Nat) (n : Nat) (i v : Int)
    (h : prev_set_bit_loop bits n i = some v) (j : Int) (h1 : v < j) (h2 : j ≤ i) :
    cron_get_bit bits j = 0 := by
  induction n generalizing i with
  | zero => simp [prev_set_bit_loop] at h
  | succ n ih =>
    simp only [prev_set_bit_loop] at h
    split at h
    · simp only [Option.some.injEq] at h
      omega
    · rename_i hb
      by_cases hij : j = i
      · subst hij; simpa using hb
      · exact ih _ h (by omega)

theorem prev_set_bit_above (bits : List Nat) (from_index to_index v : Int)
    (h : prev_set_bit bits from_index to_index 0 = (v, 0)) (j : Int) (h1 : v < j)
    (h2 : j ≤ from_index) : cron_get_bit bits j = 0 := by
  unfold prev_set_bit at h
  cases hl : prev_set_bit_loop bits (from_index - to_index + 1).toNat from_index with
  | some w =>
    rw [hl] at h
    simp only [Prod.mk.injEq, and_true] at h
    subst h
    exact prev_set_bit_loop_above _ _ _ _ hl j h1 h2
  | none =>
    rw [hl] at h
    simp at h

theorem december (q : Int) : monthStart (12 * q + 12) = monthStart (12 * q + 11) + 31 := by
  have e1 : 12 * q + 12 = 12 * q + 10 + 2 := by ring
  have e2 : 12 * q + 11 = 12 * q + 9 + 2 := by ring
  rw [e1, e2, monthStart_eq _ _ (by decide) (by decide), monthStart_eq _ _ (by decide) (by decide)]
  omega

theorem month_shift_in_year (t m q : Int) (h1 : 12 * q ≤ m) (h2 : m ≤ 12 * q + 11) :
    month_shift t m < monthStart (12 * q + 12) * 86400 := by
  have hs := month_shift_lt t m
  by_cases hm : m = 12 * q + 11
  · subst hm
    rw [december]
    exact hs
  · have a1 := monthStart_step m
    have a2 := monthStart_step (m + 1)
    have a3 := monthStart_mono (show m + 1 + 1 ≤ 12 * q + 12 by omega)
    omega

theorem reset_all_max_month (lo : List Int) (hlo : ResetsBelow 5 lo) (x : Int) :
    ∃ u, (reset_all_max (gmtime x) lo).2 = gmtime u ∧ x ≤ u
      ∧ monthIndex (u / 86400) = monthIndex (x / 86400) := by
  obtain ⟨u, hu, h1, h2⟩ := reset_all_max_bounds 5 _ lo (by decide) hlo
    (alignedAt_month 5 (monthIndex (x / 86400) + 1)) x (lt_month_start (by omega))
  refine ⟨u, hu, h1, monthIndex_unique ?_ ?_⟩
  · have := (monthIndex_spec (x / 86400)).1
    omega
  · omega

theorem month_shift_index_le (t m : Int) : monthIndex (month_shift t m / 86400) ≤ m + 1 := by
  have hs := month_shift_lt t m
  have a1 := monthStart_step m
  have a2 := monthStart_step (m + 1)
  have := monthIndex_lt (z := month_shift t m / 86400) (n := m + 1 + 1) (by omega)
  omega

/-- Setting the month to `nv` and resetting the lower fields, from a calendar in the year that
starts with month index `12 * q`, stays in that year. -/
theorem set_month_reset_max (lo : List Int) (hlo : ResetsBelow 5 lo) (x nv q : Int)
    (hq : monthIndex (x / 86400) / 12 = q) (h0 : 0 ≤ nv) (h1 : nv ≤ 11) :
    ∃ u, (reset_all_max (set_field (gmtime x) CRON_CF_MONTH nv).2 lo).2 = gmtime u
      ∧ month_shift x (12 * q + nv) ≤ u
      ∧ monthIndex (u / 86400) = monthIndex (month_shift x (12 * q + nv) / 86400)
      ∧ monthIndex (u / 86400) < 12 * q + 12 := by
  have e : monthIndex (x / 86400) - monthIndex (x / 86400) % 12 + nv = 12 * q + nv := by omega
  simp only [set_field_month, instant_status_snd, e]
  obtain ⟨u, hu, a, b⟩ := reset_all_max_month lo hlo (month_shift x (12 * q + nv))
  refine ⟨u, hu, a, b, ?_⟩
  rw [b]
  exact monthIndex_lt (by
    have := month_shift_in_year x (12 * q + nv) q (by omega) (by omega)
    omega)

/-- The month step of `do_prev`, when it reports no error: the calendar either did not move
forward, or it moved inside a month that is not allowed while some month is. -/
theorem find_prev_month_spec (bits : List Nat) (lo : List Int) (t : Int)
    (hlo : ResetsBelow 5 lo)
    (hres : (find_prev bits CRON_MAX_MONTHS (gmtime t).tm_mon (gmtime t) CRON_CF_MONTH
      CRON_CF_YEAR lo 0).2.2 = 0) :
    ∃ u, (find_prev bits CRON_MAX_MONTHS (gmtime t).tm_mon (gmtime t) CRON_CF_MONTH
        CRON_CF_YEAR lo 0).2.1 = gmtime u
      ∧ ((find_prev bits CRON_MAX_MONTHS (gmtime t).tm_mon (gmtime t) CRON_CF_MONTH
            CRON_CF_YEAR lo 0).1 = (gmtime t).tm_mon →
          u ≤ t ∧ (cron_get_bit bits (gmtime u).tm_mon ≠ 0 ∨ MonthsEmpty bits))
      ∧ ((find_prev bits CRON_MAX_MONTHS (gmtime t).tm_mon (gmtime t) CRON_CF_MONTH
            CRON_CF_YEAR lo 0).1 ≠ (gmtime t).tm_mon →
          u ≤ t ∨ (monthIndex (u / 86400) = monthIndex (t / 86400)
            ∧ cron_get_bit bits (gmtime t).tm_mon = 0 ∧ ¬ MonthsEmpty bits)) := by
  have hm0 : 0 ≤ (gmtime t).tm_mon ∧ (gmtime t).tm_mon ≤ 11 := gmtime_mon_bounds t
  have hmon : (gmtime t).tm_mon = monthIndex (t / 86400) % 12 := gmtime_mon t
  have hyear : monthStart (12 * (monthIndex (t / 86400) / 12)) * 86400 ≤ t :=
    month_start_le (by omega)
  generalize hm : (gmtime t).tm_mon = m0 at hres hm0 hmon ⊢
  rcases prev_set_bit_cases bits m0 0 with ⟨v, hv, hv0, hvm, hbit⟩ | ⟨hv, hclear⟩
  · -- a month not after the current one is allowed
    have habove := prev_set_bit_above bits m0 0 v hv
    unfold find_prev at hres ⊢
    simp only [hv, ne_eq, not_true_eq_false, if_false] at hres ⊢
    unfold find_prev_set at hres ⊢
    by_cases hvm0 : v = m0
    · subst hvm0
      simp only [ne_eq, not_true_eq_false, or_self, if_false] at hres ⊢
      refine ⟨t, rfl, fun _ => ⟨le_refl _, Or.inl ?_⟩, fun h => h.elim⟩
      rw [hm]; exact hbit
    · simp only [ne_eq, not_true_eq_false, hvm0, not_false_eq_true, or_true, if_true]
        at hres ⊢
      obtain ⟨u, hu, a, b, c⟩ := set_month_reset_max lo hlo t v _ rfl hv0 (by omega)
      split at hres
      · simp at hres
      · split at hres
        · simp at hres
        · rename_i h1 h2
          simp only [h1, h2, if_false]
          refine ⟨u, hu, fun h => absurd h hvm0, fun _ => ?_⟩
          have hidx := month_shift_index_le t (12 * (monthIndex (t / 86400) / 12) + v)
          rw [← b] at hidx
          by_cases hsame : monthIndex (u / 86400) = monthIndex (t / 86400)
          · right
            refine ⟨hsame, habove m0 (by omega) (le_refl _), fun hempty => ?_⟩
            exact hbit (hempty v hv0 (by omega))
          · left
            have hlt : monthIndex (u / 86400) < monthIndex (t / 86400) := by omega
            have h3 := lt_month_start (t := u) (m := monthIndex (u / 86400) + 1) (by omega)
            have h4 := monthStart_mono
              (show monthIndex (u / 86400) + 1 ≤ monthIndex (t / 86400) by omega)
            have h5 := month_start_le (t := t) (m := monthIndex (t / 86400)) (le_refl _)
            omega
  · -- no month up to the current one is allowed: the year rolls under
    unfold find_prev at hres ⊢
    simp only [hv, ne_eq, one_ne_zero, not_false_eq_true, if_true] at hres ⊢
    simp only [add_to_field_year, instant_status_snd, reset_max_month] at hres ⊢
    -- the calendar one year back
    have hx1 := month_shift_in_year t (monthIndex (t / 86400) + 12 * -1)
      (monthIndex (t / 86400) / 12 - 1) (by omega) (by omega)
    generalize month_shift t (monthIndex (t / 86400) + 12 * -1) = x1 at hres hx1 ⊢
    have hn1 : monthIndex (x1 / 86400) < 12 * (monthIndex (t / 86400) / 12) :=
      monthIndex_lt (by
        have : 12 * (monthIndex (t / 86400) / 12 - 1) + 12 = 12 * (monthIndex (t / 86400) / 12) := by
          ring
        rw [this] at hx1
        omega)
    -- the calendar in December of that year
    have hx2 := month_shift_in_year x1
      (monthIndex (x1 / 86400) - monthIndex (x1 / 86400) % 12 + 11)
      (monthIndex (x1 / 86400) / 12) (by omega) (by omega)
    generalize month_shift x1 (monthIndex (x1 / 86400) - monthIndex (x1 / 86400) % 12 + 11) = x2
      at hres hx2 ⊢
    have hmono := monthStart_mono
      (show 12 * (monthIndex (x1 / 86400) / 12) + 12 ≤ 12 * (monthIndex (t / 86400) / 12) by omega)
    have hn2 : monthIndex (x2 / 86400) < 12 * (monthIndex (t / 86400) / 12) :=
      monthIndex_lt (by omega)
    have hx2t : x2 ≤ t := by omega
    -- whatever month is set then, the calendar stays before the year of `t`
    have hfinal : ∀ nv, 0 ≤ nv → nv ≤ 11 →
        ∃ u, (reset_all_max (set_field (gmtime x2) CRON_CF_MONTH nv).2 lo).2 = gmtime u
          ∧ u ≤ t := by
      intro nv a0 a1
      obtain ⟨u, hu, _, _, c⟩ := set_month_reset_max lo hlo x2 nv _ rfl a0 a1
      refine ⟨u, hu, ?_⟩
      have h3 := lt_month_start (t := u) (m := monthIndex (u / 86400) + 1) (by omega)
      have h4 := monthStart_mono
        (show monthIndex (u / 86400) + 1 ≤ 12 * (monthIndex (t / 86400) / 12) by omega)
      omega
    split at hres
    · simp at hres
    · split at hres
      · simp at hres
      · rename_i h1 h2
        simp only [h1, h2, if_false]
        rcases prev_set_bit_cases bits (CRON_MAX_MONTHS - 1) m0 with
          ⟨v, hv2, hv20, hv2m, hbit2⟩ | ⟨hv2, hclear2⟩
        · simp only [CRON_MAX_MONTHS] at hv2m
          have hvne : v ≠ m0 := by
            intro h
            subst h
            exact hbit2 (hclear v hm0.1 (le_refl _))
          rw [hv2] at hres ⊢
          unfold find_prev_set at hres ⊢
          simp only [ne_eq, not_true_eq_false, hvne, not_false_eq_true, or_true, if_true]
            at hres ⊢
          obtain ⟨u, hu, hut⟩ := hfinal v (by omega) (by omega)
          split at hres
          · simp at hres
          · split at hres
            · simp at hres
            · rename_i h3 h4
              simp only [h3, h4, if_false]
              exact ⟨u, hu, fun h => absurd h hvne, fun _ => Or.inl hut⟩
        · simp only [CRON_MAX_MONTHS] at hclear2
          have hempty : MonthsEmpty bits := by
            intro j j0 j1
            by_cases hj : j ≤ m0
            · exact hclear j j0 hj
            · exact hclear2 j (by omega) (by omega)
          rw [hv2] at hres ⊢
          unfold find_prev_set at hres ⊢
          simp only [ne_eq, one_ne_zero, not_false_eq_true, true_or, if_true] at hres ⊢
          obtain ⟨u, hu, hut⟩ := hfinal 0 (le_refl _) (by decide)
          split at hres
          · simp at hres
          · split at hres
            · simp at hres
            · rename_i h3 h4
              simp only [h3, h4, if_false]
              exact ⟨u, hu, fun _ => ⟨hut, Or.inr hempty⟩, fun _ => Or.inl hut⟩

/-! ## A successful backward search never ends after its start -/

theorem do_prev_month_backward (restart : tm → Option (Int × tm)) (e : cron_expr)
    (t dot : Int) (lo : List Int) (hr : BackwardRestart e restart) (hlo : ResetsBelow 5 lo)
    (r : Int × tm) (h : do_prev_month restart e (gmtime t) dot lo = some r) (h0 : r.1 = 0) :
    ∃ u, r.2 = gmtime u ∧ u ≤ t ∧ Settled e (gmtime u) := by
  have hspec := find_prev_month_spec e.months lo t hlo
  unfold do_prev_month at h
  simp only [] at h
  generalize find_prev e.months CRON_MAX_MONTHS (gmtime t).tm_mon (gmtime t) CRON_CF_MONTH
    CRON_CF_YEAR lo 0 = rr at h hspec
  split at h
  · rename_i hne
    simp only [Option.some.injEq] at h
    subst h
    exact absurd h0 hne
  · rename_i hres
    obtain ⟨u, hu, hsame, hdiff⟩ := hspec (by simpa using hres)
    split at h
    · rename_i hmne
      split at h
      · simp only [Option.some.injEq] at h
        subst h
        simp at h0
      · rw [hu] at h
        obtain ⟨w, hw, hwu, hset⟩ := hr u r h h0
        refine ⟨w, hw, ?_, hset⟩
        rcases hdiff (fun hh => hmne hh.symm) with hle | ⟨hidx, hbit, hne⟩
        · omega
        · have hw_bit : cron_get_bit e.months (gmtime w).tm_mon ≠ 0 :=
            hset.resolve_right hne
          have hmono := monthIndex_mono (show w / 86400 ≤ u / 86400 by omega)
          have hneq : monthIndex (w / 86400) ≠ monthIndex (t / 86400) := by
            intro heq
            rw [gmtime_mon, heq, ← gmtime_mon] at hw_bit
            exact hw_bit hbit
          have h3 := lt_month_start (t := w) (m := monthIndex (w / 86400) + 1) (by omega)
          have h4 := monthStart_mono
            (show monthIndex (w / 86400) + 1 ≤ monthIndex (t / 86400) by omega)
          have h5 := month_start_le (t := t) (m := monthIndex (t / 86400)) (le_refl _)
          omega
    · rename_i hmeq
      simp only [Option.some.injEq] at h
      subst h
      have := hsame (by simpa using (Eq.symm (not_not.mp hmeq)))
      exact ⟨u, hu, this.1, this.2⟩

theorem do_prev_day_backward (restart : tm → Option (Int × tm)) (e : cron_expr)
    (t dot : Int) (lo : List Int) (hr : BackwardRestart e restart) (hlo : ResetsBelow 3 lo)
    (r : Int × tm) (h : do_prev_day restart e (gmtime t) dot lo = some r) (h0 : r.1 = 0) :
    ∃ u, r.2 = gmtime u ∧ u ≤ t ∧ Settled e (gmtime u) := by
  have hP := find_prev_day_loop_notAfter e.days_of_month e.days_of_week lo 0 366 hlo t
    (gmtime t).tm_mday (gmtime t).tm_wday
  have hlo5 : ResetsBelow 5 lo := resetsBelow_mono hlo (by decide)
  unfold do_prev_day find_prev_day at h
  simp only [] at h
  generalize find_prev_day_loop e.days_of_month e.days_of_week lo 0 366 (gmtime t)
    (gmtime t).tm_mday (gmtime t).tm_wday = rr at h hP
  obtain ⟨u, hu, htu⟩ := hP
  split at h
  · rename_i hne
    simp only [Option.some.injEq] at h
    subst h
    exact absurd h0 hne
  · split at h
    · rw [hu] at h
      obtain ⟨w, hw, hwu, hs⟩ := do_prev_month_backward restart e u dot _ hr
        (resetsBelow_push hlo5 (by decide)) r h h0
      exact ⟨w, hw, by omega, hs⟩
    · rw [hu] at h
      obtain ⟨y, hy, hcase⟩ := after_restart_some _ _ _ h
      rcases hcase with ⟨hy0, rfl⟩ | ⟨hy0, hk⟩
      · exact absurd h0 hy0
      · obtain ⟨w, hw, hwu, _⟩ := hr u y hy hy0
        rw [hw] at hk
        obtain ⟨z, hz, hzw, hs⟩ := do_prev_month_backward restart e w dot _ hr hlo5 r hk h0
        exact ⟨z, hz, by omega, hs⟩

theorem do_prev_hour_backward (restart : tm → Option (Int × tm)) (e : cron_expr)
    (t dot : Int) (lo : List Int) (hr : BackwardRestart e restart) (hlo : ResetsBelow 2 lo)
    (r : Int × tm) (h : do_prev_hour restart e (gmtime t) dot lo = some r) (h0 : r.1 = 0) :
    ∃ u, r.2 = gmtime u ∧ u ≤ t ∧ Settled e (gmtime u) := by
  have hP := find_prev_hour_notAfter e.hours lo 0 t hlo
  have hlo3 : ResetsBelow 3 lo := resetsBelow_mono hlo (by decide)
  unfold do_prev_hour at h
  simp only [] at h
  generalize find_prev e.hours CRON_MAX_HOURS (gmtime t).tm_hour (gmtime t) CRON_CF_HOUR_OF_DAY
    CRON_CF_DAY_OF_WEEK lo 0 = rr at h hP
  obtain ⟨u, hu, htu⟩ := hP
  split at h
  · rename_i hne
    simp only [Option.some.injEq] at h
    subst h
    exact absurd h0 hne
  · split at h
    · rw [hu] at h
      obtain ⟨w, hw, hwu, hs⟩ := do_prev_day_backward restart e u dot _ hr
        (resetsBelow_push hlo3 (by decide)) r h h0
      exact ⟨w, hw, by omega, hs⟩
    · rw [hu] at h
      obtain ⟨y, hy, hcase⟩ := after_restart_some _ _ _ h
      rcases hcase with ⟨hy0, rfl⟩ | ⟨hy0, hk⟩
      · exact absurd h0 hy0
      · obtain ⟨w, hw, hwu, _⟩ := hr u y hy hy0
        rw [hw] at hk
        obtain ⟨z, hz, hzw, hs⟩ := do_prev_day_backward restart e w dot _ hr hlo3 r hk h0
        exact ⟨z, hz, by omega, hs⟩

theorem do_prev_minute_backward (restart : tm → Option (Int × tm)) (e : cron_expr)
    (t dot : Int) (lo : List Int) (hr : BackwardRestart e restart) (hlo : ResetsBelow 1 lo)
    (r : Int × tm) (h : do_prev_minute restart e (gmtime t) dot lo = some r) (h0 : r.1 = 0) :
    ∃ u, r.2 = gmtime u ∧ u ≤ t ∧ Settled e (gmtime u) := by
  have hP := find_prev_minute_notAfter e.minutes lo 0 t hlo
  have hlo2 : ResetsBelow 2 lo := resetsBelow_mono hlo (by decide)
  unfold do_prev_minute at h
  simp only [] at h
  generalize find_prev e.minutes CRON_MAX_MINUTES (gmtime t).tm_min (gmtime t) CRON_CF_MINUTE
    CRON_CF_HOUR_OF_DAY lo 0 = rr at h hP
  obtain ⟨u, hu, htu⟩ := hP
  split at h
  · rename_i hne
    simp only [Option.some.injEq] at h
    subst h
    exact absurd h0 hne
  · split at h
    · rw [hu] at h
      obtain ⟨w, hw, hwu, hs⟩ := do_prev_hour_backward restart e u dot _ hr
        (resetsBelow_push hlo2 (by decide)) r h h0
      exact ⟨w, hw, by omega, hs⟩
    · rw [hu] at h
      obtain ⟨y, hy, hcase⟩ := after_restart_some _ _ _ h
      rcases hcase with ⟨hy0, rfl⟩ | ⟨hy0, hk⟩
      · exact absurd h0 hy0
      · obtain ⟨w, hw, hwu, _⟩ := hr u y hy hy0
        rw [hw] at hk
        obtain ⟨z, hz, hzw, hs⟩ := do_prev_hour_backward restart e w dot _ hr hlo2 r hk h0
        exact ⟨z, hz, by omega, hs⟩

theorem do_prev_body_backward (restart : tm → Option (Int × tm)) (e : cron_expr)
    (t dot : Int) (hr : BackwardRestart e restart)
    (r : Int × tm) (h : do_prev_body restart e (gmtime t) dot = some r) (h0 : r.1 = 0) :
    ∃ u, r.2 = gmtime u ∧ u ≤ t ∧ Settled e (gmtime u) := by
  have hP := find_prev_second_notAfter e.seconds (List.replicate CRON_CF_ARR_LEN (-1)) 0 t
    (resetsBelow_none 0)
  unfold do_prev_body at h
  simp only [] at h
  generalize find_prev e.seconds CRON_MAX_SECONDS (gmtime t).tm_sec (gmtime t) CRON_CF_SECOND
    CRON_CF_MINUTE (List.replicate CRON_CF_ARR_LEN (-1)) 0 = rr at h hP
  obtain ⟨u, hu, htu⟩ := hP
  split at h
  · rename_i hne
    simp only [Option.some.injEq] at h
    subst h
    exact absurd h0 hne
  · split at h
    · rw [hu] at h
      obtain ⟨w, hw, hwu, hs⟩ := do_prev_minute_backward restart e u dot _ hr
        (resetsBelow_push (resetsBelow_none 1) (by decide)) r h h0
      exact ⟨w, hw, by omega, hs⟩
    · rw [hu] at h
      obtain ⟨w, hw, hwu, hs⟩ := do_prev_minute_backward restart e u dot _ hr
        (resetsBelow_none 1) r h h0
      exact ⟨w, hw, by omega, hs⟩

/-- Whatever the fuel, a `do_prev` that succeeds leaves a calendar that is not after the one it
started from. -/
theorem do_prev_backward (fuel : Nat) (e : cron_expr) (dot : Int) :
    BackwardRestart e (fun c => do_prev fuel e c dot) := by
  induction fuel with
  | zero => intro t r h; simp [do_prev] at h
  | succ n ih =>
    intro t r h h0
    exact do_prev_body_backward _ e t dot ih r h h0

/-- An instant `cron_prev` returns, other than the sentinel, is strictly before the start. -/
theorem cron_prev_lt (fuel : Nat) (e : cron_expr) (t r : Int)
    (h : cron_prev fuel e t = some r) (hr : r ≠ CRON_INVALID_INSTANT) : r < t := by
  unfold cron_prev at h
  simp only [cron_time, cron_mktime_gmtime] at h
  split at h
  · simp only [Option.some.injEq] at h
    exact absurd h.symm hr
  · cases hd : do_prev fuel e (gmtime t) (gmtime t).tm_year with
    | none => rw [hd] at h; simp at h
    | some x =>
      rw [hd] at h
      simp only [] at h
      split at h
      · simp only [Option.some.injEq] at h
        exact absurd h.symm hr
      · rename_i hx0
        obtain ⟨u, hu, htu, _⟩ := do_prev_backward fuel e _ t x hd (by simpa using hx0)
        unfold cron_prev_finish at h
        rw [hu] at h
        simp only [cron_mktime_gmtime] at h
        split at h
        · simp only [Option.some.injEq] at h
          exact absurd h.symm hr
        · split at h
          · rw [add_to_field_second] at h
            simp only [instant_status_snd] at h
            split at h
            · simp only [Option.some.injEq] at h
              exact absurd h.symm hr
            · cases hd2 : do_prev fuel e (gmtime (u + -1)) (gmtime (u + -1)).tm_year with
              | none => rw [hd2] at h; simp at h
              | some y =>
                rw [hd2] at h
                simp only [] at h
                split at h
                · simp only [Option.some.injEq] at h
                  exact absurd h.symm hr
                · rename_i hy0
                  obtain ⟨w, hw, huw, _⟩ :=
                    do_prev_backward fuel e _ (u + -1) y hd2 (by simpa using hy0)
                  rw [hw] at h
                  simp only [cron_mktime_gmtime, Option.some.injEq] at h
                  omega
          · rename_i hne
            simp only [Option.some.injEq] at h
            omega

/-! ## Strictness of `cron_next` and `cron_prev` -/

/-- C3: for every successfully parsed expression and every instant `t`, an instant that
`cron_next` returns, other than the sentinel, is strictly after `t`, and an instant that
`cron_prev` returns, other than the sentinel, is strictly before `t`; hence every sequence
obtained by iterating `cron_next` (each step returning an instant other than the sentinel) is
strictly increasing. -/
theorem cron_next_prev_strict (expression : List Char) (target : cron_expr)
    (hparse : (cron_parse_expr expression target).2 = none) (t : Int) :
    (∀ fuel r, cron_next fuel (cron_parse_expr expression target).1 t = some r →
        r ≠ CRON_INVALID_INSTANT → t < r)
      ∧ (∀ fuel r, cron_prev fuel (cron_parse_expr expression target).1 t = some r →
        r ≠ CRON_INVALID_INSTANT → r < t)
      ∧ (∀ (s : Nat → Int) (fuel : Nat → Nat), s 0 = t →
        (∀ k, cron_next (fuel k) (cron_parse_expr expression target).1 (s k) = some (s (k + 1))
          ∧ s (k + 1) ≠ CRON_INVALID_INSTANT) →
        StrictMono s) := by
  have _ := hparse
  refine ⟨fun fuel r h hr => cron_next_gt fuel _ t r h hr,
    fun fuel r h hr => cron_prev_lt fuel _ t r h hr, fun s fuel _ hs => ?_⟩
  exact strictMono_nat_of_lt_succ (fun k => cron_next_gt (fuel k) _ (s k) (s (k + 1)) (hs k).1
    (hs k).2)

theorem cron_next_prev_strict_witness :
    (cron_parse_expr "0 0 12 * * MON-FRI".toList cron_expr_zero).2 = none
      ∧ cron_next 4 (cron_parse_expr "0 0 12 * * MON-FRI".toList cron_expr_zero).1 1578128400
          = some 1578312000
      ∧ (1578128400 : Int) < 1578312000
      ∧ cron_prev 8 (cron_parse_expr "0 0 12 * * MON-FRI".toList cron_expr_zero).1 1578312000
          = some 1578052800
      ∧ (1578052800 : Int) < 1578312000 :=
  ⟨by decide!, by decide!,
    (cron_next_prev_strict "0 0 12 * * MON-FRI".toList cron_expr_zero (by decide!)
      1578128400).1 4 1578312000 (by decide!) (by decide),
    by decide!,
    (cron_next_prev_strict "0 0 12 * * MON-FRI".toList cron_expr_zero (by decide!)
      1578312000).2.1 8 1578052800 (by decide!) (by decide)⟩

/-! ## Round trip of `cron_next` and `cron_prev` -/

theorem feb_31_midnight (restart : tm → Option (Int × tm)) :
    do_prev_body restart (cron_parse_expr "0 0 0 31 2 *".toList cron_expr_zero).1
        (gmtime 1585612800) 120
      = restart (gmtime 1585699199) := by
  rfl

theorem feb_31_last_second (restart : tm → Option (Int × tm))
    (h : restart (gmtime 1585695600) = none) :
    do_prev_body restart (cron_parse_expr "0 0 0 31 2 *".toList cron_expr_zero).1
        (gmtime 1585699199) 120
      = none := by
  have e : do_prev_body restart (cron_parse_expr "0 0 0 31 2 *".toList cron_expr_zero).1
      (gmtime 1585699199) 120
      = after_restart (restart (gmtime 1585695600))
          (fun c => do_prev_hour restart (cron_parse_expr "0 0 0 31 2 *".toList cron_expr_zero).1
            c 120 (List.replicate CRON_CF_ARR_LEN (-1))) := by
    rfl
  rw [e, h]
  rfl

theorem feb_31_last_hour (restart : tm → Option (Int × tm))
    (h : restart (gmtime 1585616399) = none) :
    do_prev_body restart (cron_parse_expr "0 0 0 31 2 *".toList cron_expr_zero).1
        (gmtime 1585695600) 120
      = none := by
  have e : do_prev_body restart (cron_parse_expr "0 0 0 31 2 *".toList cron_expr_zero).1
      (gmtime 1585695600) 120
      = after_restart (restart (gmtime 1585616399))
          (fun c => do_prev_day restart (cron_parse_expr "0 0 0 31 2 *".toList cron_expr_zero).1
            c 120 [0, 1, -1, -1, -1, -1, -1]) := by
    rfl
  rw [e, h]
  rfl

theorem feb_31_first_hour (restart : tm → Option (Int × tm))
    (h : restart (gmtime 1585612800) = none) :
    do_prev_body restart (cron_parse_expr "0 0 0 31 2 *".toList cron_expr_zero).1
        (gmtime 1585616399) 120
      = none := by
  have e : do_prev_body restart (cron_parse_expr "0 0 0 31 2 *".toList cron_expr_zero).1
      (gmtime 1585616399) 120
      = after_restart (restart (gmtime 1585612800))
          (fun c => do_prev_hour restart (cron_parse_expr "0 0 0 31 2 *".toList cron_expr_zero).1
            c 120 (List.replicate CRON_CF_ARR_LEN (-1))) := by
    rfl
  rw [e, h]
  rfl

/-- From 2020-03-31 00:00:00 the recursion of `do_prev` passes through 23:59:59, 23:00:00 and
00:59:59 of the same day and comes back to 00:00:00: no amount of fuel makes it return. -/
theorem feb_31_cycle (n : Nat) :
    do_prev n (cron_parse_expr "0 0 0 31 2 *".toList cron_expr_zero).1 (gmtime 1585612800) 120
        = none
      ∧ do_prev n (cron_parse_expr "0 0 0 31 2 *".toList cron_expr_zero).1 (gmtime 1585699199)
          120 = none
      ∧ do_prev n (cron_parse_expr "0 0 0 31 2 *".toList cron_expr_zero).1 (gmtime 1585695600)
          120 = none
      ∧ do_prev n (cron_parse_expr "0 0 0 31 2 *".toList cron_expr_zero).1 (gmtime 1585616399)
          120 = none := by
  induction n with
  | zero => exact ⟨rfl, rfl, rfl, rfl⟩
  | succ n ih =>
    obtain ⟨a, b, c, d⟩ := ih
    refine ⟨?_, ?_, ?_, ?_⟩
    · show do_prev_body _ _ _ _ = none
      rw [feb_31_midnight]
      exact b
    · show do_prev_body _ _ _ _ = none
      exact feb_31_last_second _ c
    · show do_prev_body _ _ _ _ = none
      exact feb_31_last_hour _ d
    · show do_prev_body _ _ _ _ = none
      exact feb_31_first_hour _ a

/-! ## Field counting in `split_str` -/

theorem pieces_between_ne_nil (del : Char) (s : List Char) :
    ∃ p ps, pieces_between del s = p :: ps := by
  induction s with
  | nil => exact ⟨[], [], rfl⟩
  | cons c cs ih =>
    obtain ⟨p, ps, h⟩ := ih
    unfold pieces_between
    split
    · exact ⟨[], _, rfl⟩
    · rw [h]
      exact ⟨c :: p, ps, rfl⟩

theorem delimited_fields_eq (del : Char) (s : List Char) :
    delimited_fields del s
      = ((pieces_between del s).filter nonblank).map (fun p => p.filter (fun c => !isspace c)) := by
  unfold delimited_fields
  rw [List.filter_map]
  rfl

/-- The counting loop counts the pieces between delimiters that have a character other than
whitespace; `accum` stands for the characters of the first piece met before. -/
theorem split_count_eq (del : Char) (s : List Char) (accum len : Nat) (p : List Char)
    (ps : List (List Char)) (h : pieces_between del s = p :: ps) :
    split_count del s accum len
      = len + (if accum > 0 ∨ nonblank p = true then 1 else 0) + (ps.filter nonblank).length := by
  induction s generalizing accum len p ps with
  | nil =>
    simp only [pieces_between, List.cons.injEq] at h
    obtain ⟨rfl, rfl⟩ := h
    have hb : nonblank [] = false := rfl
    simp only [split_count, hb, Bool.false_eq_true, or_false, List.filter_nil, List.length_nil]
    split <;> omega
  | cons c cs ih =>
    obtain ⟨q, qs, hq⟩ := pieces_between_ne_nil del cs
    by_cases hc : c = del
    · have hp : pieces_between del (c :: cs) = [] :: q :: qs := by
        simp [pieces_between, hc, hq]
      rw [hp] at h
      simp only [List.cons.injEq] at h
      obtain ⟨rfl, rfl⟩ := h
      have hb : nonblank [] = false := rfl
      have hs : split_count del (c :: cs) accum len
          = if accum > 0 then split_count del cs 0 (len + 1) else split_count del cs accum len := by
        simp [split_count, hc]
      rw [hs, hb, List.filter_cons]
      by_cases ha : accum > 0
      · rw [if_pos ha, ih 0 (len + 1) q qs hq]
        by_cases hn : nonblank q = true <;> simp [hn, ha]
        omega
      · have ha0 : accum = 0 := by omega
        subst ha0
        rw [if_neg ha, ih 0 len q qs hq]
        by_cases hn : nonblank q = true <;> simp [hn]
        omega
    · have hc2 : ¬ del = c := fun h => hc h.symm
      have hp : pieces_between del (c :: cs) = (c :: q) :: qs := by
        simp [pieces_between, hc, hq]
      rw [hp] at h
      simp only [List.cons.injEq] at h
      obtain ⟨rfl, rfl⟩ := h
      by_cases hsp : isspace c = true
      · have hs : split_count del (c :: cs) accum len = split_count del cs accum len := by
          simp [split_count, hc2, hsp]
        have hb : nonblank (c :: q) = nonblank q := by
          simp [nonblank, List.filter_cons, hsp]
        rw [hs, hb, ih accum len q qs hq]
      · have hs : split_count del (c :: cs) accum len = split_count del cs (accum + 1) len := by
          simp [split_count, hc2, hsp]
        have hb : nonblank (c :: q) = true := by
          simp [nonblank, List.filter_cons, hsp]
        rw [hs, hb, ih (accum + 1) len q qs hq]
        simp

theorem split_count_fields (del : Char) (s : List Char) :
    split_count del s 0 0 = (delimited_fields del s).length := by
  obtain ⟨p, ps, h⟩ := pieces_between_ne_nil del s
  rw [split_count_eq del s 0 0 p ps h, delimited_fields_eq, h, List.length_map, List.filter_cons]
  by_cases hn : nonblank p = true <;> simp [hn]
  omega

theorem split_count_add (del : Char) (s : List Char) (accum len : Nat) :
    split_count del s accum len = split_count del s accum 0 + len := by
  obtain ⟨p, ps, h⟩ := pieces_between_ne_nil del s
  rw [split_count_eq del s accum len p ps h, split_count_eq del s accum 0 p ps h]
  omega

theorem split_count_pos (del : Char) (s : List Char) (accum len : Nat) (h : accum > 0) :
    split_count del s accum len > 0 := by
  obtain ⟨p, ps, hp⟩ := pieces_between_ne_nil del s
  rw [split_count_eq del s accum len p ps hp]
  simp [h]

/-- The copying loop never leaves through `return_error`: it stores as many pieces as the
counting loop counted. -/
theorem split_fill_some (del : Char) (len : Nat) (s buf : List Char) (res : List (List Char))
    (h : res.length + split_count del s buf.length 0 = len) :
    ∃ out, split_fill del len s buf res = some out := by
  induction s generalizing buf res with
  | nil =>
    unfold split_fill
    unfold split_count at h
    split
    · rename_i hb
      rw [if_pos hb] at h
      rw [if_neg (by omega)]
      exact ⟨_, rfl⟩
    · exact ⟨_, rfl⟩
  | cons c cs ih =>
    unfold split_fill
    unfold split_count at h
    by_cases hc : del = c
    · rw [if_pos hc] at h ⊢
      by_cases hb : buf.length > 0
      · rw [if_pos hb] at h ⊢
        rw [split_count_add] at h
        rw [if_neg (by omega)]
        exact ih [] (res ++ [buf]) (by simp; omega)
      · rw [if_neg hb] at h ⊢
        exact ih buf res h
    · rw [if_neg hc] at h ⊢
      by_cases hsp : (!isspace c) = true
      · rw [if_pos hsp] at h ⊢
        exact ih (buf ++ [c]) res (by simpa using h)
      · rw [if_neg hsp] at h ⊢
        exact ih buf res h

/-- The length `split_str` reports is the number of fields, unless the text has 256 characters
or more or no field at all. -/
theorem split_str_len (s : List Char) (del : Char) :
    (split_str s del 0).2
      = if s.length ≥ CRON_MAX_STR_LEN_TO_SPLIT then 0 else (delimited_fields del s).length := by
  unfold split_str
  split
  · rfl
  · simp only []
    rw [split_count_fields]
    split
    · rename_i h0
      simp [h0]
    · obtain ⟨out, hout⟩ := split_fill_some del (delimited_fields del s).length s [] []
        (by simp [split_count_fields])
      rw [hout]

/-! ## Field count and the target of a rejected parse -/

/-- C10 (the claim fails as stated): the text `0 0 0 1 1<TAB>2 *` splits on whitespace into seven
fields, yet it parses successfully: the tab does not separate fields, it is dropped, and the month
field reads `12`. -/
theorem cron_parse_expr_accepts_seven_words :
    (whitespace_fields "0 0 0 1 1\t2 *".toList).length = 7
      ∧ (cron_parse_expr "0 0 0 1 1\t2 *".toList cron_expr_zero).2 = none := by
  decide!

/-- C10 (amended): a text parses successfully only if the space character alone separates it
into exactly six fields, a field being a piece between spaces that holds a character other than
whitespace; every text with another number of such fields is rejected with an error. -/
theorem cron_parse_expr_field_count (expression : List Char) (target : cron_expr) :
    ((delimited_fields ' ' expression).length ≠ 6 →
        (cron_parse_expr expression target).2 ≠ none)
      ∧ ((cron_parse_expr expression target).2 = none →
        (delimited_fields ' ' expression).length = 6) := by
  have key : (delimited_fields ' ' expression).length ≠ 6 →
      (cron_parse_expr expression target).2 ≠ none := by
    intro h
    have hlen : (split_str expression ' ' 0).2 ≠ 6 := by
      rw [split_str_len]
      split
      · decide
      · exact h
    simp [cron_parse_expr, hlen]
  exact ⟨key, fun h => by_contra (fun hne => key hne h)⟩

theorem cron_parse_expr_field_count_witness :
    (delimited_fields ' ' "* * * * *".toList).length ≠ 6
      ∧ (cron_parse_expr "* * * * *".toList cron_expr_zero).2 ≠ none
      ∧ (cron_parse_expr "* * * * * *".toList cron_expr_zero).2 = none
      ∧ (delimited_fields ' ' "* * * * * *".toList).length = 6 :=
  ⟨by decide, (cron_parse_expr_field_count "* * * * *".toList cron_expr_zero).1 (by decide),
    by decide!,
    (cron_parse_expr_field_count "* * * * * *".toList cron_expr_zero).2 (by decide!)⟩

/-- C9 (the claim fails as stated): `* * * * * 8` is rejected (day of week out of range), and the
target, all zero before the call, holds the sets of the first five fields after it. -/
theorem cron_parse_expr_rejected_changes_target :
    (cron_parse_expr "* * * * * 8".toList cron_expr_zero).2 ≠ none
      ∧ (cron_parse_expr "* * * * * 8".toList cron_expr_zero).1 ≠ cron_expr_zero := by
  decide!

/-- C9 (amended): when an expression is rejected for its number of fields (or for its length of
256 characters or more), the target is left exactly as it was before the call; when it is
rejected for another reason, the target is overwritten: whatever it held before, it is zeroed and
then holds the sets of the fields parsed before the failing one. -/
theorem cron_parse_expr_rejected_target (expression : List Char) (target : cron_expr)
    (hrej : (cron_parse_expr expression target).2 ≠ none) :
    ((expression.length ≥ 256 ∨ (delimited_fields ' ' expression).length ≠ 6) →
        (cron_parse_expr expression target).1 = target)
      ∧ ((expression.length < 256 ∧ (delimited_fields ' ' expression).length = 6) →
        ∀ target2 : cron_expr,
          cron_parse_expr expression target2 = cron_parse_expr expression target
            ∧ (cron_parse_expr expression target).1
              = (cron_parse_fields ((split_str expression ' ' 0).1.getD [])).1) := by
  have _ := hrej
  have hlen := split_str_len expression ' '
  constructor
  · intro h
    have hne : (split_str expression ' ' 0).2 ≠ 6 := by
      rw [hlen]
      split
      · decide
      · rcases h with h | h
        · rename_i hlt
          exact absurd h hlt
        · exact h
    simp [cron_parse_expr, hne]
  · rintro ⟨h1, h2⟩ target2
    have h6 : (split_str expression ' ' 0).2 = 6 := by
      rw [hlen, if_neg (by simp only [CRON_MAX_STR_LEN_TO_SPLIT]; omega)]
      exact h2
    rw [cron_parse_expr_six _ _ h6, cron_parse_expr_six _ _ h6]
    exact ⟨rfl, rfl⟩

theorem cron_parse_expr_rejected_target_witness :
    (cron_parse_expr "* * * * *".toList weekday_noon).2 ≠ none
      ∧ (cron_parse_expr "* * * * *".toList weekday_noon).1 = weekday_noon
      ∧ (cron_parse_expr "* * * * * 8".toList weekday_noon).2 ≠ none
      ∧ cron_parse_expr "* * * * * 8".toList cron_expr_zero
          = cron_parse_expr "* * * * * 8".toList weekday_noon :=
  ⟨by decide!,
    (cron_parse_expr_rejected_target "* * * * *".toList weekday_noon (by decide!)).1
      (Or.inr (by decide)),
    by decide!,
    ((cron_parse_expr_rejected_target "* * * * * 8".toList weekday_noon (by decide!)).2
      ⟨by decide, by decide⟩ cron_expr_zero).1⟩

/-! ## More fuel does not change a result -/

theorem after_restart_mono (x1 x2 : Option (Int × tm)) (k1 k2 : tm → Option (Int × tm))
    (r : Int × tm) (hx : ∀ y, x1 = some y → x2 = some y)
    (hk : ∀ c, k1 c = some r → k2 c = some r) (h : after_restart x1 k1 = some r) :
    after_restart x2 k2 = some r := by
  obtain ⟨y, hy, hcase⟩ := after_restart_some _ _ _ h
  rw [hx y hy]
  unfold after_restart
  simp only []
  rcases hcase with ⟨h1, rfl⟩ | ⟨h1, h2⟩
  · rw [if_pos h1]
  · rw [if_neg (by simpa using h1)]
    exact hk _ h2

theorem do_next_month_mono (r1 r2 : tm → Option (Int × tm)) (hr : RestartLe r1 r2)
    (e : cron_expr) (c : tm) (dot : Int) (lo : List Int) (r : Int × tm)
    (h : do_next_month r1 e c dot lo = some r) : do_next_month r2 e c dot lo = some r := by
  unfold do_next_month at h ⊢
  simp only [] at h ⊢
  split
  · rename_i h1; rw [if_pos h1] at h; exact h
  · rename_i h1
    rw [if_neg h1] at h
    split
    · rename_i h2
      rw [if_pos h2] at h
      split
      · rename_i h3; rw [if_pos h3] at h; exact h
      · rename_i h3; rw [if_neg h3] at h; exact hr _ _ h
    · rename_i h2; rw [if_neg h2] at h; exact h

theorem do_next_day_mono (r1 r2 : tm → Option (Int × tm)) (hr : RestartLe r1 r2)
    (e : cron_expr) (c : tm) (dot : Int) (lo : List Int) (r : Int × tm)
    (h : do_next_day r1 e c dot lo = some r) : do_next_day r2 e c dot lo = some r := by
  unfold do_next_day at h ⊢
  simp only [] at h ⊢
  split
  · rename_i h1; rw [if_pos h1] at h; exact h
  · rename_i h1
    rw [if_neg h1] at h
    split
    · rename_i h2
      rw [if_pos h2] at h
      exact do_next_month_mono r1 r2 hr _ _ _ _ _ h
    · rename_i h2
      rw [if_neg h2] at h
      exact after_restart_mono _ _ _ _ _ (fun y hy => hr _ _ hy)
        (fun c hc => do_next_month_mono r1 r2 hr _ _ _ _ _ hc) h

theorem do_next_hour_mono (r1 r2 : tm → Option (Int × tm)) (hr : RestartLe r1 r2)
    (e : cron_expr) (c : tm) (dot : Int) (lo : List Int) (r : Int × tm)
    (h : do_next_hour r1 e c dot lo = some r) : do_next_hour r2 e c dot lo = some r := by
  unfold do_next_hour at h ⊢
  simp only [] at h ⊢
  split
  · rename_i h1; rw [if_pos h1] at h; exact h
  · rename_i h1
    rw [if_neg h1] at h
    split
    · rename_i h2
      rw [if_pos h2] at h
      exact do_next_day_mono r1 r2 hr _ _ _ _ _ h
    · rename_i h2
      rw [if_neg h2] at h
      exact after_restart_mono _ _ _ _ _ (fun y hy => hr _ _ hy)
        (fun c hc => do_next_day_mono r1 r2 hr _ _ _ _ _ hc) h

theorem do_next_minute_mono (r1 r2 : tm → Option (Int × tm)) (hr : RestartLe r1 r2)
    (e : cron_expr) (c : tm) (dot : Int) (lo : List Int) (r : Int × tm)
    (h : do_next_minute r1 e c dot lo = some r) : do_next_minute r2 e c dot lo = some r := by
  unfold do_next_minute at h ⊢
  simp only [] at h ⊢
  split
  · rename_i h1; rw [if_pos h1] at h; exact h
  · rename_i h1
    rw [if_neg h1] at h
    split
    · rename_i h2
      rw [if_pos h2] at h
      exact do_next_hour_mono r1 r2 hr _ _ _ _ _ h
    · rename_i h2
      rw [if_neg h2] at h
      exact after_restart_mono _ _ _ _ _ (fun y hy => hr _ _ hy)
        (fun c hc => do_next_hour_mono r1 r2 hr _ _ _ _ _ hc) h

theorem do_next_body_mono (r1 r2 : tm → Option (Int × tm)) (hr : RestartLe r1 r2)
    (e : cron_expr) (c : tm) (dot : Int) (r : Int × tm)
    (h : do_next_body r1 e c dot = some r) : do_next_body r2 e c dot = some r := by
  unfold do_next_body at h ⊢
  simp only [] at h ⊢
  split
  · rename_i h1; rw [if_pos h1] at h; exact h
  · rename_i h1
    rw [if_neg h1] at h
    split
    · rename_i h2
      rw [if_pos h2] at h
      exact do_next_minute_mono r1 r2 hr _ _ _ _ _ h
    · rename_i h2
      rw [if_neg h2] at h
      exact do_next_minute_mono r1 r2 hr _ _ _ _ _ h

theorem do_next_fuel_succ (n : Nat) (e : cron_expr) (dot : Int) :
    RestartLe (fun c => do_next n e c dot) (fun c => do_next (n + 1) e c dot) := by
  induction n with
  | zero => intro c x h; simp [do_next] at h
  | succ n ih => intro c x h; exact do_next_body_mono _ _ ih e c dot x h

/-- A result that `do_next` reaches with some fuel, it reaches with any larger fuel. -/
theorem do_next_fuel_mono (n k : Nat) (e : cron_expr) (c : tm) (dot : Int) (x : Int × tm)
    (h : do_next n e c dot = some x) : do_next (n + k) e c dot = some x := by
  induction k with
  | zero => exact h
  | succ k ih => exact do_next_fuel_succ (n + k) e dot c x ih

/-- A result that `cron_next` reaches with some fuel, it reaches with any larger fuel. -/
theorem cron_next_fuel_mono (n k : Nat) (e : cron_expr) (t r : Int)
    (h : cron_next n e t = some r) : cron_next (n + k) e t = some r := by
  unfold cron_next at h ⊢
  simp only [] at h ⊢
  split
  · rename_i h1; rw [if_pos h1] at h; exact h
  · rename_i h1
    rw [if_neg h1] at h
    cases hd : do_next n e (cron_mktime (cron_time t)).2 (cron_mktime (cron_time t)).2.tm_year with
    | none => rw [hd] at h; simp at h
    | some x =>
      rw [hd] at h
      rw [do_next_fuel_mono n k e _ _ x hd]
      simp only [] at h ⊢
      split
      · rename_i h2; rw [if_pos h2] at h; exact h
      · rename_i h2
        rw [if_neg h2] at h
        unfold cron_next_finish at h ⊢
        simp only [] at h ⊢
        split
        · rename_i h3; rw [if_pos h3] at h; exact h
        · rename_i h3
          rw [if_neg h3] at h
          split
          · rename_i h4
            rw [if_pos h4] at h
            split
            · rename_i h5; rw [if_pos h5] at h; exact h
            · rename_i h5
              rw [if_neg h5] at h
              generalize (add_to_field (cron_mktime x.2).2 CRON_CF_SECOND 1).2 = c2 at h ⊢
              cases hd2 : do_next n e c2 c2.tm_year with
              | none => rw [hd2] at h; simp at h
              | some y =>
                rw [hd2] at h
                rw [do_next_fuel_mono n k e _ _ y hd2]
                exact h
          · rename_i h4; rw [if_neg h4] at h; exact h

theorem do_prev_month_mono (r1 r2 : tm → Option (Int × tm)) (hr : RestartLe r1 r2)
    (e : cron_expr) (c : tm) (dot : Int) (lo : List Int) (r : Int × tm)
    (h : do_prev_month r1 e c dot lo = some r) : do_prev_month r2 e c dot lo = some r := by
  unfold do_prev_month at h ⊢
  simp only [] at h ⊢
  split
  · rename_i h1; rw [if_pos h1] at h; exact h
  · rename_i h1
    rw [if_neg h1] at h
    split
    · rename_i h2
      rw [if_pos h2] at h
      split
      · rename_i h3; rw [if_pos h3] at h; exact h
      · rename_i h3; rw [if_neg h3] at h; exact hr _ _ h
    · rename_i h2; rw [if_neg h2] at h; exact h

theorem do_prev_day_mono (r1 r2 : tm → Option (Int × tm)) (hr : RestartLe r1 r2)
    (e : cron_expr) (c : tm) (dot : Int) (lo : List Int) (r : Int × tm)
    (h : do_prev_day r1 e c dot lo = some r) : do_prev_day r2 e c dot lo = some r := by
  unfold do_prev_day at h ⊢
  simp only [] at h ⊢
  split
  · rename_i h1; rw [if_pos h1] at h; exact h
  · rename_i h1
    rw [if_neg h1] at h
    split
    · rename_i h2
      rw [if_pos h2] at h
      exact do_prev_month_mono r1 r2 hr _ _ _ _ _ h
    · rename_i h2
      rw [if_neg h2] at h
      exact after_restart_mono _ _ _ _ _ (fun y hy => hr _ _ hy)
        (fun c hc => do_prev_month_mono r1 r2 hr _ _ _ _ _ hc) h

theorem do_prev_hour_mono (r1 r2 : tm → Option (Int × tm)) (hr : RestartLe r1 r2)
    (e : cron_expr) (c : tm) (dot : Int) (lo : List Int) (r : Int × tm)
    (h : do_prev_hour r1 e c dot lo = some r) : do_prev_hour r2 e c dot lo = some r := by
  unfold do_prev_hour at h ⊢
  simp only [] at h ⊢
  split
  · rename_i h1; rw [if_pos h1] at h; exact h
  · rename_i h1
    rw [if_neg h1] at h
    split
    · rename_i h2
      rw [if_pos h2] at h
      exact do_prev_day_mono r1 r2 hr _ _ _ _ _ h
    · rename_i h2
      rw [if_neg h2] at h
      exact after_restart_mono _ _ _ _ _ (fun y hy => hr _ _ hy)
        (fun c hc => do_prev_day_mono r1 r2 hr _ _ _ _ _ hc) h

theorem do_prev_minute_mono (r1 r2 : tm → Option (Int × tm)) (hr : RestartLe r1 r2)
    (e : cron_expr) (c : tm) (dot : Int) (lo : List Int) (r : Int × tm)
    (h : do_prev_minute r1 e c dot lo = some r) : do_prev_minute r2 e c dot lo = some r := by
  unfold do_prev_minute at h ⊢
  simp only [] at h ⊢
  split
  · rename_i h1; rw [if_pos h1] at h; exact h
  · rename_i h1
    rw [if_neg h1] at h
    split
    · rename_i h2
      rw [if_pos h2] at h
      exact do_prev_hour_mono r1 r2 hr _ _ _ _ _ h
    · rename_i h2
      rw [if_neg h2] at h
      exact after_restart_mono _ _ _ _ _ (fun y hy => hr _ _ hy)
        (fun c hc => do_prev_hour_mono r1 r2 hr _ _ _ _ _ hc) h

theorem do_prev_body_mono (r1 r2 : tm → Option (Int × tm)) (hr : RestartLe r1 r2)
    (e : cron_expr) (c : tm) (dot : Int) (r : Int × tm)
    (h : do_prev_body r1 e c dot = some r) : do_prev_body r2 e c dot = some r := by
  unfold do_prev_body at h ⊢
  simp only [] at h ⊢
  split
  · rename_i h1; rw [if_pos h1] at h; exact h
  · rename_i h1
    rw [if_neg h1] at h
    split
    · rename_i h2
      rw [if_pos h2] at h
      exact do_prev_minute_mono r1 r2 hr _ _ _ _ _ h
    · rename_i h2
      rw [if_neg h2] at h
      exact do_prev_minute_mono r1 r2 hr _ _ _ _ _ h

theorem do_prev_fuel_succ (n : Nat) (e : cron_expr) (dot : Int) :
    RestartLe (fun c => do_prev n e c dot) (fun c => do_prev (n + 1) e c dot) := by
  induction n with
  | zero => intro c x h; simp [do_prev] at h
  | succ n ih => intro c x h; exact do_prev_body_mono _ _ ih e c dot x h

/-- A result that `do_prev` reaches with some fuel, it reaches with any larger fuel. -/
theorem do_prev_fuel_mono (n k : Nat) (e : cron_expr) (c : tm) (dot : Int) (x : Int × tm)
    (h : do_prev n e c dot = some x) : do_prev (n + k) e c dot = some x := by
  induction k with
  | zero => exact h
  | succ k ih => exact do_prev_fuel_succ (n + k) e dot c x ih

/-- A result that `cron_prev` reaches with some fuel, it reaches with any larger fuel. -/
theorem cron_prev_fuel_mono (n k : Nat) (e : cron_expr) (t r : Int)
    (h : cron_prev n e t = some r) : cron_prev (n + k) e t = some r := by
  unfold cron_prev at h ⊢
  simp only [] at h ⊢
  split
  · rename_i h1; rw [if_pos h1] at h; exact h
  · rename_i h1
    rw [if_neg h1] at h
    cases hd : do_prev n e (cron_mktime (cron_time t)).2 (cron_mktime (cron_time t)).2.tm_year with
    | none => rw [hd] at h; simp at h
    | some x =>
      rw [hd] at h
      rw [do_prev_fuel_mono n k e _ _ x hd]
      simp only [] at h ⊢
      split
      · rename_i h2; rw [if_pos h2] at h; exact h
      · rename_i h2
        rw [if_neg h2] at h
        unfold cron_prev_finish at h ⊢
        simp only [] at h ⊢
        split
        · rename_i h3; rw [if_pos h3] at h; exact h
        · rename_i h3
          rw [if_neg h3] at h
          split
          · rename_i h4
            rw [if_pos h4] at h
            split
            · rename_i h5; rw [if_pos h5] at h; exact h
            · rename_i h5
              rw [if_neg h5] at h
              generalize (add_to_field (cron_mktime x.2).2 CRON_CF_SECOND (-1)).2 = c2 at h ⊢
              cases hd2 : do_prev n e c2 c2.tm_year with
              | none => rw [hd2] at h; simp at h
              | some y =>
                rw [hd2] at h
                rw [do_prev_fuel_mono n k e _ _ y hd2]
                exact h
          · rename_i h4; rw [if_neg h4] at h; exact h

/-! ## Evaluations of the search -/

/-- C1 (defect of the code): for `0 30 0 1 * SAT` and 2020-01-01 00:00:00 UTC, `cron_next` returns
2020-02-01 00:00:00 UTC, which is not the sentinel and whose minute 0 is outside the minute set
`30`: the day search came back on the same day of month, so `do_next` did not restart. -/
theorem cron_next_returns_unmatched_instant :
    (cron_parse_expr "0 30 0 1 * SAT".toList cron_expr_zero).2 = none
      ∧ cron_next 2 (cron_parse_expr "0 30 0 1 * SAT".toList cron_expr_zero).1 1577836800
          = some 1580515200
      ∧ (1580515200 : Int) ≠ CRON_INVALID_INSTANT
      ∧ instant_matches (cron_parse_expr "0 30 0 1 * SAT".toList cron_expr_zero).1 1580515200
          = false := by
  decide!

/-- C2 (defect of the code): for `0 0 0 * 2 *` and 2021-01-31 00:00:00 UTC, `cron_next` returns
2022-02-01 00:00:00 UTC although 2021-02-01 00:00:00 UTC lies strictly between and satisfies all
six field sets: setting the month on day 31 overflows into March. -/
theorem cron_next_skips_nearer_match :
    (cron_parse_expr "0 0 0 * 2 *".toList cron_expr_zero).2 = none
      ∧ cron_next 8 (cron_parse_expr "0 0 0 * 2 *".toList cron_expr_zero).1 1612051200
          = some 1643673600
      ∧ (1612051200 : Int) < 1612137600 ∧ (1612137600 : Int) < 1643673600
      ∧ instant_matches (cron_parse_expr "0 0 0 * 2 *".toList cron_expr_zero).1 1612137600
          = true := by
  decide!

/-- C4 (defect of the code): for `0 0 0 1 * SAT` and 2020-03-01 00:00:00 UTC, `cron_prev` returns
2020-02-01 23:59:59 UTC, which is not the sentinel and does not satisfy the expression (its
second, minute and hour are 59, 59 and 23): the day search ended on the same day of month, so
`do_prev` did not restart after the lower fields were reset to their maximum. -/
theorem cron_prev_returns_unmatched_instant :
    (cron_parse_expr "0 0 0 1 * SAT".toList cron_expr_zero).2 = none
      ∧ cron_prev 1 (cron_parse_expr "0 0 0 1 * SAT".toList cron_expr_zero).1 1583020800
          = some 1580601599
      ∧ (1580601599 : Int) ≠ CRON_INVALID_INSTANT
      ∧ instant_matches (cron_parse_expr "0 0 0 1 * SAT".toList cron_expr_zero).1 1580601599
          = false := by
  decide!

/-! ## Bits of a field set -/

theorem and_shift_ne_zero (x k : Nat) : x &&& (1 <<< k) ≠ 0 ↔ x.testBit k = true := by
  rw [Nat.one_shiftLeft, Nat.and_two_pow]
  cases h : x.testBit k
  · simp
  · simp

theorem cron_get_bit_iff (l : List Nat) (j : Int) :
    cron_get_bit l j ≠ 0 ↔ (l.getD (bit_byte j) 0).testBit (bit_pos j) = true := by
  unfold cron_get_bit
  simp only []
  rw [← and_shift_ne_zero]
  by_cases h : l.getD (bit_byte j) 0 &&& 1 <<< bit_pos j ≠ 0
  · rw [if_pos h]
    exact ⟨fun _ => h, fun _ => by decide⟩
  · rw [if_neg h]
    exact ⟨fun h2 => absurd rfl h2, fun h2 => absurd h2 h⟩

theorem bit_byte_eq (j : Int) (h0 : 0 ≤ j) (h1 : j < 2048) : bit_byte j = (j / 8).toNat := by
  unfold bit_byte
  rw [Int.tdiv_eq_ediv h0 (by omega)]
  congr 1
  omega

theorem bit_pos_eq (j : Int) (h0 : 0 ≤ j) : bit_pos j = (j % 8).toNat := by
  unfold bit_pos
  rw [Int.tmod_eq_emod h0 (by omega)]
  congr 1
  omega

theorem bit_pos_lt (j : Int) (h0 : 0 ≤ j) : bit_pos j < 8 := by
  rw [bit_pos_eq j h0]
  omega

theorem bit_index_eq (i j : Int) (hi : 0 ≤ i) (hi2 : i < 2048) (hj : 0 ≤ j) (hj2 : j < 2048) :
    (bit_byte i = bit_byte j ∧ bit_pos i = bit_pos j) ↔ i = j := by
  rw [bit_byte_eq i hi hi2, bit_byte_eq j hj hj2, bit_pos_eq i hi, bit_pos_eq j hj]
  omega

theorem getD_set_eq (l : List Nat) (i j a : Nat) :
    (l.set i a).getD j 0 = if i = j ∧ i < l.length then a else l.getD j 0 := by
  rw [List.getD_eq_getElem?_getD, List.getD_eq_getElem?_getD, List.getElem?_set]
  by_cases h : i = j
  · by_cases h2 : i < l.length
    · subst h
      simp [h2]
    · subst h
      have : l[i]? = none := by
        rw [List.getElem?_eq_none_iff]
        omega
      simp [h2, this]
  · simp [h]

/-- Setting a bit adds the same bits to every set of the same size. -/
theorem cron_get_set_bit_or (t : List Nat) (idx j : Int) (hj : 0 ≤ j) :
    cron_get_bit (cron_set_bit t idx) j ≠ 0
      ↔ (cron_get_bit t j ≠ 0
        ∨ cron_get_bit (cron_set_bit (List.replicate t.length 0) idx) j ≠ 0) := by
  have hp := bit_pos_lt j hj
  rw [cron_get_bit_iff, cron_get_bit_iff, cron_get_bit_iff]
  unfold cron_set_bit
  simp only []
  rw [getD_set_eq, getD_set_eq]
  have h256 : (256 : Nat) = 2 ^ 8 := by norm_num
  by_cases h : bit_byte idx = bit_byte j ∧ bit_byte idx < t.length
  · have h2 : bit_byte idx = bit_byte j ∧ bit_byte idx < (List.replicate t.length 0).length := by
      simpa using h
    rw [if_pos h, if_pos h2, h.1, h256, Nat.testBit_mod_two_pow, Nat.testBit_mod_two_pow,
      Nat.testBit_or, Nat.testBit_or]
    have h0 : (List.replicate t.length 0).getD (bit_byte j) 0 = 0 := by
      rw [List.getD_eq_getElem?_getD]
      by_cases hb : bit_byte j < t.length
      · simp [List.getElem?_replicate, hb]
      · simp [List.getElem?_replicate, hb]
    rw [h0]
    simp [hp]
  · have h2 : ¬ (bit_byte idx = bit_byte j
        ∧ bit_byte idx < (List.replicate t.length 0).length) := by
      simpa using h
    rw [if_neg h, if_neg h2]
    have h0 : (List.replicate t.length 0).getD (bit_byte j) 0 = 0 := by
      rw [List.getD_eq_getElem?_getD]
      by_cases hb : bit_byte j < t.length
      · simp [List.getElem?_replicate, hb]
      · simp [List.getElem?_replicate, hb]
    rw [h0]
    simp

theorem cron_get_bit_zero (n : Nat) (j : Int) : cron_get_bit (List.replicate n 0) j = 0 := by
  unfold cron_get_bit
  have h0 : (List.replicate n 0).getD (bit_byte j) 0 = 0 := by
    rw [List.getD_eq_getElem?_getD]
    by_cases hb : bit_byte j < n
    · simp [List.getElem?_replicate, hb]
    · simp [List.getElem?_replicate, hb]
  simp [h0]

theorem cron_set_bit_length (t : List Nat) (idx : Int) :
    (cron_set_bit t idx).length = t.length := by
  simp [cron_set_bit]

theorem cron_del_bit_length (t : List Nat) (idx : Int) :
    (cron_del_bit t idx).length = t.length := by
  simp [cron_del_bit]

/-- Within the array, `cron_set_bit` sets bit `i` and leaves the other bits as they are. -/
theorem cron_get_set_bit (t : List Nat) (i j : Int) (hi : 0 ≤ i) (hi2 : i < 8 * t.length)
    (hi3 : i < 2048) (hj : 0 ≤ j) (hj2 : j < 2048) :
    cron_get_bit (cron_set_bit t i) j ≠ 0 ↔ (i = j ∨ cron_get_bit t j ≠ 0) := by
  rw [cron_get_set_bit_or t i j hj]
  have key : cron_get_bit (cron_set_bit (List.replicate t.length 0) i) j ≠ 0 ↔ i = j := by
    have hp := bit_pos_lt j hj
    have hpi := bit_pos_lt i hi
    rw [cron_get_bit_iff]
    unfold cron_set_bit
    simp only []
    rw [getD_set_eq]
    have h256 : (256 : Nat) = 2 ^ 8 := by norm_num
    have h0 : (List.replicate t.length 0).getD (bit_byte i) 0 = 0 := by
      rw [List.getD_eq_getElem?_getD]
      by_cases hb : bit_byte i < t.length
      · simp [List.getElem?_replicate, hb]
      · simp [List.getElem?_replicate, hb]
    have hlen : bit_byte i < t.length := by
      rw [bit_byte_eq i hi hi3]
      omega
    rw [← bit_index_eq i j hi hi3 hj hj2]
    by_cases hb : bit_byte i = bit_byte j
    · rw [if_pos ⟨hb, by simpa using hlen⟩, h0, h256, Nat.testBit_mod_two_pow, Nat.one_shiftLeft,
        Nat.zero_or, Nat.testBit_two_pow]
      simp [hb, hp]
    · rw [if_neg (fun h => hb h.1)]
      have h0j : (List.replicate t.length 0).getD (bit_byte j) 0 = 0 := by
        rw [List.getD_eq_getElem?_getD]
        by_cases hb : bit_byte j < t.length
        · simp [List.getElem?_replicate, hb]
        · simp [List.getElem?_replicate, hb]
      rw [h0j]
      simp [hb]
  rw [key]
  tauto

theorem testBit_del_mask (k p : Nat) (hk : k < 8) (hp : p < 8) :
    (255 - (1 <<< k) % 256).testBit p = decide (k ≠ p) := by
  interval_cases k <;> interval_cases p <;> decide

/-- The function `cron_del_bit` clears bit `i` and leaves the other bits as they are. -/
theorem cron_get_del_bit (t : List Nat) (i j : Int) (hi : 0 ≤ i) (hi3 : i < 2048) (hj : 0 ≤ j)
    (hj2 : j < 2048) :
    cron_get_bit (cron_del_bit t i) j ≠ 0 ↔ (i ≠ j ∧ cron_get_bit t j ≠ 0) := by
  have hp := bit_pos_lt j hj
  have hpi := bit_pos_lt i hi
  rw [cron_get_bit_iff, cron_get_bit_iff]
  unfold cron_del_bit
  simp only []
  rw [getD_set_eq, Ne, ← bit_index_eq i j hi hi3 hj hj2]
  by_cases hb : bit_byte i = bit_byte j
  · by_cases hl : bit_byte i < t.length
    · rw [if_pos ⟨hb, hl⟩, Nat.testBit_and, testBit_del_mask _ _ hpi hp, hb]
      simp [hb]
      tauto
    · rw [if_neg (fun h => hl h.2)]
      have h0 : t.getD (bit_byte j) 0 = 0 := by
        rw [List.getD_eq_default]
        omega
      rw [h0]
      simp
  · rw [if_neg (fun h => hb h.1)]
    simp [hb]

/-! ## The loops that fill a field set -/

theorem set_range_bits_length (hi : Int) (n : Nat) (i1 : Int) (t : List Nat) :
    (set_range_bits hi n i1 t).length = t.length := by
  induction n generalizing i1 t with
  | zero => rfl
  | succ n ih =>
    unfold set_range_bits
    split
    · rw [ih, cron_set_bit_length]
    · rfl

theorem set_step_bits_length (hi delta : Int) (n : Nat) (i1 : Int) (t : List Nat) :
    (set_step_bits hi delta n i1 t).length = t.length := by
  induction n generalizing i1 t with
  | zero => rfl
  | succ n ih =>
    unfold set_step_bits
    split
    · rw [ih, cron_set_bit_length]
    · rfl

/-- The range loop sets the bits `lo .. hi` and no other. -/
theorem set_range_bits_get (hi : Int) (n : Nat) (lo : Int) (t : List Nat) (j : Int)
    (hlo : 0 ≤ lo) (hhi : hi < 8 * t.length) (hhi2 : hi < 2048) (hn : hi - lo + 1 ≤ n)
    (hj : 0 ≤ j) (hj2 : j < 2048) :
    cron_get_bit (set_range_bits hi n lo t) j ≠ 0
      ↔ ((lo ≤ j ∧ j ≤ hi) ∨ cron_get_bit t j ≠ 0) := by
  induction n generalizing lo t with
  | zero =>
    unfold set_range_bits
    constructor
    · exact fun h => Or.inr h
    · rintro (h | h)
      · omega
      · exact h
  | succ n ih =>
    unfold set_range_bits
    by_cases h : lo ≤ hi
    · rw [if_pos h, ih (lo + 1) (cron_set_bit t lo) (by omega)
        (by rw [cron_set_bit_length]; exact hhi) (by push_cast at hn ⊢; omega),
        cron_get_set_bit t lo j hlo (by omega) (by omega) hj hj2]
      constructor
      · rintro (h1 | h1 | h1)
        · exact Or.inl ⟨by omega, h1.2⟩
        · exact Or.inl ⟨by omega, by omega⟩
        · exact Or.inr h1
      · rintro (h1 | h1)
        · by_cases h2 : lo = j
          · exact Or.inr (Or.inl h2)
          · exact Or.inl ⟨by omega, h1.2⟩
        · exact Or.inr (Or.inr h1)
    · rw [if_neg h]
      constructor
      · exact fun h => Or.inr h
      · rintro (h1 | h1)
        · omega
        · exact h1

theorem wrap32_eq (x : Int) (h0 : -2147483648 ≤ x) (h1 : x ≤ 2147483647) : wrap32 x = x := by
  unfold wrap32
  omega

/-- The stride loop sets the bits `lo`, `lo + delta`, `lo + 2 * delta`, ... up to `hi` and no
other, as long as the counter does not overflow. -/
theorem set_step_bits_get (hi delta : Int) (n : Nat) (lo : Int) (t : List Nat) (j : Int)
    (hlo : 0 ≤ lo) (hd : 1 ≤ delta) (hhi : hi < 8 * t.length) (hhi2 : hi < 2048)
    (hn : hi - lo + 1 ≤ n)
    (hover : ∀ k : Nat, lo + k * delta ≤ hi → lo + (k + 1) * delta ≤ 2147483647)
    (hj : 0 ≤ j) (hj2 : j < 2048) :
    cron_get_bit (set_step_bits hi delta n lo t) j ≠ 0
      ↔ ((∃ k : Nat, j = lo + k * delta ∧ j ≤ hi) ∨ cron_get_bit t j ≠ 0) := by
  induction n generalizing lo t with
  | zero =>
    unfold set_step_bits
    constructor
    · exact fun h => Or.inr h
    · rintro (⟨k, h1, h2⟩ | h)
      · have : 0 ≤ (k : Int) * delta := by positivity
        omega
      · exact h
  | succ n ih =>
    unfold set_step_bits
    by_cases h : lo ≤ hi
    · have h1 := hover 0 (by simpa using h)
      have h1b : lo + delta ≤ 2147483647 := by simpa using h1
      rw [if_pos h, wrap32_eq (lo + delta) (by omega) h1b,
        ih (lo + delta) (cron_set_bit t lo) (by omega)
          (by rw [cron_set_bit_length]; exact hhi) (by push_cast at hn ⊢; omega)
          (fun k hk => by
            have := hover (k + 1) (by push_cast; linarith)
            push_cast at this
            linarith),
        cron_get_set_bit t lo j hlo (by omega) (by omega) hj hj2]
      constructor
      · rintro (⟨k, h2, h3⟩ | h2 | h2)
        · exact Or.inl ⟨k + 1, by push_cast; linarith, h3⟩
        · exact Or.inl ⟨0, by simpa using h2.symm, by omega⟩
        · exact Or.inr h2
      · rintro (⟨k, h2, h3⟩ | h2)
        · cases k with
          | zero => exact Or.inr (Or.inl (by simpa using h2.symm))
          | succ k => exact Or.inl ⟨k, by push_cast at h2; linarith, h3⟩
        · exact Or.inr (Or.inr h2)
    · rw [if_neg h]
      constructor
      · exact fun h => Or.inr h
      · rintro (⟨k, h1, h2⟩ | h1)
        · have : 0 ≤ (k : Int) * delta := by positivity
          omega
        · exact h1

theorem rotate_months_length (n : Nat) (i : Int) (t : List Nat) :
    (rotate_months n i t).length = t.length := by
  induction n generalizing i t with
  | zero => rfl
  | succ n ih =>
    unfold rotate_months
    split
    · rw [ih, cron_del_bit_length, cron_set_bit_length]
    · rw [ih]

/-- One step of the rotation: bit `i` moves to bit `i - 1`. -/
theorem rotate_step_get (t : List Nat) (i j : Int) (hi : 1 ≤ i) (hi2 : i < 8 * t.length)
    (hi3 : i < 2048) (hj : 0 ≤ j) (hj2 : j < 2048) :
    cron_get_bit (if cron_get_bit t i ≠ 0 then cron_del_bit (cron_set_bit t (i - 1)) i else t) j
        ≠ 0
      ↔ (j ≠ i ∧ (cron_get_bit t j ≠ 0 ∨ (j = i - 1 ∧ cron_get_bit t i ≠ 0))) := by
  by_cases h : cron_get_bit t i ≠ 0
  · rw [if_pos h, cron_get_del_bit _ i j (by omega) hi3 hj hj2,
      cron_get_set_bit t (i - 1) j (by omega) (by omega) (by omega) hj hj2]
    constructor
    · rintro ⟨h1, h2 | h2⟩
      · exact ⟨fun h3 => h1 h3.symm, Or.inr ⟨by omega, h⟩⟩
      · exact ⟨fun h3 => h1 h3.symm, Or.inl h2⟩
    · rintro ⟨h1, h2 | h2⟩
      · exact ⟨fun h3 => h1 h3.symm, Or.inr h2⟩
      · exact ⟨fun h3 => h1 h3.symm, Or.inl (by omega)⟩
  · rw [if_neg h]
    constructor
    · intro h1
      refine ⟨fun h2 => ?_, Or.inl h1⟩
      subst h2
      exact h h1
    · rintro ⟨h1, h2 | h2⟩
      · exact h2
      · exact absurd h2.2 h

/-- The rotation loop over `i, i + 1, ..., i + n - 1`: each of these bits moves down by one. -/
theorem rotate_months_get (n : Nat) (i : Int) (t : List Nat) (j : Int) (hi : 1 ≤ i)
    (hi2 : i + n ≤ 8 * t.length) (hi3 : i + n ≤ 2048) (hj : 0 ≤ j) (hj2 : j < 2048) :
    cron_get_bit (rotate_months n i t) j ≠ 0
      ↔ ((j < i - 1 ∧ cron_get_bit t j ≠ 0)
        ∨ (j = i - 1 ∧ (cron_get_bit t j ≠ 0 ∨ (1 ≤ n ∧ cron_get_bit t i ≠ 0)))
        ∨ (i ≤ j ∧ j + 1 < i + n ∧ cron_get_bit t (j + 1) ≠ 0)
        ∨ (i + n ≤ j ∧ cron_get_bit t j ≠ 0)) := by
  induction n generalizing i t with
  | zero =>
    unfold rotate_months
    constructor
    · intro h
      by_cases h1 : j < i - 1
      · exact Or.inl ⟨h1, h⟩
      · by_cases h2 : j = i - 1
        · exact Or.inr (Or.inl ⟨h2, Or.inl h⟩)
        · exact Or.inr (Or.inr (Or.inr ⟨by push_cast; omega, h⟩))
    · rintro (h | h | h | h)
      · exact h.2
      · rcases h.2 with h2 | h2
        · exact h2
        · omega
      · omega
      · exact h.2
  | succ n ih =>
    have hstep : rotate_months (n + 1) i t
        = rotate_months n (i + 1)
          (if cron_get_bit t i ≠ 0 then cron_del_bit (cron_set_bit t (i - 1)) i else t) := by
      conv_lhs => unfold rotate_months
      split <;> rfl
    have hlen : (if cron_get_bit t i ≠ 0 then cron_del_bit (cron_set_bit t (i - 1)) i else t).length
        = t.length := by
      split
      · rw [cron_del_bit_length, cron_set_bit_length]
      · rfl
    push_cast at hi2 hi3
    rw [hstep, ih (i + 1) _ (by omega) (by rw [hlen]; omega) (by omega)]
    have e := fun x hx hx2 => rotate_step_get t i x hi (by omega) (by omega) hx hx2
    rw [e j hj hj2]
    by_cases hj3 : j + 1 < 2048
    · rw [e (j + 1) (by omega) hj3]
      by_cases hi4 : i + 1 < 2048
      · rw [e (i + 1) (by omega) hi4]
        constructor
        · rintro (⟨h1, h2, h3⟩ | ⟨h1, h2⟩ | ⟨h1, h2, h3, h4⟩ | ⟨h1, h2, h3⟩)
          · rcases h3 with h3 | h3
            · by_cases h4 : j < i - 1
              · exact Or.inl ⟨h4, h3⟩
              · exact Or.inr (Or.inl ⟨by omega, Or.inl h3⟩)
            · exact Or.inr (Or.inl ⟨h3.1, Or.inr ⟨by omega, h3.2⟩⟩)
          · rcases h2 with ⟨h2, h3⟩ | ⟨h2, h3, h4⟩
            · omega
            · rcases h4 with h4 | h4
              · refine Or.inr (Or.inr (Or.inl ⟨by omega, by push_cast; omega, ?_⟩))
                rw [show j + 1 = i + 1 by omega]
                exact h4
              · omega
          · rcases h4 with h4 | h4
            · exact Or.inr (Or.inr (Or.inl ⟨by omega, by push_cast; omega, h4⟩))
            · omega
          · rcases h3 with h3 | h3
            · exact Or.inr (Or.inr (Or.inr ⟨by push_cast; omega, h3⟩))
            · omega
        · rintro (⟨h1, h2⟩ | ⟨h1, h2⟩ | ⟨h1, h2, h3⟩ | ⟨h1, h2⟩)
          · exact Or.inl ⟨by omega, by omega, Or.inl h2⟩
          · rcases h2 with h2 | h2
            · exact Or.inl ⟨by omega, by omega, Or.inl h2⟩
            · exact Or.inl ⟨by omega, by omega, Or.inr ⟨h1, h2.2⟩⟩
          · by_cases h4 : j = i
            · refine Or.inr (Or.inl ⟨by omega, Or.inr ⟨by push_cast at h2; omega, by omega,
                Or.inl ?_⟩⟩)
              rw [show i + 1 = j + 1 by omega]
              exact h3
            · exact Or.inr (Or.inr (Or.inl ⟨by omega, by push_cast at h2; omega, by omega,
                Or.inl h3⟩))
          · exact Or.inr (Or.inr (Or.inr ⟨by push_cast at h1; omega, by omega, Or.inl h2⟩))
      · omega
    · have hj4 : j = 2047 := by omega
      constructor
      · rintro (⟨h1, h2, h3⟩ | ⟨h1, h2⟩ | ⟨h1, h2, h3⟩ | ⟨h1, h2, h3⟩)
        · rcases h3 with h3 | h3
          · by_cases h4 : j < i - 1
            · exact Or.inl ⟨h4, h3⟩
            · exact Or.inr (Or.inl ⟨by omega, Or.inl h3⟩)
          · exact Or.inr (Or.inl ⟨h3.1, Or.inr ⟨by omega, h3.2⟩⟩)
        · rcases h2 with ⟨h2, _⟩ | ⟨h2, _⟩
          · omega
          · omega
        · omega
        · rcases h3 with h3 | h3
          · exact Or.inr (Or.inr (Or.inr ⟨by push_cast; omega, h3⟩))
          · omega
      · rintro (⟨h1, h2⟩ | ⟨h1, h2⟩ | ⟨h1, h2, h3⟩ | ⟨h1, h2⟩)
        · exact Or.inl ⟨by omega, by omega, Or.inl h2⟩
        · omega
        · omega
        · exact Or.inr (Or.inr (Or.inr ⟨by push_cast at h1; omega, by omega, Or.inl h2⟩))

/-! ## Decimal numerals -/

theorem decimal_loop_succ (fuel v : Nat) (acc : List Char) :
    decimal_loop (fuel + 1) v acc
      = if v < 10 then digit_char v :: acc
        else decimal_loop fuel (v / 10) (digit_char (v % 10) :: acc) := rfl

theorem decimal_loop_acc (v : Nat) :
    ∀ fuel acc, v < fuel → decimal_loop fuel v acc = decimal_loop (v + 1) v [] ++ acc := by
  induction v using Nat.strong_induction_on with
  | _ v ih =>
    intro fuel acc hf
    obtain ⟨f, rfl⟩ : ∃ f, fuel = f + 1 := ⟨fuel - 1, by omega⟩
    by_cases h : v < 10
    · simp [decimal_loop, h]
    · have hlt : v / 10 < v := by omega
      simp only [decimal_loop, if_neg h]
      rw [ih (v / 10) hlt f _ (by omega), ih (v / 10) hlt v _ hlt]
      simp

theorem decimal_eq (v : Nat) :
    decimal v = if v < 10 then [digit_char v] else decimal (v / 10) ++ [digit_char (v % 10)] := by
  unfold decimal
  rw [decimal_loop_succ]
  by_cases h : v < 10
  · rw [if_pos h, if_pos h]
  · rw [if_neg h, if_neg h, decimal_loop_acc (v / 10) v _ (by omega)]

theorem decimal_all_digits (v : Nat) : all_digits (decimal v) := by
  induction v using Nat.strong_induction_on with
  | _ v ih =>
    rw [decimal_eq]
    by_cases h : v < 10
    · rw [if_pos h]
      intro c hc
      simp only [List.mem_singleton] at hc
      exact ⟨v, h, hc⟩
    · rw [if_neg h]
      intro c hc
      rw [List.mem_append] at hc
      rcases hc with hc | hc
      · exact ih (v / 10) (by omega) c hc
      · simp only [List.mem_singleton] at hc
        exact ⟨v % 10, by omega, hc⟩

theorem decimal_ne_nil (v : Nat) : decimal v ≠ [] := by
  rw [decimal_eq]
  split
  · simp
  · simp

theorem digit_char_toNat (d : Nat) (h : d < 10) : ((digit_char d).toNat : Int) - 48 = d := by
  interval_cases d <;> decide

theorem decimal_value (v : Nat) :
    (decimal v).foldl (fun a c => 10 * a + ((c.toNat : Int) - 48)) 0 = v := by
  induction v using Nat.strong_induction_on with
  | _ v ih =>
    rw [decimal_eq]
    by_cases h : v < 10
    · rw [if_pos h]
      simp only [List.foldl_cons, List.foldl_nil]
      rw [digit_char_toNat v h]
      omega
    · rw [if_neg h, List.foldl_append, ih (v / 10) (by omega)]
      simp only [List.foldl_cons, List.foldl_nil]
      rw [digit_char_toNat (v % 10) (by omega)]
      omega

theorem decimal_length (k : Nat) : ∀ v, v < 10 ^ (k + 1) → (decimal v).length ≤ k + 1 := by
  induction k with
  | zero =>
    intro v hv
    rw [decimal_eq, if_pos (by simpa using hv)]
    simp
  | succ k ih =>
    intro v hv
    rw [decimal_eq]
    split
    · simp
    · have : v / 10 < 10 ^ (k + 1) := by
        rw [Nat.div_lt_iff_lt_mul (by norm_num)]
        rw [pow_succ] at hv
        exact hv
      have := ih (v / 10) this
      simp
      omega

theorem digit_char_facts (d : Nat) (h : d < 10) :
    (digit_char d).isDigit = true ∧ isspace (digit_char d) = false
      ∧ digit_char d ≠ '-' ∧ digit_char d ≠ '+' ∧ digit_char d ≠ ',' ∧ digit_char d ≠ '/'
      ∧ digit_char d ≠ '*' ∧ digit_char d ≠ '?' ∧ (digit_char d).isAlpha = false
      ∧ (digit_char d).toUpper = digit_char d := by
  interval_cases d <;> decide

theorem all_digits_cons (c : Char) (cs : List Char) (h : all_digits (c :: cs)) :
    (∃ d, d < 10 ∧ c = digit_char d) ∧ all_digits cs :=
  ⟨h c (List.mem_cons_self _ _), fun x hx => h x (List.mem_cons_of_mem _ hx)⟩

theorem takeWhile_digits (ds : List Char) (h : all_digits ds) :
    ds.takeWhile Char.isDigit = ds ∧ ds.dropWhile Char.isDigit = [] := by
  induction ds with
  | nil => exact ⟨rfl, rfl⟩
  | cons c cs ih =>
    obtain ⟨⟨d, hd, rfl⟩, hcs⟩ := all_digits_cons c cs h
    have hf := (digit_char_facts d hd).1
    simp [List.takeWhile_cons, List.dropWhile_cons, hf, ih hcs]

/-- On a numeral, `strtol` reads the whole text. -/
theorem strtol_digits (ds : List Char) (hne : ds ≠ []) (h : all_digits ds) :
    strtol ds = (ds.foldl (fun a c => 10 * a + ((c.toNat : Int) - 48)) 0, []) := by
  obtain ⟨c, cs, rfl⟩ := List.exists_cons_of_ne_nil hne
  obtain ⟨⟨d, hd, rfl⟩, hcs⟩ := all_digits_cons c cs h
  have hf := digit_char_facts d hd
  have h1 : (digit_char d :: cs).dropWhile isspace = digit_char d :: cs := by
    simp [List.dropWhile_cons, hf.2.1]
  have ht := takeWhile_digits _ h
  unfold strtol
  simp only [h1, List.head?_cons, Option.some.injEq, hf.2.2.1, hf.2.2.2.1, or_self, if_false,
    ht.1, ht.2]
  simp

theorem parse_uint_decimal (v : Nat) :
    parse_uint (decimal v) = if (v : Int) ≤ INT_MAX then ((v : Int), 0) else (0, 1) := by
  unfold parse_uint
  rw [strtol_digits _ (decimal_ne_nil v) (decimal_all_digits v), decimal_value]
  by_cases h : (v : Int) ≤ INT_MAX
  · have h2 : ¬ ((v : Int) > INT_MAX) := by omega
    simp [h, h2]
  · have h2 : (v : Int) > INT_MAX := by omega
    simp [h, h2]

theorem has_char_append (a b : List Char) (ch : Char) :
    has_char (a ++ b) ch = (has_char a ch || has_char b ch) := by
  simp [has_char]

theorem has_char_cons (c : Char) (b : List Char) (ch : Char) :
    has_char (c :: b) ch = (c == ch || has_char b ch) := by
  simp [has_char]

theorem has_char_digits (ds : List Char) (h : all_digits ds) (ch : Char)
    (hch : ∀ d, d < 10 → digit_char d ≠ ch) : has_char ds ch = false := by
  induction ds with
  | nil => rfl
  | cons c cs ih =>
    obtain ⟨⟨d, hd, rfl⟩, hcs⟩ := all_digits_cons c cs h
    rw [has_char_cons, ih hcs]
    simp [hch d hd]

/-! ## The pieces `split_str` returns -/

theorem delimited_fields_strip (del : Char) (s : List Char) :
    delimited_fields del s = ((pieces_between del s).map strip_space).filter (fun p => p ≠ []) :=
  rfl

theorem pieces_between_cons_ne (del c : Char) (s q : List Char) (qs : List (List Char))
    (hc : c ≠ del) (hq : pieces_between del s = q :: qs) :
    pieces_between del (c :: s) = (c :: q) :: qs := by
  simp only [pieces_between, if_neg hc, hq]

theorem pieces_between_cons_eq (del : Char) (s : List Char) :
    pieces_between del (del :: s) = [] :: pieces_between del s := by
  simp only [pieces_between, if_pos]

theorem pieces_between_append (del : Char) (x y : List Char) :
    pieces_between del (x ++ del :: y) = pieces_between del x ++ pieces_between del y := by
  induction x with
  | nil =>
    rw [List.nil_append, pieces_between_cons_eq]
    rfl
  | cons c cs ih =>
    obtain ⟨q, qs, hq⟩ := pieces_between_ne_nil del cs
    by_cases hc : c = del
    · subst hc
      rw [List.cons_append, pieces_between_cons_eq, pieces_between_cons_eq, ih]
      rfl
    · rw [List.cons_append, pieces_between_cons_ne del c _ q (qs ++ pieces_between del y) hc
        (by rw [ih, hq]; rfl), pieces_between_cons_ne del c cs q qs hc hq]
      rfl

theorem pieces_between_single (del : Char) (x : List Char) (h : ∀ c ∈ x, c ≠ del) :
    pieces_between del x = [x] := by
  induction x with
  | nil => rfl
  | cons c cs ih =>
    have hc : c ≠ del := h c (List.mem_cons_self _ _)
    exact pieces_between_cons_ne del c cs cs [] hc
      (ih (fun x hx => h x (List.mem_cons_of_mem _ hx)))

theorem delimited_fields_append (del : Char) (x y : List Char) :
    delimited_fields del (x ++ del :: y) = delimited_fields del x ++ delimited_fields del y := by
  rw [delimited_fields_strip, delimited_fields_strip, delimited_fields_strip,
    pieces_between_append, List.map_append, List.filter_append]

theorem strip_space_id (x : List Char) (h : ∀ c ∈ x, isspace c = false) : strip_space x = x := by
  unfold strip_space
  rw [List.filter_eq_self]
  intro c hc
  simp [h c hc]

theorem delimited_fields_single (del : Char) (x : List Char) (h : ∀ c ∈ x, c ≠ del)
    (hne : strip_space x ≠ []) : delimited_fields del x = [strip_space x] := by
  rw [delimited_fields_strip, pieces_between_single del x h]
  simp [hne]

theorem delimited_fields_pair (del : Char) (x y : List Char) (hx : ∀ c ∈ x, c ≠ del)
    (hy : ∀ c ∈ y, c ≠ del) (hxn : strip_space x ≠ []) (hyn : strip_space y ≠ []) :
    delimited_fields del (x ++ del :: y) = [strip_space x, strip_space y] := by
  rw [delimited_fields_append, delimited_fields_single del x hx hxn,
    delimited_fields_single del y hy hyn]
  rfl

/-- The copying loop stores the fields of the text: the pieces between delimiters, without their
whitespace, that are not empty; `buf` holds the start of the first piece. -/
theorem split_fill_out (del : Char) (len : Nat) (s buf : List Char) (res out : List (List Char))
    (p : List Char) (ps : List (List Char)) (hp : pieces_between del s = p :: ps)
    (h : split_fill del len s buf res = some out) :
    out = res ++ (if buf ++ strip_space p ≠ [] then [buf ++ strip_space p] else [])
      ++ (ps.map strip_space).filter (fun p => p ≠ []) := by
  induction s generalizing buf res p ps with
  | nil =>
    simp only [pieces_between, List.cons.injEq] at hp
    obtain ⟨rfl, rfl⟩ := hp
    unfold split_fill at h
    have e : strip_space [] = [] := rfl
    by_cases hb : buf.length > 0
    · rw [if_pos hb] at h
      by_cases hl : res.length ≥ len
      · rw [if_pos hl] at h
        exact absurd h (by simp)
      · rw [if_neg hl] at h
        have hb2 : buf ≠ [] := by
          intro h0
          simp [h0] at hb
        simp only [Option.some.injEq] at h
        simp [e, hb2, ← h]
    · rw [if_neg hb] at h
      have hb2 : buf = [] := by
        cases buf with
        | nil => rfl
        | cons a b => simp at hb
      simp only [Option.some.injEq] at h
      simp [e, hb2, ← h]
  | cons c cs ih =>
    obtain ⟨q, qs, hq⟩ := pieces_between_ne_nil del cs
    unfold split_fill at h
    by_cases hc : del = c
    · have hpc : pieces_between del (c :: cs) = [] :: q :: qs := by
        simp [pieces_between, hc.symm, hq]
      rw [hpc] at hp
      simp only [List.cons.injEq] at hp
      obtain ⟨rfl, rfl⟩ := hp
      have e : strip_space [] = [] := rfl
      rw [if_pos hc] at h
      by_cases hb : buf.length > 0
      · rw [if_pos hb] at h
        by_cases hl : res.length ≥ len
        · rw [if_pos hl] at h
          exact absurd h (by simp)
        · rw [if_neg hl] at h
          have hb2 : buf ≠ [] := by
            intro h0
            simp [h0] at hb
          rw [ih [] (res ++ [buf]) q qs hq h]
          simp only [e, List.append_nil, List.nil_append, List.map_cons, List.filter_cons]
          by_cases hq1 : strip_space q = []
          · simp [hq1, hb2]
          · simp [hq1, hb2]
      · rw [if_neg hb] at h
        have hb2 : buf = [] := by
          cases buf with
          | nil => rfl
          | cons a b => simp at hb
        subst hb2
        rw [ih [] res q qs hq h]
        simp only [e, List.append_nil, List.nil_append, List.map_cons, List.filter_cons]
        by_cases hq1 : strip_space q = []
        · simp [hq1]
        · simp [hq1]
    · have hc2 : ¬ c = del := fun h => hc h.symm
      have hpc : pieces_between del (c :: cs) = (c :: q) :: qs := by
        simp [pieces_between, hc2, hq]
      rw [hpc] at hp
      simp only [List.cons.injEq] at hp
      obtain ⟨rfl, rfl⟩ := hp
      rw [if_neg hc] at h
      by_cases hsp : (!isspace c) = true
      · rw [if_pos hsp] at h
        rw [ih (buf ++ [c]) res q qs hq h]
        have e : strip_space (c :: q) = c :: strip_space q := by
          simp [strip_space, List.filter_cons, hsp]
        rw [e]
        simp
      · rw [if_neg hsp] at h
        rw [ih buf res q qs hq h]
        have e : strip_space (c :: q) = strip_space q := by
          simp [strip_space, List.filter_cons, hsp]
        rw [e]

/-- What `split_str` returns: nothing for a text of 256 characters or more, nothing (and the
length untouched) for a text without fields, and the fields with their number otherwise. -/
theorem split_str_eq (s : List Char) (del : Char) (n0 : Nat) :
    split_str s del n0
      = if s.length ≥ CRON_MAX_STR_LEN_TO_SPLIT then (none, 0)
        else if delimited_fields del s = [] then (none, n0)
        else (some (delimited_fields del s), (delimited_fields del s).length) := by
  unfold split_str
  split
  · rfl
  · simp only []
    rw [split_count_fields]
    by_cases h0 : delimited_fields del s = []
    · simp [h0]
    · have h1 : (delimited_fields del s).length ≠ 0 := by
        simpa using h0
      rw [if_neg h1, if_neg h0]
      obtain ⟨out, hout⟩ := split_fill_some del (delimited_fields del s).length s [] []
        (by simp [split_count_fields])
      obtain ⟨p, ps, hp⟩ := pieces_between_ne_nil del s
      have := split_fill_out del _ s [] [] out p ps hp hout
      rw [hout]
      simp only []
      rw [this, delimited_fields_strip, hp]
      have e : ((p :: ps).map strip_space).filter (fun p => p ≠ [])
          = (if [] ++ strip_space p ≠ [] then [[] ++ strip_space p] else [])
            ++ (ps.map strip_space).filter (fun p => p ≠ []) := by
        by_cases hq : strip_space p = []
        · simp [hq]
        · simp [hq]
      rw [e]
      simp

/-! ## The six field parsers -/

theorem parse_field_eq (k : Nat) (hk : k < 6) (text : List Char) (targ : List Nat)
    (error : Option String) :
    parse_field k text targ error
      = (field_store k (set_number_hits (field_value k text) targ (field_min k)
          (field_last k + 1) error).1,
        (set_number_hits (field_value k text) targ (field_min k) (field_last k + 1) error).2) := by
  interval_cases k
  · rfl
  · rfl
  · rfl
  · rfl
  · rfl
  · simp only [parse_field, set_days_of_week, field_value, field_store, field_min, field_last]
    split <;> split <;> simp_all

theorem field_set_zero_length (k : Nat) (hk : k < 6) :
    (8 * (field_set cron_expr_zero k).length : Int) = field_capacity k := by
  interval_cases k <;> rfl

theorem field_set_zero (k : Nat) :
    field_set cron_expr_zero k = List.replicate (field_set cron_expr_zero k).length 0 := by
  match k with
  | 0 => rfl
  | 1 => rfl
  | 2 => rfl
  | 3 => rfl
  | 4 => rfl
  | (n + 5) => rfl

/-- A successful parse has run the six field parsers, each on its field of the text and on a
zeroed set, and each has succeeded. -/
theorem cron_parse_fields_ok (fs : List (List Char)) (e : cron_expr)
    (h : cron_parse_fields fs = (e, none)) (k : Nat) (hk : k < 6) :
    parse_field k (fs.getD k []) (field_set cron_expr_zero k) none = (field_set e k, none) := by
  unfold cron_parse_fields at h
  simp only [] at h
  by_cases h0 : (set_number_hits (fs.getD 0 []) cron_expr_zero.seconds 0 60 none).2 = none
  swap
  · rw [if_pos h0] at h
    have h' := congrArg Prod.snd h
    simp only [] at h'
    exact (h0 h').elim
  rw [if_neg (not_not.mpr h0), h0] at h
  by_cases h1 : (set_number_hits (fs.getD 1 []) cron_expr_zero.minutes 0 60 none).2 = none
  swap
  · rw [if_pos h1] at h
    have h' := congrArg Prod.snd h
    simp only [] at h'
    exact (h1 h').elim
  rw [if_neg (not_not.mpr h1), h1] at h
  by_cases h2 : (set_number_hits (fs.getD 2 []) cron_expr_zero.hours 0 24 none).2 = none
  swap
  · rw [if_pos h2] at h
    have h' := congrArg Prod.snd h
    simp only [] at h'
    exact (h2 h').elim
  rw [if_neg (not_not.mpr h2), h2] at h
  by_cases h3 : (set_days_of_month (fs.getD 3 []) cron_expr_zero.days_of_month none).2 = none
  swap
  · rw [if_pos h3] at h
    have h' := congrArg Prod.snd h
    simp only [] at h'
    exact (h3 h').elim
  rw [if_neg (not_not.mpr h3), h3] at h
  by_cases h4 : (set_months (fs.getD 4 []) cron_expr_zero.months none).2 = none
  swap
  · rw [if_pos h4] at h
    have h' := congrArg Prod.snd h
    simp only [] at h'
    exact (h4 h').elim
  rw [if_neg (not_not.mpr h4), h4] at h
  have he := congrArg Prod.fst h
  have h5 := congrArg Prod.snd h
  simp only [] at he h5
  interval_cases k
  · simp only [parse_field, field_set, ← he]
    exact Prod.ext rfl h0
  · simp only [parse_field, field_set, ← he]
    exact Prod.ext rfl h1
  · simp only [parse_field, field_set, ← he]
    exact Prod.ext rfl h2
  · simp only [parse_field, field_set, ← he]
    exact Prod.ext rfl h3
  · simp only [parse_field, field_set, ← he]
    exact Prod.ext rfl h4
  · simp only [parse_field, field_set, ← he]
    exact Prod.ext rfl h5

/-- A successful `cron_parse_expr` has parsed the fields of the text. -/
theorem cron_parse_expr_ok (expression : List Char) (target e : cron_expr)
    (h : cron_parse_expr expression target = (e, none)) :
    cron_parse_fields (delimited_fields ' ' expression) = (e, none) := by
  unfold cron_parse_expr at h
  simp only [] at h
  by_cases h6 : (split_str expression ' ' 0).2 = 6
  · rw [if_neg (not_not.mpr h6)] at h
    rw [split_str_eq] at h h6
    by_cases hl : expression.length ≥ CRON_MAX_STR_LEN_TO_SPLIT
    · rw [if_pos hl] at h6
      exact absurd h6 (by decide)
    · rw [if_neg hl] at h h6
      by_cases hf : delimited_fields ' ' expression = []
      · rw [if_pos hf] at h6
        exact absurd h6 (by decide)
      · rw [if_neg hf] at h
        exact h
  · rw [if_pos h6] at h
    exact absurd (congrArg Prod.snd h) (by simp)

/-- The parser of field `k` of a successfully parsed expression has succeeded on the text of
that field, and the expression holds its result. -/
theorem cron_parse_expr_runs_field (expression : List Char) (target e : cron_expr)
    (h : cron_parse_expr expression target = (e, none)) (k : Nat) (hk : k < 6) :
    parse_field k (field_text expression k) (field_set cron_expr_zero k) none
      = (field_set e k, none) :=
  cron_parse_fields_ok _ e (cron_parse_expr_ok expression target e h) k hk

/-- The function `set_number_hits` runs its loop over the items of the text, the pieces between
commas. -/
theorem set_number_hits_eq (value : List Char) (target : List Nat) (min max : Int)
    (error : Option String) :
    set_number_hits value target min max error
      = if value.length ≥ CRON_MAX_STR_LEN_TO_SPLIT ∨ delimited_fields ',' value = [] then
          (target, some "Comma split error")
        else set_number_hits_loop min max (delimited_fields ',' value) target error := by
  unfold set_number_hits
  rw [split_str_eq]
  by_cases hl : value.length ≥ CRON_MAX_STR_LEN_TO_SPLIT
  · simp [hl]
  · by_cases hf : delimited_fields ',' value = []
    · simp [hl, hf]
    · simp [hl, hf]

/-! ## Items made of numerals -/

theorem digits_clean (ds : List Char) (h : all_digits ds) (c : Char) (hc : c ∈ ds) :
    isspace c = false ∧ c ≠ '-' ∧ c ≠ ',' ∧ c ≠ '/' ∧ c ≠ '*' ∧ c ≠ '?' ∧ c.isAlpha = false := by
  obtain ⟨d, hd, rfl⟩ := h c hc
  have hf := digit_char_facts d hd
  exact ⟨hf.2.1, hf.2.2.1, hf.2.2.2.2.1, hf.2.2.2.2.2.1, hf.2.2.2.2.2.2.1, hf.2.2.2.2.2.2.2.1,
    hf.2.2.2.2.2.2.2.2.1⟩

theorem decimal_ne_star (v : Nat) : decimal v ≠ ['*'] := by
  intro h
  have := (digits_clean _ (decimal_all_digits v) '*' (by rw [h]; simp)).2.2.2.2.1
  exact this rfl

theorem decimal_ne_question (v : Nat) : decimal v ≠ ['?'] := by
  intro h
  have := (digits_clean _ (decimal_all_digits v) '?' (by rw [h]; simp)).2.2.2.2.2.1
  exact this rfl

theorem decimal_no_dash (v : Nat) : has_char (decimal v) '-' = false :=
  has_char_digits _ (decimal_all_digits v) '-' (fun d hd => (digit_char_facts d hd).2.2.1)

theorem decimal_no_slash (v : Nat) : has_char (decimal v) '/' = false :=
  has_char_digits _ (decimal_all_digits v) '/'
    (fun d hd => (digit_char_facts d hd).2.2.2.2.2.1)

theorem strip_space_decimal (v : Nat) : strip_space (decimal v) = decimal v :=
  strip_space_id _ (fun c hc => (digits_clean _ (decimal_all_digits v) c hc).1)

theorem decimal_length_int (v : Nat) (h : (v : Int) ≤ INT_MAX) : (decimal v).length ≤ 10 := by
  apply decimal_length 9
  unfold INT_MAX at h
  omega

/-- A bare number: `get_range` returns it twice when it lies in the range of the field. -/
theorem get_range_decimal (v : Nat) (min max : Int) :
    get_range (decimal v) min max
      = if (v : Int) > INT_MAX then (0, 0, some "Unsigned integer parse error 1")
        else if (v : Int) ≥ max then ((v : Int), (v : Int), some "Specified range exceeds maximum")
        else if (v : Int) < min then
          ((v : Int), (v : Int), some "Specified range is less than minimum")
        else ((v : Int), (v : Int), none) := by
  unfold get_range
  simp only [decimal_ne_star, if_false, decimal_no_dash, Bool.not_false, if_true,
    parse_uint_decimal]
  by_cases h1 : (v : Int) > INT_MAX
  · have h2 : ¬ ((v : Int) ≤ INT_MAX) := by omega
    simp [h1, h2]
  · have h2 : (v : Int) ≤ INT_MAX := by omega
    simp only [h1, h2, if_true, if_false]
    by_cases h3 : (v : Int) ≥ max
    · simp [h3]
    · by_cases h4 : (v : Int) < min
      · simp [h3, h4]
      · simp [h3, h4]

theorem range_item_ne_star (a b : Nat) : range_item a b ≠ ['*'] := by
  intro h
  have h2 := congrArg List.length h
  have ha : (decimal a).length ≠ 0 := by
    simpa using decimal_ne_nil a
  have hb : (decimal b).length ≠ 0 := by
    simpa using decimal_ne_nil b
  simp [range_item] at h2
  omega

theorem range_item_dash (a b : Nat) : has_char (range_item a b) '-' = true := by
  simp [range_item, has_char]

theorem range_item_fields (a b : Nat) :
    delimited_fields '-' (range_item a b) = [decimal a, decimal b] := by
  unfold range_item
  rw [delimited_fields_pair '-' _ _
    (fun c hc => (digits_clean _ (decimal_all_digits a) c hc).2.1)
    (fun c hc => (digits_clean _ (decimal_all_digits b) c hc).2.1)
    (by rw [strip_space_decimal]; exact decimal_ne_nil a)
    (by rw [strip_space_decimal]; exact decimal_ne_nil b),
    strip_space_decimal, strip_space_decimal]

/-- A range `a-b` within the range of the field: `get_range` returns its ends. -/
theorem get_range_range_ok (a b : Nat) (min max : Int) (h1 : min ≤ a) (h2 : a ≤ b)
    (h3 : (b : Int) < max) (h4 : max ≤ INT_MAX + 1) :
    get_range (range_item a b) min max = ((a : Int), (b : Int), none) := by
  have hb : (b : Int) ≤ INT_MAX := by omega
  have ha : (a : Int) ≤ INT_MAX := by omega
  have hlen : ¬ (range_item a b).length ≥ CRON_MAX_STR_LEN_TO_SPLIT := by
    have := decimal_length_int a ha
    have := decimal_length_int b hb
    simp [range_item, CRON_MAX_STR_LEN_TO_SPLIT]
    omega
  unfold get_range
  simp only [range_item_ne_star, if_false, range_item_dash, Bool.not_true, split_str_eq,
    if_neg hlen, range_item_fields]
  simp only [List.cons_ne_nil, if_false, List.length_cons, List.length_nil, Option.getD_some,
    List.getD_cons_zero, List.getD_cons_succ, parse_uint_decimal, if_pos ha, if_pos hb]
  have e1 : ¬ ((a : Int) ≥ max ∨ (b : Int) ≥ max) := by omega
  have e2 : ¬ ((a : Int) < min ∨ (b : Int) < min) := by omega
  have e3 : ¬ ((a : Int) > b) := by omega
  simp [e1, e2, e3]

/-- A range `a-b` that is inverted or leaves the range of the field is an error. -/
theorem get_range_range_err (a b : Nat) (min max : Int)
    (h : ¬ (min ≤ a ∧ a ≤ b ∧ (b : Int) < max)) :
    (get_range (range_item a b) min max).2.2 ≠ none := by
  unfold get_range
  simp only [range_item_ne_star, if_false, range_item_dash, Bool.not_true, split_str_eq]
  by_cases hlen : (range_item a b).length ≥ CRON_MAX_STR_LEN_TO_SPLIT
  · simp [hlen]
  · simp only [if_neg hlen, range_item_fields]
    simp only [List.cons_ne_nil, if_false, List.length_cons, List.length_nil, Option.getD_some,
      List.getD_cons_zero, List.getD_cons_succ, parse_uint_decimal]
    by_cases ha : (a : Int) ≤ INT_MAX
    · by_cases hb : (b : Int) ≤ INT_MAX
      · simp only [if_pos ha, if_pos hb]
        by_cases e1 : (a : Int) ≥ max ∨ (b : Int) ≥ max
        · simp [e1]
        · by_cases e2 : (a : Int) < min ∨ (b : Int) < min
          · simp [e1, e2]
          · have e3 : (a : Int) > b := by omega
            simp [e1, e2, e3]
      · simp [ha, hb]
    · simp [ha]

theorem get_range_star (min max : Int) (h : min < max) :
    get_range ['*'] min max = (min, max - 1, none) := by
  unfold get_range
  have e1 : ¬ (min ≥ max ∨ max - 1 ≥ max) := by omega
  have e3 : ¬ (min > max - 1) := by omega
  simp [e1, e3, h]

/-! ## Storing the written values -/

/-- The folding of Sunday: bit 7 goes to bit 0. -/
theorem fold_sunday_get (s : List Nat) (j : Int) (hs : 1 ≤ s.length) (hj : 0 ≤ j)
    (hj2 : j < 2048) :
    cron_get_bit (if cron_get_bit s 7 ≠ 0 then cron_del_bit (cron_set_bit s 0) 7 else s) j ≠ 0
      ↔ ((j ≠ 7 ∧ cron_get_bit s j ≠ 0) ∨ (j = 0 ∧ cron_get_bit s 7 ≠ 0)) := by
  by_cases h : cron_get_bit s 7 ≠ 0
  · rw [if_pos h, cron_get_del_bit _ 7 j (by omega) (by omega) hj hj2,
      cron_get_set_bit s 0 j (by omega) (by omega) (by omega) hj hj2]
    constructor
    · rintro ⟨h1, h2 | h2⟩
      · exact Or.inr ⟨h2.symm, h⟩
      · exact Or.inl ⟨fun h3 => h1 h3.symm, h2⟩
    · rintro (⟨h1, h2⟩ | ⟨h1, h2⟩)
      · exact ⟨fun h3 => h1 h3.symm, Or.inr h2⟩
      · exact ⟨by omega, Or.inl h1.symm⟩
  · rw [if_neg h]
    constructor
    · intro h1
      refine Or.inl ⟨fun h2 => ?_, h1⟩
      subst h2
      exact h h1
    · rintro (⟨h1, h2⟩ | ⟨h1, h2⟩)
      · exact h2
      · exact absurd h2 h

theorem field_store_length (k : Nat) (s : List Nat) : (field_store k s).length = s.length := by
  unfold field_store
  split
  · exact rotate_months_length _ _ _
  · split
    · rw [cron_del_bit_length, cron_set_bit_length]
    · rfl
  · rfl

/-- When `set_number_hits` has filled the set with the written values `W`, all in the range of
the field, the parser of the field stores exactly their stored indices. -/
theorem selects_store (k : Nat) (hk : k < 6) (s : List Nat) (W : Int → Prop)
    (hlen : (8 * s.length : Int) = field_capacity k)
    (hW : ∀ w, W w → field_min k ≤ w ∧ w ≤ field_last k)
    (hs : ∀ j : Int, 0 ≤ j → j < field_capacity k → (cron_get_bit s j ≠ 0 ↔ W j)) :
    selects (field_store k s) k W := by
  intro j hj hj2
  interval_cases k
  · simp only [field_store, stored_index]
    rw [hs j hj hj2]
    simp
  · simp only [field_store, stored_index]
    rw [hs j hj hj2]
    simp
  · simp only [field_store, stored_index]
    rw [hs j hj hj2]
    simp
  · simp only [field_store, stored_index]
    rw [hs j hj hj2]
    simp
  · simp only [field_capacity, field_min, field_last] at hlen hW hs hj2
    simp only [field_store, stored_index]
    rw [rotate_months_get 12 1 s j (by omega) (by push_cast; omega) (by norm_num) hj (by omega)]
    simp only [if_true]
    constructor
    · rintro (⟨h1, _⟩ | ⟨h1, h2 | h2⟩ | ⟨h1, h2, h3⟩ | ⟨h1, h2⟩)
      · omega
      · have := hW j ((hs j hj hj2).mp h2)
        omega
      · exact ⟨1, (hs 1 (by omega) (by omega)).mp h2.2, by omega⟩
      · exact ⟨j + 1, (hs (j + 1) (by omega) (by push_cast at h2; omega)).mp h3, by omega⟩
      · have := hW j ((hs j hj hj2).mp h2)
        push_cast at h1
        omega
    · rintro ⟨w, hw, hw2⟩
      have hr := hW w hw
      have hw3 : w = j + 1 := by omega
      subst hw3
      by_cases h0 : j = 0
      · subst h0
        exact Or.inr (Or.inl ⟨by omega, Or.inr ⟨by omega, (hs 1 (by omega) (by omega)).mpr hw⟩⟩)
      · exact Or.inr (Or.inr (Or.inl ⟨by omega, by push_cast; omega,
          (hs (j + 1) (by omega) (by omega)).mpr hw⟩))
  · simp only [field_capacity, field_min, field_last] at hlen hW hs hj2
    simp only [field_store, stored_index]
    rw [fold_sunday_get s j (by omega) hj (by omega)]
    simp only [show ¬ ((5 : Nat) = 4) by decide, if_false, if_true]
    constructor
    · rintro (⟨h1, h2⟩ | ⟨h1, h2⟩)
      · exact ⟨j, (hs j hj hj2).mp h2, by omega⟩
      · exact ⟨7, (hs 7 (by omega) (by omega)).mp h2, by omega⟩
    · rintro ⟨w, hw, hw2⟩
      have hr := hW w hw
      by_cases h7 : w = 7
      · subst h7
        exact Or.inr ⟨by omega, (hs 7 (by omega) (by omega)).mpr hw⟩
      · have : w = j := by omega
        subst this
        exact Or.inl ⟨h7, (hs w hj hj2).mpr hw⟩

/-! ## Texts without letters -/

theorem str_replace_loop_none (rep rep_with : List Char) (r : Char) (rs : List Char)
    (hrep : rep = r :: rs) (n : Nat) (s : List Char) (h : ∀ c ∈ s, c ≠ r) :
    str_replace_loop rep rep_with n s = s := by
  induction n generalizing s with
  | zero => rfl
  | succ n ih =>
    cases s with
    | nil => rfl
    | cons c cs =>
      have hc : c ≠ r := h c (List.mem_cons_self _ _)
      have hp : rep.isPrefixOf (c :: cs) = false := by
        rw [hrep]
        simp [List.isPrefixOf, Ne.symm hc]
      simp only [str_replace_loop, hp, Bool.false_eq_true, if_false]
      rw [ih cs (fun x hx => h x (List.mem_cons_of_mem _ hx))]

theorem replace_ordinals_loop_none (arr : List (List Char)) (i : Nat) (s : List Char)
    (harr : ∀ tok ∈ arr, ∃ r rs, tok = r :: rs ∧ r.isAlpha = true)
    (h : ∀ c ∈ s, c.isAlpha = false) : replace_ordinals_loop arr i s = s := by
  induction arr generalizing i with
  | nil => rfl
  | cons a rest ih =>
    obtain ⟨r, rs, hr, hr2⟩ := harr a (List.mem_cons_self _ _)
    unfold replace_ordinals_loop
    unfold str_replace
    rw [str_replace_loop_none a _ r rs hr _ s (fun c hc hcr => by
      have := h c hc
      rw [hcr, hr2] at this
      exact absurd this (by simp))]
    exact ih (i + 1) (fun tok ht => harr tok (List.mem_cons_of_mem _ ht))

theorem names_start_with_letter :
    (∀ tok ∈ MONTHS_ARR, ∃ r rs, tok = r :: rs ∧ r.isAlpha = true)
      ∧ (∀ tok ∈ DAYS_ARR, ∃ r rs, tok = r :: rs ∧ r.isAlpha = true) := by
  constructor
  · intro tok h
    simp only [MONTHS_ARR, List.mem_cons, List.mem_singleton, List.not_mem_nil, or_false] at h
    rcases h with h | h | h | h | h | h | h | h | h | h | h | h | h <;> subst h <;>
      exact ⟨_, _, rfl, by decide⟩
  · intro tok h
    simp only [DAYS_ARR, List.mem_cons, List.mem_singleton, List.not_mem_nil, or_false] at h
    rcases h with h | h | h | h | h | h | h <;> subst h <;> exact ⟨_, _, rfl, by decide⟩

theorem to_upper_plain (s : List Char) (h : ∀ c ∈ s, c.isAlpha = false) : to_upper s = s := by
  unfold to_upper
  induction s with
  | nil => rfl
  | cons c cs ih =>
    have hc := h c (List.mem_cons_self _ _)
    have e : c.toUpper = c := by
      have hl : c.isLower = false := by
        simp only [Char.isAlpha, Bool.or_eq_false_iff] at hc
        exact hc.2
      unfold Char.toUpper
      simp only []
      by_cases h2 : c.toNat ≥ 97 ∧ c.toNat ≤ 122
      · have h3 : c.val ≥ 97 := by
          show (97 : UInt32).toNat ≤ c.val.toNat
          exact h2.1
        have h4 : c.val ≤ 122 := by
          show c.val.toNat ≤ (122 : UInt32).toNat
          exact h2.2
        simp [Char.isLower, h3, h4] at hl
      · rw [if_neg h2]
    rw [List.map_cons, e, ih (fun x hx => h x (List.mem_cons_of_mem _ hx))]

/-- A text without letters, other than the bare `?`, is handed to `set_number_hits` as it is. -/
theorem field_value_plain (k : Nat) (text : List Char) (hq : text ≠ ['?'])
    (h : ∀ c ∈ text, c.isAlpha = false) : field_value k text = text := by
  unfold field_value
  split
  · rw [if_neg hq]
  · rw [to_upper_plain text h]
    exact replace_ordinals_loop_none _ _ _ names_start_with_letter.1 h
  · rw [if_neg hq, to_upper_plain text h]
    exact replace_ordinals_loop_none _ _ _ names_start_with_letter.2 h
  · rfl

/-! ## A field that is a single item -/

theorem field_zero_get (k : Nat) (j : Int) : cron_get_bit (field_set cron_expr_zero k) j = 0 := by
  rw [field_set_zero k]
  exact cron_get_bit_zero _ _

theorem field_bounds (k : Nat) (hk : k < 6) :
    0 ≤ field_min k ∧ field_min k ≤ field_last k ∧ field_last k < field_capacity k
      ∧ field_capacity k ≤ 64 := by
  interval_cases k <;> decide

theorem set_number_hits_loop_single (min max : Int) (item : List Char) (t : List Nat)
    (e : Option String) :
    set_number_hits_loop min max [item] t e = set_number_hits_item item t min max := by
  simp only [set_number_hits_loop]
  split
  · rfl
  · rfl

/-- A text without comma or whitespace is a single item. -/
theorem set_number_hits_single (text : List Char)
    (hclean : ∀ c ∈ text, isspace c = false ∧ c ≠ ',') (hne : text ≠ [])
    (hlen : text.length < 256) (t : List Nat) (min max : Int) (e : Option String) :
    set_number_hits text t min max e = set_number_hits_item text t min max := by
  have hs : strip_space text = text := strip_space_id _ (fun c hc => (hclean c hc).1)
  have hf : delimited_fields ',' text = [text] := by
    rw [delimited_fields_single ',' text (fun c hc => (hclean c hc).2) (by rw [hs]; exact hne), hs]
  rw [set_number_hits_eq, hf, set_number_hits_loop_single]
  have : ¬ (text.length ≥ CRON_MAX_STR_LEN_TO_SPLIT ∨ [text] = []) := by
    simp [CRON_MAX_STR_LEN_TO_SPLIT]
    omega
  rw [if_neg this]

/-- The parser of a field on a single item without letters: when the item fills the set with
the written values `W`, the field holds their stored indices. -/
theorem parse_field_item (k : Nat) (hk : k < 6) (text : List Char)
    (hclean : ∀ c ∈ text, isspace c = false ∧ c ≠ ',' ∧ c.isAlpha = false) (hne : text ≠ [])
    (hq : text ≠ ['?']) (hlen : text.length < 256) (s : List Nat) (W : Int → Prop)
    (hitem : set_number_hits_item text (field_set cron_expr_zero k) (field_min k)
      (field_last k + 1) = (s, none))
    (hslen : s.length = (field_set cron_expr_zero k).length)
    (hW : ∀ w, W w → field_min k ≤ w ∧ w ≤ field_last k)
    (hs : ∀ j : Int, 0 ≤ j → j < field_capacity k → (cron_get_bit s j ≠ 0 ↔ W j)) :
    ∃ s2, parse_field k text (field_set cron_expr_zero k) none = (s2, none)
      ∧ selects s2 k W := by
  refine ⟨field_store k s, ?_, ?_⟩
  · rw [parse_field_eq k hk, field_value_plain k text hq (fun c hc => (hclean c hc).2.2),
      set_number_hits_single text (fun c hc => ⟨(hclean c hc).1, (hclean c hc).2.1⟩) hne hlen,
      hitem]
  · exact selects_store k hk s W (by rw [hslen]; exact field_set_zero_length k hk) hW hs

/-- What the parser of a field returns for a text is what a successfully parsed expression
holds for the field with that text. -/
theorem cron_parse_expr_selects (k : Nat) (hk : k < 6) (text : List Char) (W : Int → Prop)
    (h : ∃ s, parse_field k text (field_set cron_expr_zero k) none = (s, none) ∧ selects s k W)
    (expression : List Char) (target e : cron_expr)
    (hparse : cron_parse_expr expression target = (e, none))
    (htext : field_text expression k = text) : selects (field_set e k) k W := by
  obtain ⟨s, hs, hsel⟩ := h
  have := cron_parse_expr_runs_field expression target e hparse k hk
  rw [htext, hs] at this
  have e2 := congrArg Prod.fst this
  simp only [] at e2
  rw [← e2]
  exact hsel

/-- A field that the parser of the field rejects makes `cron_parse_expr` report an error. -/
theorem cron_parse_expr_rejects (k : Nat) (hk : k < 6) (expression : List Char)
    (target : cron_expr)
    (h : (parse_field k (field_text expression k) (field_set cron_expr_zero k) none).2 ≠ none) :
    (cron_parse_expr expression target).2 ≠ none := by
  intro h2
  have := cron_parse_expr_runs_field expression target (cron_parse_expr expression target).1
    (Prod.ext rfl h2) k hk
  rw [this] at h
  exact h rfl

/-! ## Numbers, ranges and the wildcard -/

theorem set_range_bits_one (v : Int) (t : List Nat) :
    set_range_bits v 1 v t = cron_set_bit t v := by
  simp [set_range_bits]

theorem item_decimal (v : Nat) (t : List Nat) (min max : Int) :
    set_number_hits_item (decimal v) t min max
      = if min ≤ v ∧ (v : Int) < max ∧ (v : Int) ≤ INT_MAX then (cron_set_bit t v, none)
        else (t, (get_range (decimal v) min max).2.2) := by
  unfold set_number_hits_item
  simp only [decimal_no_slash, Bool.not_false, if_true]
  rw [get_range_decimal]
  by_cases h1 : (v : Int) > INT_MAX
  · have : ¬ (min ≤ v ∧ (v : Int) < max ∧ (v : Int) ≤ INT_MAX) := by omega
    simp [h1, this]
  · by_cases h2 : (v : Int) ≥ max
    · have : ¬ (min ≤ v ∧ (v : Int) < max ∧ (v : Int) ≤ INT_MAX) := by omega
      simp [h1, h2, this]
    · by_cases h3 : (v : Int) < min
      · have : ¬ (min ≤ v ∧ (v : Int) < max ∧ (v : Int) ≤ INT_MAX) := by omega
        simp [h1, h2, h3, this]
      · have : min ≤ v ∧ (v : Int) < max ∧ (v : Int) ≤ INT_MAX := by omega
        simp only [h1, h2, h3, if_false, this, and_self, if_true, ne_eq, not_true_eq_false]
        rw [show ((v : Int) - v + 1).toNat = 1 by simp, set_range_bits_one]

theorem item_decimal_err (v : Nat) (t : List Nat) (min max : Int)
    (h : ¬ (min ≤ v ∧ (v : Int) < max)) :
    (set_number_hits_item (decimal v) t min max).2 ≠ none := by
  rw [item_decimal, if_neg (fun h2 => h ⟨h2.1, h2.2.1⟩), get_range_decimal]
  by_cases h1 : (v : Int) > INT_MAX
  · simp [h1]
  · by_cases h2 : (v : Int) ≥ max
    · simp [h1, h2]
    · have h3 : (v : Int) < min := by omega
      simp [h1, h2, h3]

theorem range_item_no_slash (a b : Nat) : has_char (range_item a b) '/' = false := by
  unfold range_item
  rw [has_char_append, has_char_cons, decimal_no_slash, decimal_no_slash]
  rfl

theorem item_range (a b : Nat) (t : List Nat) (min max : Int) (h1 : min ≤ a) (h2 : a ≤ b)
    (h3 : (b : Int) < max) (h4 : max ≤ INT_MAX + 1) :
    set_number_hits_item (range_item a b) t min max
      = (set_range_bits b ((b : Int) - a + 1).toNat a t, none) := by
  unfold set_number_hits_item
  simp only [range_item_no_slash, Bool.not_false, if_true]
  rw [get_range_range_ok a b min max h1 h2 h3 h4]
  simp

theorem item_range_err (a b : Nat) (t : List Nat) (min max : Int)
    (h : ¬ (min ≤ a ∧ a ≤ b ∧ (b : Int) < max)) :
    (set_number_hits_item (range_item a b) t min max).2 ≠ none := by
  unfold set_number_hits_item
  simp only [range_item_no_slash, Bool.not_false, if_true]
  have := get_range_range_err a b min max h
  simp [this]

theorem item_star (t : List Nat) (min max : Int) (h : min < max) :
    set_number_hits_item ['*'] t min max
      = (set_range_bits (max - 1) (max - 1 - min + 1).toNat min t, none) := by
  unfold set_number_hits_item
  have e : has_char ['*'] '/' = false := by decide
  simp only [e, Bool.not_false, if_true]
  rw [get_range_star min max h]
  simp

/-! ## Stepped items -/

theorem field_reads_of (k : Nat) (hk : k < 6) (text : List Char) (W : Int → Prop)
    (h : ∃ s, parse_field k text (field_set cron_expr_zero k) none = (s, none) ∧ selects s k W) :
    field_reads k text W :=
  ⟨h, fun expression target e hp ht => cron_parse_expr_selects k hk text W h expression target e
    hp ht⟩

theorem step_item_fields (start : List Char) (n : Nat)
    (hstart : ∀ c ∈ start, isspace c = false ∧ c ≠ '/') (hne : start ≠ []) :
    delimited_fields '/' (step_item start n) = [start, decimal n] := by
  have hs : strip_space start = start := strip_space_id _ (fun c hc => (hstart c hc).1)
  unfold step_item
  rw [delimited_fields_pair '/' _ _ (fun c hc => (hstart c hc).2)
    (fun c hc => (digits_clean _ (decimal_all_digits n) c hc).2.2.2.1)
    (by rw [hs]; exact hne) (by rw [strip_space_decimal]; exact decimal_ne_nil n),
    strip_space_decimal, hs]

theorem step_item_slash (start : List Char) (n : Nat) :
    has_char (step_item start n) '/' = true := by
  simp [step_item, has_char]

/-- A stepped item: the stride loop runs from the start of the range that precedes the slash to
its end, or to the largest value of the field when no range is written. -/
theorem item_step (start : List Char) (n : Nat) (t : List Nat) (min max : Int)
    (hstart : ∀ c ∈ start, isspace c = false ∧ c ≠ '/') (hne : start ≠ [])
    (hlen : start.length ≤ 100) (hn : (n : Int) ≤ INT_MAX) :
    set_number_hits_item (step_item start n) t min max
      = if (get_range start min max).2.2 ≠ none then (t, (get_range start min max).2.2)
        else if n = 0 then (t, some "Incrementer may not be zero")
        else (set_step_bits
          (if !has_char start '-' then max - 1 else (get_range start min max).2.1) n 128
          (get_range start min max).1 t, none) := by
  have hl : ¬ (step_item start n).length ≥ CRON_MAX_STR_LEN_TO_SPLIT := by
    have := decimal_length_int n hn
    simp [step_item, CRON_MAX_STR_LEN_TO_SPLIT]
    omega
  unfold set_number_hits_item
  simp only [step_item_slash, Bool.not_true, split_str_eq, if_neg hl,
    step_item_fields start n hstart hne]
  simp only [List.cons_ne_nil, if_false, List.length_cons, List.length_nil, Option.getD_some,
    List.getD_cons_zero, List.getD_cons_succ, parse_uint_decimal, if_pos hn]
  by_cases h1 : (get_range start min max).2.2 ≠ none
  · simp [h1]
  · by_cases h2 : n = 0
    · simp [h1, h2]
    · simp [h1, h2]

theorem stepped_bounds (lo hi : Int) (n : Nat) (w : Int) (h : stepped lo hi n w) :
    lo ≤ w ∧ w ≤ hi := by
  obtain ⟨i, h1, h2⟩ := h
  have : 0 ≤ (i : Int) * n := by positivity
  exact ⟨by omega, h2⟩

/-- The bits of a stride loop on the zeroed set of field `k`. -/
theorem step_bits_field (k : Nat) (hk : k < 6) (lo hi : Int) (n : Nat) (hn : 1 ≤ n)
    (hlo : field_min k ≤ lo) (hhi : hi ≤ field_last k) (hov : no_overflow lo hi n) (j : Int)
    (hj : 0 ≤ j) (hj2 : j < field_capacity k) :
    cron_get_bit (set_step_bits hi n 128 lo (field_set cron_expr_zero k)) j ≠ 0
      ↔ stepped lo hi n j := by
  have hb := field_bounds k hk
  rw [set_step_bits_get hi n 128 lo _ j (by omega) (by exact_mod_cast hn)
    (by rw [field_set_zero_length k hk]; omega) (by omega) (by push_cast; omega) hov hj
    (by omega), field_zero_get]
  simp [stepped]

theorem star_clean : ∀ c ∈ ['*'], isspace c = false ∧ c ≠ '/' := by decide

theorem decimal_clean (v : Nat) (c : Char) (hc : c ∈ decimal v) :
    isspace c = false ∧ c ≠ ',' ∧ c.isAlpha = false := by
  have := digits_clean _ (decimal_all_digits v) c hc
  exact ⟨this.1, this.2.2.1, this.2.2.2.2.2.2⟩

theorem range_item_clean (a b : Nat) (c : Char) (hc : c ∈ range_item a b) :
    isspace c = false ∧ c ≠ ',' ∧ c.isAlpha = false ∧ c ≠ '/' := by
  unfold range_item at hc
  rw [List.mem_append, List.mem_cons] at hc
  rcases hc with hc | hc | hc
  · have := digits_clean _ (decimal_all_digits a) c hc
    exact ⟨this.1, this.2.2.1, this.2.2.2.2.2.2, this.2.2.2.1⟩
  · subst hc
    decide
  · have := digits_clean _ (decimal_all_digits b) c hc
    exact ⟨this.1, this.2.2.1, this.2.2.2.2.2.2, this.2.2.2.1⟩

theorem step_item_clean (start : List Char) (n : Nat)
    (h : ∀ c ∈ start, isspace c = false ∧ c ≠ ',' ∧ c.isAlpha = false) (c : Char)
    (hc : c ∈ step_item start n) : isspace c = false ∧ c ≠ ',' ∧ c.isAlpha = false := by
  unfold step_item at hc
  rw [List.mem_append, List.mem_cons] at hc
  rcases hc with hc | hc | hc
  · exact h c hc
  · subst hc
    decide
  · exact decimal_clean n c hc

theorem step_item_ne (start : List Char) (n : Nat) :
    step_item start n ≠ [] ∧ step_item start n ≠ ['?'] := by
  constructor
  · simp [step_item]
  · intro h
    have := step_item_slash start n
    rw [h] at this
    exact absurd this (by decide)

theorem range_item_length (a b : Nat) (ha : (a : Int) ≤ INT_MAX) (hb : (b : Int) ≤ INT_MAX) :
    (range_item a b).length ≤ 21 := by
  have := decimal_length_int a ha
  have := decimal_length_int b hb
  simp [range_item]
  omega

theorem no_overflow_stride (lo hi : Int) (n : Nat) (hlo : 0 ≤ lo) (h : lo ≤ hi)
    (hov : no_overflow lo hi n) : (n : Int) ≤ INT_MAX := by
  have := hov 0 (by simpa using h)
  simp at this
  omega

/-! ## Single values, the wildcard, ranges and steps (C11, C13, C14, C15) -/

theorem int_max_val : INT_MAX = 2147483647 := rfl

theorem field_reads_decimal (k : Nat) (hk : k < 6) (v : Nat) (h1 : field_min k ≤ v)
    (h2 : (v : Int) ≤ field_last k) :
    ∃ s, parse_field k (decimal v) (field_set cron_expr_zero k) none = (s, none)
      ∧ selects s k (fun w => w = v) := by
  have hb := field_bounds k hk
  have hv : (v : Int) ≤ INT_MAX := by
    rw [int_max_val]
    omega
  have hlen := decimal_length_int v hv
  refine parse_field_item k hk (decimal v) (decimal_clean v) (decimal_ne_nil v)
    (decimal_ne_question v) (by omega) (cron_set_bit (field_set cron_expr_zero k) v)
    (fun w => w = v) ?_ (cron_set_bit_length _ _) ?_ ?_
  · rw [item_decimal, if_pos ⟨h1, by omega, hv⟩]
  · intro w hw
    subst hw
    exact ⟨h1, h2⟩
  · intro j hj hj2
    rw [cron_get_set_bit _ v j (by omega) (by rw [field_set_zero_length k hk]; omega) (by omega)
      hj (by omega), field_zero_get]
    constructor
    · rintro (h | h)
      · exact h.symm
      · exact absurd rfl h
    · intro h
      exact Or.inl h.symm

/-- C11: for every field and every value `v` in its written range, the field whose text is the
number `v` is accepted and its set has exactly one set bit, the one at the stored index of `v`
(`v` itself, `v - 1` for the month, `v mod 7` for the day of week): for the parser of the field
on its own, and in every expression that parses successfully with that field. -/
theorem cron_parse_expr_single_value (k : Nat) (hk : k < 6) (v : Nat) (h1 : field_min k ≤ v)
    (h2 : (v : Int) ≤ field_last k) :
    (∃ s, parse_field k (decimal v) (field_set cron_expr_zero k) none = (s, none)
        ∧ ∀ j : Int, 0 ≤ j → j < field_capacity k →
          (cron_get_bit s j ≠ 0 ↔ j = stored_index k v))
      ∧ ∀ (expression : List Char) (target e : cron_expr),
        cron_parse_expr expression target = (e, none) → field_text expression k = decimal v →
          ∀ j : Int, 0 ≤ j → j < field_capacity k →
            (cron_get_bit (field_set e k) j ≠ 0 ↔ j = stored_index k v) := by
  have key := field_reads_decimal k hk v h1 h2
  have conv : ∀ s, selects s k (fun w => w = v) → ∀ j : Int, 0 ≤ j → j < field_capacity k →
      (cron_get_bit s j ≠ 0 ↔ j = stored_index k v) := by
    intro s hs j hj hj2
    rw [hs j hj hj2]
    constructor
    · rintro ⟨w, rfl, h⟩
      exact h.symm
    · intro h
      exact ⟨v, rfl, h.symm⟩
  constructor
  · obtain ⟨s, hs, hsel⟩ := key
    exact ⟨s, hs, conv s hsel⟩
  · intro expression target e hp ht
    exact conv _ (cron_parse_expr_selects k hk _ _ key expression target e hp ht)

theorem cron_parse_expr_single_value_witness :
    cron_get_bit (cron_parse_expr "0 0 12 1 12 *".toList cron_expr_zero).1.months 11 ≠ 0
      ∧ cron_get_bit (cron_parse_expr "0 0 12 1 12 *".toList cron_expr_zero).1.months 12 = 0 :=
  ⟨((cron_parse_expr_single_value 4 (by decide) 12 (by decide) (by decide)).2
      "0 0 12 1 12 *".toList cron_expr_zero _ (by decide!) (by decide!) 11 (by decide)
      (by decide)).mpr (by decide),
    not_not.mp (fun h => absurd
      (((cron_parse_expr_single_value 4 (by decide) 12 (by decide) (by decide)).2
        "0 0 12 1 12 *".toList cron_expr_zero _ (by decide!) (by decide!) 12 (by decide)
        (by decide)).mp h) (by decide))⟩

theorem field_reads_star (k : Nat) (hk : k < 6) :
    ∃ s, parse_field k ['*'] (field_set cron_expr_zero k) none = (s, none)
      ∧ selects s k (fun w => field_min k ≤ w ∧ w ≤ field_last k) := by
  have hb := field_bounds k hk
  refine parse_field_item k hk ['*'] (by decide) (by decide) (by decide) (by decide)
    (set_range_bits (field_last k + 1 - 1) (field_last k + 1 - 1 - field_min k + 1).toNat
      (field_min k) (field_set cron_expr_zero k))
    _ ?_ (set_range_bits_length _ _ _ _) (fun w hw => hw) ?_
  · rw [item_star _ _ _ (by omega)]
  · intro j hj hj2
    rw [set_range_bits_get _ _ _ _ j hb.1 (by rw [field_set_zero_length k hk]; omega) (by omega)
      (by omega) hj (by omega), field_zero_get]
    constructor
    · rintro (h | h)
      · exact ⟨h.1, by omega⟩
      · exact absurd rfl h
    · intro h
      exact Or.inl ⟨h.1, by omega⟩

theorem parse_field_question (k : Nat) (hk : k = 3 ∨ k = 5) (targ : List Nat)
    (error : Option String) :
    parse_field k ['?'] targ error = parse_field k ['*'] targ error := by
  have e2 : (if ['*'] = ['?'] then ['*'] else ['*']) = ['*'] := ite_self _
  rcases hk with rfl | rfl
  · simp only [parse_field, set_days_of_month, e2, if_true]
  · simp only [parse_field, set_days_of_week, e2, if_true]

/-- C13: in every field the wildcard `*` is accepted and selects the whole written range of the
field (stored: seconds and minutes 0..59, hours 0..23, days of month 1..31, months 0..11,
weekdays 0..6); in the day-of-month and day-of-week fields a bare `?` is parsed as `*` is. -/
theorem cron_parse_expr_wildcard (k : Nat) (hk : k < 6) :
    field_reads k ['*'] (fun w => field_min k ≤ w ∧ w ≤ field_last k)
      ∧ (k = 3 ∨ k = 5 →
        (∀ targ error, parse_field k ['?'] targ error = parse_field k ['*'] targ error)
          ∧ field_reads k ['?'] (fun w => field_min k ≤ w ∧ w ≤ field_last k)) := by
  refine ⟨field_reads_of k hk _ _ (field_reads_star k hk), fun h35 => ⟨fun targ error =>
    parse_field_question k h35 targ error, field_reads_of k hk _ _ ?_⟩⟩
  rw [parse_field_question k h35]
  exact field_reads_star k hk

theorem cron_parse_expr_wildcard_witness :
    field_reads 3 ['?'] (fun w => field_min 3 ≤ w ∧ w ≤ field_last 3) :=
  ((cron_parse_expr_wildcard 3 (by decide)).2 (Or.inl rfl)).2

theorem field_reads_range (k : Nat) (hk : k < 6) (a b : Nat) (h1 : field_min k ≤ a)
    (h2 : a ≤ b) (h3 : (b : Int) ≤ field_last k) :
    ∃ s, parse_field k (range_item a b) (field_set cron_expr_zero k) none = (s, none)
      ∧ selects s k (fun w => a ≤ w ∧ w ≤ b) := by
  have hb := field_bounds k hk
  have hbi : (b : Int) ≤ INT_MAX := by
    rw [int_max_val]
    omega
  have hai : (a : Int) ≤ INT_MAX := by omega
  have hlen := range_item_length a b hai hbi
  refine parse_field_item k hk (range_item a b)
    (fun c hc => ⟨(range_item_clean a b c hc).1, (range_item_clean a b c hc).2.1,
      (range_item_clean a b c hc).2.2.1⟩)
    (by simp [range_item])
    (fun h => absurd (range_item_dash a b) (by rw [h]; decide)) (by omega)
    (set_range_bits b ((b : Int) - a + 1).toNat a (field_set cron_expr_zero k))
    _ ?_ (set_range_bits_length _ _ _ _) (fun w hw => ⟨by omega, by omega⟩) ?_
  · rw [item_range a b _ _ _ h1 h2 (by omega) (by rw [int_max_val]; omega)]
  · intro j hj hj2
    rw [set_range_bits_get _ _ _ _ j (by omega) (by rw [field_set_zero_length k hk]; omega)
      (by omega) (by omega) hj (by omega), field_zero_get]
    constructor
    · rintro (h | h)
      · exact h
      · exact absurd rfl h
    · intro h
      exact Or.inl h

/-- C14: for every field and all written values `a ≤ b` in the range of the field, the item
`a-b` is accepted and selects exactly the written values `a, a + 1, ..., b`. -/
theorem cron_parse_expr_inclusive_range (k : Nat) (hk : k < 6) (a b : Nat) (h1 : field_min k ≤ a)
    (h2 : a ≤ b) (h3 : (b : Int) ≤ field_last k) :
    field_reads k (range_item a b) (fun w => a ≤ w ∧ w ≤ b) :=
  field_reads_of k hk _ _ (field_reads_range k hk a b h1 h2 h3)

theorem cron_parse_expr_inclusive_range_witness :
    range_item 5 7 = "5-7".toList
      ∧ field_reads 5 (range_item 5 7) (fun w => ((5 : Nat) : Int) ≤ w ∧ w ≤ ((7 : Nat) : Int)) :=
  ⟨by decide, cron_parse_expr_inclusive_range 5 (by decide) 5 7 (by decide) (by decide) (by decide)⟩

/-! ## Stepped ranges (C15) -/

theorem field_reads_step (k : Nat) (hk : k < 6) (start : List Char) (n : Nat) (lo hi : Int)
    (hn : 1 ≤ n)
    (hstart : ∀ c ∈ start, isspace c = false ∧ c ≠ ',' ∧ c.isAlpha = false ∧ c ≠ '/')
    (hne : start ≠ []) (hlen : start.length ≤ 100)
    (hrange : (get_range start (field_min k) (field_last k + 1)).2.2 = none)
    (hlo : (get_range start (field_min k) (field_last k + 1)).1 = lo)
    (hhi : (if !has_char start '-' then field_last k + 1 - 1
      else (get_range start (field_min k) (field_last k + 1)).2.1) = hi)
    (h1 : field_min k ≤ lo) (h2 : lo ≤ hi) (h3 : hi ≤ field_last k)
    (hov : no_overflow lo hi n) :
    ∃ s, parse_field k (step_item start n) (field_set cron_expr_zero k) none = (s, none)
      ∧ selects s k (stepped lo hi n) := by
  have hb := field_bounds k hk
  have hni := no_overflow_stride lo hi n (by omega) h2 hov
  have hlen2 := decimal_length_int n hni
  refine parse_field_item k hk (step_item start n)
    (step_item_clean start n (fun c hc => ⟨(hstart c hc).1, (hstart c hc).2.1,
      (hstart c hc).2.2.1⟩))
    (step_item_ne start n).1 (step_item_ne start n).2
    (by simp [step_item]; omega)
    (set_step_bits hi n 128 lo (field_set cron_expr_zero k))
    _ ?_ (set_step_bits_length _ _ _ _ _)
    (fun w hw => ⟨by have := stepped_bounds lo hi n w hw; omega,
      by have := stepped_bounds lo hi n w hw; omega⟩) ?_
  · rw [item_step start n _ _ _ (fun c hc => ⟨(hstart c hc).1, (hstart c hc).2.2.2⟩) hne hlen hni,
      if_neg (not_not.mpr hrange), if_neg (by omega), hlo, hhi]
  · intro j hj hj2
    exact step_bits_field k hk lo hi n hn h1 h3 hov j hj hj2

/-- C15: for every field, every start `a` and end `b` in its written range with `a ≤ b`, and
every stride `n ≥ 1` for which the counter of the loop does not overflow a C `int`: the item
`a-b/n` selects exactly the written values `a + i * n ≤ b`, the item `a/n` exactly the values
`a + i * n` up to the largest written value of the field, and `*/n` exactly the values
`min + i * n` up to the largest written value. -/
theorem cron_parse_expr_stepped (k : Nat) (hk : k < 6) (a b n : Nat) (hn : 1 ≤ n)
    (h1 : field_min k ≤ a) :
    (a ≤ b → (b : Int) ≤ field_last k → no_overflow a b n →
        field_reads k (step_item (range_item a b) n) (stepped a b n))
      ∧ ((a : Int) ≤ field_last k → no_overflow a (field_last k) n →
        field_reads k (step_item (decimal a) n) (stepped a (field_last k) n))
      ∧ (no_overflow (field_min k) (field_last k) n →
        field_reads k (step_item ['*'] n) (stepped (field_min k) (field_last k) n)) := by
  have hb := field_bounds k hk
  refine ⟨fun h2 h3 hov => field_reads_of k hk _ _ ?_, fun h3 hov => field_reads_of k hk _ _ ?_,
    fun hov => field_reads_of k hk _ _ ?_⟩
  · have hbi : (b : Int) ≤ INT_MAX := by
      rw [int_max_val]
      omega
    have hr := get_range_range_ok a b (field_min k) (field_last k + 1) h1 h2 (by omega)
      (by rw [int_max_val]; omega)
    exact field_reads_step k hk (range_item a b) n a b hn (range_item_clean a b)
      (by simp [range_item])
      (by have := range_item_length a b (by omega) hbi; omega)
      (by rw [hr]) (by rw [hr]) (by rw [range_item_dash, hr]; rfl) h1 (by exact_mod_cast h2) h3
      hov
  · have hai : (a : Int) ≤ INT_MAX := by
      rw [int_max_val]
      omega
    have hr : get_range (decimal a) (field_min k) (field_last k + 1) = ((a : Int), (a : Int), none)
        := by
      rw [get_range_decimal, if_neg (by omega), if_neg (by omega), if_neg (by omega)]
    exact field_reads_step k hk (decimal a) n a (field_last k) hn
      (fun c hc => ⟨(decimal_clean a c hc).1, (decimal_clean a c hc).2.1,
        (decimal_clean a c hc).2.2, (digits_clean _ (decimal_all_digits a) c hc).2.2.2.1⟩)
      (decimal_ne_nil a) (by have := decimal_length_int a hai; omega)
      (by rw [hr]) (by rw [hr])
      (by rw [decimal_no_dash]; simp) h1 h3 (le_refl _) hov
  · have hr := get_range_star (field_min k) (field_last k + 1) (by omega)
    exact field_reads_step k hk ['*'] n (field_min k) (field_last k) hn (by decide) (by decide)
      (by decide) (by rw [hr]) (by rw [hr])
      (by rw [show has_char ['*'] '-' = false by decide]; simp) (le_refl _) hb.2.1 (le_refl _)
      hov

theorem cron_parse_expr_stepped_witness :
    step_item (range_item 1 12) 5 = "1-12/5".toList
      ∧ field_reads 4 (step_item (range_item 1 12) 5)
        (stepped ((1 : Nat) : Int) ((12 : Nat) : Int) 5) :=
  ⟨by decide, (cron_parse_expr_stepped 4 (by decide) 1 12 5 (by decide) (by decide)).1
    (by decide) (by decide) (fun i _ => by
      rw [int_max_val]
      have : (i : Int) ≤ 11 := by
        push_cast at *
        omega
      push_cast
      omega)⟩

/-! ## Range validation (C19) -/

theorem parse_field_plain_err (k : Nat) (hk : k < 6) (text : List Char)
    (hclean : ∀ c ∈ text, isspace c = false ∧ c ≠ ',' ∧ c.isAlpha = false) (hne : text ≠ [])
    (hq : text ≠ ['?'])
    (hitem : (set_number_hits_item text (field_set cron_expr_zero k) (field_min k)
      (field_last k + 1)).2 ≠ none) :
    (parse_field k text (field_set cron_expr_zero k) none).2 ≠ none := by
  rw [parse_field_eq k hk, field_value_plain k text hq (fun c hc => (hclean c hc).2.2)]
  simp only []
  by_cases hlen : text.length < 256
  · rw [set_number_hits_single text (fun c hc => ⟨(hclean c hc).1, (hclean c hc).2.1⟩) hne hlen]
    exact hitem
  · rw [set_number_hits_eq, if_pos (Or.inl (by simp [CRON_MAX_STR_LEN_TO_SPLIT]; omega))]
    simp

/-- A number with a minus sign: the sign is taken for the separator of a range with a single
end, which is an error. -/
theorem item_negative_err (m : Nat) (t : List Nat) (min max : Int) :
    (set_number_hits_item ('-' :: decimal m) t min max).2 ≠ none := by
  have hs : has_char ('-' :: decimal m) '/' = false := by
    rw [has_char_cons, decimal_no_slash]
    rfl
  have hd : has_char ('-' :: decimal m) '-' = true := by
    rw [has_char_cons]
    rfl
  have hstar : ('-' :: decimal m) ≠ ['*'] := by
    intro h
    have := (List.cons.inj h).1
    exact absurd this (by decide)
  have hf : delimited_fields '-' ('-' :: decimal m) = [decimal m] := by
    have := delimited_fields_append '-' [] (decimal m)
    rw [List.nil_append] at this
    rw [this, delimited_fields_single '-' (decimal m)
      (fun c hc => (digits_clean _ (decimal_all_digits m) c hc).2.1)
      (by rw [strip_space_decimal]; exact decimal_ne_nil m), strip_space_decimal]
    rfl
  have hsp : (split_str ('-' :: decimal m) '-' 0).2 ≠ 2 := by
    rw [split_str_eq]
    by_cases hl : ('-' :: decimal m).length ≥ CRON_MAX_STR_LEN_TO_SPLIT
    · rw [if_pos hl]
      decide
    · rw [if_neg hl, hf]
      simp
  unfold set_number_hits_item
  simp only [hs, Bool.not_false, if_true]
  unfold get_range
  simp only [hstar, if_false, hd, Bool.not_true, Bool.false_eq_true, hsp, ne_eq,
    not_false_eq_true, if_true]
  simp

/-- C19 (the claim fails as stated): the range `-5-7` has the end -5, below the minimum 0 of the
seconds, yet it is accepted and parsed as `5-7` is; so is `5--7`. The minus sign of an end of a
range is taken for the separator of the range and dropped. -/
theorem cron_parse_expr_accepts_signed_range :
    (cron_parse_expr "-5-7 * * * * *".toList cron_expr_zero).2 = none
      ∧ cron_parse_expr "-5-7 * * * * *".toList cron_expr_zero
        = cron_parse_expr "5-7 * * * * *".toList cron_expr_zero
      ∧ cron_parse_expr "5--7 * * * * *".toList cron_expr_zero
        = cron_parse_expr "5-7 * * * * *".toList cron_expr_zero := by
  decide!

/-- C19 (amended): in every field, the number `v`, written without sign, is accepted exactly
when it lies in the written range of the field, and the range `a-b` of numbers written without
sign exactly when `a ≤ b` and both ends lie in that range; a number with a minus sign is
rejected; an expression with a rejected number or range as one of its fields is rejected with
an error. -/
theorem cron_parse_expr_range_validation (k : Nat) (hk : k < 6) :
    (∀ v : Nat, (parse_field k (decimal v) (field_set cron_expr_zero k) none).2 = none
        ↔ (field_min k ≤ v ∧ (v : Int) ≤ field_last k))
      ∧ (∀ a b : Nat, (parse_field k (range_item a b) (field_set cron_expr_zero k) none).2 = none
        ↔ (field_min k ≤ a ∧ a ≤ b ∧ (b : Int) ≤ field_last k))
      ∧ (∀ (expression : List Char) (target : cron_expr) (v : Nat),
        field_text expression k = decimal v → ¬ (field_min k ≤ v ∧ (v : Int) ≤ field_last k) →
          (cron_parse_expr expression target).2 ≠ none)
      ∧ (∀ (expression : List Char) (target : cron_expr) (a b : Nat),
        field_text expression k = range_item a b →
          ¬ (field_min k ≤ a ∧ a ≤ b ∧ (b : Int) ≤ field_last k) →
          (cron_parse_expr expression target).2 ≠ none)
      ∧ (∀ m : Nat,
        (parse_field k ('-' :: decimal m) (field_set cron_expr_zero k) none).2 ≠ none)
      ∧ (∀ (expression : List Char) (target : cron_expr) (m : Nat),
        field_text expression k = '-' :: decimal m →
          (cron_parse_expr expression target).2 ≠ none) := by
  have hv : ∀ v : Nat, (parse_field k (decimal v) (field_set cron_expr_zero k) none).2 = none
      ↔ (field_min k ≤ v ∧ (v : Int) ≤ field_last k) := by
    intro v
    constructor
    · intro h
      by_contra hr
      exact parse_field_plain_err k hk (decimal v) (decimal_clean v) (decimal_ne_nil v)
        (decimal_ne_question v)
        (item_decimal_err v _ _ _ (fun h2 => hr ⟨h2.1, by omega⟩)) h
    · intro h
      obtain ⟨s, hs, _⟩ := field_reads_decimal k hk v h.1 h.2
      rw [hs]
  have hr : ∀ a b : Nat,
      (parse_field k (range_item a b) (field_set cron_expr_zero k) none).2 = none
        ↔ (field_min k ≤ a ∧ a ≤ b ∧ (b : Int) ≤ field_last k) := by
    intro a b
    constructor
    · intro h
      by_contra hr
      exact parse_field_plain_err k hk (range_item a b)
        (fun c hc => ⟨(range_item_clean a b c hc).1, (range_item_clean a b c hc).2.1,
          (range_item_clean a b c hc).2.2.1⟩)
        (by simp [range_item])
        (fun h => absurd (range_item_dash a b) (by rw [h]; decide))
        (item_range_err a b _ _ _ (fun h2 => hr ⟨h2.1, h2.2.1, by omega⟩)) h
    · intro h
      obtain ⟨s, hs, _⟩ := field_reads_range k hk a b h.1 h.2.1 h.2.2
      rw [hs]
  have hm : ∀ m : Nat,
      (parse_field k ('-' :: decimal m) (field_set cron_expr_zero k) none).2 ≠ none := by
    intro m
    refine parse_field_plain_err k hk ('-' :: decimal m) (fun c hc => ?_) (by simp)
      (fun h => absurd (List.cons.inj h).1 (by decide)) (item_negative_err m _ _ _)
    rcases List.mem_cons.mp hc with rfl | hc2
    · decide
    · exact decimal_clean m c hc2
  refine ⟨hv, hr, ?_, ?_, hm, ?_⟩
  · intro expression target v ht hn
    apply cron_parse_expr_rejects k hk
    rw [ht]
    exact fun h => hn ((hv v).mp h)
  · intro expression target a b ht hn
    apply cron_parse_expr_rejects k hk
    rw [ht]
    exact fun h => hn ((hr a b).mp h)
  · intro expression target m ht
    apply cron_parse_expr_rejects k hk
    rw [ht]
    exact hm m

theorem cron_parse_expr_range_validation_witness :
    (cron_parse_expr "* * * 0 * *".toList cron_expr_zero).2 ≠ none
      ∧ (cron_parse_expr "* * 7-3 * * *".toList cron_expr_zero).2 ≠ none
      ∧ (cron_parse_expr "-5 * * * * *".toList cron_expr_zero).2 ≠ none :=
  ⟨(cron_parse_expr_range_validation 3 (by decide)).2.2.1 "* * * 0 * *".toList cron_expr_zero 0
      (by decide!) (by decide),
    (cron_parse_expr_range_validation 2 (by decide)).2.2.2.1 "* * 7-3 * * *".toList
      cron_expr_zero 7 3 (by decide!) (by decide),
    (cron_parse_expr_range_validation 0 (by decide)).2.2.2.2.2 "-5 * * * * *".toList
      cron_expr_zero 5 (by decide!)⟩

/-! ## Items add their bits to the set they are given -/

theorem set_range_bits_or (hi : Int) (n : Nat) (i1 : Int) (t : List Nat) (j : Int)
    (hj : 0 ≤ j) :
    cron_get_bit (set_range_bits hi n i1 t) j ≠ 0
      ↔ (cron_get_bit t j ≠ 0
        ∨ cron_get_bit (set_range_bits hi n i1 (List.replicate t.length 0)) j ≠ 0) := by
  induction n generalizing i1 t with
  | zero =>
    simp only [set_range_bits, cron_get_bit_zero]
    simp
  | succ n ih =>
    unfold set_range_bits
    by_cases h : i1 ≤ hi
    · rw [if_pos h, if_pos h, ih (i1 + 1) (cron_set_bit t i1),
        ih (i1 + 1) (cron_set_bit (List.replicate t.length 0) i1), cron_get_set_bit_or t i1 j hj,
        cron_set_bit_length, cron_set_bit_length, List.length_replicate]
      tauto
    · rw [if_neg h, if_neg h, cron_get_bit_zero]
      simp

theorem set_step_bits_or (hi delta : Int) (n : Nat) (i1 : Int) (t : List Nat) (j : Int)
    (hj : 0 ≤ j) :
    cron_get_bit (set_step_bits hi delta n i1 t) j ≠ 0
      ↔ (cron_get_bit t j ≠ 0
        ∨ cron_get_bit (set_step_bits hi delta n i1 (List.replicate t.length 0)) j ≠ 0) := by
  induction n generalizing i1 t with
  | zero =>
    simp only [set_step_bits, cron_get_bit_zero]
    simp
  | succ n ih =>
    unfold set_step_bits
    by_cases h : i1 ≤ hi
    · rw [if_pos h, if_pos h, ih _ (cron_set_bit t i1),
        ih _ (cron_set_bit (List.replicate t.length 0) i1), cron_get_set_bit_or t i1 j hj,
        cron_set_bit_length, cron_set_bit_length, List.length_replicate]
      tauto
    · rw [if_neg h, if_neg h, cron_get_bit_zero]
      simp

/-- The error of an item does not depend on the set it is given. -/
theorem item_error_indep (item : List Char) (t t2 : List Nat) (min max : Int) :
    (set_number_hits_item item t min max).2 = (set_number_hits_item item t2 min max).2 := by
  unfold set_number_hits_item
  simp only []
  split
  · split <;> rfl
  · split
    · rfl
    · split
      · rfl
      · split
        · rfl
        · split <;> rfl

theorem item_length (item : List Char) (t : List Nat) (min max : Int) :
    (set_number_hits_item item t min max).1.length = t.length := by
  unfold set_number_hits_item
  simp only []
  split
  · split
    · rfl
    · exact set_range_bits_length _ _ _ _
  · split
    · rfl
    · split
      · rfl
      · split
        · rfl
        · split
          · rfl
          · exact set_step_bits_length _ _ _ _ _

/-- An item adds to the set the bits it gives to a zeroed set. -/
theorem item_bits_or (item : List Char) (t : List Nat) (min max : Int) (j : Int) (hj : 0 ≤ j) :
    cron_get_bit (set_number_hits_item item t min max).1 j ≠ 0
      ↔ (cron_get_bit t j ≠ 0
        ∨ cron_get_bit (set_number_hits_item item (List.replicate t.length 0) min max).1 j ≠ 0)
    := by
  unfold set_number_hits_item
  simp only []
  split
  · split
    · simp [cron_get_bit_zero]
    · exact set_range_bits_or _ _ _ _ j hj
  · split
    · simp [cron_get_bit_zero]
    · split
      · simp [cron_get_bit_zero]
      · split
        · simp [cron_get_bit_zero]
        · split
          · simp [cron_get_bit_zero]
          · exact set_step_bits_or _ _ _ _ _ j hj

theorem loop_error_indep (min max : Int) (items : List (List Char)) (t t2 : List Nat)
    (e : Option String) :
    (set_number_hits_loop min max items t e).2 = (set_number_hits_loop min max items t2 e).2 := by
  induction items generalizing t t2 e with
  | nil => rfl
  | cons x rest ih =>
    simp only [set_number_hits_loop]
    rw [item_error_indep x t t2]
    split
    · exact item_error_indep x t t2 min max
    · exact ih _ _ _

theorem loop_length (min max : Int) (items : List (List Char)) (t : List Nat)
    (e : Option String) : (set_number_hits_loop min max items t e).1.length = t.length := by
  induction items generalizing t e with
  | nil => rfl
  | cons x rest ih =>
    simp only [set_number_hits_loop]
    split
    · exact item_length x t min max
    · rw [ih, item_length]

/-- The loop over the items adds to the set the bits it gives to a zeroed set. -/
theorem loop_bits_or (min max : Int) (items : List (List Char)) (t : List Nat)
    (e : Option String) (j : Int) (hj : 0 ≤ j) :
    cron_get_bit (set_number_hits_loop min max items t e).1 j ≠ 0
      ↔ (cron_get_bit t j ≠ 0
        ∨ cron_get_bit (set_number_hits_loop min max items (List.replicate t.length 0) e).1 j
          ≠ 0) := by
  induction items generalizing t e with
  | nil =>
    simp [set_number_hits_loop, cron_get_bit_zero]
  | cons x rest ih =>
    simp only [set_number_hits_loop]
    rw [item_error_indep x (List.replicate t.length 0) t]
    split
    · exact item_bits_or x t min max j hj
    · rw [ih, ih (set_number_hits_item x (List.replicate t.length 0) min max).1,
        item_bits_or x t min max j hj, item_length, item_length, List.length_replicate]
      tauto

theorem loop_append (min max : Int) (xs ys : List (List Char)) (t : List Nat) :
    set_number_hits_loop min max (xs ++ ys) t none
      = if (set_number_hits_loop min max xs t none).2 ≠ none then
          set_number_hits_loop min max xs t none
        else set_number_hits_loop min max ys (set_number_hits_loop min max xs t none).1 none := by
  induction xs generalizing t with
  | nil => simp [set_number_hits_loop]
  | cons x rest ih =>
    simp only [List.cons_append, set_number_hits_loop]
    by_cases h : (set_number_hits_item x t min max).2 ≠ none
    · simp only [if_pos h]
    · simp only [if_neg h]
      rw [not_not.mp h]
      exact ih _

/-! ## Replacing names in a text with separators -/

theorem str_replace_loop_cons (rep rep_with : List Char) (n : Nat) (c : Char) (cs : List Char) :
    str_replace_loop rep rep_with (n + 1) (c :: cs)
      = if rep.isPrefixOf (c :: cs) then
          rep_with ++ str_replace_loop rep rep_with n ((c :: cs).drop rep.length)
        else c :: str_replace_loop rep rep_with n cs := rfl

theorem isPrefixOf_cons_cons (r x : Char) (rs xs : List Char) :
    (r :: rs).isPrefixOf (x :: xs) = (r == x && rs.isPrefixOf xs) := rfl

theorem str_replace_loop_fuel (rep rep_with : List Char) (hrep : rep ≠ []) (n m : Nat)
    (s : List Char) (hn : s.length ≤ n) (hm : s.length ≤ m) :
    str_replace_loop rep rep_with n s = str_replace_loop rep rep_with m s := by
  induction n generalizing m s with
  | zero =>
    have hs : s = [] := List.length_eq_zero.mp (by omega)
    subst hs
    cases m <;> rfl
  | succ n ih =>
    cases s with
    | nil => cases m <;> rfl
    | cons c cs =>
      obtain ⟨m2, rfl⟩ : ∃ m2, m = m2 + 1 := ⟨m - 1, by simp at hm; omega⟩
      have hr : 1 ≤ rep.length := by
        cases rep with
        | nil => exact absurd rfl hrep
        | cons a b => simp
      simp only [str_replace_loop]
      simp only [List.length_cons] at hn hm
      split
      · rw [ih m2 _ (by simp; omega) (by simp; omega)]
      · rw [ih m2 cs (by omega) (by omega)]

theorem isPrefixOf_append_sep (rep : List Char) (d : Char) (hd : ∀ c ∈ rep, c ≠ d)
    (a b : List Char) : rep.isPrefixOf (a ++ d :: b) = rep.isPrefixOf a := by
  induction rep generalizing a with
  | nil => simp [List.isPrefixOf]
  | cons r rs ih =>
    cases a with
    | nil =>
      have := hd r (List.mem_cons_self _ _)
      simp [List.isPrefixOf, this]
    | cons x xs =>
      rw [List.cons_append, isPrefixOf_cons_cons, isPrefixOf_cons_cons,
        ih (fun c hc => hd c (List.mem_cons_of_mem _ hc))]

theorem isPrefixOf_length (rep a : List Char) (h : rep.isPrefixOf a = true) :
    rep.length ≤ a.length := by
  induction rep generalizing a with
  | nil => exact Nat.zero_le _
  | cons r rs ih =>
    cases a with
    | nil => exact absurd h (by simp [List.isPrefixOf])
    | cons x xs =>
      rw [isPrefixOf_cons_cons, Bool.and_eq_true] at h
      have := ih xs h.2
      simp only [List.length_cons]
      omega

/-- A replacement never crosses a character that is not in the name. -/
theorem str_replace_sep (rep rep_with : List Char) (hrep : rep ≠ []) (d : Char)
    (hd : ∀ c ∈ rep, c ≠ d) (x y : List Char) :
    str_replace (x ++ d :: y) rep rep_with
      = str_replace x rep rep_with ++ d :: str_replace y rep rep_with := by
  unfold str_replace
  have key : ∀ (k : Nat) (x : List Char) (n : Nat), x.length ≤ k →
      (x ++ d :: y).length ≤ n →
      str_replace_loop rep rep_with n (x ++ d :: y)
        = str_replace_loop rep rep_with x.length x
          ++ d :: str_replace_loop rep rep_with y.length y := by
    intro k
    induction k with
    | zero =>
      intro x n hx hn
      have hs : x = [] := List.length_eq_zero.mp (by omega)
      subst hs
      obtain ⟨n2, rfl⟩ : ∃ n2, n = n2 + 1 := ⟨n - 1, by simp at hn; omega⟩
      obtain ⟨r, rs, rfl⟩ := List.exists_cons_of_ne_nil hrep
      have hr := hd r (List.mem_cons_self _ _)
      simp only [List.nil_append, str_replace_loop, List.isPrefixOf, List.length_nil]
      simp only [List.nil_append, List.length_cons] at hn
      simp only [beq_iff_eq, hr, false_and, Bool.false_eq_true, if_false, Bool.and_eq_true]
      rw [str_replace_loop_fuel _ _ (by simp) n2 y.length y (by omega) (le_refl _)]
    | succ k ih =>
      intro x n hx hn
      cases x with
      | nil => exact ih [] n (by simp) hn
      | cons c cs =>
        obtain ⟨n2, rfl⟩ : ∃ n2, n = n2 + 1 := ⟨n - 1, by simp at hn; omega⟩
        simp only [List.length_cons, List.cons_append, List.length_append] at hx hn
        have hp := isPrefixOf_append_sep rep d hd (c :: cs) y
        rw [List.cons_append] at hp
        rw [List.cons_append, List.length_cons, str_replace_loop_cons, str_replace_loop_cons, hp]
        by_cases hpre : rep.isPrefixOf (c :: cs) = true
        · have hl := isPrefixOf_length _ _ hpre
          have hr : 1 ≤ rep.length := by
            cases rep with
            | nil => exact absurd rfl hrep
            | cons a b => simp
          simp only [List.length_cons] at hl
          rw [if_pos hpre, if_pos hpre]
          have hdrop : (c :: (cs ++ d :: y)).drop rep.length
              = (c :: cs).drop rep.length ++ d :: y := by
            rw [← List.cons_append, List.drop_append_of_le_length (by simpa using hl)]
          rw [hdrop, ih ((c :: cs).drop rep.length) n2 (by simp; omega)
            (by simp; omega),
            str_replace_loop_fuel rep rep_with hrep cs.length ((c :: cs).drop rep.length).length
              _ (by simp; omega) (le_refl _)]
          simp
        · rw [if_neg hpre, if_neg hpre, ih cs n2 (by omega) (by simp; omega)]
          simp
  exact key x.length x _ (le_refl _) (le_refl _)

theorem str_replace_length (rep rep_with : List Char) (h : rep_with.length ≤ rep.length)
    (n : Nat) (s : List Char) : (str_replace_loop rep rep_with n s).length ≤ s.length := by
  induction n generalizing s with
  | zero => exact le_refl _
  | succ n ih =>
    cases s with
    | nil => exact le_refl _
    | cons c cs =>
      simp only [str_replace_loop]
      split
      · rename_i hpre
        have hl := isPrefixOf_length _ _ hpre
        have := ih ((c :: cs).drop rep.length)
        simp only [List.length_append, List.length_drop] at this ⊢
        omega
      · have := ih cs
        simp only [List.length_cons]
        omega

theorem replace_ordinals_loop_sep (arr : List (List Char)) (d : Char)
    (harr : ∀ tok ∈ arr, tok ≠ [] ∧ ∀ c ∈ tok, c ≠ d) (i : Nat) (x y : List Char) :
    replace_ordinals_loop arr i (x ++ d :: y)
      = replace_ordinals_loop arr i x ++ d :: replace_ordinals_loop arr i y := by
  induction arr generalizing i x y with
  | nil => rfl
  | cons a rest ih =>
    have ha := harr a (List.mem_cons_self _ _)
    simp only [replace_ordinals_loop]
    rw [str_replace_sep a _ ha.1 d ha.2, ih (fun tok ht => harr tok (List.mem_cons_of_mem _ ht))]

theorem to_string_short (m : Nat) (h : m < 13) : (to_string m).length ≤ 2 := by
  interval_cases m <;> decide

theorem replace_ordinals_loop_length (arr : List (List Char))
    (harr : ∀ tok ∈ arr, 2 ≤ tok.length) (i : Nat) (hi : i + arr.length ≤ 13) (s : List Char) :
    (replace_ordinals_loop arr i s).length ≤ s.length := by
  induction arr generalizing i s with
  | nil => exact le_refl _
  | cons a rest ih =>
    simp only [replace_ordinals_loop]
    simp only [List.length_cons] at hi
    have h1 := ih (fun tok ht => harr tok (List.mem_cons_of_mem _ ht)) (i + 1) (by omega)
      (str_replace s a (to_string i))
    have h2 : (str_replace s a (to_string i)).length ≤ s.length := by
      unfold str_replace
      exact str_replace_length a _ (by
        have := to_string_short i (by omega)
        have := harr a (List.mem_cons_self _ _)
        omega) _ s
    omega

theorem names_facts :
    (∀ tok ∈ MONTHS_ARR, (tok ≠ [] ∧ ∀ c ∈ tok, c ≠ ',') ∧ 2 ≤ tok.length)
      ∧ (∀ tok ∈ DAYS_ARR, (tok ≠ [] ∧ ∀ c ∈ tok, c ≠ ',') ∧ 2 ≤ tok.length) := by
  constructor
  · intro tok h
    simp only [MONTHS_ARR, List.mem_cons, List.mem_singleton, List.not_mem_nil, or_false] at h
    rcases h with h | h | h | h | h | h | h | h | h | h | h | h | h <;> subst h <;> decide
  · intro tok h
    simp only [DAYS_ARR, List.mem_cons, List.mem_singleton, List.not_mem_nil, or_false] at h
    rcases h with h | h | h | h | h | h | h <;> subst h <;> decide

theorem to_upper_sep (x y : List Char) :
    to_upper (x ++ ',' :: y) = to_upper x ++ ',' :: to_upper y := by
  simp [to_upper]

theorem append_sep_ne_question (x y : List Char) : x ++ ',' :: y ≠ ['?'] := by
  intro h
  have h2 : has_char (x ++ ',' :: y) ',' = true := by simp [has_char]
  rw [h] at h2
  exact absurd h2 (by decide)

/-- The text handed to `set_number_hits` for `x,y` is the one for `x`, a comma and the one for
`y`, unless `x` or `y` is the bare `?`. -/
theorem field_value_sep (k : Nat) (x y : List Char) (hx : x ≠ ['?']) (hy : y ≠ ['?']) :
    field_value k (x ++ ',' :: y) = field_value k x ++ ',' :: field_value k y := by
  have hxy := append_sep_ne_question x y
  unfold field_value
  split
  · rw [if_neg hxy, if_neg hx, if_neg hy]
  · rw [to_upper_sep]
    exact replace_ordinals_loop_sep _ ',' (fun tok ht => (names_facts.1 tok ht).1) 0 _ _
  · rw [if_neg hxy, if_neg hx, if_neg hy, to_upper_sep]
    exact replace_ordinals_loop_sep _ ',' (fun tok ht => (names_facts.2 tok ht).1) 0 _ _
  · rfl

theorem field_value_length (k : Nat) (x : List Char) : (field_value k x).length ≤ x.length := by
  unfold field_value
  split
  · split
    · rename_i h
      rw [h]
      exact le_refl _
    · exact le_refl _
  · have := replace_ordinals_loop_length MONTHS_ARR (fun tok ht => (names_facts.1 tok ht).2) 0
      (by decide) (to_upper x)
    simpa [replace_ordinals, to_upper] using this
  · have := replace_ordinals_loop_length DAYS_ARR (fun tok ht => (names_facts.2 tok ht).2) 0
      (by decide) (to_upper (if x = ['?'] then ['*'] else x))
    have e : (to_upper (if x = ['?'] then ['*'] else x)).length = x.length := by
      split
      · rename_i h
        rw [h]
        rfl
      · simp [to_upper]
    rw [e] at this
    exact this
  · exact le_refl _

/-! ## Comma lists (C16) -/

theorem field_store_get (k : Nat) (hk : k < 6) (s : List Nat)
    (hl : (8 * s.length : Int) = field_capacity k) (j : Int) (hj : 0 ≤ j)
    (hj2 : j < field_capacity k) :
    cron_get_bit (field_store k s) j ≠ 0
      ↔ ∃ i : Int, 0 ≤ i ∧ i < field_capacity k ∧ stored_from k j i ∧ cron_get_bit s i ≠ 0 := by
  have plain : field_store k s = s → stored_from k j = (fun i => i = j) →
      (cron_get_bit (field_store k s) j ≠ 0
        ↔ ∃ i : Int, 0 ≤ i ∧ i < field_capacity k ∧ stored_from k j i ∧ cron_get_bit s i ≠ 0)
      := by
    intro h1 h2
    rw [h1, h2]
    constructor
    · intro h
      exact ⟨j, hj, hj2, rfl, h⟩
    · rintro ⟨i, _, _, rfl, h⟩
      exact h
  interval_cases k
  · exact plain rfl rfl
  · exact plain rfl rfl
  · exact plain rfl rfl
  · exact plain rfl rfl
  · simp only [field_capacity] at hl hj2 ⊢
    simp only [field_store, stored_from, if_true]
    rw [rotate_months_get 12 1 s j (by omega) (by push_cast; omega) (by norm_num) hj (by omega)]
    constructor
    · rintro (⟨h1, _⟩ | ⟨h1, h2 | h2⟩ | ⟨h1, h2, h3⟩ | ⟨h1, h2⟩)
      · omega
      · exact ⟨0, by omega, by omega, Or.inl ⟨by omega, Or.inl rfl⟩, by
          rw [show (0 : Int) = j by omega]
          exact h2⟩
      · exact ⟨1, by omega, by omega, Or.inl ⟨by omega, Or.inr rfl⟩, h2.2⟩
      · push_cast at h2
        exact ⟨j + 1, by omega, by omega, Or.inr (Or.inl ⟨h1, by omega, rfl⟩), h3⟩
      · push_cast at h1
        exact ⟨j, hj, hj2, Or.inr (Or.inr ⟨by omega, rfl⟩), h2⟩
    · rintro ⟨i, hi, hi2, ⟨h1, h2 | h2⟩ | ⟨h1, h2, h3⟩ | ⟨h1, h2⟩, hs⟩
      · subst h2
        exact Or.inr (Or.inl ⟨by omega, Or.inl (by rw [h1]; exact hs)⟩)
      · subst h2
        exact Or.inr (Or.inl ⟨by omega, Or.inr ⟨by omega, hs⟩⟩)
      · subst h3
        exact Or.inr (Or.inr (Or.inl ⟨h1, by push_cast; omega, hs⟩))
      · subst h2
        exact Or.inr (Or.inr (Or.inr ⟨by push_cast; omega, hs⟩))
  · simp only [field_capacity] at hl hj2 ⊢
    simp only [field_store, stored_from, show ¬ ((5 : Nat) = 4) by decide, if_false, if_true]
    rw [fold_sunday_get s j (by omega) hj (by omega)]
    constructor
    · rintro (⟨h1, h2⟩ | ⟨h1, h2⟩)
      · exact ⟨j, hj, hj2, Or.inl ⟨rfl, h1⟩, h2⟩
      · exact ⟨7, by omega, by omega, Or.inr ⟨h1, rfl⟩, h2⟩
    · rintro ⟨i, hi, hi2, ⟨h1, h2⟩ | ⟨h1, h2⟩, hs⟩
      · subst h1
        exact Or.inl ⟨h2, hs⟩
      · subst h2
        exact Or.inr ⟨h1, hs⟩

/-- The bits the parser of a field stores for a union are the union of the bits it stores. -/
theorem store_bits_or (k : Nat) (hk : k < 6) (s s1 s2 : List Nat)
    (hl : (8 * s.length : Int) = field_capacity k)
    (hl1 : (8 * s1.length : Int) = field_capacity k)
    (hl2 : (8 * s2.length : Int) = field_capacity k)
    (h : ∀ j : Int, 0 ≤ j → j < field_capacity k →
      (cron_get_bit s j ≠ 0 ↔ (cron_get_bit s1 j ≠ 0 ∨ cron_get_bit s2 j ≠ 0)))
    (j : Int) (hj : 0 ≤ j) (hj2 : j < field_capacity k) :
    cron_get_bit (field_store k s) j ≠ 0
      ↔ (cron_get_bit (field_store k s1) j ≠ 0 ∨ cron_get_bit (field_store k s2) j ≠ 0) := by
  rw [field_store_get k hk s hl j hj hj2, field_store_get k hk s1 hl1 j hj hj2,
    field_store_get k hk s2 hl2 j hj hj2]
  constructor
  · rintro ⟨i, hi, hi2, hr, hs⟩
    rcases (h i hi hi2).mp hs with h1 | h1
    · exact Or.inl ⟨i, hi, hi2, hr, h1⟩
    · exact Or.inr ⟨i, hi, hi2, hr, h1⟩
  · rintro (⟨i, hi, hi2, hr, hs⟩ | ⟨i, hi, hi2, hr, hs⟩)
    · exact ⟨i, hi, hi2, hr, (h i hi hi2).mpr (Or.inl hs)⟩
    · exact ⟨i, hi, hi2, hr, (h i hi hi2).mpr (Or.inr hs)⟩

/-- What a successful parse of a field says about the loop over its items. -/
theorem parse_field_loop (k : Nat) (hk : k < 6) (x : List Char) (sx : List Nat)
    (hx : parse_field k x (field_set cron_expr_zero k) none = (sx, none)) :
    (field_value k x).length < 256 ∧ delimited_fields ',' (field_value k x) ≠ []
      ∧ (set_number_hits_loop (field_min k) (field_last k + 1)
        (delimited_fields ',' (field_value k x)) (field_set cron_expr_zero k) none).2 = none
      ∧ sx = field_store k (set_number_hits_loop (field_min k) (field_last k + 1)
        (delimited_fields ',' (field_value k x)) (field_set cron_expr_zero k) none).1 := by
  rw [parse_field_eq k hk, set_number_hits_eq] at hx
  by_cases h : (field_value k x).length ≥ CRON_MAX_STR_LEN_TO_SPLIT
      ∨ delimited_fields ',' (field_value k x) = []
  · rw [if_pos h] at hx
    have := congrArg Prod.snd hx
    simp at this
  · rw [if_neg h] at hx
    have h1 := congrArg Prod.fst hx
    have h2 := congrArg Prod.snd hx
    simp only [] at h1 h2
    refine ⟨?_, fun h0 => h (Or.inr h0), h2, h1.symm⟩
    by_contra hc
    exact h (Or.inl (by simp [CRON_MAX_STR_LEN_TO_SPLIT]; omega))

theorem parse_field_union (k : Nat) (hk : k < 6) (x y : List Char) (sx sy : List Nat)
    (hx : parse_field k x (field_set cron_expr_zero k) none = (sx, none))
    (hy : parse_field k y (field_set cron_expr_zero k) none = (sy, none))
    (hqx : x ≠ ['?']) (hqy : y ≠ ['?']) (hlen : (x ++ ',' :: y).length < 256) :
    ∃ s, parse_field k (x ++ ',' :: y) (field_set cron_expr_zero k) none = (s, none)
      ∧ ∀ j : Int, 0 ≤ j → j < field_capacity k →
        (cron_get_bit s j ≠ 0 ↔ (cron_get_bit sx j ≠ 0 ∨ cron_get_bit sy j ≠ 0)) := by
  obtain ⟨hx1, hx2, hx3, hx4⟩ := parse_field_loop k hk x sx hx
  obtain ⟨hy1, hy2, hy3, hy4⟩ := parse_field_loop k hk y sy hy
  have hv := field_value_sep k x y hqx hqy
  have hvl := field_value_length k (x ++ ',' :: y)
  have hd : delimited_fields ',' (field_value k (x ++ ',' :: y))
      = delimited_fields ',' (field_value k x) ++ delimited_fields ',' (field_value k y) := by
    rw [hv, delimited_fields_append]
  have hne : ¬ ((field_value k (x ++ ',' :: y)).length ≥ CRON_MAX_STR_LEN_TO_SPLIT
      ∨ delimited_fields ',' (field_value k (x ++ ',' :: y)) = []) := by
    rw [hd]
    simp [CRON_MAX_STR_LEN_TO_SPLIT, hx2]
    omega
  have hz := field_set_zero k
  have hzl := field_set_zero_length k hk
  rw [parse_field_eq k hk, set_number_hits_eq, if_neg hne, hd, loop_append,
    if_neg (not_not.mpr hx3)]
  have herr := loop_error_indep (field_min k) (field_last k + 1)
    (delimited_fields ',' (field_value k y))
    (set_number_hits_loop (field_min k) (field_last k + 1)
      (delimited_fields ',' (field_value k x)) (field_set cron_expr_zero k) none).1
    (field_set cron_expr_zero k) none
  refine ⟨_, Prod.ext rfl (by rw [herr, hy3]), ?_⟩
  intro j hj hj2
  rw [hx4, hy4]
  apply store_bits_or k hk _ _ _ (by rw [loop_length, loop_length]; exact hzl)
    (by rw [loop_length]; exact hzl) (by rw [loop_length]; exact hzl) _ j hj hj2
  intro i hi _
  rw [loop_bits_or _ _ _ _ _ i hi, loop_length, ← hz]

/-- C16 (the claim fails as stated): in the day-of-month field the items `?` and `1` are each
accepted, but the list `?,1` is a parse error: a `?` is read as `*` only when it is the whole
field. -/
theorem cron_parse_expr_question_in_list :
    (cron_parse_expr "* * * ? * *".toList cron_expr_zero).2 = none
      ∧ (cron_parse_expr "* * * 1 * *".toList cron_expr_zero).2 = none
      ∧ (cron_parse_expr "* * * ?,1 * *".toList cron_expr_zero).2 ≠ none := by
  decide!

/-- C16 (amended): for every field and all texts `x` and `y`, neither of them the bare `?`, that
the parser of the field accepts, the list `x,y`, when shorter than 256 characters, is accepted
and its set is the union of the sets of `x` and of `y`, on its own and in every expression that
parses successfully with `x,y` as that field; the list `y,x` gives the same set, and `x,x` the
set of `x`. -/
theorem cron_parse_expr_comma_union (k : Nat) (hk : k < 6) (x y : List Char) (sx sy : List Nat)
    (hx : parse_field k x (field_set cron_expr_zero k) none = (sx, none))
    (hy : parse_field k y (field_set cron_expr_zero k) none = (sy, none))
    (hqx : x ≠ ['?']) (hqy : y ≠ ['?']) (hlen : (x ++ ',' :: y).length < 256) :
    (∃ s, parse_field k (x ++ ',' :: y) (field_set cron_expr_zero k) none = (s, none)
        ∧ ∀ j : Int, 0 ≤ j → j < field_capacity k →
          (cron_get_bit s j ≠ 0 ↔ (cron_get_bit sx j ≠ 0 ∨ cron_get_bit sy j ≠ 0)))
      ∧ (∀ (expression : List Char) (target e : cron_expr),
        cron_parse_expr expression target = (e, none) →
          field_text expression k = x ++ ',' :: y →
          ∀ j : Int, 0 ≤ j → j < field_capacity k →
            (cron_get_bit (field_set e k) j ≠ 0
              ↔ (cron_get_bit sx j ≠ 0 ∨ cron_get_bit sy j ≠ 0)))
      ∧ (∃ s, parse_field k (y ++ ',' :: x) (field_set cron_expr_zero k) none = (s, none)
        ∧ ∀ j : Int, 0 ≤ j → j < field_capacity k →
          (cron_get_bit s j ≠ 0 ↔ (cron_get_bit sx j ≠ 0 ∨ cron_get_bit sy j ≠ 0)))
      ∧ ((x ++ ',' :: x).length < 256 →
        ∃ s, parse_field k (x ++ ',' :: x) (field_set cron_expr_zero k) none = (s, none)
          ∧ ∀ j : Int, 0 ≤ j → j < field_capacity k →
            (cron_get_bit s j ≠ 0 ↔ cron_get_bit sx j ≠ 0)) := by
  have hxy := parse_field_union k hk x y sx sy hx hy hqx hqy hlen
  refine ⟨hxy, ?_, ?_, ?_⟩
  · intro expression target e hp ht
    obtain ⟨s, hs, hb⟩ := hxy
    have := cron_parse_expr_runs_field expression target e hp k hk
    rw [ht, hs] at this
    have e2 := congrArg Prod.fst this
    simp only [] at e2
    rw [← e2]
    exact hb
  · obtain ⟨s, hs, hb⟩ := parse_field_union k hk y x sy sx hy hx hqy hqx
      (by simp at hlen ⊢; omega)
    exact ⟨s, hs, fun j hj hj2 => by rw [hb j hj hj2]; tauto⟩
  · intro hl
    obtain ⟨s, hs, hb⟩ := parse_field_union k hk x x sx sx hx hx hqx hqx hl
    exact ⟨s, hs, fun j hj hj2 => by rw [hb j hj hj2]; tauto⟩

theorem cron_parse_expr_comma_union_witness :
    cron_get_bit (cron_parse_expr "*/20,1-3 * * * * *".toList cron_expr_zero).1.seconds 40 ≠ 0
      ↔ (cron_get_bit (cron_parse_expr "*/20 * * * * *".toList cron_expr_zero).1.seconds 40 ≠ 0
        ∨ cron_get_bit (cron_parse_expr "1-3 * * * * *".toList cron_expr_zero).1.seconds 40
          ≠ 0) :=
  (cron_parse_expr_comma_union 0 (by decide) "*/20".toList "1-3".toList
    (cron_parse_expr "*/20 * * * * *".toList cron_expr_zero).1.seconds
    (cron_parse_expr "1-3 * * * * *".toList cron_expr_zero).1.seconds
    (by decide!) (by decide!) (by decide) (by decide) (by decide)).2.1
    "*/20,1-3 * * * * *".toList cron_expr_zero _ (by decide!) (by decide!) 40 (by decide)
    (by decide)

/-! ## Month names (C17) -/

theorem month_token_letters (i : Nat) (hi : i ≤ 12) :
    ∃ x y z, month_token i = [x, y, z] ∧ x.isAlpha = true ∧ y.isAlpha = true
      ∧ z.isAlpha = true := by
  interval_cases i <;> exact ⟨_, _, _, rfl, by decide, by decide, by decide⟩

theorem month_token_pairs :
    ∀ i ∈ List.range 13, ∀ n ∈ List.range 13,
      ((month_token i).drop 1 == (month_token n).take 2) = false
        ∧ (i ≠ n → (month_token i == month_token n) = false) := by
  decide

theorem month_token_pair (i n : Nat) (hi : i ≤ 12) (hn : n ≤ 12) (x y z a b c : Char)
    (h1 : month_token i = [x, y, z]) (h2 : month_token n = [a, b, c]) :
    ¬ (y = a ∧ z = b) ∧ (i ≠ n → ¬ (x = a ∧ y = b ∧ z = c)) := by
  have := month_token_pairs i (List.mem_range.mpr (by omega)) n (List.mem_range.mpr (by omega))
  rw [h1, h2] at this
  constructor
  · rintro ⟨rfl, rfl⟩
    have h := this.1
    simp at h
  · intro hne
    rintro ⟨rfl, rfl, rfl⟩
    have h := this.2 hne
    simp at h

theorem to_string_decimal (i : Nat) (hi : i ≤ 12) : to_string i = decimal i := by
  interval_cases i <;> decide

theorem loop_skip_char (x : Char) (rs rep_with : List Char) (c : Char) (rest : List Char)
    (h : x ≠ c) (fuel : Nat) (hf : rest.length + 1 ≤ fuel) :
    str_replace_loop (x :: rs) rep_with fuel (c :: rest)
      = c :: str_replace_loop (x :: rs) rep_with rest.length rest := by
  obtain ⟨f, rfl⟩ : ∃ f, fuel = f + 1 := ⟨fuel - 1, by omega⟩
  have hp : (x == c && rs.isPrefixOf rest) = false := by simp [h]
  rw [str_replace_loop_cons, isPrefixOf_cons_cons, hp]
  simp only [Bool.false_eq_true, if_false]
  rw [str_replace_loop_fuel _ _ (by simp) f rest.length rest (by omega) (le_refl _)]

theorem loop_skip_block (x : Char) (rs rep_with : List Char) (block rest : List Char)
    (h : ∀ c ∈ block, x ≠ c) (fuel : Nat) (hf : block.length + rest.length ≤ fuel) :
    str_replace_loop (x :: rs) rep_with fuel (block ++ rest)
      = block ++ str_replace_loop (x :: rs) rep_with rest.length rest := by
  induction block generalizing fuel with
  | nil =>
    simp only [List.nil_append]
    simp only [List.length_nil, Nat.zero_add] at hf
    exact str_replace_loop_fuel _ _ (by simp) fuel rest.length rest hf (le_refl _)
  | cons c cs ih =>
    simp only [List.length_cons] at hf
    rw [List.cons_append, loop_skip_char x rs rep_with c (cs ++ rest)
      (h c (List.mem_cons_self _ _)) fuel (by simp; omega),
      ih (fun c hc => h c (List.mem_cons_of_mem _ hc)) _ (by simp)]
    rfl

theorem loop_hit (x y z : Char) (rep_with rest : List Char) (fuel : Nat)
    (hf : rest.length + 3 ≤ fuel) :
    str_replace_loop [x, y, z] rep_with fuel (x :: y :: z :: rest)
      = rep_with ++ str_replace_loop [x, y, z] rep_with rest.length rest := by
  obtain ⟨f, rfl⟩ : ∃ f, fuel = f + 1 := ⟨fuel - 1, by omega⟩
  rw [str_replace_loop_cons]
  have hp : [x, y, z].isPrefixOf (x :: y :: z :: rest) = true := by
    simp [List.isPrefixOf]
  rw [if_pos hp]
  have hd : (x :: y :: z :: rest).drop [x, y, z].length = rest := rfl
  rw [hd, str_replace_loop_fuel _ _ (by simp) f rest.length rest (by omega) (le_refl _)]

theorem loop_skip_token (x y z a b c : Char) (rep_with rest : List Char) (fuel : Nat)
    (hf : rest.length + 3 ≤ fuel) (h0 : ¬ (x = a ∧ y = b ∧ z = c)) (h1 : ¬ (x = b ∧ y = c))
    (h2 : [y, z].isPrefixOf rest = false) :
    str_replace_loop [x, y, z] rep_with fuel (a :: b :: c :: rest)
      = a :: b :: c :: str_replace_loop [x, y, z] rep_with rest.length rest := by
  obtain ⟨f, rfl⟩ : ∃ f, fuel = f + 3 := ⟨fuel - 3, by omega⟩
  have p1 : [x, y, z].isPrefixOf (a :: b :: c :: rest) = false := by
    simp only [isPrefixOf_cons_cons, List.isPrefixOf]
    by_cases e1 : x = a
    · by_cases e2 : y = b
      · have e3 : ¬ z = c := fun e3 => h0 ⟨e1, e2, e3⟩
        simp [e3]
      · simp [e2]
    · simp [e1]
  have p2 : [x, y, z].isPrefixOf (b :: c :: rest) = false := by
    simp only [isPrefixOf_cons_cons]
    by_cases e1 : x = b
    · have e2 : ¬ y = c := fun e2 => h1 ⟨e1, e2⟩
      simp [e2]
    · simp [e1]
  have p3 : [x, y, z].isPrefixOf (c :: rest) = false := by
    rw [isPrefixOf_cons_cons, h2]
    simp
  rw [show f + 3 = (f + 2) + 1 from rfl, str_replace_loop_cons, p1]
  simp only [Bool.false_eq_true, if_false]
  rw [show f + 2 = (f + 1) + 1 from rfl, str_replace_loop_cons, p2]
  simp only [Bool.false_eq_true, if_false]
  rw [str_replace_loop_cons, p3]
  simp only [Bool.false_eq_true, if_false]
  rw [str_replace_loop_fuel _ _ (by simp) f rest.length rest (by omega) (le_refl _)]

theorem piece_valid_name (n : Nat) (w : List Char)
    (h : piece_valid (month_piece.name n w) = true) :
    1 ≤ n ∧ n ≤ 12 ∧ to_upper w = month_token n := by
  simp only [piece_valid, Bool.and_eq_true, decide_eq_true_eq] at h
  exact ⟨h.1.1, h.1.2, h.2⟩

theorem piece_valid_plain (c : Char) (h : piece_valid (month_piece.plain c) = true) :
    c.isAlpha = false := by
  simpa [piece_valid] using h

theorem decimal_head (n : Nat) : ∃ d ds, decimal n = d :: ds ∧ d.isAlpha = false := by
  obtain ⟨d, ds, h⟩ := List.exists_cons_of_ne_nil (decimal_ne_nil n)
  exact ⟨d, ds, h, (digits_clean _ (decimal_all_digits n) d (by rw [h]; simp)).2.2.2.2.2.2⟩

/-- What follows a name in the text never completes the name of month `i`. -/
theorem render_start (i : Nat) (hi : i ≤ 12) (x y z : Char) (hx : month_token i = [x, y, z])
    (hy : y.isAlpha = true) (ps : List month_piece) (hps : ∀ p ∈ ps, piece_valid p = true) :
    [y, z].isPrefixOf (render i ps) = false := by
  cases ps with
  | nil => rfl
  | cons p ps =>
    have hp := hps p (List.mem_cons_self _ _)
    cases p with
    | plain c =>
      have hc := piece_valid_plain c hp
      have : ¬ y = c := by
        rintro rfl
        rw [hy] at hc
        exact absurd hc (by simp)
      simp [render, piece_render, List.isPrefixOf, this]
    | name n w =>
      obtain ⟨h1, h2, _⟩ := piece_valid_name n w hp
      simp only [render, piece_render]
      by_cases hn : n < i
      · obtain ⟨d, ds, hd, hd2⟩ := decimal_head n
        have : ¬ y = d := by
          rintro rfl
          rw [hy] at hd2
          exact absurd hd2 (by simp)
        rw [if_pos hn, hd]
        simp [List.isPrefixOf, this]
      · obtain ⟨a, b, c, ha, _⟩ := month_token_letters n h2
        have := (month_token_pair i n hi h2 x y z a b c hx ha).1
        rw [if_neg hn, ha]
        simp only [List.cons_append, List.nil_append, isPrefixOf_cons_cons, List.isPrefixOf]
        by_cases e1 : y = a
        · have e2 : ¬ z = b := fun e2 => this ⟨e1, e2⟩
          simp [e2]
        · simp [e1]

/-- One pass of `replace_ordinals`: the name of month `i` becomes its number. -/
theorem render_pass (i : Nat) (hi : i ≤ 12) (ps : List month_piece)
    (hps : ∀ p ∈ ps, piece_valid p = true) (fuel : Nat) (hf : (render i ps).length ≤ fuel) :
    str_replace_loop (month_token i) (to_string i) fuel (render i ps) = render (i + 1) ps := by
  obtain ⟨x, y, z, hx, hxa, hya, hza⟩ := month_token_letters i hi
  induction ps generalizing fuel with
  | nil =>
    cases fuel <;> rfl
  | cons p ps ih =>
    have hp := hps p (List.mem_cons_self _ _)
    have hps2 : ∀ q ∈ ps, piece_valid q = true := fun q hq => hps q (List.mem_cons_of_mem _ hq)
    have ih2 := ih hps2 (render i ps).length (le_refl _)
    rw [hx] at ih2 ⊢
    cases p with
    | plain c =>
      have hc := piece_valid_plain c hp
      have hne : x ≠ c := by
        rintro rfl
        rw [hxa] at hc
        exact absurd hc (by simp)
      simp only [render, piece_render] at hf ⊢
      rw [List.singleton_append, loop_skip_char x _ _ c _ hne fuel
        (by simpa using hf), ih2]
      rfl
    | name n w =>
      obtain ⟨h1, h2, _⟩ := piece_valid_name n w hp
      simp only [render, piece_render] at hf ⊢
      by_cases hn : n < i
      · rw [if_pos hn] at hf ⊢
        rw [if_pos (by omega), loop_skip_block x _ _ (decimal n) _
          (fun c hc hxc => by
            have := (digits_clean _ (decimal_all_digits n) c hc).2.2.2.2.2.2
            rw [← hxc, hxa] at this
            exact absurd this (by simp)) fuel (by simpa using hf), ih2]
      · rw [if_neg hn] at hf ⊢
        by_cases hni : n = i
        · subst hni
          rw [if_pos (show n < n + 1 by omega)]
          rw [hx] at hf ⊢
          simp only [List.cons_append, List.nil_append, List.length_cons] at hf ⊢
          rw [loop_hit x y z _ _ fuel (by omega), ih2, to_string_decimal n hi]
        · obtain ⟨a, b, c, ha, _⟩ := month_token_letters n h2
          have q1 := (month_token_pair i n hi h2 x y z a b c hx ha).2 (fun h => hni h.symm)
          have q2 := (month_token_pair n i h2 hi a b c x y z ha hx).1
          rw [if_neg (show ¬ n < i + 1 by omega)]
          rw [ha] at hf ⊢
          simp only [List.cons_append, List.nil_append, List.length_cons] at hf ⊢
          rw [loop_skip_token x y z a b c _ _ fuel (by omega) q1
            (fun h => q2 ⟨h.1.symm, h.2.symm⟩)
            (render_start i hi x y z hx hya ps hps2), ih2]

theorem replace_ordinals_render (ps : List month_piece)
    (hps : ∀ p ∈ ps, piece_valid p = true) (i : Nat) (hi : i ≤ 13) :
    replace_ordinals_loop (MONTHS_ARR.drop i) i (render i ps) = render 13 ps := by
  obtain ⟨d, hd⟩ : ∃ d, d = 13 - i := ⟨_, rfl⟩
  induction d generalizing i with
  | zero =>
    have : i = 13 := by omega
    subst this
    rfl
  | succ d ih =>
    have hlt : i < MONTHS_ARR.length := by
      have : MONTHS_ARR.length = 13 := rfl
      omega
    have hdrop : MONTHS_ARR.drop i = month_token i :: MONTHS_ARR.drop (i + 1) := by
      rw [List.drop_eq_getElem_cons hlt]
      congr 1
      unfold month_token
      rw [List.getD_eq_getElem _ _ hlt]
    rw [hdrop]
    simp only [replace_ordinals_loop]
    unfold str_replace
    rw [render_pass i (by omega) ps hps _ (le_refl _)]
    exact ih (i + 1) (by omega) (by omega)

theorem to_upper_named (ps : List month_piece) (hps : ∀ p ∈ ps, piece_valid p = true) :
    to_upper (named_text ps) = render 0 ps := by
  induction ps with
  | nil => rfl
  | cons p ps ih =>
    have hp := hps p (List.mem_cons_self _ _)
    have e : to_upper (piece_text p ++ named_text ps)
        = to_upper (piece_text p) ++ to_upper (named_text ps) := by
      simp [to_upper]
    simp only [named_text, render]
    rw [e, ih (fun q hq => hps q (List.mem_cons_of_mem _ hq))]
    congr 1
    cases p with
    | plain c =>
      have hc := piece_valid_plain c hp
      exact to_upper_plain [c] (fun x hx => by
        simp only [List.mem_singleton] at hx
        rw [hx]
        exact hc)
    | name n w =>
      obtain ⟨h1, h2, h3⟩ := piece_valid_name n w hp
      simp only [piece_text, piece_render, Nat.not_lt_zero, if_false]
      exact h3

theorem render_numbered (ps : List month_piece) (hps : ∀ p ∈ ps, piece_valid p = true) :
    render 13 ps = numbered_text ps := by
  induction ps with
  | nil => rfl
  | cons p ps ih =>
    have hp := hps p (List.mem_cons_self _ _)
    simp only [numbered_text, render]
    rw [ih (fun q hq => hps q (List.mem_cons_of_mem _ hq))]
    congr 1
    cases p with
    | plain c => rfl
    | name n w =>
      obtain ⟨h1, h2, h3⟩ := piece_valid_name n w hp
      simp only [piece_number, piece_render]
      rw [if_pos (by omega)]

theorem numbered_plain (ps : List month_piece) (hps : ∀ p ∈ ps, piece_valid p = true) :
    ∀ c ∈ numbered_text ps, c.isAlpha = false := by
  induction ps with
  | nil =>
    intro c hc
    simp [numbered_text] at hc
  | cons p ps ih =>
    have hp := hps p (List.mem_cons_self _ _)
    intro c hc
    simp only [numbered_text, List.mem_append] at hc
    rcases hc with hc | hc
    · cases p with
      | plain x =>
        simp only [piece_number, List.mem_singleton] at hc
        rw [hc]
        exact piece_valid_plain x hp
      | name n w =>
        exact (digits_clean _ (decimal_all_digits n) c hc).2.2.2.2.2.2
    · exact ih (fun q hq => hps q (List.mem_cons_of_mem _ hq)) c hc

/-- With names or with numbers, the month field is handed to `set_number_hits` as the text with
numbers. -/
theorem field_value_named (ps : List month_piece) (hps : ∀ p ∈ ps, piece_valid p = true) :
    field_value 4 (named_text ps) = numbered_text ps
      ∧ field_value 4 (numbered_text ps) = numbered_text ps := by
  constructor
  · show replace_ordinals (to_upper (named_text ps)) MONTHS_ARR = numbered_text ps
    rw [to_upper_named ps hps, ← render_numbered ps hps]
    exact replace_ordinals_render ps hps 0 (by omega)
  · show replace_ordinals (to_upper (numbered_text ps)) MONTHS_ARR = numbered_text ps
    rw [to_upper_plain _ (numbered_plain ps hps)]
    exact replace_ordinals_loop_none _ _ _ names_start_with_letter.1 (numbered_plain ps hps)

/-! ## Expressions with the same fields -/

theorem cron_parse_expr_eq (expression : List Char) (target : cron_expr) :
    cron_parse_expr expression target
      = if expression.length ≥ CRON_MAX_STR_LEN_TO_SPLIT
            ∨ (delimited_fields ' ' expression).length ≠ 6 then
          (target, some "Invalid number of fields, expression must consist of 6 fields")
        else cron_parse_fields (delimited_fields ' ' expression) := by
  unfold cron_parse_expr
  simp only []
  rw [split_str_eq]
  by_cases hl : expression.length ≥ CRON_MAX_STR_LEN_TO_SPLIT
  · simp [hl]
  · by_cases hf : delimited_fields ' ' expression = []
    · simp [hl, hf]
    · by_cases h6 : (delimited_fields ' ' expression).length = 6
      · simp [hl, hf, h6]
      · simp [hl, hf, h6]

/-- The result of the field-by-field part depends on the six field parsers alone. -/
theorem cron_parse_fields_congr (fs1 fs2 : List (List Char))
    (h : ∀ k, k < 6 → parse_field k (fs1.getD k []) (field_set cron_expr_zero k) none
      = parse_field k (fs2.getD k []) (field_set cron_expr_zero k) none) :
    cron_parse_fields fs1 = cron_parse_fields fs2 := by
  have h0 := h 0 (by decide)
  have h1 := h 1 (by decide)
  have h2 := h 2 (by decide)
  have h3 := h 3 (by decide)
  have h4 := h 4 (by decide)
  have h5 := h 5 (by decide)
  simp only [parse_field, field_set] at h0 h1 h2 h3 h4 h5
  unfold cron_parse_fields
  simp only []
  rw [h0]
  by_cases e0 : (set_number_hits (fs2.getD 0 []) cron_expr_zero.seconds 0 60 none).2 = none
  swap
  · rw [if_pos e0, if_pos e0]
  rw [if_neg (not_not.mpr e0), if_neg (not_not.mpr e0), e0, h1]
  by_cases e1 : (set_number_hits (fs2.getD 1 []) cron_expr_zero.minutes 0 60 none).2 = none
  swap
  · rw [if_pos e1, if_pos e1]
  rw [if_neg (not_not.mpr e1), if_neg (not_not.mpr e1), e1, h2]
  by_cases e2 : (set_number_hits (fs2.getD 2 []) cron_expr_zero.hours 0 24 none).2 = none
  swap
  · rw [if_pos e2, if_pos e2]
  rw [if_neg (not_not.mpr e2), if_neg (not_not.mpr e2), e2, h3]
  by_cases e3 : (set_days_of_month (fs2.getD 3 []) cron_expr_zero.days_of_month none).2 = none
  swap
  · rw [if_pos e3, if_pos e3]
  rw [if_neg (not_not.mpr e3), if_neg (not_not.mpr e3), e3, h4]
  by_cases e4 : (set_months (fs2.getD 4 []) cron_expr_zero.months none).2 = none
  swap
  · rw [if_pos e4, if_pos e4]
  rw [if_neg (not_not.mpr e4), if_neg (not_not.mpr e4), e4, h5]

/-- C17: month names are aliases of their numbers, in any letter case. For every month field
made of characters that are not letters and of month names, `set_months` returns the same for
the field as written and for the field with every name replaced by its number 1..12; two
expressions that differ only so parse to the same result (each text being shorter than 256
characters, or both not). -/
theorem cron_parse_expr_month_names (ps : List month_piece)
    (hps : ∀ p ∈ ps, piece_valid p = true) :
    (∀ targ error, set_months (named_text ps) targ error
        = set_months (numbered_text ps) targ error)
      ∧ ∀ (e1 e2 : List Char) (target : cron_expr),
        (e1.length ≥ CRON_MAX_STR_LEN_TO_SPLIT ↔ e2.length ≥ CRON_MAX_STR_LEN_TO_SPLIT) →
        (delimited_fields ' ' e1).length = (delimited_fields ' ' e2).length →
        field_text e1 4 = named_text ps → field_text e2 4 = numbered_text ps →
        (∀ k, k < 6 → k ≠ 4 → field_text e1 k = field_text e2 k) →
        cron_parse_expr e1 target = cron_parse_expr e2 target := by
  have hv := field_value_named ps hps
  have key : ∀ targ error, set_months (named_text ps) targ error
      = set_months (numbered_text ps) targ error := by
    intro targ error
    have e1 := parse_field_eq 4 (by decide) (named_text ps) targ error
    have e2 := parse_field_eq 4 (by decide) (numbered_text ps) targ error
    rw [hv.1] at e1
    rw [hv.2] at e2
    exact e1.trans e2.symm
  refine ⟨key, ?_⟩
  intro e1 e2 target hlen hcount h1 h2 hk
  rw [cron_parse_expr_eq, cron_parse_expr_eq, hcount]
  by_cases hc : e2.length ≥ CRON_MAX_STR_LEN_TO_SPLIT ∨ (delimited_fields ' ' e2).length ≠ 6
  · rw [if_pos hc, if_pos (by rw [hlen]; exact hc)]
  · rw [if_neg hc, if_neg (by rw [hlen]; exact hc)]
    apply cron_parse_fields_congr
    intro k hk6
    by_cases h4 : k = 4
    · subst h4
      have a1 : (delimited_fields ' ' e1).getD 4 [] = named_text ps := h1
      have a2 : (delimited_fields ' ' e2).getD 4 [] = numbered_text ps := h2
      rw [a1, a2]
      exact key _ _
    · have a := hk k hk6 h4
      unfold field_text at a
      rw [a]

theorem cron_parse_expr_month_names_witness :
    cron_parse_expr "* * * * JAN,MAR,MAY *".toList cron_expr_zero
      = cron_parse_expr "* * * * 1,3,5 *".toList cron_expr_zero :=
  (cron_parse_expr_month_names
    [month_piece.name 1 "JAN".toList, month_piece.plain ',', month_piece.name 3 "MAR".toList,
      month_piece.plain ',', month_piece.name 5 "MAY".toList] (by decide)).2
    "* * * * JAN,MAR,MAY *".toList "* * * * 1,3,5 *".toList cron_expr_zero (by decide)
    (by decide) (by decide) (by decide) (by decide)

/-! ## Sunday (C18) -/

theorem set_number_hits_digit (v : Nat) (hv : v ≤ 7) (targ : List Nat) (error : Option String) :
    set_number_hits (decimal v) targ 0 (7 + 1) error = (cron_set_bit targ v, none) := by
  rw [set_number_hits_single (decimal v)
    (fun c hc => ⟨(decimal_clean v c hc).1, (decimal_clean v c hc).2.1⟩) (decimal_ne_nil v)
    (by
      have := decimal_length_int v (by rw [int_max_val]; omega)
      omega),
    item_decimal, if_pos ⟨by omega, by omega, by rw [int_max_val]; omega⟩]

/-- C18: Sunday has a single stored representation. The stored day-of-week set is the image,
under `v mod 7`, of the set of written values 0..7 that `set_number_hits` has read from the
field (names read as numbers): bit 7 is never left set; written as a value of the field, `7`,
`0` and `SUN` (in any letter case) give the same set; in particular `* * * * * SUN`,
`* * * * * 0` and `* * * * * 7` parse to identical results. -/
theorem cron_parse_expr_sunday (field : List Char) (targ : List Nat) (error : Option String)
    (hlen : targ.length = 1) :
    (∀ j : Int, 0 ≤ j → j < 8 →
        (cron_get_bit (set_days_of_week field targ error).1 j ≠ 0
          ↔ ∃ v : Int, 0 ≤ v ∧ v ≤ 7 ∧ v % 7 = j
            ∧ cron_get_bit (set_number_hits (field_value 5 field) targ 0 (7 + 1) error).1 v ≠ 0))
      ∧ cron_get_bit (set_days_of_week field targ error).1 7 = 0
      ∧ (∀ w : List Char, to_upper w = "SUN".toList →
        set_days_of_week w targ error = set_days_of_week "0".toList targ error)
      ∧ ((set_days_of_week "7".toList targ error).2 = (set_days_of_week "0".toList targ error).2
        ∧ ∀ j : Int, 0 ≤ j → j < 8 →
          (cron_get_bit (set_days_of_week "7".toList targ error).1 j ≠ 0
            ↔ cron_get_bit (set_days_of_week "0".toList targ error).1 j ≠ 0))
      ∧ cron_parse_expr "* * * * * SUN".toList cron_expr_zero
        = cron_parse_expr "* * * * * 0".toList cron_expr_zero
      ∧ cron_parse_expr "* * * * * 7".toList cron_expr_zero
        = cron_parse_expr "* * * * * 0".toList cron_expr_zero := by
  have hpf : ∀ text, set_days_of_week text targ error
      = (field_store 5 (set_number_hits (field_value 5 text) targ 0 (7 + 1) error).1,
        (set_number_hits (field_value 5 text) targ 0 (7 + 1) error).2) :=
    fun text => parse_field_eq 5 (by decide) text targ error
  have hfold : ∀ (s : List Nat), s.length = 1 → ∀ j : Int, 0 ≤ j → j < 8 →
      (cron_get_bit (field_store 5 s) j ≠ 0
        ↔ ∃ v : Int, 0 ≤ v ∧ v ≤ 7 ∧ v % 7 = j ∧ cron_get_bit s v ≠ 0) := by
    intro s hs j hj hj2
    simp only [field_store]
    rw [fold_sunday_get s j (by omega) hj (by omega)]
    constructor
    · rintro (⟨h1, h2⟩ | ⟨h1, h2⟩)
      · exact ⟨j, hj, by omega, by omega, h2⟩
      · exact ⟨7, by omega, by omega, by omega, h2⟩
    · rintro ⟨v, hv, hv2, hv3, hs2⟩
      by_cases h7 : v = 7
      · subst h7
        exact Or.inr ⟨by omega, hs2⟩
      · have : v = j := by omega
        subst this
        exact Or.inl ⟨h7, hs2⟩
  have hwl : ∀ text, (set_number_hits (field_value 5 text) targ 0 (7 + 1) error).1.length = 1 := by
    intro text
    rw [set_number_hits_eq]
    split
    · exact hlen
    · rw [loop_length]
      exact hlen
  have h1 : ∀ text, ∀ j : Int, 0 ≤ j → j < 8 →
      (cron_get_bit (set_days_of_week text targ error).1 j ≠ 0
        ↔ ∃ v : Int, 0 ≤ v ∧ v ≤ 7 ∧ v % 7 = j
          ∧ cron_get_bit (set_number_hits (field_value 5 text) targ 0 (7 + 1) error).1 v ≠ 0) := by
    intro text j hj hj2
    rw [hpf]
    exact hfold _ (hwl text) j hj hj2
  have v7 : field_value 5 "7".toList = decimal 7 := by decide
  have v0 : field_value 5 "0".toList = decimal 0 := by decide
  refine ⟨h1 field, ?_, ?_, ⟨?_, ?_⟩, by decide!, by decide!⟩
  · by_contra h7
    obtain ⟨v, hv, hv2, hv3, _⟩ := (h1 field 7 (by omega) (by omega)).mp h7
    omega
  · intro w hw
    have hq : w ≠ ['?'] := by
      rintro rfl
      exact absurd hw (by decide)
    have e : field_value 5 w = field_value 5 "0".toList := by
      show replace_ordinals (to_upper (if w = ['?'] then ['*'] else w)) DAYS_ARR = _
      rw [if_neg hq, hw]
      decide
    rw [hpf, hpf, e]
  · rw [hpf, hpf, v7, v0, set_number_hits_digit 7 (by omega), set_number_hits_digit 0 (by omega)]
  · intro j hj hj2
    rw [h1 _ j hj hj2, h1 _ j hj hj2, v7, v0, set_number_hits_digit 7 (by omega),
      set_number_hits_digit 0 (by omega)]
    have e : ∀ (i v : Int), 0 ≤ i → i ≤ 7 → 0 ≤ v → v ≤ 7 →
        (cron_get_bit (cron_set_bit targ i) v ≠ 0 ↔ (i = v ∨ cron_get_bit targ v ≠ 0)) :=
      fun i v hi hi2 hv hv2 =>
        cron_get_set_bit targ i v hi (by rw [hlen]; omega) (by omega) hv (by omega)
    constructor
    · rintro ⟨v, hv, hv2, hv3, hs⟩
      rcases (e 7 v (by omega) (by omega) hv hv2).mp hs with h | h
      · exact ⟨0, by omega, by omega, by omega,
          (e 0 0 (by omega) (by omega) (by omega) (by omega)).mpr (Or.inl rfl)⟩
      · exact ⟨v, hv, hv2, hv3, (e 0 v (by omega) (by omega) hv hv2).mpr (Or.inr h)⟩
    · rintro ⟨v, hv, hv2, hv3, hs⟩
      rcases (e 0 v (by omega) (by omega) hv hv2).mp hs with h | h
      · exact ⟨7, by omega, by omega, by omega,
          (e 7 7 (by omega) (by omega) (by omega) (by omega)).mpr (Or.inl rfl)⟩
      · exact ⟨v, hv, hv2, hv3, (e 7 v (by omega) (by omega) hv hv2).mpr (Or.inr h)⟩

theorem cron_parse_expr_sunday_witness :
    cron_get_bit (set_days_of_week "5-7".toList [0] none).1 7 = 0
      ∧ set_days_of_week "sUn".toList [0] none = set_days_of_week "0".toList [0] none :=
  ⟨(cron_parse_expr_sunday "5-7".toList [0] none rfl).2.1,
    (cron_parse_expr_sunday "5-7".toList [0] none rfl).2.2.1 "sUn".toList (by decide)⟩

/-! ## A stride that overflows (C12) -/

/-- C12 (defect of the code): `* * * 1/2147483647 * *` parses successfully, and bit 0 of the
day-of-month set is set, outside the range 1..31 of the field. The counter of the stride loop
goes from 1 to `1 + 2147483647`, which wraps to `-2147483648`, still not above 31; the casts
`(uint8_t) (idx / 8)` and `(uint8_t) (idx % 8)` of `cron_set_bit` send that index to byte 0,
position 0. -/
theorem cron_parse_expr_stride_sets_day_zero :
    (cron_parse_expr "* * * 1/2147483647 * *".toList cron_expr_zero).2 = none
      ∧ cron_get_bit (cron_parse_expr "* * * 1/2147483647 * *".toList
        cron_expr_zero).1.days_of_month 0 ≠ 0
      ∧ wrap32 (1 + 2147483647) = -2147483648
      ∧ bit_byte (-2147483648) = 0 ∧ bit_pos (-2147483648) = 0 := by
  decide!

/-! ## Incrementers (C20) -/

/-- An item with a slash that is accepted has exactly two parts between slashes that are not
empty, and its second part is a stride other than zero. -/
theorem item_slash_accepted (item : List Char) (t : List Nat) (min max : Int)
    (hs : has_char item '/' = true) (h : (set_number_hits_item item t min max).2 = none) :
    ∃ p q, delimited_fields '/' item = [p, q] ∧ (parse_uint q).2 = 0 ∧ (parse_uint q).1 ≠ 0 := by
  unfold set_number_hits_item at h
  simp only [hs, Bool.not_true, Bool.false_eq_true, if_false] at h
  rw [split_str_eq] at h
  by_cases hl : item.length ≥ CRON_MAX_STR_LEN_TO_SPLIT
  · simp [hl] at h
  · simp only [if_neg hl] at h
    by_cases hf : delimited_fields '/' item = []
    · simp [hf] at h
    · simp only [if_neg hf] at h
      by_cases h2 : (delimited_fields '/' item).length = 2
      · obtain ⟨p, q, hpq⟩ : ∃ p q, delimited_fields '/' item = [p, q] := by
          match hd : delimited_fields '/' item, h2 with
          | [p, q], _ => exact ⟨p, q, rfl⟩
        refine ⟨p, q, hpq, ?_⟩
        rw [hpq] at h
        simp only [List.length_cons, List.length_nil, Nat.reduceAdd, ne_eq, not_true_eq_false,
          if_false, Option.getD_some, List.getD_cons_zero, List.getD_cons_succ] at h
        by_cases hr : (get_range p min max).2.2 = none
        · simp only [hr, not_true_eq_false, if_false] at h
          by_cases hd : (parse_uint q).2 = 0
          · simp only [hd, not_true_eq_false, if_false] at h
            by_cases hz : (parse_uint q).1 = 0
            · simp [hz] at h
            · exact ⟨hd, hz⟩
          · simp [hd] at h
        · simp [hr] at h
      · simp [h2] at h

theorem loop_accepted (min max : Int) (items : List (List Char)) (t : List Nat)
    (e : Option String) (h : (set_number_hits_loop min max items t e).2 = none)
    (item : List Char) (hi : item ∈ items) :
    ∃ t2, (set_number_hits_item item t2 min max).2 = none := by
  induction items generalizing t e with
  | nil => simp at hi
  | cons x rest ih =>
    simp only [set_number_hits_loop] at h
    by_cases hx : (set_number_hits_item x t min max).2 = none
    · rw [if_neg (not_not.mpr hx)] at h
      rcases List.mem_cons.mp hi with rfl | hi2
      · exact ⟨t, hx⟩
      · exact ih _ _ h hi2
    · rw [if_pos hx] at h
      exact absurd h hx

theorem set_number_hits_incrementer (value : List Char) (target : List Nat) (min max : Int)
    (error : Option String) (h : (set_number_hits value target min max error).2 = none)
    (item : List Char) (hi : item ∈ delimited_fields ',' value)
    (hs : has_char item '/' = true) :
    ∃ p q, delimited_fields '/' item = [p, q] ∧ (parse_uint q).2 = 0 ∧ (parse_uint q).1 ≠ 0 := by
  rw [set_number_hits_eq] at h
  by_cases hc : value.length ≥ CRON_MAX_STR_LEN_TO_SPLIT ∨ delimited_fields ',' value = []
  · rw [if_pos hc] at h
    simp at h
  · rw [if_neg hc] at h
    obtain ⟨t2, ht2⟩ := loop_accepted min max _ target error h item hi
    exact item_slash_accepted item t2 min max hs ht2

/-- C20 (the claim fails as stated): the item `1//3` has more than one slash, yet it is accepted
and parsed as `1/3` is; so are `/1/3` and `1/3/`. The parts between slashes that are empty are
dropped before the parts are counted. -/
theorem cron_parse_expr_accepts_double_slash :
    (cron_parse_expr "1//3 * * * * *".toList cron_expr_zero).2 = none
      ∧ cron_parse_expr "1//3 * * * * *".toList cron_expr_zero
        = cron_parse_expr "1/3 * * * * *".toList cron_expr_zero
      ∧ cron_parse_expr "/1/3 * * * * *".toList cron_expr_zero
        = cron_parse_expr "1/3 * * * * *".toList cron_expr_zero
      ∧ cron_parse_expr "1/3/ * * * * *".toList cron_expr_zero
        = cron_parse_expr "1/3 * * * * *".toList cron_expr_zero := by
  decide!

/-- C20 (amended): whenever a field is accepted, each of its items that contains a slash has
exactly two parts between slashes that are not empty, and the second part is read by
`parse_uint` as a stride other than zero; so an item with a zero stride, with a single part
(`/5`, `5/`) or with three parts or more (`1/2/3`) is an error. This holds for `set_number_hits`
and for every field of an expression that `cron_parse_expr` accepts. -/
theorem cron_parse_expr_incrementer :
    (∀ (value : List Char) (target : List Nat) (min max : Int) (error : Option String),
        (set_number_hits value target min max error).2 = none →
        ∀ item ∈ delimited_fields ',' value, has_char item '/' = true →
          ∃ p q, delimited_fields '/' item = [p, q] ∧ (parse_uint q).2 = 0
            ∧ (parse_uint q).1 ≠ 0)
      ∧ ∀ (expression : List Char) (target e : cron_expr),
        cron_parse_expr expression target = (e, none) → ∀ k, k < 6 →
        ∀ item ∈ delimited_fields ',' (field_value k (field_text expression k)),
          has_char item '/' = true →
          ∃ p q, delimited_fields '/' item = [p, q] ∧ (parse_uint q).2 = 0
            ∧ (parse_uint q).1 ≠ 0 := by
  refine ⟨fun value target min max error h item hi hs =>
    set_number_hits_incrementer value target min max error h item hi hs, ?_⟩
  intro expression target e hp k hk item hi hs
  have hf := cron_parse_expr_runs_field expression target e hp k hk
  rw [parse_field_eq k hk] at hf
  have h2 := congrArg Prod.snd hf
  simp only [] at h2
  exact set_number_hits_incrementer _ _ _ _ _ h2 item hi hs

theorem cron_parse_expr_incrementer_witness :
    (cron_parse_expr "0 0 0 1/2/3 * *".toList cron_expr_zero).2 ≠ none
      ∧ (cron_parse_expr "0 0 0 1/0 * *".toList cron_expr_zero).2 ≠ none
      ∧ (cron_parse_expr "0 0 0 /5 * *".toList cron_expr_zero).2 ≠ none := by
  refine ⟨fun h => ?_, fun h => ?_, fun h => ?_⟩
  · obtain ⟨p, q, hpq, _⟩ := cron_parse_expr_incrementer.2 "0 0 0 1/2/3 * *".toList
      cron_expr_zero _ (Prod.ext rfl h) 3 (by decide) "1/2/3".toList (by decide) (by decide)
    have e : delimited_fields '/' "1/2/3".toList = ["1".toList, "2".toList, "3".toList] := by
      decide
    rw [e] at hpq
    exact absurd (congrArg List.length hpq) (by simp)
  · obtain ⟨p, q, hpq, _, hz⟩ := cron_parse_expr_incrementer.2 "0 0 0 1/0 * *".toList
      cron_expr_zero _ (Prod.ext rfl h) 3 (by decide) "1/0".toList (by decide) (by decide)
    have e : delimited_fields '/' "1/0".toList = ["1".toList, "0".toList] := by decide
    rw [e] at hpq
    simp only [List.cons.injEq, and_true] at hpq
    rw [← hpq.2] at hz
    exact hz (by decide)
  · obtain ⟨p, q, hpq, _⟩ := cron_parse_expr_incrementer.2 "0 0 0 /5 * *".toList
      cron_expr_zero _ (Prod.ext rfl h) 3 (by decide) "/5".toList (by decide) (by decide)
    have e : delimited_fields '/' "/5".toList = ["5".toList] := by decide
    rw [e] at hpq
    exact absurd (congrArg List.length hpq) (by simp)

/-! ## Bit search: the first and the last set bit (C26) -/

theorem next_set_bit_loop_below (bits : List Nat) (n : Nat) (i v : Int)
    (h : next_set_bit_loop bits n i = some v) (j : Int) (h1 : i ≤ j) (h2 : j < v) :
    cron_get_bit bits j = 0 := by
  induction n generalizing i with
  | zero => simp [next_set_bit_loop] at h
  | succ n ih =>
    simp only [next_set_bit_loop] at h
    split at h
    · simp only [Option.some.injEq] at h
      omega
    · rename_i hb
      by_cases hij : j = i
      · subst hij; simpa using hb
      · exact ih _ h (by omega)

theorem next_set_bit_found (bits : List Nat) (max from_index notfound : Int)
    (h : ∃ i, from_index ≤ i ∧ i < max ∧ cron_get_bit bits i ≠ 0) :
    ∃ v, next_set_bit bits max from_index notfound = (v, notfound) ∧ from_index ≤ v ∧ v < max
      ∧ cron_get_bit bits v ≠ 0 ∧ ∀ j, from_index ≤ j → j < v → cron_get_bit bits j = 0 := by
  obtain ⟨i, h1, h2, h3⟩ := h
  unfold next_set_bit
  cases hl : next_set_bit_loop bits (max - from_index).toNat from_index with
  | some v =>
    obtain ⟨a, b, c⟩ := next_set_bit_loop_some _ _ _ _ hl
    exact ⟨v, rfl, a, by omega, c, fun j j1 j2 => next_set_bit_loop_below _ _ _ _ hl j j1 j2⟩
  | none => exact absurd (next_set_bit_loop_none _ _ _ hl i h1 (by omega)) h3

theorem next_set_bit_missing (bits : List Nat) (max from_index notfound : Int)
    (h : ¬ ∃ i, from_index ≤ i ∧ i < max ∧ cron_get_bit bits i ≠ 0) :
    next_set_bit bits max from_index notfound = (0, 1) := by
  unfold next_set_bit
  cases hl : next_set_bit_loop bits (max - from_index).toNat from_index with
  | some v =>
    obtain ⟨a, b, c⟩ := next_set_bit_loop_some _ _ _ _ hl
    exact absurd ⟨v, a, by omega, c⟩ h
  | none => rfl

theorem prev_set_bit_found (bits : List Nat) (from_index to_index notfound : Int)
    (h : ∃ i, to_index ≤ i ∧ i ≤ from_index ∧ cron_get_bit bits i ≠ 0) :
    ∃ v, prev_set_bit bits from_index to_index notfound = (v, notfound) ∧ to_index ≤ v
      ∧ v ≤ from_index ∧ cron_get_bit bits v ≠ 0
      ∧ ∀ j, v < j → j ≤ from_index → cron_get_bit bits j = 0 := by
  obtain ⟨i, h1, h2, h3⟩ := h
  unfold prev_set_bit
  cases hl : prev_set_bit_loop bits (from_index - to_index + 1).toNat from_index with
  | some v =>
    obtain ⟨a, b, c⟩ := prev_set_bit_loop_some _ _ _ _ hl
    exact ⟨v, rfl, by omega, a, c, fun j j1 j2 => prev_set_bit_loop_above _ _ _ _ hl j j1 j2⟩
  | none => exact absurd (prev_set_bit_loop_none _ _ _ hl i h2 (by omega)) h3

theorem prev_set_bit_missing (bits : List Nat) (from_index to_index notfound : Int)
    (h : ¬ ∃ i, to_index ≤ i ∧ i ≤ from_index ∧ cron_get_bit bits i ≠ 0) :
    prev_set_bit bits from_index to_index notfound = (0, 1) := by
  unfold prev_set_bit
  cases hl : prev_set_bit_loop bits (from_index - to_index + 1).toNat from_index with
  | some v =>
    obtain ⟨a, b, c⟩ := prev_set_bit_loop_some _ _ _ _ hl
    exact absurd ⟨v, by omega, a, c⟩ h
  | none => rfl

/-- C26: `next_set_bit(bits, max, from)` returns the smallest index `i` with `from ≤ i < max`
whose bit is set and leaves the not-found flag as it was, and when no such index exists it sets
the flag (and returns 0); `prev_set_bit(bits, from, to)` returns the largest index `i` with
`to ≤ i ≤ from` whose bit is set and leaves the flag as it was, and when no such index exists
it sets the flag (and returns 0). The flag is therefore written exactly when no index exists. -/
theorem bit_search_extremal (bits : List Nat) (max from_index to_index notfound : Int) :
    ((∃ i, from_index ≤ i ∧ i < max ∧ cron_get_bit bits i ≠ 0) →
        ∃ v, next_set_bit bits max from_index notfound = (v, notfound) ∧ from_index ≤ v
          ∧ v < max ∧ cron_get_bit bits v ≠ 0
          ∧ ∀ j, from_index ≤ j → j < v → cron_get_bit bits j = 0)
      ∧ ((¬ ∃ i, from_index ≤ i ∧ i < max ∧ cron_get_bit bits i ≠ 0) →
        next_set_bit bits max from_index notfound = (0, 1))
      ∧ ((∃ i, to_index ≤ i ∧ i ≤ from_index ∧ cron_get_bit bits i ≠ 0) →
        ∃ v, prev_set_bit bits from_index to_index notfound = (v, notfound) ∧ to_index ≤ v
          ∧ v ≤ from_index ∧ cron_get_bit bits v ≠ 0
          ∧ ∀ j, v < j → j ≤ from_index → cron_get_bit bits j = 0)
      ∧ ((¬ ∃ i, to_index ≤ i ∧ i ≤ from_index ∧ cron_get_bit bits i ≠ 0) →
        prev_set_bit bits from_index to_index notfound = (0, 1)) :=
  ⟨next_set_bit_found bits max from_index notfound,
    next_set_bit_missing bits max from_index notfound,
    prev_set_bit_found bits from_index to_index notfound,
    prev_set_bit_missing bits from_index to_index notfound⟩

/-- C26 at the set with the bits 3 and 6, searched from 4 below 8 and from 5 down to 0: the
searches return 6 and 3 and leave the flag 0. -/
theorem bit_search_extremal_witness :
    (∃ v, next_set_bit [72] 8 4 0 = (v, 0) ∧ (4 : Int) ≤ v ∧ v < 8 ∧ cron_get_bit [72] v ≠ 0
        ∧ ∀ j, (4 : Int) ≤ j → j < v → cron_get_bit [72] j = 0)
      ∧ ∃ v, prev_set_bit [72] 5 0 0 = (v, 0) ∧ (0 : Int) ≤ v ∧ v ≤ 5 ∧ cron_get_bit [72] v ≠ 0
        ∧ ∀ j, v < j → j ≤ (5 : Int) → cron_get_bit [72] j = 0 :=
  ⟨(bit_search_extremal [72] 8 4 0 0).1 ⟨6, by decide, by decide, by decide⟩,
    (bit_search_extremal [72] 8 5 0 0).2.2.1 ⟨3, by decide, by decide, by decide⟩⟩

/-! ## A carry that keeps the second (C24) -/

/-- C24 (defect of the code): for `10,45 5 * * * *` and 2021-06-15 12:00:30 UTC the second step
of `do_next` moves the second to 45 and therefore does not put the second on the reset list; the
minute step then carries the minute from 0 to 5 with an empty reset list and leaves the second at
45 instead of resetting it to 0. The stale second survives: `cron_next` returns 12:05:45 although
12:05:10 lies strictly between and satisfies all six field sets. -/
theorem do_next_carry_keeps_second :
    (cron_parse_expr "10,45 5 * * * *".toList cron_expr_zero).2 = none
      ∧ find_next (cron_parse_expr "10,45 5 * * * *".toList cron_expr_zero).1.seconds
          CRON_MAX_SECONDS 30 (gmtime 1623758430) CRON_CF_SECOND CRON_CF_MINUTE
          (List.replicate CRON_CF_ARR_LEN (-1)) 0 = (45, gmtime 1623758445, 0)
      ∧ find_next (cron_parse_expr "10,45 5 * * * *".toList cron_expr_zero).1.minutes
          CRON_MAX_MINUTES 0 (gmtime 1623758445) CRON_CF_MINUTE CRON_CF_HOUR_OF_DAY
          (List.replicate CRON_CF_ARR_LEN (-1)) 0 = (5, gmtime 1623758745, 0)
      ∧ (gmtime 1623758445).tm_min = 0 ∧ (gmtime 1623758745).tm_min = 5
      ∧ (gmtime 1623758745).tm_sec = 45
      ∧ (∀ restart : tm → Option (Int × tm),
          do_next_body restart (cron_parse_expr "10,45 5 * * * *".toList cron_expr_zero).1
              (gmtime 1623758430) 121
            = after_restart (restart (gmtime 1623758745))
                (fun c => do_next_hour restart
                  (cron_parse_expr "10,45 5 * * * *".toList cron_expr_zero).1 c 121
                  (List.replicate CRON_CF_ARR_LEN (-1))))
      ∧ cron_next 8 (cron_parse_expr "10,45 5 * * * *".toList cron_expr_zero).1 1623758430
          = some 1623758745
      ∧ (1623758430 : Int) < 1623758710 ∧ (1623758710 : Int) < 1623758745
      ∧ instant_matches (cron_parse_expr "10,45 5 * * * *".toList cron_expr_zero).1 1623758710
          = true := by
  refine ⟨by decide!, by decide!, by decide!, by decide!, by decide!, by decide!,
    fun restart => rfl, by decide!, by decide, by decide, by decide!⟩

/-! ## A month step that leaves the month it returns (C25) -/

/-- C25 (defect of the code): for `0 0 0 * 2 *` and the calendar of 2021-01-31 00:00:00 UTC, the
month step of `do_next` (`find_next` on the month set, with second, minute, hour and day of month
on the reset list) returns 1, February, the smallest allowed month not below January, but leaves
the calendar on 2021-03-01 00:00:00, whose month is 2, March: February 31 was normalised into
March before the day of month was reset. `do_next` then restarts from March. -/
theorem find_next_month_leaves_returned_month :
    (cron_parse_expr "0 0 0 * 2 *".toList cron_expr_zero).2 = none
      ∧ (gmtime 1612051200).tm_mon = 0 ∧ (gmtime 1612051200).tm_mday = 31
      ∧ (gmtime 1612051200).tm_year = 121
      ∧ cron_get_bit (cron_parse_expr "0 0 0 * 2 *".toList cron_expr_zero).1.months 0 = 0
      ∧ cron_get_bit (cron_parse_expr "0 0 0 * 2 *".toList cron_expr_zero).1.months 1 ≠ 0
      ∧ find_next (cron_parse_expr "0 0 0 * 2 *".toList cron_expr_zero).1.months CRON_MAX_MONTHS
          0 (gmtime 1612051200) CRON_CF_MONTH CRON_CF_YEAR
          [CRON_CF_SECOND, CRON_CF_MINUTE, CRON_CF_HOUR_OF_DAY, CRON_CF_DAY_OF_MONTH, -1, -1, -1]
          0 = (1, gmtime 1614556800, 0)
      ∧ (gmtime 1614556800).tm_mon = 2 ∧ (gmtime 1614556800).tm_mday = 1
      ∧ (gmtime 1614556800).tm_year = 121
      ∧ ∀ restart : tm → Option (Int × tm),
          do_next_body restart (cron_parse_expr "0 0 0 * 2 *".toList cron_expr_zero).1
              (gmtime 1612051200) 121
            = restart (gmtime 1614556800) := by
  refine ⟨by decide!, by decide!, by decide!, by decide!, by decide!, by decide!, by decide!,
    by decide!, by decide!, by decide!, fun restart => rfl⟩

/-! ## Termination (C22) -/

/-- C22 (defect of the code): for `0 0 0 31 2 *`, which parses successfully, and 2020-03-31
23:59:59 UTC, `cron_prev` returns nothing, neither an instant nor the sentinel, whatever the
recursion depth allowed: `do_prev` restarts from 23:00:00, 00:59:59, 00:00:00 and again 23:59:59
of the same day, the year never changes, so the guard on the year difference is never reached and
the recursion is not well-founded. -/
theorem cron_prev_recursion_unbounded :
    (cron_parse_expr "0 0 0 31 2 *".toList cron_expr_zero).2 = none
      ∧ ∀ fuel : Nat,
          cron_prev fuel (cron_parse_expr "0 0 0 31 2 *".toList cron_expr_zero).1 1585699199
            = none := by
  refine ⟨by decide!, fun fuel => ?_⟩
  have h := (feb_31_cycle fuel).2.1
  have e : cron_mktime (cron_time 1585699199) = (1585699199, gmtime 1585699199) :=
    cron_mktime_gmtime _
  have y : (gmtime 1585699199).tm_year = 120 := by decide
  simp only [cron_prev, e, y, h]
  decide

/-! ## The indices of the stride loop (C28) -/

theorem set_step_bits_indices (hi delta : Int) (n : Nat) (i1 : Int) (target : List Nat) :
    set_step_bits hi delta n i1 target
      = (step_indices hi delta n i1).foldl cron_set_bit target := by
  induction n generalizing i1 target with
  | zero => rfl
  | succ n ih =>
    simp only [set_step_bits, step_indices]
    split
    · rw [ih]; rfl
    · rfl

/-- C28 (defect of the code): the seconds field `59/2147483647` is accepted, start 59 is in range
and `parse_uint` accepts the stride `INT_MAX`; the loop counter after the first step is
`59 + 2147483647`, which overflows and wraps to -2147483590, still `≤ 59`, so the loop goes on
and passes -2147483590 to `cron_set_bit`. That index is outside `[0, 59]` and its byte index
`(uint8_t)(idx / 8)` is 8, one past the 8 bytes of the seconds set. -/
theorem set_number_hits_stride_leaves_field :
    (cron_parse_expr "59/2147483647 * * * * *".toList cron_expr_zero).2 = none
      ∧ parse_uint "2147483647".toList = (2147483647, 0)
      ∧ set_number_hits "59/2147483647".toList cron_expr_zero.seconds 0 60 none
          = ((step_indices 59 2147483647 128 59).foldl cron_set_bit cron_expr_zero.seconds, none)
      ∧ (step_indices 59 2147483647 128 59).take 2 = [59, -2147483590]
      ∧ wrap32 (59 + 2147483647) = -2147483590
      ∧ bit_byte (-2147483590) = 8 ∧ cron_expr_zero.seconds.length = 8 := by
  refine ⟨by decide!, by decide!, ?_, by decide!, by decide!, by decide!, by decide!⟩
  rw [← set_step_bits_indices]
  decide!

/-! ## Every field set of a parsed expression has a member (C27) -/

/-- The checks at the end of `get_range`, on the triple read from the text. -/
theorem range_checks (r : Int × Int × Option String) (min max : Int)
    (h : (if r.2.2 ≠ none then r
      else if r.1 ≥ max ∨ r.2.1 ≥ max then (r.1, r.2.1, some "Specified range exceeds maximum")
      else if r.1 < min ∨ r.2.1 < min then
        (r.1, r.2.1, some "Specified range is less than minimum")
      else if r.1 > r.2.1 then (r.1, r.2.1, some "Specified range start exceeds range end")
      else (r.1, r.2.1, none)).2.2 = none) :
    min ≤ (if r.2.2 ≠ none then r
      else if r.1 ≥ max ∨ r.2.1 ≥ max then (r.1, r.2.1, some "Specified range exceeds maximum")
      else if r.1 < min ∨ r.2.1 < min then
        (r.1, r.2.1, some "Specified range is less than minimum")
      else if r.1 > r.2.1 then (r.1, r.2.1, some "Specified range start exceeds range end")
      else (r.1, r.2.1, none)).1
    ∧ (if r.2.2 ≠ none then r
      else if r.1 ≥ max ∨ r.2.1 ≥ max then (r.1, r.2.1, some "Specified range exceeds maximum")
      else if r.1 < min ∨ r.2.1 < min then
        (r.1, r.2.1, some "Specified range is less than minimum")
      else if r.1 > r.2.1 then (r.1, r.2.1, some "Specified range start exceeds range end")
      else (r.1, r.2.1, none)).1
      ≤ (if r.2.2 ≠ none then r
      else if r.1 ≥ max ∨ r.2.1 ≥ max then (r.1, r.2.1, some "Specified range exceeds maximum")
      else if r.1 < min ∨ r.2.1 < min then
        (r.1, r.2.1, some "Specified range is less than minimum")
      else if r.1 > r.2.1 then (r.1, r.2.1, some "Specified range start exceeds range end")
      else (r.1, r.2.1, none)).2.1
    ∧ (if r.2.2 ≠ none then r
      else if r.1 ≥ max ∨ r.2.1 ≥ max then (r.1, r.2.1, some "Specified range exceeds maximum")
      else if r.1 < min ∨ r.2.1 < min then
        (r.1, r.2.1, some "Specified range is less than minimum")
      else if r.1 > r.2.1 then (r.1, r.2.1, some "Specified range start exceeds range end")
      else (r.1, r.2.1, none)).2.1 < max := by
  by_cases h1 : r.2.2 ≠ none
  · rw [if_pos h1] at h
    exact absurd h h1
  · rw [if_neg h1] at h ⊢
    by_cases h2 : r.1 ≥ max ∨ r.2.1 ≥ max
    · rw [if_pos h2] at h; simp at h
    · rw [if_neg h2] at h ⊢
      by_cases h3 : r.1 < min ∨ r.2.1 < min
      · rw [if_pos h3] at h; simp at h
      · rw [if_neg h3] at h ⊢
        by_cases h4 : r.1 > r.2.1
        · rw [if_pos h4] at h; simp at h
        · rw [if_neg h4]
          simp only []
          omega

/-- An accepted range lies in the field: `min ≤ res[0] ≤ res[1] < max`. -/
theorem get_range_checked (field : List Char) (min max : Int)
    (h : (get_range field min max).2.2 = none) :
    min ≤ (get_range field min max).1
      ∧ (get_range field min max).1 ≤ (get_range field min max).2.1
      ∧ (get_range field min max).2.1 < max :=
  range_checks _ min max h

theorem set_range_bits_first (hi : Int) (n : Nat) (lo : Int) (t : List Nat) (h0 : 0 ≤ lo)
    (h1 : lo ≤ hi) (h2 : lo < 8 * t.length) (h3 : lo < 2048) (hn : 1 ≤ n) :
    cron_get_bit (set_range_bits hi n lo t) lo ≠ 0 := by
  obtain ⟨m, rfl⟩ : ∃ m, n = m + 1 := ⟨n - 1, by omega⟩
  simp only [set_range_bits, if_pos h1]
  rw [set_range_bits_or _ _ _ _ _ h0]
  left
  exact (cron_get_set_bit t lo lo h0 h2 h3 h0 h3).2 (Or.inl rfl)

theorem set_step_bits_first (hi delta : Int) (n : Nat) (lo : Int) (t : List Nat) (h0 : 0 ≤ lo)
    (h1 : lo ≤ hi) (h2 : lo < 8 * t.length) (h3 : lo < 2048) (hn : 1 ≤ n) :
    cron_get_bit (set_step_bits hi delta n lo t) lo ≠ 0 := by
  obtain ⟨m, rfl⟩ : ∃ m, n = m + 1 := ⟨n - 1, by omega⟩
  simp only [set_step_bits, if_pos h1]
  rw [set_step_bits_or _ _ _ _ _ _ h0]
  left
  exact (cron_get_set_bit t lo lo h0 h2 h3 h0 h3).2 (Or.inl rfl)

/-- An accepted item sets the bit of the first value of its range. -/
theorem item_first_bit (item : List Char) (t s : List Nat) (min max : Int) (h0 : 0 ≤ min)
    (h1 : max ≤ 8 * t.length) (h2 : max ≤ 2048)
    (h : set_number_hits_item item t min max = (s, none)) :
    ∃ w, min ≤ w ∧ w < max ∧ cron_get_bit s w ≠ 0 := by
  unfold set_number_hits_item at h
  by_cases hs : (!has_char item '/') = true
  · rw [if_pos hs] at h
    simp only [] at h
    by_cases he : (get_range item min max).2.2 ≠ none
    · rw [if_pos he] at h
      exact absurd (congrArg Prod.snd h) he
    · rw [if_neg he] at h
      obtain ⟨a, b, c⟩ := get_range_checked item min max (not_not.1 he)
      have hs2 := congrArg Prod.fst h
      simp only [] at hs2
      subst hs2
      exact ⟨_, a, by omega, set_range_bits_first _ _ _ _ (by omega) b (by omega) (by omega)
        (by omega)⟩
  · rw [if_neg hs] at h
    simp only [] at h
    by_cases h3 : (split_str item '/' 0).2 ≠ 2
    · rw [if_pos h3] at h; simp at h
    · rw [if_neg h3] at h
      by_cases he : (get_range (((split_str item '/' 0).1.getD []).getD 0 []) min max).2.2 ≠ none
      · rw [if_pos he] at h
        exact absurd (congrArg Prod.snd h) he
      · rw [if_neg he] at h
        obtain ⟨a, b, c⟩ := get_range_checked _ min max (not_not.1 he)
        by_cases h4 : (parse_uint (((split_str item '/' 0).1.getD []).getD 1 [])).2 ≠ 0
        · rw [if_pos h4] at h; simp at h
        · rw [if_neg h4] at h
          by_cases h5 : (parse_uint (((split_str item '/' 0).1.getD []).getD 1 [])).1 = 0
          · rw [if_pos h5] at h; simp at h
          · rw [if_neg h5] at h
            have hs2 := congrArg Prod.fst h
            simp only [] at hs2
            subst hs2
            refine ⟨_, a, by omega, set_step_bits_first _ _ _ _ _ (by omega) ?_ (by omega)
              (by omega) (by omega)⟩
            split <;> omega

/-- An accepted list of items sets the bit of the first value of its first item. -/
theorem loop_first_bit (min max : Int) (items : List (List Char)) (t s : List Nat)
    (e : Option String) (h0 : 0 ≤ min) (h1 : max ≤ 8 * t.length) (h2 : max ≤ 2048)
    (hne : items ≠ []) (h : set_number_hits_loop min max items t e = (s, none)) :
    ∃ w, min ≤ w ∧ w < max ∧ cron_get_bit s w ≠ 0 := by
  cases items with
  | nil => exact absurd rfl hne
  | cons item rest =>
    simp only [set_number_hits_loop] at h
    by_cases he : (set_number_hits_item item t min max).2 ≠ none
    · rw [if_pos he] at h
      exact absurd (congrArg Prod.snd h) he
    · rw [if_neg he] at h
      obtain ⟨w, a, b, c⟩ := item_first_bit item t (set_number_hits_item item t min max).1 min max
        h0 h1 h2 (Prod.ext rfl (not_not.1 he))
      refine ⟨w, a, b, ?_⟩
      have hs := congrArg Prod.fst h
      simp only [] at hs
      rw [← hs, loop_bits_or _ _ _ _ _ _ (by omega)]
      exact Or.inl c

theorem set_number_hits_first_bit (value : List Char) (t s : List Nat) (min max : Int)
    (e : Option String) (h0 : 0 ≤ min) (h1 : max ≤ 8 * t.length) (h2 : max ≤ 2048)
    (h : set_number_hits value t min max e = (s, none)) :
    ∃ w, min ≤ w ∧ w < max ∧ cron_get_bit s w ≠ 0 := by
  rw [set_number_hits_eq] at h
  split at h
  · simp at h
  · rename_i hc
    push_neg at hc
    exact loop_first_bit min max _ t s e h0 h1 h2 hc.2 h

/-- Rotation and Sunday folding keep a written value, at its stored index. -/
theorem field_store_keeps (k : Nat) (hk : k < 6) (S : List Nat) (w : Int)
    (hlen : (8 * S.length : Int) = field_capacity k) (a : field_min k ≤ w)
    (b : w ≤ field_last k) (c : cron_get_bit S w ≠ 0) :
    cron_get_bit (field_store k S) (stored_index k w) ≠ 0 := by
  have hcases : k = 0 ∨ k = 1 ∨ k = 2 ∨ k = 3 ∨ k = 4 ∨ k = 5 := by omega
  rcases hcases with rfl | rfl | rfl | rfl | rfl | rfl
  · exact c
  · exact c
  · exact c
  · exact c
  · have a' : (1 : Int) ≤ w := a
    have b' : w ≤ 12 := b
    have e : stored_index 4 w = w - 1 := by simp [stored_index]
    rw [e, field_store_get 4 (by omega) _ hlen _ (by omega)
      (by simp only [field_capacity]; omega)]
    refine ⟨w, by omega, by simp only [field_capacity]; omega, ?_, c⟩
    simp only [stored_from, if_true]
    omega
  · have a' : (0 : Int) ≤ w := a
    have b' : w ≤ 7 := b
    have e : stored_index 5 w = w % 7 := by simp [stored_index]
    rw [e, field_store_get 5 (by omega) _ hlen _ (by omega)
      (by simp only [field_capacity]; omega)]
    refine ⟨w, by omega, by simp only [field_capacity]; omega, ?_, c⟩
    simp only [stored_from]
    simp only [show ¬ (5 = 4) by omega, if_false, if_true]
    omega

/-- A successfully parsed field holds the stored index of a value of its range. -/
theorem parse_field_first_bit (k : Nat) (hk : k < 6) (text : List Char) (s : List Nat)
    (h : parse_field k text (field_set cron_expr_zero k) none = (s, none)) :
    ∃ w, field_min k ≤ w ∧ w ≤ field_last k ∧ cron_get_bit s (stored_index k w) ≠ 0 := by
  rw [parse_field_eq k hk] at h
  have hb := field_bounds k hk
  have hl := field_set_zero_length k hk
  have hlen : (8 * (set_number_hits (field_value k text) (field_set cron_expr_zero k)
      (field_min k) (field_last k + 1) none).1.length : Int) = field_capacity k := by
    rw [set_number_hits_eq]
    split
    · exact hl
    · rw [loop_length]; exact hl
  generalize hS : set_number_hits (field_value k text) (field_set cron_expr_zero k)
      (field_min k) (field_last k + 1) none = R at h hlen
  have h1 := congrArg Prod.fst h
  have h2 := congrArg Prod.snd h
  simp only [] at h1 h2
  obtain ⟨w, a, b, c⟩ := set_number_hits_first_bit (field_value k text)
    (field_set cron_expr_zero k) R.1 (field_min k) (field_last k + 1) none hb.1 (by omega)
    (by omega) (by rw [hS]; exact Prod.ext rfl h2)
  refine ⟨w, a, by omega, ?_⟩
  rw [← h1]
  exact field_store_keeps k hk R.1 w hlen a (by omega) c

/-! ## Runs of whitespace between the fields (C21) -/

theorem delimited_fields_nil (del : Char) : delimited_fields del [] = [] := by
  simp [delimited_fields, pieces_between]

theorem delimited_fields_blank_cons (c : Char) (y : List Char) (hc : isspace c = true) :
    delimited_fields ' ' (c :: y) = delimited_fields ' ' y := by
  by_cases h : c = ' '
  · subst h
    have e := delimited_fields_append ' ' [] y
    rw [delimited_fields_nil] at e
    simpa using e
  · obtain ⟨p, ps, hp⟩ := pieces_between_ne_nil ' ' y
    rw [delimited_fields_strip, delimited_fields_strip, pieces_between_cons_ne _ _ _ _ _ h hp, hp]
    simp [strip_space, hc]

theorem delimited_fields_blank_append (w x : List Char) (hw : blank w = true) :
    delimited_fields ' ' (w ++ x) = delimited_fields ' ' x := by
  induction w with
  | nil => rfl
  | cons c w ih =>
    simp only [blank, List.all_cons, Bool.and_eq_true] at hw
    rw [List.cons_append, delimited_fields_blank_cons _ _ hw.1]
    exact ih hw.2

theorem delimited_fields_blank (w : List Char) (hw : blank w = true) :
    delimited_fields ' ' w = [] := by
  have e := delimited_fields_blank_append w [] hw
  rw [List.append_nil, delimited_fields_nil] at e
  exact e

theorem strip_space_blank (w : List Char) (hw : blank w = true) : strip_space w = [] := by
  simp only [blank, List.all_eq_true] at hw
  simp only [strip_space, List.filter_eq_nil_iff]
  intro c hc
  simp [hw c hc]

theorem written_field_facts (f : List Char) (hf : written_field f = true) :
    f ≠ [] ∧ (∀ c ∈ f, isspace c = false) ∧ ∀ c ∈ f, c ≠ ' ' := by
  simp only [written_field, Bool.and_eq_true, Bool.not_eq_true', List.isEmpty_eq_false,
    List.all_eq_true] at hf
  refine ⟨hf.1, fun c hc => by simpa using hf.2 c hc, fun c hc h => ?_⟩
  have := hf.2 c hc
  subst h
  simp [isspace] at this

theorem delimited_fields_field_run (f u : List Char) (hf : written_field f = true)
    (hu : blank u = true) (hn : ' ' ∉ u) : delimited_fields ' ' (f ++ u) = [f] := by
  obtain ⟨a, b, c⟩ := written_field_facts f hf
  have e : strip_space (f ++ u) = f := by
    have : strip_space (f ++ u) = strip_space f ++ strip_space u := by
      simp [strip_space]
    rw [this, strip_space_blank u hu, strip_space_id f b, List.append_nil]
  rw [delimited_fields_single ' ' (f ++ u) ?_ (by rw [e]; exact a), e]
  intro x hx
  rcases List.mem_append.1 hx with h | h
  · exact c x h
  · exact fun hx2 => hn (hx2 ▸ h)

theorem blank_append (u v : List Char) : blank (u ++ v) = (blank u && blank v) := by
  simp [blank]

theorem blank_cons (c : Char) (v : List Char) : blank (c :: v) = (isspace c && blank v) := by
  simp [blank]

/-- A field followed by a run of whitespace, at the end of the text, is that field. -/
theorem delimited_fields_field_blank (f s : List Char) (hf : written_field f = true)
    (hs : blank s = true) : delimited_fields ' ' (f ++ s) = [f] := by
  by_cases h : ' ' ∈ s
  · obtain ⟨u, v, rfl, hu⟩ := List.eq_append_cons_of_mem h
    rw [blank_append, blank_cons] at hs
    simp only [Bool.and_eq_true] at hs
    have e : f ++ (u ++ ' ' :: v) = (f ++ u) ++ ' ' :: v := by simp
    rw [e, delimited_fields_append, delimited_fields_field_run f u hf hs.1 hu,
      delimited_fields_blank v hs.2.2]
    rfl
  · exact delimited_fields_field_run f s hf hs h

/-- The fields that `split_str` finds in a well spaced text are the written fields. -/
theorem delimited_fields_spaced (items : List (List Char × List Char)) (lead : List Char)
    (hl : blank lead = true) (hw : well_spaced items = true) :
    delimited_fields ' ' (spaced_text lead items) = items.map Prod.fst := by
  induction items generalizing lead with
  | nil => exact delimited_fields_blank lead hl
  | cons it rest ih =>
    obtain ⟨f, s⟩ := it
    simp only [well_spaced, Bool.and_eq_true, Bool.or_eq_true] at hw
    obtain ⟨⟨⟨hf, hs⟩, hsp⟩, hr⟩ := hw
    simp only [spaced_text, List.map_cons]
    rw [List.append_assoc, delimited_fields_blank_append _ _ hl]
    cases rest with
    | nil =>
      simp only [spaced_text, List.map_nil]
      exact delimited_fields_field_blank f s hf hs
    | cons it2 rest2 =>
      have hmem : ' ' ∈ s := by
        rcases hsp with h | h
        · simp at h
        · simpa using h
      obtain ⟨u, v, rfl, hu⟩ := List.eq_append_cons_of_mem hmem
      rw [blank_append, blank_cons] at hs
      simp only [Bool.and_eq_true] at hs
      have e : f ++ spaced_text (u ++ ' ' :: v) (it2 :: rest2)
          = (f ++ u) ++ ' ' :: spaced_text v (it2 :: rest2) := by
        obtain ⟨f2, s2⟩ := it2
        simp [spaced_text]
      rw [e, delimited_fields_append, delimited_fields_field_run f u hf hs.1 hu,
        ih v hs.2.2 hr]
      rfl

/-- C21 (the claim fails as stated): `0 0 12 * * MON-FRI` parses, but the same six fields
separated by tabs, or with a newline in the place of one of the spaces, are rejected: only the
space character separates fields, so the text has fewer than six of them. -/
theorem cron_parse_expr_tab_separated_rejected :
    (cron_parse_expr "0 0 12 * * MON-FRI".toList cron_expr_zero).2 = none
      ∧ (cron_parse_expr "0\t0\t12\t*\t*\tMON-FRI".toList cron_expr_zero).2 ≠ none
      ∧ (cron_parse_expr "0 0\n12 * * MON-FRI".toList cron_expr_zero).2 ≠ none
      ∧ whitespace_fields "0\t0\t12\t*\t*\tMON-FRI".toList
          = whitespace_fields "0 0 12 * * MON-FRI".toList
      ∧ whitespace_fields "0 0\n12 * * MON-FRI".toList
          = whitespace_fields "0 0 12 * * MON-FRI".toList := by
  decide!

/-- C21 (amended): two texts shorter than 256 characters that hold the same fields, each field
written without whitespace, parse to the same result when in both every run between two
consecutive fields is made of whitespace characters and holds at least one space; the leading
and the trailing run may be any whitespace, spaces or not, and may be empty. In particular single
spaces and longer runs that hold a space give the same result. -/
theorem cron_parse_expr_space_runs (lead1 lead2 : List Char)
    (items1 items2 : List (List Char × List Char)) (target : cron_expr)
    (hl1 : blank lead1 = true) (hl2 : blank lead2 = true) (hw1 : well_spaced items1 = true)
    (hw2 : well_spaced items2 = true) (hf : items1.map Prod.fst = items2.map Prod.fst)
    (hn1 : (spaced_text lead1 items1).length < CRON_MAX_STR_LEN_TO_SPLIT)
    (hn2 : (spaced_text lead2 items2).length < CRON_MAX_STR_LEN_TO_SPLIT) :
    cron_parse_expr (spaced_text lead1 items1) target
      = cron_parse_expr (spaced_text lead2 items2) target := by
  rw [cron_parse_expr_eq, cron_parse_expr_eq, delimited_fields_spaced items1 lead1 hl1 hw1,
    delimited_fields_spaced items2 lead2 hl2 hw2, hf]
  simp only [ge_iff_le, Nat.not_le.2 hn1, Nat.not_le.2 hn2]

/-- C21 (amended) at `0 0 12 * * MON-FRI` written with a leading tab, runs of spaces, tabs and
newlines that each hold a space, and a trailing newline. -/
theorem cron_parse_expr_space_runs_witness :
    spaced_text "\t".toList
        [("0".toList, " \t ".toList), ("0".toList, "  ".toList), ("12".toList, " \n".toList),
          ("*".toList, " ".toList), ("*".toList, " ".toList), ("MON-FRI".toList, "\n".toList)]
        = "\t0 \t 0  12 \n* * MON-FRI\n".toList
      ∧ spaced_text []
        [("0".toList, " ".toList), ("0".toList, " ".toList), ("12".toList, " ".toList),
          ("*".toList, " ".toList), ("*".toList, " ".toList), ("MON-FRI".toList, [])]
        = "0 0 12 * * MON-FRI".toList
      ∧ cron_parse_expr (spaced_text "\t".toList
          [("0".toList, " \t ".toList), ("0".toList, "  ".toList), ("12".toList, " \n".toList),
            ("*".toList, " ".toList), ("*".toList, " ".toList),
            ("MON-FRI".toList, "\n".toList)]) cron_expr_zero
        = cron_parse_expr (spaced_text []
          [("0".toList, " ".toList), ("0".toList, " ".toList), ("12".toList, " ".toList),
            ("*".toList, " ".toList), ("*".toList, " ".toList), ("MON-FRI".toList, [])])
          cron_expr_zero :=
  ⟨by decide, by decide,
    cron_parse_expr_space_runs "\t".toList []
      [("0".toList, " \t ".toList), ("0".toList, "  ".toList), ("12".toList, " \n".toList),
        ("*".toList, " ".toList), ("*".toList, " ".toList), ("MON-FRI".toList, "\n".toList)]
      [("0".toList, " ".toList), ("0".toList, " ".toList), ("12".toList, " ".toList),
        ("*".toList, " ".toList), ("*".toList, " ".toList), ("MON-FRI".toList, [])]
      cron_expr_zero (by decide) (by decide) (by decide) (by decide) (by decide) (by decide)
      (by decide)⟩

/-! ## Roll-over of the bit search in a set that has a member -/

theorem next_set_bit_rolls (bits : List Nat) (max : Int)
    (h : ∃ j, 0 ≤ j ∧ j < max ∧ cron_get_bit bits j ≠ 0) :
    (next_set_bit bits max 0 0).2 = 0 := by
  obtain ⟨v, e, _⟩ := next_set_bit_found bits max 0 0 h
  rw [e]

theorem prev_set_bit_rolls (bits : List Nat) (max value : Int)
    (h : ∃ j, 0 ≤ j ∧ j < max ∧ cron_get_bit bits j ≠ 0)
    (hn : (prev_set_bit bits value 0 0).2 ≠ 0) :
    (prev_set_bit bits (max - 1) value 0).2 = 0 := by
  obtain ⟨j, j0, j1, j2⟩ := h
  rcases prev_set_bit_cases bits value 0 with ⟨v, e, _⟩ | ⟨e, hall⟩
  · rw [e] at hn; exact absurd rfl hn
  · have hj : value < j := by
      by_contra hc
      exact j2 (hall j j0 (by omega))
    obtain ⟨v, e2, _⟩ := prev_set_bit_found bits (max - 1) value 0 ⟨j, by omega, by omega, j2⟩
    rw [e2]

/-- C27: after a successful `cron_parse_expr` each of the six field sets has a member in the range
of its field (seconds and minutes 0-59, hours 0-23, day of month 1-31, month 0-11 as stored, day
of week 0-6 as stored): the first value of the first item of the field is set, and the rotation
of the months and the folding of Sunday keep it. Hence the search from 0 that `find_next` makes
after a roll-over, and the search from `max - 1` down that `find_prev` makes after a roll-under,
find a set bit in the sets they are used on (seconds, minutes, hours, months). -/
theorem cron_parse_expr_sets_nonempty (expression : List Char) (target e : cron_expr)
    (h : cron_parse_expr expression target = (e, none)) :
    ((∃ j, 0 ≤ j ∧ j < CRON_MAX_SECONDS ∧ cron_get_bit e.seconds j ≠ 0)
        ∧ (∃ j, 0 ≤ j ∧ j < CRON_MAX_MINUTES ∧ cron_get_bit e.minutes j ≠ 0)
        ∧ (∃ j, 0 ≤ j ∧ j < CRON_MAX_HOURS ∧ cron_get_bit e.hours j ≠ 0)
        ∧ (∃ j, 1 ≤ j ∧ j < CRON_MAX_DAYS_OF_MONTH ∧ cron_get_bit e.days_of_month j ≠ 0)
        ∧ (∃ j, 0 ≤ j ∧ j < CRON_MAX_MONTHS ∧ cron_get_bit e.months j ≠ 0)
        ∧ (∃ j, 0 ≤ j ∧ j < 7 ∧ cron_get_bit e.days_of_week j ≠ 0))
      ∧ ((next_set_bit e.seconds CRON_MAX_SECONDS 0 0).2 = 0
        ∧ (next_set_bit e.minutes CRON_MAX_MINUTES 0 0).2 = 0
        ∧ (next_set_bit e.hours CRON_MAX_HOURS 0 0).2 = 0
        ∧ (next_set_bit e.months CRON_MAX_MONTHS 0 0).2 = 0)
      ∧ ∀ value : Int,
        ((prev_set_bit e.seconds value 0 0).2 ≠ 0 →
            (prev_set_bit e.seconds (CRON_MAX_SECONDS - 1) value 0).2 = 0)
          ∧ ((prev_set_bit e.minutes value 0 0).2 ≠ 0 →
            (prev_set_bit e.minutes (CRON_MAX_MINUTES - 1) value 0).2 = 0)
          ∧ ((prev_set_bit e.hours value 0 0).2 ≠ 0 →
            (prev_set_bit e.hours (CRON_MAX_HOURS - 1) value 0).2 = 0)
          ∧ ((prev_set_bit e.months value 0 0).2 ≠ 0 →
            (prev_set_bit e.months (CRON_MAX_MONTHS - 1) value 0).2 = 0) := by
  have key : ∀ k, k < 6 → ∃ w, field_min k ≤ w ∧ w ≤ field_last k
      ∧ cron_get_bit (field_set e k) (stored_index k w) ≠ 0 := fun k hk =>
    parse_field_first_bit k hk _ _ (cron_parse_expr_runs_field expression target e h k hk)
  have s0 : ∃ j, 0 ≤ j ∧ j < CRON_MAX_SECONDS ∧ cron_get_bit e.seconds j ≠ 0 := by
    obtain ⟨w, a, b, c⟩ := key 0 (by omega)
    exact ⟨w, a, by simp only [field_last] at b; simp only [CRON_MAX_SECONDS]; omega, c⟩
  have s1 : ∃ j, 0 ≤ j ∧ j < CRON_MAX_MINUTES ∧ cron_get_bit e.minutes j ≠ 0 := by
    obtain ⟨w, a, b, c⟩ := key 1 (by omega)
    exact ⟨w, a, by simp only [field_last] at b; simp only [CRON_MAX_MINUTES]; omega, c⟩
  have s2 : ∃ j, 0 ≤ j ∧ j < CRON_MAX_HOURS ∧ cron_get_bit e.hours j ≠ 0 := by
    obtain ⟨w, a, b, c⟩ := key 2 (by omega)
    exact ⟨w, a, by simp only [field_last] at b; simp only [CRON_MAX_HOURS]; omega, c⟩
  have s3 : ∃ j, 1 ≤ j ∧ j < CRON_MAX_DAYS_OF_MONTH ∧ cron_get_bit e.days_of_month j ≠ 0 := by
    obtain ⟨w, a, b, c⟩ := key 3 (by omega)
    exact ⟨w, a, by simp only [field_last] at b; simp only [CRON_MAX_DAYS_OF_MONTH]; omega, c⟩
  have s4 : ∃ j, 0 ≤ j ∧ j < CRON_MAX_MONTHS ∧ cron_get_bit e.months j ≠ 0 := by
    obtain ⟨w, a, b, c⟩ := key 4 (by omega)
    simp only [field_min, field_last] at a b
    refine ⟨w - 1, by omega, by simp only [CRON_MAX_MONTHS]; omega, ?_⟩
    simpa [stored_index, field_set] using c
  have s5 : ∃ j, 0 ≤ j ∧ j < 7 ∧ cron_get_bit e.days_of_week j ≠ 0 := by
    obtain ⟨w, a, b, c⟩ := key 5 (by omega)
    simp only [field_min, field_last] at a b
    refine ⟨w % 7, by omega, by omega, ?_⟩
    simpa [stored_index, field_set] using c
  have m4 : ∃ j, 0 ≤ j ∧ j < CRON_MAX_MONTHS ∧ cron_get_bit e.months j ≠ 0 := s4
  refine ⟨⟨s0, s1, s2, s3, s4, s5⟩,
    ⟨next_set_bit_rolls _ _ s0, next_set_bit_rolls _ _ s1, next_set_bit_rolls _ _ s2,
      next_set_bit_rolls _ _ s4⟩,
    fun value => ⟨prev_set_bit_rolls _ _ value s0, prev_set_bit_rolls _ _ value s1,
      prev_set_bit_rolls _ _ value s2, prev_set_bit_rolls _ _ value s4⟩⟩

/-- C27 at `0 0 12 * * MON-FRI`: the sets of the parsed expression have the members 0, 0, 12, a day
of month, a month and a day of week. -/
theorem cron_parse_expr_sets_nonempty_witness :
    cron_parse_expr "0 0 12 * * MON-FRI".toList cron_expr_zero = (weekday_noon, none)
      ∧ (∃ j, 0 ≤ j ∧ j < CRON_MAX_HOURS ∧ cron_get_bit weekday_noon.hours j ≠ 0)
      ∧ (∃ j, 0 ≤ j ∧ j < 7 ∧ cron_get_bit weekday_noon.days_of_week j ≠ 0)
      ∧ (next_set_bit weekday_noon.hours CRON_MAX_HOURS 0 0).2 = 0 :=
  ⟨parse_weekday_noon cron_expr_zero,
    (cron_parse_expr_sets_nonempty "0 0 12 * * MON-FRI".toList cron_expr_zero weekday_noon
      (parse_weekday_noon cron_expr_zero)).1.2.2.1,
    (cron_parse_expr_sets_nonempty "0 0 12 * * MON-FRI".toList cron_expr_zero weekday_noon
      (parse_weekday_noon cron_expr_zero)).1.2.2.2.2.2,
    (cron_parse_expr_sets_nonempty "0 0 12 * * MON-FRI".toList cron_expr_zero weekday_noon
      (parse_weekday_noon cron_expr_zero)).2.1.2.2.1⟩

/-! ## Bytes of a field set -/

theorem small_set (t : List Nat) (j v : Nat) (h : ∀ x ∈ t, x < 256) (hv : v < 256) :
    ∀ x ∈ t.set j v, x < 256 := by
  intro x hx
  rcases List.mem_or_eq_of_mem_set hx with h1 | h1
  · exact h x h1
  · rw [h1]; exact hv

theorem small_getD (t : List Nat) (j : Nat) (h : ∀ x ∈ t, x < 256) : t.getD j 0 < 256 := by
  by_cases hj : j < t.length
  · rw [List.getD_eq_getElem _ _ hj]
    exact h _ (List.getElem_mem hj)
  · rw [List.getD_eq_default _ _ (by omega)]
    omega

theorem cron_set_bit_small (t : List Nat) (idx : Int) (h : ∀ x ∈ t, x < 256) :
    ∀ x ∈ cron_set_bit t idx, x < 256 :=
  small_set t _ _ h (Nat.mod_lt _ (by omega))

theorem cron_del_bit_small (t : List Nat) (idx : Int) (h : ∀ x ∈ t, x < 256) :
    ∀ x ∈ cron_del_bit t idx, x < 256 :=
  small_set t _ _ h (lt_of_le_of_lt Nat.and_le_left (small_getD t _ h))

theorem set_range_bits_small (hi : Int) (n : Nat) (i1 : Int) (t : List Nat)
    (h : ∀ x ∈ t, x < 256) : ∀ x ∈ set_range_bits hi n i1 t, x < 256 := by
  induction n generalizing i1 t with
  | zero => exact h
  | succ n ih =>
    simp only [set_range_bits]
    split
    · exact ih _ _ (cron_set_bit_small t i1 h)
    · exact h

theorem set_step_bits_small (hi delta : Int) (n : Nat) (i1 : Int) (t : List Nat)
    (h : ∀ x ∈ t, x < 256) : ∀ x ∈ set_step_bits hi delta n i1 t, x < 256 := by
  induction n generalizing i1 t with
  | zero => exact h
  | succ n ih =>
    simp only [set_step_bits]
    split
    · exact ih _ _ (cron_set_bit_small t i1 h)
    · exact h

theorem item_small (item : List Char) (t : List Nat) (min max : Int) (h : ∀ x ∈ t, x < 256) :
    ∀ x ∈ (set_number_hits_item item t min max).1, x < 256 := by
  unfold set_number_hits_item
  simp only []
  split
  · split
    · exact h
    · exact set_range_bits_small _ _ _ _ h
  · split
    · exact h
    · split
      · exact h
      · split
        · exact h
        · split
          · exact h
          · exact set_step_bits_small _ _ _ _ _ h

theorem loop_small (min max : Int) (items : List (List Char)) (t : List Nat)
    (e : Option String) (h : ∀ x ∈ t, x < 256) :
    ∀ x ∈ (set_number_hits_loop min max items t e).1, x < 256 := by
  induction items generalizing t e with
  | nil => exact h
  | cons item rest ih =>
    simp only [set_number_hits_loop]
    split
    · exact item_small item t min max h
    · exact ih _ _ (item_small item t min max h)

theorem set_number_hits_small (value : List Char) (t : List Nat) (min max : Int)
    (e : Option String) (h : ∀ x ∈ t, x < 256) :
    ∀ x ∈ (set_number_hits value t min max e).1, x < 256 := by
  rw [set_number_hits_eq]
  split
  · exact h
  · exact loop_small _ _ _ _ _ h

theorem set_number_hits_length (value : List Char) (t : List Nat) (min max : Int)
    (e : Option String) : (set_number_hits value t min max e).1.length = t.length := by
  rw [set_number_hits_eq]
  split
  · rfl
  · exact loop_length _ _ _ _ _

theorem rotate_months_small (n : Nat) (i : Int) (t : List Nat) (h : ∀ x ∈ t, x < 256) :
    ∀ x ∈ rotate_months n i t, x < 256 := by
  induction n generalizing i t with
  | zero => exact h
  | succ n ih =>
    simp only [rotate_months]
    split
    · exact ih _ _ (cron_del_bit_small _ _ (cron_set_bit_small _ _ h))
    · exact ih _ _ h

theorem shift_into_fresh_small (n : Nat) (i : Int) (w f : List Nat) (h : ∀ x ∈ f, x < 256) :
    ∀ x ∈ shift_into_fresh n i w f, x < 256 := by
  induction n generalizing i f with
  | zero => exact h
  | succ n ih =>
    simp only [shift_into_fresh]
    split
    · exact ih _ _ (cron_set_bit_small _ _ h)
    · exact ih _ _ h

theorem shift_into_fresh_length (n : Nat) (i : Int) (w f : List Nat) :
    (shift_into_fresh n i w f).length = f.length := by
  induction n generalizing i f with
  | zero => rfl
  | succ n ih =>
    simp only [shift_into_fresh]
    split
    · rw [ih, cron_set_bit_length]
    · rw [ih]

/-- Two sets of bytes with the same bits are the same list. -/
theorem bits_ext (a b : List Nat) (hl : a.length = b.length) (hn : a.length ≤ 256)
    (ha : ∀ x ∈ a, x < 256) (hb : ∀ x ∈ b, x < 256)
    (h : ∀ j : Int, 0 ≤ j → j < 8 * a.length →
      (cron_get_bit a j ≠ 0 ↔ cron_get_bit b j ≠ 0)) : a = b := by
  apply List.ext_getElem hl
  intro i h1 h2
  apply Nat.eq_of_testBit_eq
  intro k
  by_cases hk : k < 8
  · have key := h (8 * i + k) (by omega) (by omega)
    rw [cron_get_bit_iff, cron_get_bit_iff, bit_byte_eq _ (by omega) (by omega),
      bit_pos_eq _ (by omega)] at key
    have e1 : ((8 * (i : Int) + k) / 8).toNat = i := by omega
    have e2 : ((8 * (i : Int) + k) % 8).toNat = k := by omega
    rw [e1, e2, List.getD_eq_getElem _ _ h1, List.getD_eq_getElem _ _ h2] at key
    exact Bool.eq_iff_iff.2 key
  · have p : 256 ≤ 2 ^ k := by
      calc 256 = 2 ^ 8 := by norm_num
        _ ≤ 2 ^ k := Nat.pow_le_pow_right (by omega) (by omega)
    rw [Nat.testBit_lt_two_pow (lt_of_lt_of_le (ha _ (List.getElem_mem h1)) p),
      Nat.testBit_lt_two_pow (lt_of_lt_of_le (hb _ (List.getElem_mem h2)) p)]

/-! ## The rotation of the months (C23) -/

theorem shift_into_fresh_get (n : Nat) (i : Int) (w f : List Nat) (j : Int) (hi : 1 ≤ i)
    (hi2 : i + n ≤ 8 * f.length + 1) (hi3 : i + n ≤ 2048) (hj : 0 ≤ j) (hj2 : j < 2048) :
    cron_get_bit (shift_into_fresh n i w f) j ≠ 0
      ↔ (cron_get_bit f j ≠ 0 ∨ (i - 1 ≤ j ∧ j + 1 < i + n ∧ cron_get_bit w (j + 1) ≠ 0)) := by
  induction n generalizing i f with
  | zero =>
    simp only [shift_into_fresh]
    constructor
    · exact Or.inl
    · rintro (h | ⟨a, b, _⟩)
      · exact h
      · simp at b; omega
  | succ n ih =>
    simp only [shift_into_fresh]
    have hlen : (if cron_get_bit w i ≠ 0 then cron_set_bit f (i - 1) else f).length = f.length := by
      split
      · exact cron_set_bit_length _ _
      · rfl
    rw [ih (i + 1) _ (by omega) (by rw [hlen]; push_cast at hi2 ⊢; omega)
      (by push_cast at hi3 ⊢; omega)]
    have step : cron_get_bit (if cron_get_bit w i ≠ 0 then cron_set_bit f (i - 1) else f) j ≠ 0
        ↔ (cron_get_bit f j ≠ 0 ∨ (j = i - 1 ∧ cron_get_bit w i ≠ 0)) := by
      by_cases hb : cron_get_bit w i ≠ 0
      · rw [if_pos hb, cron_get_set_bit f (i - 1) j (by omega) (by push_cast at hi2; omega)
          (by omega) hj hj2]
        constructor
        · rintro (h | h)
          · exact Or.inr ⟨h.symm, hb⟩
          · exact Or.inl h
        · rintro (h | ⟨h, _⟩)
          · exact Or.inr h
          · exact Or.inl h.symm
      · rw [if_neg hb]
        constructor
        · exact Or.inl
        · rintro (h | ⟨_, h⟩)
          · exact h
          · exact absurd h hb
    rw [step]
    push_cast
    constructor
    · rintro ((h | ⟨h1, h2⟩) | ⟨a, b, c⟩)
      · exact Or.inl h
      · refine Or.inr ⟨by omega, by omega, ?_⟩
        rw [h1]; simpa using h2
      · exact Or.inr ⟨by omega, by omega, c⟩
    · rintro (h | ⟨a, b, c⟩)
      · exact Or.inl (Or.inl h)
      · by_cases hji : j = i - 1
        · refine Or.inl (Or.inr ⟨hji, ?_⟩)
          rw [hji] at c; simpa using c
        · exact Or.inr ⟨by omega, by omega, c⟩

theorem months_shifted_fresh_eq (written : List Nat) :
    months_shifted_fresh written
      = shift_into_fresh 12 1 written (List.replicate written.length 0) := rfl

/-- The in-place loop of `set_months` and the shift into a fresh target give the same list when
the written set holds only months 1 to 12. -/
theorem rotate_months_fresh (written : List Nat) (hlen : written.length = 2)
    (hs : ∀ x ∈ written, x < 256)
    (hM : ∀ j : Int, 0 ≤ j → j < 16 → cron_get_bit written j ≠ 0 → 1 ≤ j ∧ j ≤ 12) :
    rotate_months 12 1 written = months_shifted_fresh written
      ∧ ∀ j : Int, 0 ≤ j → j < 16 →
        (cron_get_bit (rotate_months 12 1 written) j ≠ 0
          ↔ ∃ m : Int, 1 ≤ m ∧ m ≤ 12 ∧ cron_get_bit written m ≠ 0 ∧ j = m - 1) := by
  have bits : ∀ j : Int, 0 ≤ j → j < 16 →
      (cron_get_bit (rotate_months 12 1 written) j ≠ 0
        ↔ (j ≤ 11 ∧ cron_get_bit written (j + 1) ≠ 0)) := by
    intro j j0 j1
    rw [rotate_months_get 12 1 written j (by omega) (by rw [hlen]; norm_num) (by norm_num) j0
      (by omega)]
    constructor
    · rintro (⟨a, _⟩ | ⟨a, b | ⟨_, b⟩⟩ | ⟨a, b, c⟩ | ⟨a, b⟩)
      · omega
      · have := hM j j0 j1 b; omega
      · have e : j + 1 = 1 := by omega
        rw [e]; exact ⟨by omega, b⟩
      · exact ⟨by push_cast at b; omega, c⟩
      · have := hM j j0 j1 b; push_cast at a; omega
    · rintro ⟨a, b⟩
      by_cases hj : j = 0
      · subst hj
        exact Or.inr (Or.inl ⟨by omega, Or.inr ⟨by omega, by simpa using b⟩⟩)
      · exact Or.inr (Or.inr (Or.inl ⟨by omega, by push_cast; omega, b⟩))
  refine ⟨?_, fun j j0 j1 => ?_⟩
  · apply bits_ext _ _ ?_ ?_ (rotate_months_small _ _ _ hs)
      (shift_into_fresh_small _ _ _ _ ?_) ?_
    · rw [rotate_months_length, shift_into_fresh_length,
        List.length_replicate]
    · rw [rotate_months_length, hlen]; omega
    · intro x hx
      rw [List.mem_replicate] at hx
      omega
    · intro j j0 j1
      rw [rotate_months_length, hlen] at j1
      rw [bits j j0 (by omega),
        shift_into_fresh_get 12 1 written _ j (by omega)
          (by rw [List.length_replicate, hlen]; norm_num) (by norm_num) j0 (by omega)]
      constructor
      · rintro ⟨a, b⟩
        exact Or.inr ⟨by omega, by push_cast; omega, b⟩
      · rintro (h | ⟨a, b, c⟩)
        · exact absurd (cron_get_bit_zero _ _) h
        · exact ⟨by push_cast at b; omega, c⟩
  · rw [bits j j0 j1]
    constructor
    · rintro ⟨a, b⟩
      exact ⟨j + 1, by omega, by omega, b, by omega⟩
    · rintro ⟨m, a, b, c, d⟩
      have e : j + 1 = m := by omega
      rw [e]
      exact ⟨by omega, c⟩

/-- C23: for every expression that parses successfully, `written` being the set that
`set_number_hits` fills from the month field (names replaced by numbers), the stored month set
is the result of the in-place loop of `set_months` on `written`; when `written` holds only months
1 to 12, that result is the same list as the one obtained by shifting every bit from index `i`
to `i - 1` into a fresh, initially empty target, and its members are exactly the `m - 1` for the
written months `m`: no bit is shifted twice and none is lost. -/
theorem cron_parse_expr_month_rotation (expression : List Char) (target e : cron_expr)
    (written : List Nat) (h : cron_parse_expr expression target = (e, none))
    (hw : written = (set_number_hits
      (replace_ordinals (to_upper (field_text expression 4)) MONTHS_ARR) cron_expr_zero.months 1
      (12 + 1) none).1)
    (hM : ∀ j : Int, 0 ≤ j → j < 16 → cron_get_bit written j ≠ 0 → 1 ≤ j ∧ j ≤ 12) :
    e.months = rotate_months 12 1 written
      ∧ rotate_months 12 1 written = months_shifted_fresh written
      ∧ ∀ j : Int, 0 ≤ j → j < 16 →
        (cron_get_bit e.months j ≠ 0
          ↔ ∃ m : Int, 1 ≤ m ∧ m ≤ 12 ∧ cron_get_bit written m ≠ 0 ∧ j = m - 1) := by
  have h4 := cron_parse_expr_runs_field expression target e h 4 (by omega)
  have e1 : e.months = rotate_months 12 1 written := by
    have h5 := congrArg Prod.fst h4
    simp only [parse_field, set_months, field_set] at h5
    rw [hw]
    exact h5.symm
  have hlen : written.length = 2 := by
    rw [hw, set_number_hits_length]
    rfl
  have hs : ∀ x ∈ written, x < 256 := by
    rw [hw]
    apply set_number_hits_small
    intro x hx
    simp only [cron_expr_zero, List.mem_replicate] at hx
    omega
  obtain ⟨a, b⟩ := rotate_months_fresh written hlen hs hM
  exact ⟨e1, a, fun j j0 j1 => by rw [e1]; exact b j j0 j1⟩

/-- C23 at `0 0 0 1 1,MAR,12 *`: the written set holds 1, 3 and 12 (bytes 10 and 16), and the
stored month set is its rotation, which is also its shift into a fresh target. -/
theorem cron_parse_expr_month_rotation_witness :
    (set_number_hits
        (replace_ordinals (to_upper (field_text "0 0 0 1 1,MAR,12 *".toList 4)) MONTHS_ARR)
        cron_expr_zero.months 1 (12 + 1) none).1 = [10, 16]
      ∧ (cron_parse_expr "0 0 0 1 1,MAR,12 *".toList cron_expr_zero).1.months
        = rotate_months 12 1 [10, 16]
      ∧ rotate_months 12 1 [10, 16] = months_shifted_fresh [10, 16]
      ∧ months_shifted_fresh [10, 16] = [5, 8] :=
  ⟨by decide!,
    (cron_parse_expr_month_rotation "0 0 0 1 1,MAR,12 *".toList cron_expr_zero
      (cron_parse_expr "0 0 0 1 1,MAR,12 *".toList cron_expr_zero).1 [10, 16] (by decide!)
      (by decide!)
      (by intro j j0 j1 hj; interval_cases j <;> revert hj <;> decide)).1,
    (cron_parse_expr_month_rotation "0 0 0 1 1,MAR,12 *".toList cron_expr_zero
      (cron_parse_expr "0 0 0 1 1,MAR,12 *".toList cron_expr_zero).1 [10, 16] (by decide!)
      (by decide!)
      (by intro j j0 j1 hj; interval_cases j <;> revert hj <;> decide)).2.1,
    by decide!⟩

/-! ## Lengths of the months -/

/-- Every month but February has at least 30 days. -/
theorem month_length_long (n : Int) (h : n % 12 ≠ 1) :
    30 ≤ monthStart (n + 1) - monthStart n := by
  obtain ⟨Y, mp, h0, h1, rfl⟩ : ∃ Y mp : Int, 0 ≤ mp ∧ mp ≤ 11 ∧ n = 12 * Y + mp + 2 :=
    ⟨(n - 2) / 12, (n - 2) % 12, by omega, by omega, by omega⟩
  have hlt : mp < 11 := by omega
  have e : 12 * Y + mp + 2 + 1 = 12 * Y + (mp + 1) + 2 := by ring
  rw [e, monthStart_eq Y (mp + 1) (by omega) (by omega), monthStart_eq Y mp h0 h1]
  omega

/-- February of year `Y` has 29 days in a leap year and 28 days otherwise. -/
theorem february_length (Y : Int) :
    monthStart (12 * Y + 2) - monthStart (12 * Y + 1)
      = if Y % 4 = 0 ∧ (Y % 100 ≠ 0 ∨ Y % 400 = 0) then 29 else 28 := by
  have e1 : 12 * Y + 2 = 12 * Y + 0 + 2 := by ring
  have e2 : 12 * Y + 1 = 12 * (Y - 1) + 11 + 2 := by ring
  rw [e1, monthStart_eq Y 0 (by omega) (by omega), e2,
    monthStart_eq (Y - 1) 11 (by omega) (by omega)]
  split <;> omega

/-! ## The expression `0 0 0 29 2 *`: the sets -/

theorem leap_day_second_keep : next_set_bit leap_day.seconds CRON_MAX_SECONDS 0 0 = (0, 0) := by
  decide

theorem leap_day_low_bits (i : Int) (h0 : 1 ≤ i) (h1 : i ≤ 59) :
    cron_get_bit [1, 0, 0, 0, 0, 0, 0, 0] i = 0 := by
  interval_cases i <;> decide

theorem leap_day_second_roll (s : Int) (h0 : 1 ≤ s) (_h1 : s ≤ 59) :
    next_set_bit leap_day.seconds CRON_MAX_SECONDS s 0 = (0, 1) :=
  next_set_bit_missing _ _ _ _ (fun ⟨i, a, b, c⟩ =>
    c (leap_day_low_bits i (by omega) (by simp only [CRON_MAX_SECONDS] at b; omega)))

theorem leap_day_minute_keep : next_set_bit leap_day.minutes CRON_MAX_MINUTES 0 0 = (0, 0) := by
  decide

theorem leap_day_minute_roll (s : Int) (h0 : 1 ≤ s) (_h1 : s ≤ 59) :
    next_set_bit leap_day.minutes CRON_MAX_MINUTES s 0 = (0, 1) :=
  next_set_bit_missing _ _ _ _ (fun ⟨i, a, b, c⟩ =>
    c (leap_day_low_bits i (by omega) (by simp only [CRON_MAX_MINUTES] at b; omega)))

theorem leap_day_hour_keep : next_set_bit leap_day.hours CRON_MAX_HOURS 0 0 = (0, 0) := by
  decide

theorem leap_day_high_hours (i : Int) (h0 : 1 ≤ i) (h1 : i ≤ 23) :
    cron_get_bit [1, 0, 0] i = 0 := by
  interval_cases i <;> decide

theorem leap_day_hour_roll (s : Int) (h0 : 1 ≤ s) (_h1 : s ≤ 23) :
    next_set_bit leap_day.hours CRON_MAX_HOURS s 0 = (0, 1) :=
  next_set_bit_missing _ _ _ _ (fun ⟨i, a, b, c⟩ =>
    c (leap_day_high_hours i (by omega) (by simp only [CRON_MAX_HOURS] at b; omega)))

theorem leap_day_month_keep : next_set_bit leap_day.months CRON_MAX_MONTHS 1 0 = (1, 0) := by
  decide

theorem leap_day_month_january :
    next_set_bit leap_day.months CRON_MAX_MONTHS 0 0 = (1, 0) := by
  decide

theorem leap_day_month_roll (s : Int) (h0 : 2 ≤ s) (h1 : s ≤ 11) :
    next_set_bit leap_day.months CRON_MAX_MONTHS s 0 = (0, 1) := by
  interval_cases s <;> decide

theorem leap_day_weekday (t : Int) :
    cron_get_bit leap_day.days_of_week (gmtime t).tm_wday = 1 := by
  rw [gmtime_wday]
  have h0 : 0 ≤ (t / 86400 + 4) % 7 := by omega
  have h1 : (t / 86400 + 4) % 7 ≤ 6 := by omega
  generalize (t / 86400 + 4) % 7 = w at h0 h1
  interval_cases w <;> decide

theorem leap_day_day (d : Int) (h0 : 1 ≤ d) (h1 : d ≤ 31) :
    cron_get_bit leap_day.days_of_month d = if d = 29 then 1 else 0 := by
  interval_cases d <;> decide

/-! ## The expression `0 0 0 29 2 *`: a calendar that matches is kept -/

theorem leap_midnight_iff (u : Int) :
    leap_midnight u
      ↔ (u % 86400 = 0 ∧ u / 86400 = monthStart (monthIndex (u / 86400)) + 28
        ∧ monthIndex (u / 86400) % 12 = 1) := by
  simp only [leap_midnight, cron_time, gmtime_sec, gmtime_min, gmtime_hour, gmtime_mday,
    gmtime_mon]
  constructor
  · rintro ⟨a, b, c, d, e⟩
    exact ⟨by omega, by omega, e⟩
  · rintro ⟨a, b, c⟩
    exact ⟨by omega, by omega, by omega, by omega, c⟩

theorem leap_day_month_tail (restart : tm → Option (Int × tm)) (u dot : Int)
    (resets : List Int) (h : leap_midnight u) :
    do_next_month restart leap_day (gmtime u) dot resets = some (0, gmtime u) := by
  have hm : (gmtime u).tm_mon = 1 := h.2.2.2.2
  simp [do_next_month, hm, find_next_keep _ _ _ _ _ _ _ _ leap_day_month_keep]

theorem leap_day_day_tail (restart : tm → Option (Int × tm)) (u dot : Int)
    (resets : List Int) (h : leap_midnight u) :
    do_next_day restart leap_day (gmtime u) dot resets = some (0, gmtime u) := by
  have hd : (gmtime u).tm_mday = 29 := h.2.2.2.1
  have hb : cron_get_bit leap_day.days_of_month 29 = 1 := by decide
  simp [do_next_day, find_next_day, find_next_day_loop, hd, hb, leap_day_weekday,
    leap_day_month_tail _ _ _ _ h]

theorem leap_day_hour_tail (restart : tm → Option (Int × tm)) (u dot : Int)
    (resets : List Int) (h : leap_midnight u) :
    do_next_hour restart leap_day (gmtime u) dot resets = some (0, gmtime u) := by
  have hh : (gmtime u).tm_hour = 0 := h.2.2.1
  simp [do_next_hour, hh, find_next_keep _ _ _ _ _ _ _ _ leap_day_hour_keep,
    leap_day_day_tail _ _ _ _ h]

theorem leap_day_minute_tail (restart : tm → Option (Int × tm)) (u dot : Int)
    (resets : List Int) (h : leap_midnight u) :
    do_next_minute restart leap_day (gmtime u) dot resets = some (0, gmtime u) := by
  have hh : (gmtime u).tm_min = 0 := h.2.1
  simp [do_next_minute, hh, find_next_keep _ _ _ _ _ _ _ _ leap_day_minute_keep,
    leap_day_hour_tail _ _ _ _ h]

theorem leap_day_body_tail (restart : tm → Option (Int × tm)) (u dot : Int)
    (h : leap_midnight u) :
    do_next_body restart leap_day (gmtime u) dot = some (0, gmtime u) := by
  have hh : (gmtime u).tm_sec = 0 := h.1
  simp [do_next_body, hh, find_next_keep _ _ _ _ _ _ _ _ leap_day_second_keep,
    leap_day_minute_tail _ _ _ _ h]

/-! ## Resets on a calendar that is already at the minimum -/

theorem reset_all_min_id (t : Int) (h0 : 0 ≤ t) (R : List Int)
    (hR : ∀ f ∈ R, f = -1 ∨ (f = 0 ∧ t % 60 = 0) ∨ (f = 1 ∧ t % 3600 = 0)
      ∨ (f = 2 ∧ t % 86400 = 0)) :
    reset_all_min (gmtime t) R = (0, gmtime t) := by
  induction R with
  | nil => rfl
  | cons f rest ih =>
    have ih2 := ih (fun g hg => hR g (List.mem_cons_of_mem _ hg))
    have e3 : instant_status t = (0, gmtime t) := instant_status_ok (by omega)
    rcases hR f (List.mem_cons_self _ _) with h | ⟨h, a⟩ | ⟨h, a⟩ | ⟨h, a⟩
    · subst h
      simp [reset_all_min, ih2]
    · subst h
      have r : reset_min (gmtime t) 0 = (0, gmtime t) := by
        have := reset_min_second t
        rw [show t - t % 60 = t by omega, e3] at this
        exact this
      simp [reset_all_min, r, ih2]
    · subst h
      have r : reset_min (gmtime t) 1 = (0, gmtime t) := by
        have := reset_min_minute t
        rw [show t - t % 3600 / 60 * 60 = t by omega, e3] at this
        exact this
      simp [reset_all_min, r, ih2]
    · subst h
      have r : reset_min (gmtime t) 2 = (0, gmtime t) := by
        have := reset_min_hour t
        rw [show t - t % 86400 / 3600 * 3600 = t by omega, e3] at this
        exact this
      simp [reset_all_min, r, ih2]

/-! ## The expression `0 0 0 29 2 *`: second, minute and hour -/

theorem leap_day_second_kept (restart : tm → Option (Int × tm)) (t dot : Int)
    (hs : t % 60 = 0) :
    do_next_body restart leap_day (gmtime t) dot
      = do_next_minute restart leap_day (gmtime t) dot [0, -1, -1, -1, -1, -1, -1] := by
  simp [do_next_body, gmtime_sec, hs, find_next_keep _ _ _ _ _ _ _ _ leap_day_second_keep,
    resets_none, resets_s]

theorem leap_day_second_rolled (restart : tm → Option (Int × tm)) (t dot : Int) (h0 : 0 ≤ t)
    (hs : t % 60 ≠ 0) :
    do_next_body restart leap_day (gmtime t) dot
      = do_next_minute restart leap_day (gmtime (t - t % 60 + 60)) dot
          [-1, -1, -1, -1, -1, -1, -1] := by
  have ks := leap_day_second_roll (t % 60) (by omega) (by omega)
  have a1 : add_to_field (gmtime t) CRON_CF_MINUTE 1 = (0, gmtime (t + 60)) := by
    rw [add_to_field_minute, show t + 1 * 60 = t + 60 by ring, instant_status_ok (by omega)]
  have r1 : reset_min (gmtime (t + 60)) CRON_CF_SECOND = (0, gmtime (t - t % 60 + 60)) := by
    rw [reset_min_second, show t + 60 - (t + 60) % 60 = t - t % 60 + 60 by omega,
      instant_status_ok (by omega)]
  have s1 : set_field (gmtime (t - t % 60 + 60)) CRON_CF_SECOND 0
      = (0, gmtime (t - t % 60 + 60)) := by
    rw [set_field_second,
      show t - t % 60 + 60 - (t - t % 60 + 60) % 60 + 0 = t - t % 60 + 60 by omega,
      instant_status_ok (by omega)]
  simp [do_next_body, gmtime_sec, hs, find_next_roll _ _ _ _ _ _ _ _ _ ks, a1, r1,
    leap_day_second_keep, find_next_set, s1, resets_none, reset_all_min_none, Ne.symm hs]

theorem leap_day_minute_kept (restart : tm → Option (Int × tm)) (t dot : Int) (R : List Int)
    (hm : t % 3600 = 0) :
    do_next_minute restart leap_day (gmtime t) dot R
      = do_next_hour restart leap_day (gmtime t) dot (push_to_fields_arr R CRON_CF_MINUTE) := by
  have hm2 : t % 3600 / 60 = 0 := by omega
  simp [do_next_minute, gmtime_min, hm2, find_next_keep _ _ _ _ _ _ _ _ leap_day_minute_keep]

theorem leap_day_minute_rolled (restart : tm → Option (Int × tm)) (t dot : Int) (R : List Int)
    (h0 : 0 ≤ t) (hs : t % 60 = 0) (hm : t % 3600 ≠ 0)
    (hR : ∀ f ∈ R, f = -1 ∨ f = 0) :
    do_next_minute restart leap_day (gmtime t) dot R
      = after_restart (restart (gmtime (t - t % 3600 + 3600)))
          (fun c => do_next_hour restart leap_day c dot R) := by
  have hm2 : t % 3600 / 60 ≠ 0 := by omega
  have km := leap_day_minute_roll (t % 3600 / 60) (by omega) (by omega)
  have a1 : add_to_field (gmtime t) CRON_CF_HOUR_OF_DAY 1 = (0, gmtime (t + 3600)) := by
    rw [add_to_field_hour, show t + 1 * 3600 = t + 3600 by ring, instant_status_ok (by omega)]
  have r1 : reset_min (gmtime (t + 3600)) CRON_CF_MINUTE
      = (0, gmtime (t - t % 3600 + 3600)) := by
    rw [reset_min_minute,
      show t + 3600 - (t + 3600) % 3600 / 60 * 60 = t - t % 3600 + 3600 by omega,
      instant_status_ok (by omega)]
  have s1 : set_field (gmtime (t - t % 3600 + 3600)) CRON_CF_MINUTE 0
      = (0, gmtime (t - t % 3600 + 3600)) := by
    rw [set_field_minute,
      show t - t % 3600 + 3600 - (t - t % 3600 + 3600) % 3600 / 60 * 60 + 0 * 60
        = t - t % 3600 + 3600 by omega,
      instant_status_ok (by omega)]
  have rs : reset_all_min (gmtime (t - t % 3600 + 3600)) R
      = (0, gmtime (t - t % 3600 + 3600)) := by
    apply reset_all_min_id _ (by omega)
    intro f hf
    rcases hR f hf with h | h
    · exact Or.inl h
    · exact Or.inr (Or.inl ⟨h, by omega⟩)
  simp [do_next_minute, gmtime_min, find_next_roll _ _ _ _ _ _ _ _ _ km, a1, r1,
    leap_day_minute_keep, find_next_set, s1, rs, hm2, Ne.symm hm2]

theorem leap_day_hour_kept (restart : tm → Option (Int × tm)) (t dot : Int) (R : List Int)
    (hm : t % 86400 = 0) :
    do_next_hour restart leap_day (gmtime t) dot R
      = do_next_day restart leap_day (gmtime t) dot
          (push_to_fields_arr R CRON_CF_HOUR_OF_DAY) := by
  have hm2 : t % 86400 / 3600 = 0 := by omega
  simp [do_next_hour, gmtime_hour, hm2, find_next_keep _ _ _ _ _ _ _ _ leap_day_hour_keep]

theorem leap_day_hour_rolled (restart : tm → Option (Int × tm)) (t dot : Int) (R : List Int)
    (h0 : 0 ≤ t) (hs : t % 3600 = 0) (hm : t % 86400 ≠ 0)
    (hR : ∀ f ∈ R, f = -1 ∨ f = 0 ∨ f = 1) :
    do_next_hour restart leap_day (gmtime t) dot R
      = after_restart (restart (gmtime (t - t % 86400 + 86400)))
          (fun c => do_next_day restart leap_day c dot R) := by
  have hm2 : t % 86400 / 3600 ≠ 0 := by omega
  have km := leap_day_hour_roll (t % 86400 / 3600) (by omega) (by omega)
  have a1 : add_to_field (gmtime t) CRON_CF_DAY_OF_WEEK 1 = (0, gmtime (t + 86400)) := by
    rw [add_to_field_day_of_week, show t + 1 * 86400 = t + 86400 by ring,
      instant_status_ok (by omega)]
  have r1 : reset_min (gmtime (t + 86400)) CRON_CF_HOUR_OF_DAY
      = (0, gmtime (t - t % 86400 + 86400)) := by
    rw [reset_min_hour,
      show t + 86400 - (t + 86400) % 86400 / 3600 * 3600 = t - t % 86400 + 86400 by omega,
      instant_status_ok (by omega)]
  have s1 : set_field (gmtime (t - t % 86400 + 86400)) CRON_CF_HOUR_OF_DAY 0
      = (0, gmtime (t - t % 86400 + 86400)) := by
    rw [set_field_hour,
      show t - t % 86400 + 86400 - (t - t % 86400 + 86400) % 86400 / 3600 * 3600 + 0 * 3600
        = t - t % 86400 + 86400 by omega,
      instant_status_ok (by omega)]
  have rs : reset_all_min (gmtime (t - t % 86400 + 86400)) R
      = (0, gmtime (t - t % 86400 + 86400)) := by
    apply reset_all_min_id _ (by omega)
    intro f hf
    rcases hR f hf with h | h | h
    · exact Or.inl h
    · exact Or.inr (Or.inl ⟨h, by omega⟩)
    · exact Or.inr (Or.inr (Or.inl ⟨h, by omega⟩))
  simp [do_next_hour, gmtime_hour, find_next_roll _ _ _ _ _ _ _ _ _ km, a1, r1,
    leap_day_hour_keep, find_next_set, s1, rs, hm2, Ne.symm hm2]

/-! ## The expression `0 0 0 29 2 *`: the day search -/

theorem gmtime_mday_day (D : Int) :
    (gmtime (D * 86400)).tm_mday = D - monthStart (monthIndex D) + 1 := by
  rw [gmtime_mday, show D * 86400 / 86400 = D by omega]

/-- A 29th lies at most 90 days ahead of any day. -/
theorem next_29th (D : Int) :
    ∃ k : Nat, k ≤ 90 ∧ (gmtime ((D + k) * 86400)).tm_mday = 29 := by
  have h1 := monthIndex_spec D
  have s0 := monthStart_step (monthIndex D)
  have s1 := monthStart_step (monthIndex D + 1)
  have s2 := monthStart_step (monthIndex D + 1 + 1)
  generalize hn : monthIndex D = n at h1 s0 s1 s2
  have key : ∀ m c : Int, monthStart m ≤ c → c < monthStart (m + 1) → c = monthStart m + 28 →
      D ≤ c → c - D ≤ 90 → ∃ k : Nat, k ≤ 90 ∧ (gmtime ((D + k) * 86400)).tm_mday = 29 := by
    intro m c a b e d f
    refine ⟨(c - D).toNat, by omega, ?_⟩
    rw [gmtime_mday_day, show D + ((c - D).toNat : Int) = c by omega, monthIndex_unique a b]
    omega
  by_cases c0 : D ≤ monthStart n + 28 ∧ monthStart n + 28 < monthStart (n + 1)
  · exact key n _ (by omega) c0.2 rfl c0.1 (by omega)
  · by_cases c1 : monthStart (n + 1) + 28 < monthStart (n + 1 + 1)
    · exact key (n + 1) _ (by omega) c1 rfl (by omega) (by omega)
    · have hfeb : (n + 1) % 12 = 1 := by
        by_contra hne
        have := month_length_long (n + 1) hne
        omega
      have hl := month_length_long (n + 1 + 1) (by omega)
      exact key (n + 1 + 1) _ (by omega) (by omega) rfl (by omega) (by omega)

/-- The day search of `0 0 0 29 2 *` from a midnight stops at the midnight of the first 29th,
when that day is within the iterations left. -/
theorem leap_day_loop (R : List Int) (hR : ∀ f ∈ R, f = -1 ∨ f = 0 ∨ f = 1 ∨ f = 2) (k : Nat) :
    ∀ (fuel : Nat) (t : Int), 0 ≤ t → t % 86400 = 0 → k ≤ fuel →
      (gmtime (t + 86400 * k)).tm_mday = 29 →
      ∃ j : Nat, j ≤ k ∧ (gmtime (t + 86400 * j)).tm_mday = 29
        ∧ (∀ i : Nat, i < j → (gmtime (t + 86400 * i)).tm_mday ≠ 29)
        ∧ find_next_day_loop leap_day.days_of_month leap_day.days_of_week R 0 fuel (gmtime t)
            (gmtime t).tm_mday (gmtime t).tm_wday = (29, gmtime (t + 86400 * j), 0) := by
  induction k with
  | zero =>
    intro fuel t h0 hm hk hd
    simp only [Nat.cast_zero, mul_zero, add_zero] at hd
    refine ⟨0, le_refl _, by simpa using hd, fun i hi => absurd hi (Nat.not_lt_zero i), ?_⟩
    simp only [Nat.cast_zero, mul_zero, add_zero]
    cases fuel with
    | zero => simp [find_next_day_loop, hd]
    | succ f =>
      have hb : cron_get_bit leap_day.days_of_month 29 = 1 := by decide
      simp [find_next_day_loop, hd, hb, leap_day_weekday]
  | succ k ih =>
    intro fuel t h0 hm hk hd
    by_cases h29 : (gmtime t).tm_mday = 29
    · refine ⟨0, Nat.zero_le _, by simpa using h29, fun i hi => absurd hi (Nat.not_lt_zero i), ?_⟩
      simp only [Nat.cast_zero, mul_zero, add_zero]
      cases fuel with
      | zero => simp [find_next_day_loop, h29]
      | succ f =>
        have hb : cron_get_bit leap_day.days_of_month 29 = 1 := by decide
        simp [find_next_day_loop, h29, hb, leap_day_weekday]
    · obtain ⟨f, rfl⟩ : ∃ f, fuel = f + 1 := ⟨fuel - 1, by omega⟩
      have e : t + 86400 * ((k + 1 : Nat) : Int) = t + 86400 + 86400 * (k : Int) := by
        push_cast; ring
      rw [e] at hd
      obtain ⟨j, j1, j2, j3, j4⟩ := ih f (t + 86400) (by omega) (by omega) (by omega) hd
      have hb := gmtime_mday_bounds t
      have hbit : cron_get_bit leap_day.days_of_month (gmtime t).tm_mday = 0 := by
        rw [leap_day_day _ hb.1 hb.2, if_neg h29]
      have a1 : add_to_field (gmtime t) CRON_CF_DAY_OF_MONTH 1 = (0, gmtime (t + 86400)) := by
        rw [add_to_field_day_of_month, show t + 1 * 86400 = t + 86400 by ring,
          instant_status_ok (by omega)]
      have rs : reset_all_min (gmtime (t + 86400)) R = (0, gmtime (t + 86400)) := by
        apply reset_all_min_id _ (by omega)
        intro g hg
        rcases hR g hg with h | h | h | h
        · exact Or.inl h
        · exact Or.inr (Or.inl ⟨h, by omega⟩)
        · exact Or.inr (Or.inr (Or.inl ⟨h, by omega⟩))
        · exact Or.inr (Or.inr (Or.inr ⟨h, by omega⟩))
      have e2 : t + 86400 * ((j + 1 : Nat) : Int) = t + 86400 + 86400 * (j : Int) := by
        push_cast; ring
      refine ⟨j + 1, by omega, by rw [e2]; exact j2, ?_, ?_⟩
      · intro i hi
        cases i with
        | zero => simpa using h29
        | succ i =>
          have := j3 i (by omega)
          rwa [show t + 86400 * ((i + 1 : Nat) : Int) = t + 86400 + 86400 * (i : Int) by
            push_cast; ring]
      · rw [find_next_day_loop_succ, hbit, a1]
        simp only [rs, e2]
        simpa using j4

theorem leap_day_day_kept (restart : tm → Option (Int × tm)) (t dot : Int) (R : List Int)
    (hd : (gmtime t).tm_mday = 29) :
    do_next_day restart leap_day (gmtime t) dot R
      = do_next_month restart leap_day (gmtime t) dot
          (push_to_fields_arr R CRON_CF_DAY_OF_MONTH) := by
  have hb : cron_get_bit leap_day.days_of_month 29 = 1 := by decide
  simp [do_next_day, find_next_day, find_next_day_loop, hd, hb, leap_day_weekday]

/-- From a midnight that is not a 29th the day search stops at the midnight of the next 29th
and the search restarts there. -/
theorem leap_day_day_moved (t : Int) (R : List Int) (h0 : 0 ≤ t) (hm : t % 86400 = 0)
    (hd : (gmtime t).tm_mday ≠ 29) (hR : ∀ f ∈ R, f = -1 ∨ f = 0 ∨ f = 1 ∨ f = 2) :
    ∃ j : Nat, 1 ≤ j ∧ (gmtime (t + 86400 * j)).tm_mday = 29
      ∧ (∀ i : Nat, i < j → (gmtime (t + 86400 * i)).tm_mday ≠ 29)
      ∧ ∀ (restart : tm → Option (Int × tm)) (dot : Int),
        do_next_day restart leap_day (gmtime t) dot R
          = after_restart (restart (gmtime (t + 86400 * j)))
              (fun c => do_next_month restart leap_day c dot R) := by
  obtain ⟨k, k1, k2⟩ := next_29th (t / 86400)
  have e : (t / 86400 + (k : Int)) * 86400 = t + 86400 * k := by omega
  rw [e] at k2
  obtain ⟨j, j1, j2, j3, j4⟩ := leap_day_loop R hR k 366 t h0 hm (by omega) k2
  have hj : 1 ≤ j := by
    by_contra hc
    have : j = 0 := by omega
    subst this
    simp at j2
    exact hd j2
  refine ⟨j, hj, j2, j3, fun restart dot => ?_⟩
  simp only [do_next_day, find_next_day, j4]
  simp [hd]

/-! ## The expression `0 0 0 29 2 *`: the month step -/

theorem reset_all_min_month_start (x : Int) (hx : x % 86400 = 0) (R : List Int)
    (hR : R = [1, 2, 4, -1, -1, -1, -1] ∨ R = [0, 1, 2, 4, -1, -1, -1]) :
    reset_all_min (gmtime x) R = (0, gmtime (monthStart (monthIndex (x / 86400)) * 86400)) := by
  have e3 : instant_status x = (0, gmtime x) := instant_status_ok (by omega)
  have r0 : reset_min (gmtime x) 0 = (0, gmtime x) := by
    have := reset_min_second x
    rw [show x - x % 60 = x by omega, e3] at this
    exact this
  have r1 : reset_min (gmtime x) 1 = (0, gmtime x) := by
    have := reset_min_minute x
    rw [show x - x % 3600 / 60 * 60 = x by omega, e3] at this
    exact this
  have r2 : reset_min (gmtime x) 2 = (0, gmtime x) := by
    have := reset_min_hour x
    rw [show x - x % 86400 / 3600 * 3600 = x by omega, e3] at this
    exact this
  have r4 : reset_min (gmtime x) 4
      = (0, gmtime (monthStart (monthIndex (x / 86400)) * 86400)) := by
    have := reset_min_day_of_month x
    rw [hx, add_zero, instant_status_ok (by omega)] at this
    exact this
  rcases hR with rfl | rfl <;> simp [reset_all_min, r0, r1, r2, r4]

/-- Where the month step leaves the calendar when it sets February on the 29th of the January
with index `j0`: the first day of February in a leap year, of March otherwise. -/
theorem leap_day_january (y j0 : Int) (R : List Int) (h0 : 0 ≤ y) (hy : y % 86400 = 0)
    (hj : monthIndex (y / 86400) = j0) (hj0 : j0 % 12 = 0)
    (hd : y / 86400 = monthStart j0 + 28)
    (hR : R = [1, 2, 4, -1, -1, -1, -1] ∨ R = [0, 1, 2, 4, -1, -1, -1]) :
    set_field (gmtime y) CRON_CF_MONTH 1 = (0, gmtime ((monthStart (j0 + 1) + 28) * 86400))
      ∧ reset_all_min (gmtime ((monthStart (j0 + 1) + 28) * 86400)) R
        = (0, gmtime (monthStart (monthIndex (monthStart (j0 + 1) + 28)) * 86400)) := by
  have hpos : 0 ≤ monthStart (j0 + 1) + 28 := by
    have := monthStart_lt_succ j0
    omega
  constructor
  · rw [set_field_month, hj, show j0 - j0 % 12 + 1 = j0 + 1 by omega]
    have e : month_shift y (j0 + 1) = (monthStart (j0 + 1) + 28) * 86400 := by
      have hj2 : monthIndex (monthStart j0 + 28) = j0 := by rw [← hd]; exact hj
      simp only [month_shift, hd, hj2, hy]
      ring
    rw [e, instant_status_ok (by omega)]
  · have := reset_all_min_month_start ((monthStart (j0 + 1) + 28) * 86400) (by omega) R hR
    rwa [show (monthStart (j0 + 1) + 28) * 86400 / 86400 = monthStart (j0 + 1) + 28 by omega]
      at this

theorem leap_day_month_moved (t : Int) (R : List Int) (h0 : 0 ≤ t) (hm : t % 86400 = 0)
    (hd : (gmtime t).tm_mday = 29) (hmon : (gmtime t).tm_mon ≠ 1)
    (hR : R = [1, 2, 4, -1, -1, -1, -1] ∨ R = [0, 1, 2, 4, -1, -1, -1])
    (restart : tm → Option (Int × tm)) (dot : Int) :
    do_next_month restart leap_day (gmtime t) dot R
      = if (gmtime (february_start (january_index (monthIndex (t / 86400))))).tm_year - dot > 4
        then some (-1, gmtime (february_start (january_index (monthIndex (t / 86400)))))
        else restart (gmtime (february_start (january_index (monthIndex (t / 86400))))) := by
  rw [gmtime_mday] at hd
  rw [gmtime_mon] at hmon
  have hday : t / 86400 = monthStart (monthIndex (t / 86400)) + 28 := by omega
  generalize hn : monthIndex (t / 86400) = n at hd hmon hday
  by_cases hjan : n % 12 = 0
  · have ej : january_index n = n := by simp [january_index, hjan]
    obtain ⟨s1, rs⟩ := leap_day_january t n R h0 hm hn hjan hday hR
    rw [ej]
    have hne : (1 : Int) ≠ 0 := by decide
    have mv := find_next_move leap_day.months CRON_MAX_MONTHS 0 1 (gmtime t) CRON_CF_MONTH
      CRON_CF_YEAR R 0 leap_day_month_january hne
    rw [s1, rs] at mv
    simp only [do_next_month, gmtime_mon, hn, hjan, mv, february_start]
    simp
  · have ej : january_index n = n - n % 12 + 12 := by simp [january_index, hjan]
    rw [ej]
    have hge : 2 ≤ n % 12 := by omega
    have kr := leap_day_month_roll (n % 12) hge (by omega)
    have l1 := month_length_long (n + 12) (by omega)
    have l2 := month_length_long (n - n % 12 + 12) (by omega)
    have i1 : monthIndex (monthStart (n + 12) + 28) = n + 12 :=
      monthIndex_unique (by omega) (by omega)
    have i2 : monthIndex (monthStart (n - n % 12 + 12) + 28) = n - n % 12 + 12 :=
      monthIndex_unique (by omega) (by omega)
    have p1 : 0 ≤ monthStart (n + 12) + 28 := by
      have := monthStart_mono (show n ≤ n + 12 by omega)
      omega
    have p2 : 0 ≤ monthStart (n - n % 12 + 12) + 28 := by
      have := monthStart_mono (show n ≤ n - n % 12 + 12 by omega)
      omega
    have a1 : add_to_field (gmtime t) CRON_CF_YEAR 1
        = (0, gmtime ((monthStart (n + 12) + 28) * 86400)) := by
      rw [add_to_field_year, hn]
      have e : month_shift t (n + 12 * 1) = (monthStart (n + 12) + 28) * 86400 := by
        simp only [month_shift, hn, hm]
        rw [show n + 12 * 1 = n + 12 by ring]
        omega
      rw [e, instant_status_ok (by omega)]
    have r1 : reset_min (gmtime ((monthStart (n + 12) + 28) * 86400)) CRON_CF_MONTH
        = (0, gmtime ((monthStart (n - n % 12 + 12) + 28) * 86400)) := by
      rw [reset_min_month,
        show (monthStart (n + 12) + 28) * 86400 / 86400 = monthStart (n + 12) + 28 by omega, i1]
      have e : month_shift ((monthStart (n + 12) + 28) * 86400) (n + 12 - (n + 12) % 12)
          = (monthStart (n - n % 12 + 12) + 28) * 86400 := by
        simp only [month_shift]
        rw [show (monthStart (n + 12) + 28) * 86400 / 86400 = monthStart (n + 12) + 28 by omega,
          i1, show n + 12 - (n + 12) % 12 = n - n % 12 + 12 by omega]
        omega
      rw [e, instant_status_ok (by omega)]
    obtain ⟨s1, rs⟩ := leap_day_january ((monthStart (n - n % 12 + 12) + 28) * 86400)
      (n - n % 12 + 12) R (by omega) (by omega)
      (by rw [show (monthStart (n - n % 12 + 12) + 28) * 86400 / 86400
        = monthStart (n - n % 12 + 12) + 28 by omega]; exact i2)
      (by omega) (by omega) hR
    have hne : (1 : Int) ≠ n % 12 := by omega
    have rl := find_next_roll leap_day.months CRON_MAX_MONTHS (n % 12) 0 (gmtime t) CRON_CF_MONTH
      CRON_CF_YEAR R 0 kr
    rw [a1, r1, leap_day_month_january] at rl
    simp only [find_next_set, s1, rs] at rl
    simp only [do_next_month, gmtime_mon, hn, rl, february_start]
    simp [hne, Ne.symm hne]

/-! ## The expression `0 0 0 29 2 *`: where the month step restarts -/

theorem leap_midnight_month (L : Int) (hL : leap_midnight L) :
    L % 86400 = 0 ∧ L / 86400 = monthStart (monthIndex (L / 86400)) + 28
      ∧ monthIndex (L / 86400) % 12 = 1
      ∧ monthStart (monthIndex (L / 86400)) + 28 < monthStart (monthIndex (L / 86400) + 1) := by
  obtain ⟨a, b, c⟩ := (leap_midnight_iff L).1 hL
  have := monthIndex_spec (L / 86400)
  exact ⟨a, b, c, by omega⟩

theorem february_start_bounds (t L : Int) (hm : t % 86400 = 0)
    (hd : (gmtime t).tm_mday = 29) (hmon : (gmtime t).tm_mon ≠ 1) (hL : leap_midnight L)
    (htL : t ≤ L) :
    t < february_start (january_index (monthIndex (t / 86400)))
      ∧ february_start (january_index (monthIndex (t / 86400))) ≤ L := by
  rw [gmtime_mday] at hd
  rw [gmtime_mon] at hmon
  obtain ⟨l1, l2, l3, l4⟩ := leap_midnight_month L hL
  generalize hn : monthIndex (t / 86400) = n at hd hmon
  generalize hnL : monthIndex (L / 86400) = nL at l2 l3 l4
  have hle : t / 86400 ≤ L / 86400 := by omega
  have step1 : n ≤ nL := by
    by_contra hc
    have := monthStart_mono (show nL + 1 ≤ n by omega)
    omega
  have hj : n ≤ january_index n ∧ january_index n % 12 = 0 ∧ january_index n + 1 ≤ nL := by
    unfold january_index
    split <;> omega
  generalize january_index n = j0 at hj
  obtain ⟨j1, j2, j3⟩ := hj
  have s1 := monthStart_step (j0 + 1)
  have s2 := monthStart_step (j0 + 1 + 1)
  have ige : j0 + 1 ≤ monthIndex (monthStart (j0 + 1) + 28) := monthIndex_ge (by omega)
  have ilt : monthIndex (monthStart (j0 + 1) + 28) < j0 + 1 + 1 + 1 := monthIndex_lt (by omega)
  have m1 := monthStart_mono (show n + 1 ≤ j0 + 1 by omega)
  have m2 := month_length_long n (by omega)
  have m3 := monthStart_mono ige
  unfold february_start
  constructor
  · omega
  · by_cases hc : nL = j0 + 1
    · subst hc
      have e : monthStart (j0 + 1) + 28 = L / 86400 := by omega
      rw [e, hnL]
      omega
    · have m4 := monthStart_mono
        (show monthIndex (monthStart (j0 + 1) + 28) ≤ nL by omega)
      omega

theorem gmtime_year_mono (a b : Int) (h : a ≤ b) : (gmtime a).tm_year ≤ (gmtime b).tm_year := by
  rw [gmtime_year, gmtime_year]
  have := monthIndex_mono (show a / 86400 ≤ b / 86400 by omega)
  omega

/-! ## The expression `0 0 0 29 2 *`: one pass of `do_next` -/

theorem leap_day_pass_month (L dot t t1 : Int) (R : List Int) (hL : leap_midnight L)
    (hdot : (gmtime L).tm_year - dot ≤ 4) (htL : t < L)
    (hno : ∀ u, t ≤ u → u < L → ¬ leap_midnight u) (h1 : t ≤ t1) (h2 : t1 ≤ L) (h0 : 0 ≤ t1)
    (hm : t1 % 86400 = 0) (hd : (gmtime t1).tm_mday = 29)
    (hR : R = [1, 2, 4, -1, -1, -1, -1] ∨ R = [0, 1, 2, 4, -1, -1, -1]) :
    Restarts L t (fun restart => do_next_month restart leap_day (gmtime t1) dot R) := by
  by_cases hmon : (gmtime t1).tm_mon = 1
  · have hl1 : leap_midnight t1 := by
      refine ⟨?_, ?_, ?_, hd, hmon⟩
      · show (gmtime t1).tm_sec = 0
        rw [gmtime_sec]; omega
      · show (gmtime t1).tm_min = 0
        rw [gmtime_min]; omega
      · show (gmtime t1).tm_hour = 0
        rw [gmtime_hour]; omega
    have e : t1 = L := by
      by_contra hc
      exact hno t1 h1 (by omega) hl1
    subst e
    exact ⟨t1, htL, le_refl _, fun restart _ => leap_day_month_tail restart t1 dot R hL⟩
  · obtain ⟨b1, b2⟩ := february_start_bounds t1 L hm hd hmon hL h2
    refine ⟨_, by omega, b2, fun restart hr => ?_⟩
    simp only []
    rw [leap_day_month_moved t1 R h0 hm hd hmon hR restart dot]
    have hy := gmtime_year_mono _ _ b2
    rw [if_neg (by omega)]
    exact hr

theorem leap_day_pass_day (L dot t t1 : Int) (R : List Int) (hL : leap_midnight L)
    (hdot : (gmtime L).tm_year - dot ≤ 4) (htL : t < L)
    (hno : ∀ u, t ≤ u → u < L → ¬ leap_midnight u) (h1 : t ≤ t1) (h2 : t1 ≤ L) (h0 : 0 ≤ t1)
    (hm : t1 % 86400 = 0)
    (hR : R = [1, 2, -1, -1, -1, -1, -1] ∨ R = [0, 1, 2, -1, -1, -1, -1]) :
    Restarts L t (fun restart => do_next_day restart leap_day (gmtime t1) dot R) := by
  by_cases hd : (gmtime t1).tm_mday = 29
  · have hp : push_to_fields_arr R CRON_CF_DAY_OF_MONTH = [1, 2, 4, -1, -1, -1, -1]
        ∨ push_to_fields_arr R CRON_CF_DAY_OF_MONTH = [0, 1, 2, 4, -1, -1, -1] := by
      rcases hR with rfl | rfl
      · exact Or.inl (by decide)
      · exact Or.inr (by decide)
    obtain ⟨t', a, b, c⟩ := leap_day_pass_month L dot t t1 _ hL hdot htL hno h1 h2 h0 hm hd hp
    exact ⟨t', a, b, fun restart hr => by
      simp only []
      rw [leap_day_day_kept restart t1 dot R hd]
      exact c restart hr⟩
  · have hR2 : ∀ f ∈ R, f = -1 ∨ f = 0 ∨ f = 1 ∨ f = 2 := by
      rcases hR with rfl | rfl <;> simp
    obtain ⟨j, j1, j2, j3, j4⟩ := leap_day_day_moved t1 R h0 hm hd hR2
    have hLd : (gmtime L).tm_mday = 29 := hL.2.2.2.1
    have hLm := (leap_midnight_month L hL).1
    have hle : t1 + 86400 * (j : Int) ≤ L := by
      by_contra hc
      have e : L = t1 + 86400 * (((L - t1) / 86400).toNat : Int) := by omega
      have := j3 ((L - t1) / 86400).toNat (by omega)
      rw [← e] at this
      exact this hLd
    refine ⟨t1 + 86400 * (j : Int), by omega, hle, fun restart hr => ?_⟩
    simp only []
    rw [j4 restart dot, hr, after_restart_ok]
    exact leap_day_month_tail restart L dot R hL

theorem leap_day_pass_hour (L dot t t1 : Int) (R : List Int) (hL : leap_midnight L)
    (hdot : (gmtime L).tm_year - dot ≤ 4) (htL : t < L)
    (hno : ∀ u, t ≤ u → u < L → ¬ leap_midnight u) (h1 : t ≤ t1) (h2 : t1 ≤ L) (h0 : 0 ≤ t1)
    (hm : t1 % 3600 = 0)
    (hR : R = [1, -1, -1, -1, -1, -1, -1] ∨ R = [0, 1, -1, -1, -1, -1, -1]) :
    Restarts L t (fun restart => do_next_hour restart leap_day (gmtime t1) dot R) := by
  by_cases hd : t1 % 86400 = 0
  · have hp : push_to_fields_arr R CRON_CF_HOUR_OF_DAY = [1, 2, -1, -1, -1, -1, -1]
        ∨ push_to_fields_arr R CRON_CF_HOUR_OF_DAY = [0, 1, 2, -1, -1, -1, -1] := by
      rcases hR with rfl | rfl
      · exact Or.inl (by decide)
      · exact Or.inr (by decide)
    obtain ⟨t', a, b, c⟩ := leap_day_pass_day L dot t t1 _ hL hdot htL hno h1 h2 h0 hd hp
    exact ⟨t', a, b, fun restart hr => by
      simp only []
      rw [leap_day_hour_kept restart t1 dot R hd]
      exact c restart hr⟩
  · have hR2 : ∀ f ∈ R, f = -1 ∨ f = 0 ∨ f = 1 := by
      rcases hR with rfl | rfl <;> simp
    have hLm := (leap_midnight_month L hL).1
    refine ⟨t1 - t1 % 86400 + 86400, by omega, by omega, fun restart hr => ?_⟩
    simp only []
    rw [leap_day_hour_rolled restart t1 dot R h0 hm hd hR2, hr, after_restart_ok]
    exact leap_day_day_tail restart L dot R hL

theorem leap_day_pass_minute (L dot t t1 : Int) (R : List Int) (hL : leap_midnight L)
    (hdot : (gmtime L).tm_year - dot ≤ 4) (htL : t < L)
    (hno : ∀ u, t ≤ u → u < L → ¬ leap_midnight u) (h1 : t ≤ t1) (h2 : t1 ≤ L) (h0 : 0 ≤ t1)
    (hm : t1 % 60 = 0)
    (hR : R = [-1, -1, -1, -1, -1, -1, -1] ∨ R = [0, -1, -1, -1, -1, -1, -1]) :
    Restarts L t (fun restart => do_next_minute restart leap_day (gmtime t1) dot R) := by
  by_cases hd : t1 % 3600 = 0
  · have hp : push_to_fields_arr R CRON_CF_MINUTE = [1, -1, -1, -1, -1, -1, -1]
        ∨ push_to_fields_arr R CRON_CF_MINUTE = [0, 1, -1, -1, -1, -1, -1] := by
      rcases hR with rfl | rfl
      · exact Or.inl (by decide)
      · exact Or.inr (by decide)
    obtain ⟨t', a, b, c⟩ := leap_day_pass_hour L dot t t1 _ hL hdot htL hno h1 h2 h0 hd hp
    exact ⟨t', a, b, fun restart hr => by
      simp only []
      rw [leap_day_minute_kept restart t1 dot R hd]
      exact c restart hr⟩
  · have hR2 : ∀ f ∈ R, f = -1 ∨ f = 0 := by
      rcases hR with rfl | rfl <;> simp
    have hLm := (leap_midnight_month L hL).1
    refine ⟨t1 - t1 % 3600 + 3600, by omega, by omega, fun restart hr => ?_⟩
    simp only []
    rw [leap_day_minute_rolled restart t1 dot R h0 hm hd hR2, hr, after_restart_ok]
    exact leap_day_hour_tail restart L dot R hL

/-- One pass of `do_next` before the next 29 February at 00:00:00: the pass ends on that
midnight as soon as the recursive call it makes, from a later instant that is not after that
midnight, ends there. -/
theorem leap_day_pass (L dot t : Int) (hL : leap_midnight L)
    (hdot : (gmtime L).tm_year - dot ≤ 4) (h0 : 0 ≤ t) (htL : t < L)
    (hno : ∀ u, t ≤ u → u < L → ¬ leap_midnight u) :
    Restarts L t (fun restart => do_next_body restart leap_day (gmtime t) dot) := by
  have hLm := (leap_midnight_month L hL).1
  by_cases hs : t % 60 = 0
  · obtain ⟨t', a, b, c⟩ := leap_day_pass_minute L dot t t _ hL hdot htL hno (le_refl _)
      (le_of_lt htL) h0 hs (Or.inr rfl)
    exact ⟨t', a, b, fun restart hr => by
      simp only []
      rw [leap_day_second_kept restart t dot hs]
      exact c restart hr⟩
  · obtain ⟨t', a, b, c⟩ := leap_day_pass_minute L dot t (t - t % 60 + 60) _ hL hdot htL hno
      (by omega) (by omega) (by omega) (by omega) (Or.inl rfl)
    exact ⟨t', a, b, fun restart hr => by
      simp only []
      rw [leap_day_second_rolled restart t dot h0 hs]
      exact c restart hr⟩

/-- The search of `do_next` from an instant not after a 29 February at 00:00:00, with no other
such midnight in between and within the four years of the guard, ends on that midnight. -/
theorem leap_day_do_next (L dot : Int) (hL : leap_midnight L)
    (hdot : (gmtime L).tm_year - dot ≤ 4) (n : Nat) :
    ∀ t : Int, 0 ≤ t → t ≤ L → L - t ≤ n → (∀ u, t ≤ u → u < L → ¬ leap_midnight u) →
      ∃ fuel, do_next fuel leap_day (gmtime t) dot = some (0, gmtime L) := by
  induction n with
  | zero =>
    intro t h0 h1 h2 _
    have e : t = L := by omega
    subst e
    exact ⟨1, leap_day_body_tail _ t dot hL⟩
  | succ n ih =>
    intro t h0 h1 h2 hno
    by_cases e : t = L
    · subst e
      exact ⟨1, leap_day_body_tail _ t dot hL⟩
    · obtain ⟨t', a, b, c⟩ := leap_day_pass L dot t hL hdot h0 (by omega) hno
      obtain ⟨fuel, hf⟩ := ih t' (by omega) b (by push_cast at h2; omega)
        (fun u u1 u2 => hno u (by omega) u2)
      exact ⟨fuel + 1, c (fun c => do_next fuel leap_day c dot) hf⟩

/-! ## The expression `0 0 0 29 2 *`: `cron_next` -/

theorem leap_day_cron_next (t L : Int) (h0 : 0 ≤ t) (hL : leap_midnight L) (htL : t < L)
    (hno : ∀ u, t < u → u < L → ¬ leap_midnight u)
    (hyear : (gmtime L).tm_year - (gmtime t).tm_year ≤ 4) :
    ∃ fuel : Nat, ∀ k : Nat, cron_next (fuel + k) leap_day t = some L := by
  have e1 : t ≠ -1 := by omega
  have e2 : L ≠ -1 := by omega
  have e3 : L ≠ t := by omega
  by_cases ht : leap_midnight t
  · have hy := gmtime_year_mono t (t + 1) (by omega)
    obtain ⟨f, hf⟩ := leap_day_do_next L (gmtime (t + 1)).tm_year hL (by omega)
      (L - (t + 1)).toNat (t + 1) (by omega) (by omega) (by omega)
      (fun u u1 u2 => hno u (by omega) u2)
    refine ⟨f + 1, fun k => ?_⟩
    have d1 : do_next (f + 1 + k) leap_day (gmtime t) (gmtime t).tm_year
        = some (0, gmtime t) := by
      have := do_next_fuel_mono 1 (f + k) leap_day (gmtime t) (gmtime t).tm_year _
        (leap_day_body_tail _ t (gmtime t).tm_year ht)
      rwa [show 1 + (f + k) = f + 1 + k by omega] at this
    have d2 : do_next (f + 1 + k) leap_day (gmtime (t + 1)) (gmtime (t + 1)).tm_year
        = some (0, gmtime L) := by
      have := do_next_fuel_mono f (1 + k) leap_day _ _ _ hf
      rwa [show f + (1 + k) = f + 1 + k by omega] at this
    have a1 : add_to_field (gmtime t) CRON_CF_SECOND 1 = (0, gmtime (t + 1)) := by
      rw [add_to_field_second, instant_status_ok (by omega)]
    simp [cron_next, cron_time, cron_mktime_gmtime, CRON_INVALID_INSTANT, e1, d1,
      cron_next_finish, a1, d2]
  · obtain ⟨f, hf⟩ := leap_day_do_next L (gmtime t).tm_year hL hyear (L - t).toNat t h0
      (by omega) (by omega) (fun u u1 u2 => by
        by_cases hu : u = t
        · subst hu; exact ht
        · exact hno u (by omega) u2)
    refine ⟨f, fun k => ?_⟩
    have d := do_next_fuel_mono f k leap_day _ _ _ hf
    simp [cron_next, cron_time, cron_mktime_gmtime, CRON_INVALID_INSTANT, e1, d,
      cron_next_finish, e2, e3]

/-! ## The 29 February of the years from 1970 to 2096 -/

/-- The 29th day of February of year `Y`, at 00:00:00. -/
theorem leap_year_midnight (Y : Int) (h : Y % 4 = 0 ∧ (Y % 100 ≠ 0 ∨ Y % 400 = 0)) :
    leap_midnight ((monthStart (12 * Y + 1) + 28) * 86400)
      ∧ monthIndex ((monthStart (12 * Y + 1) + 28) * 86400 / 86400) = 12 * Y + 1 := by
  have hf := february_length Y
  rw [if_pos h] at hf
  have e : (monthStart (12 * Y + 1) + 28) * 86400 / 86400 = monthStart (12 * Y + 1) + 28 := by
    omega
  have hi : monthIndex (monthStart (12 * Y + 1) + 28) = 12 * Y + 1 :=
    monthIndex_unique (by omega) (by rw [show 12 * Y + 1 + 1 = 12 * Y + 2 by ring]; omega)
  refine ⟨(leap_midnight_iff _).2 ⟨by omega, ?_, ?_⟩, by rw [e, hi]⟩
  · rw [e, hi]
  · rw [e, hi]; omega

/-- A 29 February at 00:00:00 is the one of a leap year. -/
theorem leap_midnight_year (u : Int) (h : leap_midnight u) :
    ∃ Y : Int, (Y % 4 = 0 ∧ (Y % 100 ≠ 0 ∨ Y % 400 = 0))
      ∧ u = (monthStart (12 * Y + 1) + 28) * 86400 ∧ monthIndex (u / 86400) = 12 * Y + 1 := by
  obtain ⟨a, b, c, d⟩ := leap_midnight_month u h
  generalize hn : monthIndex (u / 86400) = n at b c d
  refine ⟨(n - 1) / 12, ?_, ?_, by omega⟩
  · have hf := february_length ((n - 1) / 12)
    rw [show 12 * ((n - 1) / 12) + 2 = n + 1 by omega,
      show 12 * ((n - 1) / 12) + 1 = n by omega] at hf
    by_contra hc
    rw [if_neg hc] at hf
    omega
  · rw [show 12 * ((n - 1) / 12) + 1 = n by omega]
    omega

theorem leap_midnight_lt (Y Z : Int)
    (h : (monthStart (12 * Y + 1) + 28) * 86400 < (monthStart (12 * Z + 1) + 28) * 86400) :
    Y < Z := by
  by_contra hc
  have := monthStart_mono (show 12 * Z + 1 ≤ 12 * Y + 1 by omega)
  omega

/-- From 1970-01-01 00:00:00 up to 2096-02-29 00:00:00 a 29 February follows within the four
calendar years after the year of the instant. -/
theorem next_leap_midnight (t : Int) (h0 : 0 ≤ t) (h1 : t < 3981312000) :
    ∃ L, leap_midnight L ∧ t < L ∧ (∀ u, t < u → u < L → ¬ leap_midnight u)
      ∧ (gmtime L).tm_year - (gmtime t).tm_year ≤ 4 := by
  have s0 : monthStart 23640 = 0 := by decide
  have s1 : monthStart 25153 = 46052 := by decide
  have s2 : monthStart 25154 = 46081 := by decide
  have hsp := monthIndex_spec (t / 86400)
  have hlo : 23640 ≤ monthIndex (t / 86400) := monthIndex_ge (by omega)
  have hhi : monthIndex (t / 86400) < 25154 := monthIndex_lt (by omega)
  have hyt : (gmtime t).tm_year = monthIndex (t / 86400) / 12 - 1900 := gmtime_year t
  generalize hn : monthIndex (t / 86400) = n at hsp hlo hhi hyt
  have key : ∀ Z : Int, Z % 4 = 0 → n / 12 ≤ Z → Z ≤ 2096 → Z - n / 12 ≤ 4 →
      t < (monthStart (12 * Z + 1) + 28) * 86400 →
      (∀ Yu : Int, Yu % 4 = 0 → n / 12 ≤ Yu → Yu < Z →
        (monthStart (12 * Yu + 1) + 28) * 86400 ≤ t) →
      ∃ L, leap_midnight L ∧ t < L ∧ (∀ u, t < u → u < L → ¬ leap_midnight u)
        ∧ (gmtime L).tm_year - (gmtime t).tm_year ≤ 4 := by
    intro Z z1 z2 z3 z4 z5 z6
    obtain ⟨l1, l2⟩ := leap_year_midnight Z ⟨z1, by omega⟩
    refine ⟨_, l1, z5, ?_, ?_⟩
    · intro u u1 u2 hu
      obtain ⟨Yu, y1, y2, y3⟩ := leap_midnight_year u hu
      have m := monthIndex_mono (show t / 86400 ≤ u / 86400 by omega)
      rw [hn, y3] at m
      rw [y2] at u2
      have := leap_midnight_lt Yu Z u2
      have := z6 Yu y1.1 (by omega) this
      omega
    · rw [gmtime_year, l2, hyt]
      omega
  by_cases hA : (n / 12) % 4 = 0 ∧ t < (monthStart (12 * (n / 12) + 1) + 28) * 86400
  · exact key (n / 12) hA.1 (le_refl _) (by omega) (by omega) hA.2
      (fun Yu _ a b => absurd a (by omega))
  · have hY : n / 12 ≤ 2095 := by
      by_contra hc
      have e : n / 12 = 2096 := by omega
      apply hA
      rw [e]
      exact ⟨by decide, by rw [show 12 * (2096 : Int) + 1 = 25153 by norm_num, s1]; omega⟩
    have m1 := monthStart_mono (show n + 1 ≤ 12 * (n / 12 - n / 12 % 4 + 4) + 1 by omega)
    refine key (n / 12 - n / 12 % 4 + 4) (by omega) (by omega) (by omega) (by omega) (by omega)
      (fun Yu a b c => ?_)
    have e : Yu = n / 12 := by omega
    subst e
    by_contra hc
    exact hA ⟨a, by omega⟩

theorem parse_leap_day (target : cron_expr) :
    cron_parse_expr "0 0 0 29 2 *".toList target = (leap_day, none) := by
  rw [cron_parse_expr_six _ _ (by decide!)]
  decide!

/-- C29: for `0 0 0 29 2 *`, which parses successfully, and every instant `t` from 1970-01-01
00:00:00 up to but not including 2096-02-29 00:00:00 (UTC calendar), `cron_next` returns, with
enough recursion depth and with any larger depth, an instant `r` that is not the sentinel, is
after `t`, is 00:00:00 of a 29 February, and has no other 29 February at 00:00:00 between `t`
and itself: the first 29 February strictly after `t`. -/
theorem cron_next_leap_day (target : cron_expr) (t : Int)
    (h0 : timegm_value (tm.mk 0 0 0 1 0 70 0) ≤ t)
    (h1 : t < timegm_value (tm.mk 0 0 0 29 1 196 0)) :
    (cron_parse_expr "0 0 0 29 2 *".toList target).2 = none
      ∧ ∃ r : Int,
        (∃ fuel : Nat, ∀ k : Nat,
          cron_next (fuel + k) (cron_parse_expr "0 0 0 29 2 *".toList target).1 t = some r)
        ∧ r ≠ CRON_INVALID_INSTANT ∧ t < r ∧ leap_midnight r
        ∧ ∀ u, t < u → u < r → ¬ leap_midnight u := by
  have a0 : timegm_value (tm.mk 0 0 0 1 0 70 0) = 0 := by decide
  have a1 : timegm_value (tm.mk 0 0 0 29 1 196 0) = 3981312000 := by decide
  rw [a0] at h0
  rw [a1] at h1
  rw [parse_leap_day]
  obtain ⟨L, l1, l2, l3, l4⟩ := next_leap_midnight t h0 h1
  obtain ⟨fuel, hf⟩ := leap_day_cron_next t L h0 l1 l2 l3 l4
  exact ⟨rfl, L, ⟨fuel, hf⟩, by simp only [CRON_INVALID_INSTANT]; omega, l2, l1, l3⟩

/-- C29 at 2024-02-28 23:59:59: the instant returned is 2024-02-29 00:00:00, one second
later. -/
theorem cron_next_leap_day_witness :
    (∃ r : Int,
        (∃ fuel : Nat, ∀ k : Nat,
          cron_next (fuel + k) (cron_parse_expr "0 0 0 29 2 *".toList cron_expr_zero).1
            1709164799 = some r)
        ∧ r ≠ CRON_INVALID_INSTANT ∧ 1709164799 < r ∧ leap_midnight r
        ∧ ∀ u, 1709164799 < u → u < r → ¬ leap_midnight u)
      ∧ cron_next 1 (cron_parse_expr "0 0 0 29 2 *".toList cron_expr_zero).1 1709164799
          = some 1709164800
      ∧ cron_time 1709164799 = tm.mk 59 59 23 28 1 124 3
      ∧ cron_time 1709164800 = tm.mk 0 0 0 29 1 124 4 :=
  ⟨(cron_next_leap_day cron_expr_zero 1709164799 (by decide) (by decide)).2,
    by rw [parse_leap_day]; decide!, by decide, by decide⟩

/-! ## The day search over days that do not match -/

/-- Over `n` days from a midnight that do not match, the day search adds `n` days and goes on
with the iterations that are left. -/
theorem find_next_day_loop_skip (dom dow : List Nat) (R : List Int)
    (hR : ∀ f ∈ R, f = -1 ∨ f = 0 ∨ f = 1 ∨ f = 2) (m n : Nat) :
    ∀ t : Int, 0 ≤ t → t % 86400 = 0 →
      (∀ i : Nat, i < n → cron_get_bit dom (gmtime (t + 86400 * i)).tm_mday = 0
        ∨ cron_get_bit dow (gmtime (t + 86400 * i)).tm_wday = 0) →
      find_next_day_loop dom dow R 0 (n + m) (gmtime t) (gmtime t).tm_mday (gmtime t).tm_wday
        = find_next_day_loop dom dow R 0 m (gmtime (t + 86400 * n))
            (gmtime (t + 86400 * n)).tm_mday (gmtime (t + 86400 * n)).tm_wday := by
  induction n with
  | zero =>
    intro t _ _ _
    simp
  | succ n ih =>
    intro t h0 hm hno
    have h00 := hno 0 (by omega)
    simp only [Nat.cast_zero, mul_zero, add_zero] at h00
    have a1 : add_to_field (gmtime t) CRON_CF_DAY_OF_MONTH 1 = (0, gmtime (t + 86400)) := by
      rw [add_to_field_day_of_month, show t + 1 * 86400 = t + 86400 by ring,
        instant_status_ok (by omega)]
    have rs : reset_all_min (gmtime (t + 86400)) R = (0, gmtime (t + 86400)) := by
      apply reset_all_min_id _ (by omega)
      intro g hg
      rcases hR g hg with h | h | h | h
      · exact Or.inl h
      · exact Or.inr (Or.inl ⟨h, by omega⟩)
      · exact Or.inr (Or.inr (Or.inl ⟨h, by omega⟩))
      · exact Or.inr (Or.inr (Or.inr ⟨h, by omega⟩))
    have e : t + 86400 * ((n + 1 : Nat) : Int) = t + 86400 + 86400 * (n : Int) := by
      push_cast; ring
    rw [show n + 1 + m = (n + m) + 1 by omega, find_next_day_loop_succ, if_pos h00, a1]
    simp only [rs, e]
    rw [← ih (t + 86400) (by omega) (by omega) (fun i hi => by
      have := hno (i + 1) (by omega)
      rwa [show t + 86400 * ((i + 1 : Nat) : Int) = t + 86400 + 86400 * (i : Int) by
        push_cast; ring] at this)]
    simp

/-! ## The expression `0 0 0 13 * FRI` over the 366 days from 1999-08-14 -/

theorem parse_friday_13 (target : cron_expr) :
    cron_parse_expr "0 0 0 13 * FRI".toList target = (friday_13, none) := by
  rw [cron_parse_expr_six _ _ (by decide!)]
  decide!

theorem friday_13_day (d : Int) (h0 : 1 ≤ d) (h1 : d ≤ 31) (h : d ≠ 13) :
    cron_get_bit friday_13.days_of_month d = 0 := by
  interval_cases d <;> first | exact absurd rfl h | decide

theorem friday_13_weekday (w : Int) (h0 : 0 ≤ w) (h1 : w ≤ 6) (h : w ≠ 5) :
    cron_get_bit friday_13.days_of_week w = 0 := by
  interval_cases w <;> first | exact absurd rfl h | decide

/-- None of the 366 days from 1999-08-14 is a Friday the 13th. -/
theorem friday_13_none (i : Nat) (hi : i < 366) :
    cron_get_bit friday_13.days_of_month (gmtime (934588800 + 86400 * i)).tm_mday = 0
      ∨ cron_get_bit friday_13.days_of_week (gmtime (934588800 + 86400 * i)).tm_wday = 0 := by
  have hb := gmtime_mday_bounds (934588800 + 86400 * (i : Int))
  by_cases h13 : (gmtime (934588800 + 86400 * (i : Int))).tm_mday = 13
  · right
    rw [gmtime_mday] at h13
    rw [gmtime_wday]
    have e : (934588800 + 86400 * (i : Int)) / 86400 = 10817 + i := by omega
    rw [e] at h13 ⊢
    have hsp := monthIndex_spec (10817 + (i : Int))
    have s0 : monthStart 23995 = 10804 := by decide
    have s13 : monthStart 24008 = 11201 := by decide
    have hlo : 23995 ≤ monthIndex (10817 + (i : Int)) := monthIndex_ge (by omega)
    have hhi : monthIndex (10817 + (i : Int)) < 24008 := monthIndex_lt (by omega)
    generalize monthIndex (10817 + (i : Int)) = n at h13 hsp hlo hhi
    have key : (10817 + (i : Int) + 4) % 7 ≠ 5 := by
      have s1 : monthStart 23996 = 10835 := by decide
      have s2 : monthStart 23997 = 10865 := by decide
      have s3 : monthStart 23998 = 10896 := by decide
      have s4 : monthStart 23999 = 10926 := by decide
      have s5 : monthStart 24000 = 10957 := by decide
      have s6 : monthStart 24001 = 10988 := by decide
      have s7 : monthStart 24002 = 11017 := by decide
      have s8 : monthStart 24003 = 11048 := by decide
      have s9 : monthStart 24004 = 11078 := by decide
      have s10 : monthStart 24005 = 11109 := by decide
      have s11 : monthStart 24006 = 11139 := by decide
      have s12 : monthStart 24007 = 11170 := by decide
      interval_cases n <;> omega
    exact friday_13_weekday _ (by omega) (by omega) key
  · left
    exact friday_13_day _ hb.1 hb.2 h13

/-- A pass of `do_next` from a midnight whose day search ends on the day of month it started
from ends without a recursive call on the midnight the day search stopped at. -/
theorem friday_13_same_day (restart : tm → Option (Int × tm)) (t u dot : Int)
    (hs : t % 86400 = 0)
    (loop : find_next_day_loop friday_13.days_of_month friday_13.days_of_week
      [0, 1, 2, -1, -1, -1, -1] 0 366 (gmtime t) (gmtime t).tm_mday (gmtime t).tm_wday
      = ((gmtime t).tm_mday, gmtime u, 0)) :
    do_next_body restart friday_13 (gmtime t) dot = some (0, gmtime u) := by
  have h1 : t % 60 = 0 := by omega
  have h2 : t % 3600 / 60 = 0 := by omega
  have h3 : t % 86400 / 3600 = 0 := by omega
  have ks : next_set_bit friday_13.seconds CRON_MAX_SECONDS 0 0 = (0, 0) := by decide
  have km : next_set_bit friday_13.minutes CRON_MAX_MINUTES 0 0 = (0, 0) := by decide
  have kh : next_set_bit friday_13.hours CRON_MAX_HOURS 0 0 = (0, 0) := by decide
  have hb := gmtime_mon_bounds u
  have kmo : next_set_bit friday_13.months CRON_MAX_MONTHS (gmtime u).tm_mon 0
      = ((gmtime u).tm_mon, 0) := by
    generalize (gmtime u).tm_mon = m at hb
    obtain ⟨a, b⟩ := hb
    interval_cases m <;> decide
  simp only [do_next_body, gmtime_sec, h1, find_next_keep _ _ _ _ _ _ _ _ ks, resets_none,
    resets_s, do_next_minute, gmtime_min, h2, find_next_keep _ _ _ _ _ _ _ _ km, resets_sm,
    do_next_hour, gmtime_hour, h3, find_next_keep _ _ _ _ _ _ _ _ kh, resets_smh, do_next_day,
    find_next_day, loop]
  simp [do_next_month, find_next_keep _ _ _ _ _ _ _ _ kmo]

/-- From 1999-08-14 00:00:00 the pass of `do_next` ends on 2000-08-14 00:00:00 without a
recursive call: the day search runs out of its 366 iterations on the day of month it started
from. -/
theorem friday_13_pass (restart : tm → Option (Int × tm)) (dot : Int) :
    do_next_body restart friday_13 (gmtime 934588800) dot = some (0, gmtime 966211200) := by
  have d0 : (gmtime 934588800).tm_mday = 14 := by decide
  have d1 : (gmtime 966211200).tm_mday = 14 := by decide
  apply friday_13_same_day restart 934588800 966211200 dot (by decide)
  have := find_next_day_loop_skip friday_13.days_of_month friday_13.days_of_week
    [0, 1, 2, -1, -1, -1, -1] (by simp) 0 366 934588800 (by decide) (by decide)
    friday_13_none
  rw [show (934588800 : Int) + 86400 * ((366 : Nat) : Int) = 966211200 by norm_num] at this
  rw [show (366 : Nat) = 366 + 0 from rfl, this, d0, d1]
  rfl

/-- When the first search of `cron_next` ends, without error, on the calendar of another instant
than the start, `cron_next` returns that instant. -/
theorem cron_next_of_search (fuel : Nat) (e : cron_expr) (t u : Int) (ht : t ≠ -1)
    (hu : u ≠ -1) (hne : u ≠ t)
    (hd : do_next fuel e (gmtime t) (gmtime t).tm_year = some (0, gmtime u)) :
    cron_next fuel e t = some u := by
  simp [cron_next, cron_time, cron_mktime_gmtime, CRON_INVALID_INSTANT, ht, hd,
    cron_next_finish, hu, hne]

/-- C5 (defect of the code): for `0 0 0 13 * FRI` and 1999-08-14 00:00:00 UTC, `cron_next` returns
2000-08-14 00:00:00 UTC, a Monday the 14th: no Friday the 13th lies within the 366 days the day
search covers, and it ends on the day of month it started from, so `do_next` does not restart. -/
theorem cron_next_friday_13_returns_monday_14 :
    (cron_parse_expr "0 0 0 13 * FRI".toList cron_expr_zero).2 = none
      ∧ cron_next 1 (cron_parse_expr "0 0 0 13 * FRI".toList cron_expr_zero).1 934588800
          = some 966211200
      ∧ (966211200 : Int) ≠ CRON_INVALID_INSTANT
      ∧ (cron_time 966211200).tm_mday = 14 ∧ (cron_time 966211200).tm_wday = 1
      ∧ instant_matches (cron_parse_expr "0 0 0 13 * FRI".toList cron_expr_zero).1 966211200
          = false := by
  rw [parse_friday_13]
  exact ⟨rfl, cron_next_of_search 1 friday_13 934588800 966211200 (by decide) (by decide)
    (by decide) (friday_13_pass _ _), by decide, by decide, by decide, by decide⟩

/-! ## The expression `0 0 0 31 2 *`: the forward search reaches the guard on the year -/

theorem parse_feb_31 (target : cron_expr) :
    cron_parse_expr "0 0 0 31 2 *".toList target = (feb_31, none) := by
  rw [cron_parse_expr_six _ _ (by decide!)]
  decide!

/-- When the first search of `cron_next` ends with an error, `cron_next` returns the sentinel. -/
theorem cron_next_of_failure (fuel : Nat) (e : cron_expr) (t : Int) (c : tm) (ht : t ≠ -1)
    (hd : do_next fuel e (gmtime t) (gmtime t).tm_year = some (-1, c)) :
    cron_next fuel e t = some CRON_INVALID_INSTANT := by
  simp [cron_next, cron_time, cron_mktime_gmtime, CRON_INVALID_INSTANT, ht, hd]

theorem after_restart_failed (c : tm) (k : tm → Option (Int × tm)) :
    after_restart (some (-1, c)) k = some (-1, c) := by
  simp [after_restart]

theorem feb_31_day (d : Int) (h0 : 1 ≤ d) (h1 : d ≤ 31) :
    cron_get_bit feb_31.days_of_month d = if d = 31 then 1 else 0 := by
  interval_cases d <;> decide

/-- The days of a month of 31 days that starts on day number `D`. -/
theorem gmtime_mday_in_month (n D : Int) (h1 : monthStart n = D) (h2 : monthStart (n + 1) = D + 31)
    (i : Nat) (hi : i < 31) : (gmtime (D * 86400 + 86400 * i)).tm_mday = i + 1 := by
  rw [gmtime_mday, show (D * 86400 + 86400 * (i : Int)) / 86400 = D + i by omega,
    monthIndex_unique (show monthStart n ≤ D + i by omega)
      (show D + i < monthStart (n + 1) by omega), h1]
  omega

/-- From the first day of a month of 31 days at 00:00:00 the day search stops on the 31st and the
search restarts there. -/
theorem feb_31_first_day (restart : tm → Option (Int × tm)) (n D dot : Int) (h0 : 0 ≤ D)
    (h1 : monthStart n = D) (h2 : monthStart (n + 1) = D + 31) :
    do_next_body restart feb_31 (gmtime (D * 86400)) dot
      = after_restart (restart (gmtime (D * 86400 + 86400 * 30)))
          (fun c => do_next_month restart feb_31 c dot [0, 1, 2, -1, -1, -1, -1]) := by
  have hs : D * 86400 % 60 = 0 := by omega
  have hm : D * 86400 % 3600 / 60 = 0 := by omega
  have hh : D * 86400 % 86400 / 3600 = 0 := by omega
  have ks : next_set_bit feb_31.seconds CRON_MAX_SECONDS 0 0 = (0, 0) := by decide
  have km : next_set_bit feb_31.minutes CRON_MAX_MINUTES 0 0 = (0, 0) := by decide
  have kh : next_set_bit feb_31.hours CRON_MAX_HOURS 0 0 = (0, 0) := by decide
  have d0 : (gmtime (D * 86400)).tm_mday = 1 := by
    have := gmtime_mday_in_month n D h1 h2 0 (by omega)
    simpa using this
  have d30 : (gmtime (D * 86400 + 86400 * 30)).tm_mday = 31 := by
    have := gmtime_mday_in_month n D h1 h2 30 (by omega)
    simpa using this
  have hno : ∀ i : Nat, i < 30 →
      cron_get_bit feb_31.days_of_month (gmtime (D * 86400 + 86400 * i)).tm_mday = 0
        ∨ cron_get_bit feb_31.days_of_week (gmtime (D * 86400 + 86400 * i)).tm_wday = 0 := by
    intro i hi
    left
    rw [gmtime_mday_in_month n D h1 h2 i (by omega), feb_31_day _ (by omega) (by omega),
      if_neg (by omega)]
  have loop : find_next_day (gmtime (D * 86400)) feb_31.days_of_month
      (gmtime (D * 86400)).tm_mday feb_31.days_of_week (gmtime (D * 86400)).tm_wday
      [0, 1, 2, -1, -1, -1, -1] 0 = (31, gmtime (D * 86400 + 86400 * 30), 0) := by
    unfold find_next_day
    have := find_next_day_loop_skip feb_31.days_of_month feb_31.days_of_week
      [0, 1, 2, -1, -1, -1, -1] (by simp) 336 30 (D * 86400) (by omega) (by omega) hno
    have hb : cron_get_bit feb_31.days_of_month 31 = 1 := by decide
    have hw : ∀ u : Int, cron_get_bit feb_31.days_of_week (gmtime u).tm_wday = 1 :=
      leap_day_weekday
    simp only [Nat.cast_ofNat] at this
    rw [show (366 : Nat) = 30 + 336 from rfl, this, show (336 : Nat) = 335 + 1 from rfl,
      find_next_day_loop_succ, d30, hb, hw]
    simp
  simp only [do_next_body, gmtime_sec, hs, find_next_keep _ _ _ _ _ _ _ _ ks, resets_none,
    resets_s, do_next_minute, gmtime_min, hm, find_next_keep _ _ _ _ _ _ _ _ km, resets_sm,
    do_next_hour, gmtime_hour, hh, find_next_keep _ _ _ _ _ _ _ _ kh, resets_smh, do_next_day,
    loop]
  simp [d0]

theorem feb_31_march_2020 (restart : tm → Option (Int × tm)) :
    do_next_body restart feb_31 (gmtime 1585612800) 120 = restart (gmtime 1614556800) := by
  rfl

theorem feb_31_march_2021 (restart : tm → Option (Int × tm)) :
    do_next_body restart feb_31 (gmtime 1617148800) 120 = restart (gmtime 1646092800) := by
  rfl

theorem feb_31_march_2022 (restart : tm → Option (Int × tm)) :
    do_next_body restart feb_31 (gmtime 1648684800) 120 = restart (gmtime 1677628800) := by
  rfl

theorem feb_31_march_2023 (restart : tm → Option (Int × tm)) :
    do_next_body restart feb_31 (gmtime 1680220800) 120 = restart (gmtime 1709251200) := by
  rfl

theorem feb_31_march_2024 (restart : tm → Option (Int × tm)) :
    do_next_body restart feb_31 (gmtime 1711843200) 120 = some (-1, gmtime 1740787200) := by
  rfl

/-- From 2020-03-31 00:00:00 the forward search passes through 1 March and 31 March of the years
2021 to 2024 and stops with an error in 2025, five years after the start. -/
theorem feb_31_do_next (n : Nat) :
    do_next (n + 9) feb_31 (gmtime 1585612800) 120 = some (-1, gmtime 1740787200) := by
  have a24 : do_next (n + 1) feb_31 (gmtime 1711843200) 120 = some (-1, gmtime 1740787200) :=
    feb_31_march_2024 _
  have b24 : do_next (n + 2) feb_31 (gmtime 1709251200) 120 = some (-1, gmtime 1740787200) := by
    show do_next_body _ _ _ _ = _
    have := feb_31_first_day (fun c => do_next (n + 1) feb_31 c 120) 24290 19783 120
      (by decide) (by decide) (by decide)
    rw [show (19783 : Int) * 86400 = 1709251200 by norm_num,
      show (1709251200 : Int) + 86400 * 30 = 1711843200 by norm_num] at this
    simp only [] at this
    rw [this, a24, after_restart_failed]
  have a23 : do_next (n + 3) feb_31 (gmtime 1680220800) 120 = some (-1, gmtime 1740787200) := by
    show do_next_body _ _ _ _ = _
    rw [feb_31_march_2023]
    exact b24
  have b23 : do_next (n + 4) feb_31 (gmtime 1677628800) 120 = some (-1, gmtime 1740787200) := by
    show do_next_body _ _ _ _ = _
    have := feb_31_first_day (fun c => do_next (n + 3) feb_31 c 120) 24278 19417 120
      (by decide) (by decide) (by decide)
    rw [show (19417 : Int) * 86400 = 1677628800 by norm_num,
      show (1677628800 : Int) + 86400 * 30 = 1680220800 by norm_num] at this
    simp only [] at this
    rw [this, a23, after_restart_failed]
  have a22 : do_next (n + 5) feb_31 (gmtime 1648684800) 120 = some (-1, gmtime 1740787200) := by
    show do_next_body _ _ _ _ = _
    rw [feb_31_march_2022]
    exact b23
  have b22 : do_next (n + 6) feb_31 (gmtime 1646092800) 120 = some (-1, gmtime 1740787200) := by
    show do_next_body _ _ _ _ = _
    have := feb_31_first_day (fun c => do_next (n + 5) feb_31 c 120) 24266 19052 120
      (by decide) (by decide) (by decide)
    rw [show (19052 : Int) * 86400 = 1646092800 by norm_num,
      show (1646092800 : Int) + 86400 * 30 = 1648684800 by norm_num] at this
    simp only [] at this
    rw [this, a22, after_restart_failed]
  have a21 : do_next (n + 7) feb_31 (gmtime 1617148800) 120 = some (-1, gmtime 1740787200) := by
    show do_next_body _ _ _ _ = _
    rw [feb_31_march_2021]
    exact b22
  have b21 : do_next (n + 8) feb_31 (gmtime 1614556800) 120 = some (-1, gmtime 1740787200) := by
    show do_next_body _ _ _ _ = _
    have := feb_31_first_day (fun c => do_next (n + 7) feb_31 c 120) 24254 18687 120
      (by decide) (by decide) (by decide)
    rw [show (18687 : Int) * 86400 = 1614556800 by norm_num,
      show (1614556800 : Int) + 86400 * 30 = 1617148800 by norm_num] at this
    simp only [] at this
    rw [this, a21, after_restart_failed]
  show do_next_body _ _ _ _ = _
  rw [feb_31_march_2020]
  exact b21

/-- C6 (defect of the code): for `0 0 0 31 2 *` and 2020-03-31 00:00:00 UTC, `cron_next` returns
the sentinel, but `cron_prev` returns nothing at all, the sentinel included: the recursion of
`do_prev` comes back to the calendar it started from without its year ever changing, so the
guard on the year difference is never reached. -/
theorem cron_prev_feb_31_never_returns :
    (cron_parse_expr "0 0 0 31 2 *".toList cron_expr_zero).2 = none
      ∧ cron_next 12 (cron_parse_expr "0 0 0 31 2 *".toList cron_expr_zero).1 1585612800
          = some CRON_INVALID_INSTANT
      ∧ ∀ fuel : Nat,
          cron_prev fuel (cron_parse_expr "0 0 0 31 2 *".toList cron_expr_zero).1 1585612800
            = none := by
  have y : (gmtime 1585612800).tm_year = 120 := by decide
  refine ⟨by rw [parse_feb_31], ?_, fun fuel => ?_⟩
  · rw [parse_feb_31]
    exact cron_next_of_failure 12 feb_31 1585612800 (gmtime 1740787200) (by decide)
      (by rw [y]; exact feb_31_do_next 3)
  · have h := (feb_31_cycle fuel).1
    have e : cron_mktime (cron_time 1585612800) = (1585612800, gmtime 1585612800) :=
      cron_mktime_gmtime _
    simp only [cron_prev, e, y, h]
    decide

end Ccronexpr
